import Mathlib

/-!
# WeensyOS kernel (pset3/kernel.cc): physical pages, page tables, fork

A shallow embedding of the process and virtual-memory management code of
`src/pset3/kernel.cc`.  The kernel state is passed explicitly.  Functions that
can trip a kernel assertion return `Option` (`none` is the assertion failure).
The definitions of the debugging allocator of `src/pset1/m61.cc`, of the cache of
`src/pset4/io61.cc`, of `run_conditional` of `src/pset5/sh61.cc` and of the range
locks of `src/pset6/io61.cc` follow those of the kernel; the theorems come after
all definitions, in the same order.
-/

namespace WeensyOS

/-! ## Constants and types -/

/-- Modelled from the spec: the fixed constants of `kernel.hh` (page size, physical and
virtual memory size, process-table capacity, process-start boundary), the predicate
`allocatable_physical_address` and the shape of the multi-level page-table tree.  None of
them is declared in the sources at hand, so every definition takes them as a parameter.
`ptpath va` lists the keys of the lower-level table pages that the walk to `va` passes
through, outermost first. -/
structure KConsts where
  PAGESIZE : Nat
  MEMSIZE_PHYSICAL : Nat
  MEMSIZE_VIRTUAL : Nat
  PROC_START_ADDR : Nat
  NPROC : Nat
  allocatable_physical_address : Nat → Bool
  ptpath : Nat → List Nat

/-- The layout facts the code relies on: a positive page size, page-aligned
`MEMSIZE_PHYSICAL` (the scan of `kalloc` stops at `pa != MEMSIZE_PHYSICAL`), a page-aligned
process-start boundary below the virtual ceiling, and a reserved page 0 (so that an
allocated address is never the null pointer). -/
def KConsts.wf (k : KConsts) : Prop :=
  0 < k.PAGESIZE ∧ k.PAGESIZE ∣ k.MEMSIZE_PHYSICAL ∧ k.PAGESIZE ∣ k.PROC_START_ADDR ∧
    k.PROC_START_ADDR ≤ k.MEMSIZE_VIRTUAL ∧ k.allocatable_physical_address 0 = false

instance (k : KConsts) : Decidable k.wf := by
  unfold KConsts.wf
  infer_instance

/-- Modelled from the spec: the permission "present" of a leaf entry, as the x86-64 bit
of the missing `x86-64.h`. -/
def PTE_P : Nat := 1

/-- Modelled from the spec: the permission "writable", as the x86-64 bit. -/
def PTE_W : Nat := 2

/-- Modelled from the spec: the permission "user-accessible", as the x86-64 bit. -/
def PTE_U : Nat := 4

/-- The full user permission `PTE_P | PTE_W | PTE_U`. -/
def PTE_PWU : Nat := 7

inductive procstate_t where
  | P_FREE
  | P_RUNNABLE
  | P_SLEEPING
  | P_FAULTED
  | P_ZOMBIE
  deriving DecidableEq, Repr

open procstate_t

/-- The saved registers the kernel code names. -/
structure regstate where
  reg_rax : Nat
  reg_rbx : Nat
  reg_rdi : Nat
  reg_rip : Nat
  reg_rsp : Nat
  reg_intno : Nat
  reg_errcode : Nat
  deriving DecidableEq, Repr

/-- Modelled from the spec: a leaf entry of a page table, "a physical page number plus a
permission set". -/
structure PTE where
  ppn : Nat
  perm : Nat
  deriving DecidableEq, Repr

/-- Modelled from the spec: `x86_64_pagetable` (declared in the missing `x86-64.h`), a
process-owned multi-level tree of mapping entries.  `top` is the physical address of the
top-level table page (the pointer value), `inner` lists the lower-level table pages as
(key, physical address) in the order they were allocated, and `leaf` gives the leaf entry
of each virtual page number.  The tree is held as a value: the bytes of its backing pages
are not interpreted, and a write to those pages (the fill of `kalloc`, a `memset`, a
`memcpy`) does not change the value.  In kernel.cc the tables live in pages that `kalloc`
handed out, so the value is the table of the machine only as long as no such write lands
on a page of a table; `tables_in_use` is the condition under which `kalloc` cannot return
such a page. -/
structure x86_64_pagetable where
  top : Nat
  inner : List (Nat × Nat)
  leaf : Nat → PTE

/-- The process descriptor `proc`; `pagetable = none` is the null pointer. -/
structure proc where
  pid : Nat
  uid : Nat
  euid : Nat
  state : procstate_t
  regs : regstate
  pagetable : Option x86_64_pagetable
  sleep_ticks : Nat
  next : Option Nat

/-- The kernel's global variables: `ptable`, `current` (as an index into `ptable`),
`physpages` (the reference count of each physical page number), physical memory as bytes,
`ticks` and the run queue.  The type of `refcount` is declared in the missing `kernel.hh`
("unsigned" in the spec): counts are natural numbers, and neither `physpages` nor `ptable`
is bounded. -/
structure KState where
  ptable : Nat → proc
  current : Nat
  physpages : Nat → Nat
  mem : Nat → Nat
  ticks : Nat
  runqueue_head : Option Nat
  runqueue_tail : Option Nat

/-! ## Memory primitives and loops -/

/-- Memory after `memset(dst, v, n)`. -/
def memset (mem : Nat → Nat) (dst v n : Nat) : Nat → Nat :=
  fun a => if dst ≤ a ∧ a < dst + n then v else mem a

/-- Memory after `memcpy(dst, src, n)`. -/
def memcpy (mem : Nat → Nat) (dst src n : Nat) : Nat → Nat :=
  fun a => if dst ≤ a ∧ a < dst + n then mem (src + (a - dst)) else mem a

/-- The addresses visited by `for (a = start; a < stop; a += step)`. -/
def pageSteps (start stop step : Nat) : List Nat :=
  (List.range ((stop - start + step - 1) / step)).map (fun i => start + i * step)

/-! ## kalloc and kfree (kernel.cc 118-132, 194-199) -/

/-- The state after `++physpages[pa / PAGESIZE].refcount; memset((void*) pa, 0xCC, PAGESIZE)`. -/
def kalloc_page (k : KConsts) (s : KState) (pa : Nat) : KState :=
  { s with
    physpages := Function.update s.physpages (pa / k.PAGESIZE) (s.physpages (pa / k.PAGESIZE) + 1)
    mem := memset s.mem pa 0xCC k.PAGESIZE }

/-- The body of the scan in `kalloc`: the first candidate that is allocatable and has
`refcount == 0` gets its count incremented, is filled with `0xCC` and is returned; the
result `0` is `nullptr`. -/
def kalloc_scan (k : KConsts) (s : KState) : List Nat → Nat × KState
  | [] => (0, s)
  | pa :: rest =>
    if k.allocatable_physical_address pa = true ∧ s.physpages (pa / k.PAGESIZE) = 0 then
      (pa, kalloc_page k s pa)
    else kalloc_scan k s rest

/-- `kalloc(sz)`: the returned pointer (`0` is `nullptr`) and the state after the call. -/
def kalloc (k : KConsts) (sz : Nat) (s : KState) : Nat × KState :=
  if sz > k.PAGESIZE then (0, s)
  else kalloc_scan k s (pageSteps 0 k.MEMSIZE_PHYSICAL k.PAGESIZE)

/-- `kfree`: `none` is the failed assertion `refcount != 0`. -/
def kfree (k : KConsts) (kptr : Nat) (s : KState) : Option KState :=
  if s.physpages (kptr / k.PAGESIZE) ≠ 0 then
    some { s with
            physpages := Function.update s.physpages (kptr / k.PAGESIZE)
              (s.physpages (kptr / k.PAGESIZE) - 1) }
  else none

/-! ## The virtual-memory iterator (k-vmiter.hh, not among the sources) -/

/-- Modelled from the spec: `vmiter::perm()`, the permission set of `lookup(table, va)`;
an absent mapping has no permissions. -/
def vmiter.perm (k : KConsts) (pt : x86_64_pagetable) (va : Nat) : Nat :=
  if (pt.leaf (va / k.PAGESIZE)).perm &&& PTE_P ≠ 0 then (pt.leaf (va / k.PAGESIZE)).perm
  else 0

/-- Modelled from the spec: `vmiter::pa()`, the physical address of `lookup(table, va)`;
an absent mapping yields `(uintptr_t) -1`. -/
def vmiter.pa (k : KConsts) (pt : x86_64_pagetable) (va : Nat) : Nat :=
  if (pt.leaf (va / k.PAGESIZE)).perm &&& PTE_P ≠ 0 then
    (pt.leaf (va / k.PAGESIZE)).ppn * k.PAGESIZE + va % k.PAGESIZE
  else 2 ^ 64 - 1

/-- Modelled from the spec: `vmiter::writable()`. -/
def vmiter.writable (k : KConsts) (pt : x86_64_pagetable) (va : Nat) : Bool :=
  decide (vmiter.perm k pt va &&& PTE_W ≠ 0)

/-- Modelled from the spec: `kalloc_pagetable()` (k-hardware.cc, not among the sources),
"allocate a fresh table": one page from `kalloc`, zero-filled. -/
def kalloc_pagetable (k : KConsts) (s : KState) : Nat × KState :=
  if (kalloc k k.PAGESIZE s).1 = 0 then (0, (kalloc k k.PAGESIZE s).2)
  else ((kalloc k k.PAGESIZE s).1,
        { (kalloc k k.PAGESIZE s).2 with
          mem := memset (kalloc k k.PAGESIZE s).2.mem (kalloc k k.PAGESIZE s).1 0 k.PAGESIZE })

/-- Modelled from the spec: the first half of `map`, "transparently allocating any missing
intermediate table levels via the Physical Page Allocator"; it stops with `-1` at the
first allocation that fails, keeping the levels installed so far. -/
def try_map_tables (k : KConsts) :
    List Nat → x86_64_pagetable → KState → Int × x86_64_pagetable × KState
  | [], pt, s => (0, pt, s)
  | key :: keys, pt, s =>
    if pt.inner.any (fun e => decide (e.1 = key)) then try_map_tables k keys pt s
    else if (kalloc_pagetable k s).1 = 0 then (-1, pt, (kalloc_pagetable k s).2)
    else try_map_tables k keys
      { pt with inner := pt.inner ++ [(key, (kalloc_pagetable k s).1)] }
      (kalloc_pagetable k s).2

/-- Modelled from the spec: `vmiter::try_map(pa, perm)`, `map(table, va, pa, perm)`:
"installs a leaf mapping at va in table ... Fails only if an intermediate-level allocation
fails, in which case no partial mapping is left installed for that call". -/
def vmiter.try_map (k : KConsts) (pt : x86_64_pagetable) (va pa perm : Nat) (s : KState) :
    Int × x86_64_pagetable × KState :=
  if (try_map_tables k (k.ptpath va) pt s).1 < 0 then try_map_tables k (k.ptpath va) pt s
  else (0,
        { (try_map_tables k (k.ptpath va) pt s).2.1 with
          leaf := Function.update (try_map_tables k (k.ptpath va) pt s).2.1.leaf
            (va / k.PAGESIZE) ⟨pa / k.PAGESIZE, perm⟩ },
        (try_map_tables k (k.ptpath va) pt s).2.2)

/-- Assignment to `ptable[i].pagetable` (contents of the table included). -/
def set_pagetable (s : KState) (i : Nat) (pt : Option x86_64_pagetable) : KState :=
  { s with ptable := Function.update s.ptable i { s.ptable i with pagetable := pt } }

/-! ## sys_page_free (kernel.cc 134-150) -/

/-- Conversion of an unsigned 64-bit value to `int` (two's complement, 32 bits). -/
def toInt32 (n : Nat) : Int :=
  if n % 2 ^ 32 < 2 ^ 31 then ((n % 2 ^ 32 : Nat) : Int) else ((n % 2 ^ 32 : Nat) : Int) - 2 ^ 32

/-- The number of physical pages, `MEMSIZE_PHYSICAL / PAGESIZE`. -/
def NPAGES (k : KConsts) : Nat := k.MEMSIZE_PHYSICAL / k.PAGESIZE

/-- `sys_page_free(ptr)`: the quotient `ptr / PAGESIZE`, converted to `int`, is used as a
physical page number; a non-zero count of that page is set to 0. -/
def sys_page_free (k : KConsts) (ptr : Nat) (s : KState) : KState :=
  if ptr = 0 ∨ ptr % k.PAGESIZE ≠ 0 then s
  else if toInt32 (ptr / k.PAGESIZE) < 0 ∨ toInt32 (ptr / k.PAGESIZE) ≥ toInt32 (NPAGES k) then s
  else if s.physpages (toInt32 (ptr / k.PAGESIZE)).toNat > 0 then
    { s with physpages := Function.update s.physpages (toInt32 (ptr / k.PAGESIZE)).toNat 0 }
  else s

/-! ## free_all (kernel.cc 458-477) -/

/-- The first loop of `free_all`: every virtual page of the process region with a
non-zero `perm()` has its physical page released. -/
def free_all_walk (k : KConsts) (pt : x86_64_pagetable) : List Nat → KState → Option KState
  | [], s => some s
  | va :: vas, s =>
    if vmiter.perm k pt va ≠ 0 then
      (kfree k (vmiter.pa k pt va) s).bind (free_all_walk k pt vas)
    else free_all_walk k pt vas s

/-- Modelled from the spec: the `ptiter` loop of `free_all`, "page-table-page iteration,
used to free table structure itself": every lower-level table page is released. -/
def free_all_ptiter (k : KConsts) : List (Nat × Nat) → KState → Option KState
  | [], s => some s
  | e :: es, s => (kfree k e.2 s).bind (free_all_ptiter k es)

/-- `free_all(c_pid)`; a null `ptable[c_pid].pagetable` is a kernel fault (`none`). -/
def free_all (k : KConsts) (c_pid : Nat) (s : KState) : Option KState :=
  match (s.ptable c_pid).pagetable with
  | none => none
  | some pt =>
    ((free_all_walk k pt (pageSteps k.PROC_START_ADDR k.MEMSIZE_VIRTUAL k.PAGESIZE) s).bind
      (fun s1 => (free_all_ptiter k pt.inner s1).bind (kfree k pt.top))).map
      (fun s2 => { s2 with
        ptable := Function.update s2.ptable c_pid
          { s2.ptable c_pid with pagetable := none, state := P_FREE } })

/-! ## syscall_fork (kernel.cc 486-549) -/

/-- The tail of one iteration of the walk in `syscall_fork` (lines 535-541): map
`current_page_addr` into the child; on failure release it, `free_all` the child and
leave the loop with `return -1` (the flag `false`). -/
def fork_map (k : KConsts) (c_pid va current_page_addr perm : Nat) (s : KState) :
    Option (Bool × KState) :=
  match (s.ptable c_pid).pagetable with
  | none => none
  | some c_pt =>
    if (vmiter.try_map k c_pt va current_page_addr perm s).1 < 0 then
      ((kfree k current_page_addr
          (set_pagetable (vmiter.try_map k c_pt va current_page_addr perm s).2.2 c_pid
            (some (vmiter.try_map k c_pt va current_page_addr perm s).2.1))).bind
        (free_all k c_pid)).map (fun s2 => (false, s2))
    else
      some (true, set_pagetable (vmiter.try_map k c_pt va current_page_addr perm s).2.2 c_pid
        (some (vmiter.try_map k c_pt va current_page_addr perm s).2.1))

/-- One iteration of the walk in `syscall_fork` (lines 508-542) at the address `va`.
The flag of the result is `false` when the iteration ends in `return -1`. -/
def fork_page (k : KConsts) (c_pid va : Nat) (s : KState) : Option (Bool × KState) :=
  match (s.ptable s.current).pagetable, (s.ptable c_pid).pagetable with
  | some p_pt, some c_pt =>
    if va < k.PROC_START_ADDR then
      if (vmiter.try_map k c_pt va (vmiter.pa k p_pt va) (vmiter.perm k p_pt va) s).1 < 0 then
        (free_all k c_pid
          (set_pagetable
            (vmiter.try_map k c_pt va (vmiter.pa k p_pt va) (vmiter.perm k p_pt va) s).2.2 c_pid
            (some (vmiter.try_map k c_pt va (vmiter.pa k p_pt va)
              (vmiter.perm k p_pt va) s).2.1))).map (fun s2 => (false, s2))
      else
        some (true, set_pagetable
          (vmiter.try_map k c_pt va (vmiter.pa k p_pt va) (vmiter.perm k p_pt va) s).2.2 c_pid
          (some (vmiter.try_map k c_pt va (vmiter.pa k p_pt va) (vmiter.perm k p_pt va) s).2.1))
    else if vmiter.perm k p_pt va &&& PTE_P ≠ 0 ∧ vmiter.perm k p_pt va &&& PTE_U ≠ 0 then
      if vmiter.writable k p_pt va = false then
        fork_map k c_pid va (vmiter.pa k p_pt va) (vmiter.perm k p_pt va)
          { s with
            physpages := Function.update s.physpages (vmiter.pa k p_pt va / k.PAGESIZE)
              (s.physpages (vmiter.pa k p_pt va / k.PAGESIZE) + 1) }
      else if (kalloc k k.PAGESIZE s).1 = 0 then
        (free_all k c_pid (kalloc k k.PAGESIZE s).2).map (fun s2 => (false, s2))
      else
        fork_map k c_pid va (kalloc k k.PAGESIZE s).1 (vmiter.perm k p_pt va)
          { (kalloc k k.PAGESIZE s).2 with
            mem := memcpy (kalloc k k.PAGESIZE s).2.mem (kalloc k k.PAGESIZE s).1
              (vmiter.pa k p_pt va) k.PAGESIZE }
    else some (true, s)
  | _, _ => none

/-- The walk of `syscall_fork` over the addresses still to visit. -/
def fork_walk (k : KConsts) (c_pid : Nat) : List Nat → KState → Option (Bool × KState)
  | [], s => some (true, s)
  | va :: vas, s =>
    match fork_page k c_pid va s with
    | none => none
    | some (false, s1) => some (false, s1)
    | some (true, s1) => fork_walk k c_pid vas s1

/-- The slot search of `syscall_fork` (lines 492-499): the first `i` in `1 .. NPROC-1`
with `ptable[i].state == P_FREE`. -/
def fork_find_slot (k : KConsts) (s : KState) : Option Nat :=
  (List.range' 1 (k.NPROC - 1)).find? (fun i => decide ((s.ptable i).state = P_FREE))

/-- `syscall_fork()`: the returned integer and the state after the call; `none` is a
kernel assertion failure. -/
def syscall_fork (k : KConsts) (s : KState) : Option (Int × KState) :=
  if ((kalloc_pagetable k s).2.ptable (kalloc_pagetable k s).2.current).pagetable.isNone = true
      ∨ (kalloc_pagetable k s).1 = 0 then
    some (-1, (kalloc_pagetable k s).2)
  else
    match fork_find_slot k (kalloc_pagetable k s).2 with
    | none => (kfree k (kalloc_pagetable k s).1 (kalloc_pagetable k s).2).map (fun s2 => (-1, s2))
    | some c_pid =>
      match fork_walk k c_pid (pageSteps 0 k.MEMSIZE_VIRTUAL k.PAGESIZE)
          (set_pagetable (kalloc_pagetable k s).2 c_pid
            (some ⟨(kalloc_pagetable k s).1, [], fun _ => ⟨0, 0⟩⟩)) with
      | none => none
      | some (false, s2) => some (-1, s2)
      | some (true, s2) =>
        some ((c_pid : Int),
          { s2 with
            ptable := Function.update s2.ptable c_pid
              { s2.ptable c_pid with
                regs := { (s2.ptable s2.current).regs with reg_rax := 0 }
                state := P_RUNNABLE } })

/-! ## syscall_page_alloc (kernel.cc 557-580) -/

/-- `syscall_page_alloc(addr)`: the returned integer and the state after the call;
`none` is a kernel fault (null page table) or a failed assertion. -/
def syscall_page_alloc (k : KConsts) (addr : Nat) (s : KState) : Option (Int × KState) :=
  if addr < k.PROC_START_ADDR ∨ addr % k.PAGESIZE ≠ 0 ∨ addr ≥ k.MEMSIZE_VIRTUAL then
    some (-1, s)
  else if (kalloc k k.PAGESIZE s).1 = 0 then some (-1, (kalloc k k.PAGESIZE s).2)
  else
    match ((kalloc k k.PAGESIZE s).2.ptable s.current).pagetable with
    | none => none
    | some pt =>
      if (vmiter.try_map k pt addr (kalloc k k.PAGESIZE s).1 PTE_PWU
            (kalloc k k.PAGESIZE s).2).1 < 0 then
        (kfree k (kalloc k k.PAGESIZE s).1
          (set_pagetable
            (vmiter.try_map k pt addr (kalloc k k.PAGESIZE s).1 PTE_PWU
              (kalloc k k.PAGESIZE s).2).2.2 s.current
            (some (vmiter.try_map k pt addr (kalloc k k.PAGESIZE s).1 PTE_PWU
              (kalloc k k.PAGESIZE s).2).2.1))).map (fun s2 => (-1, s2))
      else
        some (0,
          { set_pagetable
              (vmiter.try_map k pt addr (kalloc k k.PAGESIZE s).1 PTE_PWU
                (kalloc k k.PAGESIZE s).2).2.2 s.current
              (some (vmiter.try_map k pt addr (kalloc k k.PAGESIZE s).1 PTE_PWU
                (kalloc k k.PAGESIZE s).2).2.1) with
            mem := memset
              (vmiter.try_map k pt addr (kalloc k k.PAGESIZE s).1 PTE_PWU
                (kalloc k k.PAGESIZE s).2).2.2.mem
              (vmiter.pa k
                (vmiter.try_map k pt addr (kalloc k k.PAGESIZE s).1 PTE_PWU
                  (kalloc k k.PAGESIZE s).2).2.1 addr) 0 k.PAGESIZE })

/-! ## schedule and run (kernel.cc 587-625) -/

/-- The scan of `schedule()`: `pid = (pid + 1) % NPROC` until a RUNNABLE slot is met.
The process states do not change while it spins, so `NPROC` probes without a hit
(`none`) mean that it spins forever. -/
def schedule_scan (k : KConsts) (s : KState) : Nat → Nat → Option Nat
  | 0, _ => none
  | fuel + 1, pid =>
    if (s.ptable ((pid + 1) % k.NPROC)).state = P_RUNNABLE then some ((pid + 1) % k.NPROC)
    else schedule_scan k s fuel ((pid + 1) % k.NPROC)

/-- `schedule()` followed by `run(&ptable[pid])`, which sets `current`. -/
def schedule (k : KConsts) (s : KState) : Option KState :=
  (schedule_scan k s k.NPROC (s.ptable s.current).pid).map (fun p => { s with current := p })

/-! ## The invariants of the data model (spec, section 3) -/

/-- The addresses visited by `for (vmiter it(pt, PROC_START_ADDR); it.va() <
MEMSIZE_VIRTUAL; it += PAGESIZE)`: the pages of the process region. -/
def proc_region (k : KConsts) : List Nat :=
  pageSteps k.PROC_START_ADDR k.MEMSIZE_VIRTUAL k.PAGESIZE

/-- No dangling mappings: every physical page mapped present in the process region of a
live (non-FREE) process's page table has refcount at least 1. -/
def no_dangling (k : KConsts) (s : KState) : Prop :=
  ∀ i, i < k.NPROC → (s.ptable i).state ≠ P_FREE → ∀ T ∈ (s.ptable i).pagetable,
    ∀ va ∈ proc_region k, vmiter.perm k T va &&& PTE_P ≠ 0 →
      1 ≤ s.physpages (vmiter.pa k T va / k.PAGESIZE)

instance (k : KConsts) (s : KState) : Decidable (no_dangling k s) := by
  unfold no_dangling
  infer_instance

/-- The table `T` reaches the physical page `p`: as its top-level page, as one of its
lower-level table pages, or through a present mapping at some page of the address space
(kernel region included). -/
def maps_page (k : KConsts) (T : x86_64_pagetable) (p : Nat) : Prop :=
  T.top / k.PAGESIZE = p ∨ (∃ e ∈ T.inner, e.2 / k.PAGESIZE = p) ∨
    ∃ va ∈ pageSteps 0 k.MEMSIZE_VIRTUAL k.PAGESIZE,
      vmiter.perm k T va &&& PTE_P ≠ 0 ∧ vmiter.pa k T va / k.PAGESIZE = p

instance (k : KConsts) (T : x86_64_pagetable) (p : Nat) : Decidable (maps_page k T p) := by
  unfold maps_page
  infer_instance

/-- Some live (non-FREE) process has a page table that reaches the physical page `p`. -/
def reachable (k : KConsts) (s : KState) (p : Nat) : Prop :=
  ∃ i, i < k.NPROC ∧ (s.ptable i).state ≠ P_FREE ∧ ∃ T ∈ (s.ptable i).pagetable, maps_page k T p

instance (k : KConsts) (s : KState) (p : Nat) : Decidable (reachable k s p) := by
  unfold reachable
  infer_instance

/-- No leaked pages: every allocatable physical page with a non-zero refcount is reachable
from the page table of some live process. -/
def no_leak (k : KConsts) (s : KState) : Prop :=
  ∀ pa ∈ pageSteps 0 k.MEMSIZE_PHYSICAL k.PAGESIZE,
    k.allocatable_physical_address pa = true → 0 < s.physpages (pa / k.PAGESIZE) →
      reachable k s (pa / k.PAGESIZE)

instance (k : KConsts) (s : KState) : Decidable (no_leak k s) := by
  unfold no_leak
  infer_instance

/-- The physical page `p` is mapped writable and user-accessible somewhere in the process
region of the table `T`. -/
def maps_writable (k : KConsts) (T : x86_64_pagetable) (p : Nat) : Prop :=
  ∃ va ∈ proc_region k, vmiter.perm k T va &&& PTE_W ≠ 0 ∧ vmiter.perm k T va &&& PTE_U ≠ 0 ∧
    vmiter.pa k T va / k.PAGESIZE = p

instance (k : KConsts) (T : x86_64_pagetable) (p : Nat) : Decidable (maps_writable k T p) := by
  unfold maps_writable
  infer_instance

/-- Some physical page is mapped writable and user-accessible in the process regions of
both tables. -/
def shares_writable (k : KConsts) (Ti Tj : x86_64_pagetable) : Prop :=
  ∃ va ∈ proc_region k, vmiter.perm k Ti va &&& PTE_W ≠ 0 ∧ vmiter.perm k Ti va &&& PTE_U ≠ 0 ∧
    maps_writable k Tj (vmiter.pa k Ti va / k.PAGESIZE)

instance (k : KConsts) (Ti Tj : x86_64_pagetable) : Decidable (shares_writable k Ti Tj) := by
  unfold shares_writable
  infer_instance

/-- The slots `i` and `j`, when both live, share no writable user page. -/
def pair_isolated (k : KConsts) (s : KState) (i j : Nat) : Prop :=
  (s.ptable i).state ≠ P_FREE → (s.ptable j).state ≠ P_FREE →
    ∀ Ti ∈ (s.ptable i).pagetable, ∀ Tj ∈ (s.ptable j).pagetable, ¬ shares_writable k Ti Tj

instance (k : KConsts) (s : KState) (i j : Nat) : Decidable (pair_isolated k s i j) := by
  unfold pair_isolated
  infer_instance

/-- Isolation: no physical page is mapped writable and user-accessible in the process
regions of two different live processes. -/
def isolated (k : KConsts) (s : KState) : Prop :=
  ∀ i, i < k.NPROC → ∀ j, j < k.NPROC → i ≠ j → pair_isolated k s i j

instance (k : KConsts) (s : KState) : Decidable (isolated k s) := by
  unfold isolated
  infer_instance

/-! ## Concrete kernel states -/

/-- An instance of the constants: 4 KiB pages, 2 MiB of physical and 3 MiB of virtual
memory, 16 process slots, process memory from 1 MiB.  Allocatable are the pages from
`0x1000` up to `0x40000` and those from 1 MiB up to `MEMSIZE_PHYSICAL`.  The tree has the
three lower levels of x86-64 (512 entries per table). -/
def weensy : KConsts where
  PAGESIZE := 4096
  MEMSIZE_PHYSICAL := 0x200000
  MEMSIZE_VIRTUAL := 0x300000
  PROC_START_ADDR := 0x100000
  NPROC := 16
  allocatable_physical_address := fun pa =>
    decide (0x1000 ≤ pa ∧ pa < 0x40000 ∨ 0x100000 ≤ pa ∧ pa < 0x200000)
  ptpath := fun va => [3 * 2 ^ 50 + va / 2 ^ 39, 2 * 2 ^ 50 + va / 2 ^ 30, 2 ^ 50 + va / 2 ^ 21]

/-- Saved registers of process 1: entry point `0x100000`, stack top `MEMSIZE_VIRTUAL`. -/
def regs_boot : regstate := ⟨5, 0, 0, 0x100000, 0x300000, 0, 0⟩

/-- The page table `process_setup` builds for a program with one read-only code page and
one writable data page: the kernel region mapped onto itself (page 0 absent, the console
page `0xB8000` user-accessible), code at `0x100000`, data at `0x101000`, the stack page
below `MEMSIZE_VIRTUAL`; the table pages and the process pages are the physical pages
1 to 8. -/
def pt_boot : x86_64_pagetable where
  top := 0x1000
  inner := [(3 * 2 ^ 50, 0x2000), (2 * 2 ^ 50, 0x3000), (2 ^ 50, 0x4000), (2 ^ 50 + 1, 0x5000)]
  leaf := fun vpn =>
    if vpn = 0 then ⟨0, 0⟩
    else if vpn = 0xB8 then ⟨vpn, PTE_PWU⟩
    else if vpn < 0x100 then ⟨vpn, 3⟩
    else if vpn = 0x100 then ⟨6, 5⟩
    else if vpn = 0x101 then ⟨7, PTE_PWU⟩
    else if vpn = 0x2FF then ⟨8, PTE_PWU⟩
    else ⟨0, 0⟩

/-- The kernel state when `kernel_start` hands over to process 1: slot 1 RUNNABLE with
`pt_boot`, every other slot FREE. -/
def s_boot : KState where
  ptable := fun i =>
    if i = 1 then ⟨1, 0, 0, P_RUNNABLE, regs_boot, some pt_boot, 0, none⟩
    else ⟨i, 0, 0, P_FREE, ⟨0, 0, 0, 0, 0, 0, 0⟩, none, 0, none⟩
  current := 1
  physpages := fun p => if 1 ≤ p ∧ p ≤ 8 then 1 else 0
  mem := fun a => a % 251
  ticks := 1
  runqueue_head := none
  runqueue_tail := none

/-- The state after process 1 has forked. -/
def s_forked : Option KState := (syscall_fork weensy s_boot).map (fun r => r.2)

/-- Four system calls from `s_boot`: process 1 forks, allocates a page at `0x102000`,
calls `page_free(0x10000)`, and yields; process 2 then allocates a page at `0x102000`. -/
def s_after_free_and_alloc : Option KState :=
  (syscall_fork weensy s_boot).bind fun r1 =>
  (syscall_page_alloc weensy 0x102000 r1.2).bind fun r2 =>
  (schedule weensy (sys_page_free weensy 0x10000 r2.2)).bind fun s3 =>
  (syscall_page_alloc weensy 0x102000 s3).map (fun r => r.2)

/-- A process with a larger heap: as `pt_boot`, with 57 further writable pages from
`0x101000` on the physical pages 7 to `0x3F`, one more at `0x13A000` on the physical page
`0x100`, and the stack on the physical page `0x101`. -/
def pt_heap : x86_64_pagetable where
  top := 0x1000
  inner := [(3 * 2 ^ 50, 0x2000), (2 * 2 ^ 50, 0x3000), (2 ^ 50, 0x4000), (2 ^ 50 + 1, 0x5000)]
  leaf := fun vpn =>
    if vpn = 0 then ⟨0, 0⟩
    else if vpn = 0xB8 then ⟨vpn, PTE_PWU⟩
    else if vpn < 0x100 then ⟨vpn, 3⟩
    else if vpn = 0x100 then ⟨6, 5⟩
    else if vpn < 0x13A then ⟨vpn - 0x101 + 7, PTE_PWU⟩
    else if vpn = 0x13A then ⟨0x100, PTE_PWU⟩
    else if vpn = 0x2FF then ⟨0x101, PTE_PWU⟩
    else ⟨0, 0⟩

/-- Process 1 RUNNABLE with `pt_heap`, every other slot FREE; the pages `pt_heap` uses have
refcount 1. -/
def s_heap : KState where
  ptable := fun i =>
    if i = 1 then ⟨1, 0, 0, P_RUNNABLE, regs_boot, some pt_heap, 0, none⟩
    else ⟨i, 0, 0, P_FREE, ⟨0, 0, 0, 0, 0, 0, 0⟩, none, 0, none⟩
  current := 1
  physpages := fun p => if (1 ≤ p ∧ p ≤ 0x3F) ∨ p = 0x100 ∨ p = 0x101 then 1 else 0
  mem := fun a => a % 251
  ticks := 1
  runqueue_head := none
  runqueue_tail := none

/-! ## Reference accounting for the walk of `syscall_fork` -/

/-- Number of `kfree` calls that the first loop of `free_all` makes on the page `p`. -/
def leafcnt (k : KConsts) (T : x86_64_pagetable) (p : Nat) : Nat :=
  (proc_region k).countP
    (fun va => decide (vmiter.perm k T va ≠ 0 ∧ vmiter.pa k T va / k.PAGESIZE = p))

/-- Number of lower-level table pages of `T` that lie on the page `p`. -/
def innercnt (k : KConsts) (inner : List (Nat × Nat)) (p : Nat) : Nat :=
  inner.countP (fun e => decide (e.2 / k.PAGESIZE = p))

/-- Number of `kfree` calls that `free_all` makes on the page `p` of a table `T`. -/
def cnt (k : KConsts) (T : x86_64_pagetable) (p : Nat) : Nat :=
  leafcnt k T p + innercnt k T.inner p + (if T.top / k.PAGESIZE = p then 1 else 0)

/-- The state `s1` differs from `s` by page allocations only: counts never decrease, a
page in use keeps its count and its bytes, a free page gets at most one reference, and
the process table is untouched. -/
structure Stable (k : KConsts) (s s1 : KState) : Prop where
  mono : ∀ p, s.physpages p ≤ s1.physpages p
  used : ∀ p, 1 ≤ s.physpages p → s1.physpages p = s.physpages p
  fresh : ∀ p, s.physpages p = 0 → s1.physpages p ≤ 1
  mem : ∀ a, 1 ≤ s.physpages (a / k.PAGESIZE) → s1.mem a = s.mem a
  ptable : s1.ptable = s.ptable
  current : s1.current = s.current

/-- The precondition of the fork claims on the caller's table `Pt`: every physical page
mapped present in the process region has a count of at least 1 in `R`. -/
def mapped_in_use (k : KConsts) (Pt : x86_64_pagetable) (R : Nat → Nat) : Prop :=
  ∀ va ∈ proc_region k, vmiter.perm k Pt va &&& PTE_P ≠ 0 →
    1 ≤ R (vmiter.pa k Pt va / k.PAGESIZE)

/-- The physical addresses of the pages that hold the table `T` itself: its top-level
page and its lower-level pages. -/
def table_addrs (T : x86_64_pagetable) : List Nat :=
  T.top :: T.inner.map (fun e => e.2)

/-- Every page that holds the page table of a slot, or a part of it, has a count of at
least 1.  `kalloc` hands out a page whose count is 0 and fills it (lines 123-128), and
`sys_page_free` sets the count of any page to 0 (lines 147-148), also of a page that holds
a table.  In a state of this predicate `kalloc` returns no page of a table, so that the
fills of a call leave every table as it is; this is the condition under which the tables
of the model, held as values, are the tables of the machine. -/
def tables_in_use (k : KConsts) (s : KState) : Prop :=
  ∀ i, i < k.NPROC → ∀ T ∈ (s.ptable i).pagetable, ∀ pa ∈ table_addrs T,
    1 ≤ s.physpages (pa / k.PAGESIZE)

instance (k : KConsts) (s : KState) : Decidable (tables_in_use k s) := by
  unfold tables_in_use
  infer_instance

/-- The address `a` lies on a page that holds the page table of the slot `i`, or a part
of it. -/
def on_table_page_of (k : KConsts) (s : KState) (i a : Nat) : Prop :=
  ∃ T ∈ (s.ptable i).pagetable, ∃ pa ∈ table_addrs T, a / k.PAGESIZE = pa / k.PAGESIZE

/-- The address `a` lies on a page that holds the page table of some slot, or a part of
it. -/
def on_table_page (k : KConsts) (s : KState) (a : Nat) : Prop :=
  ∃ i, i < k.NPROC ∧ on_table_page_of k s i a

/-- What a call that led from `s` to `s1` has left of the tables: no byte on a page that
held a table in `s` has changed, and in `s1` every page that holds a table is in use. -/
def tables_kept (k : KConsts) (s s1 : KState) : Prop :=
  (∀ a, on_table_page k s a → s1.mem a = s.mem a) ∧ tables_in_use k s1

/-- The table of the slot `i` shares no page with the table of another slot. -/
def table_apart (k : KConsts) (s : KState) (i : Nat) : Prop :=
  ∀ j, j < k.NPROC → j ≠ i → ∀ T ∈ (s.ptable i).pagetable, ∀ U ∈ (s.ptable j).pagetable,
    ∀ pa ∈ table_addrs T, ∀ pb ∈ table_addrs U, pa / k.PAGESIZE ≠ pb / k.PAGESIZE

instance (k : KConsts) (s : KState) (i : Nat) : Decidable (table_apart k s i) := by
  unfold table_apart
  infer_instance

/-- The test of line 517: the parent's mapping at `va` is present and user-accessible. -/
def user_present (k : KConsts) (Pt : x86_64_pagetable) (va : Nat) : Prop :=
  vmiter.perm k Pt va &&& PTE_P ≠ 0 ∧ vmiter.perm k Pt va &&& PTE_U ≠ 0

/-- What the walk of `syscall_fork` has installed in the child table `T` for the
process-region address `va` of the parent table `Pt`: nothing for a page that is not
present and user-accessible, the parent's own entry for a read-only page, and for a
writable page an entry with the parent's permissions on a page `q` that was free (count 0
in `R`) and, when the parent's pages were in use, has count 1 and holds the bytes `M0` of
the parent's page. -/
def LeafOk (k : KConsts) (R M0 : Nat → Nat) (Pt : x86_64_pagetable) (s : KState)
    (T : x86_64_pagetable) (va : Nat) : Prop :=
  (¬ user_present k Pt va → T.leaf (va / k.PAGESIZE) = ⟨0, 0⟩) ∧
  (user_present k Pt va → vmiter.writable k Pt va = false →
    T.leaf (va / k.PAGESIZE) = ⟨vmiter.pa k Pt va / k.PAGESIZE, vmiter.perm k Pt va⟩) ∧
  (user_present k Pt va → vmiter.writable k Pt va = true →
    ∃ q, T.leaf (va / k.PAGESIZE) = ⟨q, vmiter.perm k Pt va⟩ ∧ R q = 0 ∧
      (mapped_in_use k Pt R → s.physpages q = 1 ∧
        ∀ i, i < k.PAGESIZE → s.mem (q * k.PAGESIZE + i) = M0 (vmiter.pa k Pt va + i)))

/-- The invariant of the walk of `syscall_fork` on the child table `T`, after the
addresses `done`: `R` and `M0` are the counts and the memory before the call. -/
structure ChildInv (k : KConsts) (R M0 : Nat → Nat) (Pt : x86_64_pagetable)
    (done : List Nat) (s : KState) (T : x86_64_pagetable) : Prop where
  acc : ∀ p, s.physpages p = R p + cnt k T p
  undone : ∀ vpn, (∀ va ∈ done, va / k.PAGESIZE ≠ vpn) → T.leaf vpn = ⟨0, 0⟩
  top : R (T.top / k.PAGESIZE) = 0
  inner : ∀ e ∈ T.inner, R (e.2 / k.PAGESIZE) = 0
  leaves : ∀ va ∈ done, va ∈ proc_region k → LeafOk k R M0 Pt s T va
  mono : ∀ p, R p ≤ s.physpages p
  memstable : ∀ a, 1 ≤ R (a / k.PAGESIZE) → s.mem a = M0 a
  fresh : mapped_in_use k Pt R → ∀ p, R p = 0 → s.physpages p ≤ 1

/-- The invariant of the walk of `syscall_fork` on the kernel state: `ptab0` and `cur` are
the process table and `current` when the walk starts, `c` is the child's slot. -/
structure ForkInv (k : KConsts) (c : Nat) (R M0 : Nat → Nat) (Pt : x86_64_pagetable)
    (ptab0 : Nat → proc) (cur : Nat) (done : List Nat) (s : KState) : Prop where
  cur : s.current = cur
  others : ∀ i, i ≠ c → s.ptable i = ptab0 i
  child : ∃ T, s.ptable c = { ptab0 c with pagetable := some T } ∧ ChildInv k R M0 Pt done s T

/-- The state in which the walk of `syscall_fork` leaves with `return -1`. -/
structure ForkFailed (k : KConsts) (c : Nat) (R M0 : Nat → Nat) (ptab0 : Nat → proc)
    (cur : Nat) (s : KState) : Prop where
  rc : ∀ p, s.physpages p = R p
  mem : ∀ a, 1 ≤ R (a / k.PAGESIZE) → s.mem a = M0 a
  cur : s.current = cur
  others : ∀ i, i ≠ c → s.ptable i = ptab0 i
  child : s.ptable c = { ptab0 c with pagetable := none, state := P_FREE }

/-- One iteration of the walk, seen from the pages that exist so far: counts do not
decrease, a page in use keeps its bytes, and (when the parent's pages were in use) a page
the fork has allocated keeps its count and a free page gets at most one reference. -/
structure Adv (k : KConsts) (R : Nat → Nat) (Pt : x86_64_pagetable) (s s1 : KState) :
    Prop where
  current : s1.current = s.current
  mono : ∀ p, s.physpages p ≤ s1.physpages p
  mem : ∀ a, 1 ≤ s.physpages (a / k.PAGESIZE) → s1.mem a = s.mem a
  keep : mapped_in_use k Pt R → ∀ p, R p = 0 → 1 ≤ s.physpages p →
    s1.physpages p = s.physpages p
  fresh : mapped_in_use k Pt R → ∀ p, R p = 0 → s.physpages p ≤ 1 → s1.physpages p ≤ 1

/-- The state after a `syscall_fork` that returned `-1`, compared with the state before:
all counts, all process states and registers are as before, every slot but the candidate
child slot is untouched, a page that was in use keeps its bytes, and each slot has the
table it had or none. -/
structure ForkAtomic (k : KConsts) (s s1 : KState) : Prop where
  rc : ∀ p, s1.physpages p = s.physpages p
  mem : ∀ a, 1 ≤ s.physpages (a / k.PAGESIZE) → s1.mem a = s.mem a
  table : ∀ i, (s1.ptable i).pagetable = (s.ptable i).pagetable ∨
    (s1.ptable i).pagetable = none
  current : s1.current = s.current
  state : ∀ i, (s1.ptable i).state = (s.ptable i).state
  regs : ∀ i, (s1.ptable i).regs = (s.ptable i).regs
  others : ∀ i, fork_find_slot k s ≠ some i → s1.ptable i = s.ptable i
  slot : ∀ c, fork_find_slot k s = some c → (s1.ptable c).state = P_FREE

/-- The state after a `syscall_fork` that returned the child's slot `c`: `Pt` is the
caller's table and `T` the child's. -/
structure ForkDone (k : KConsts) (s s1 : KState) (c : Nat) (Pt T : x86_64_pagetable) :
    Prop where
  slot : fork_find_slot k s = some c
  ne : c ≠ s.current
  current : s1.current = s.current
  others : ∀ i, i ≠ c → s1.ptable i = s.ptable i
  child : s1.ptable c =
    { s.ptable c with
      pagetable := some T
      regs := { (s.ptable s.current).regs with reg_rax := 0 }
      state := P_RUNNABLE }
  inv : ChildInv k s.physpages s.mem Pt (pageSteps 0 k.MEMSIZE_VIRTUAL k.PAGESIZE) s1 T

instance (k : KConsts) (Pt : x86_64_pagetable) (R : Nat → Nat) :
    Decidable (mapped_in_use k Pt R) := by
  unfold mapped_in_use
  infer_instance

/-- The state `s_boot` after process 1 has called `page_free(0x6000)`: its read-only code
page, still mapped at `0x100000`, has refcount 0. -/
def s_ro_free : KState := sys_page_free weensy 0x6000 s_boot

/-- The state `s_boot` after process 1 has called `page_free(0x1000)`: the page of its
top-level page table has refcount 0. -/
def s_tab_free : KState := sys_page_free weensy 0x1000 s_boot

/-- As `s_tab_free`, with every slot but the caller's a zombie: no slot is FREE. -/
def s_no_slot : KState :=
  { s_tab_free with
    ptable := fun i =>
      if i = 1 then s_boot.ptable 1 else { s_boot.ptable i with state := P_ZOMBIE } }

/-- The state after process 1 has forked in `s_boot` and has then called
`page_free(0x9000)`, the page of the top-level page table of its child. -/
def s_child_tab_free : Option KState := s_forked.map (sys_page_free weensy 0x9000)

/-- As `s_boot`, with only the six physical pages 9 to 14 free. -/
def s_low_mem : KState :=
  { s_boot with physpages := fun p => if 9 ≤ p ∧ p ≤ 14 then 0 else 1 }

/-- As `s_boot`, with every physical page in use: no page is free. -/
def s_full : KState := { s_boot with physpages := fun _ => 1 }

/-! ## kill (kernel.cc 152-173) -/

/-- Conversion of an `int` or `pid_t` result to `uintptr_t` (`-1` becomes `2^64 - 1`). -/
def toU64 (i : Int) : Nat := (i % 2 ^ 64).toNat

/-- `kill(pid)`: the returned `uintptr_t` and the state after the call.  For a `pid`
other than the caller's that is negative or not below `NPROC`, `ptable[pid]` lies outside
the array `ptable[NPROC]`; that access is the result `none`. -/
def kill (k : KConsts) (pid : Int) (s : KState) : Option (Nat × KState) :=
  if pid = ((s.ptable s.current).pid : Int) then
    some (0, { s with
      ptable := Function.update s.ptable s.current
        { s.ptable s.current with state := P_ZOMBIE } })
  else if pid < 0 ∨ pid ≥ (k.NPROC : Int) then none
  else if (s.ptable s.current).euid ≠ 0 ∧
      (s.ptable s.current).euid ≠ (s.ptable pid.toNat).uid then
    some (toU64 (-1), s)
  else
    some (0, { s with
      ptable := Function.update s.ptable pid.toNat
        { s.ptable pid.toNat with state := P_ZOMBIE } })

/-! ## syscall (kernel.cc 373-453) and syscall_exit (kernel.cc 480-483) -/

/-- Modelled from the spec: the call numbers `SYSCALL_...` of the missing `lib.hh`, "a
call number register"; they are taken as parameters. -/
structure SyscallNumbers where
  SYSCALL_PANIC : Nat
  SYSCALL_GETPID : Nat
  SYSCALL_YIELD : Nat
  SYSCALL_PAGE_ALLOC : Nat
  SYSCALL_FORK : Nat
  SYSCALL_EXIT : Nat
  SYSCALL_PAGE_FREE : Nat
  SYSCALL_KILL : Nat
  SYSCALL_SLEEP : Nat

/-- The labels of a `switch` are pairwise different. -/
def SyscallNumbers.distinct (n : SyscallNumbers) : Prop :=
  [n.SYSCALL_PANIC, n.SYSCALL_GETPID, n.SYSCALL_YIELD, n.SYSCALL_PAGE_ALLOC, n.SYSCALL_FORK,
    n.SYSCALL_EXIT, n.SYSCALL_PAGE_FREE, n.SYSCALL_KILL, n.SYSCALL_SLEEP].Nodup

instance (n : SyscallNumbers) : Decidable n.distinct := by
  unfold SyscallNumbers.distinct
  infer_instance

/-- `runqueue_add(p)`, with `p = &ptable[i]`. -/
def runqueue_add (i : Nat) (s : KState) : KState :=
  match s.runqueue_tail with
  | some t =>
    { s with
      ptable := Function.update
        (Function.update s.ptable i { s.ptable i with next := none }) t
        { Function.update s.ptable i { s.ptable i with next := none } t with next := some i }
      runqueue_tail := some i }
  | none =>
    { s with
      ptable := Function.update s.ptable i { s.ptable i with next := none }
      runqueue_head := some i
      runqueue_tail := some i }

/-- Modelled from the spec: `--sleep_ticks` on "a `sleep_ticks` countdown", whose type is
declared in the missing `kernel.hh`; it is taken as an unsigned 64-bit counter, so that
decrementing 0 wraps around. -/
def dec_sleep_ticks (t : Nat) : Nat := if t = 0 then 2 ^ 64 - 1 else t - 1

/-- One round of the loop of lines 432-440 for the slot `i`. -/
def sleep_wake_step (s : KState) (i : Nat) : KState :=
  if (s.ptable i).state = P_SLEEPING then
    if dec_sleep_ticks (s.ptable i).sleep_ticks = 0 then
      runqueue_add i
        { s with
          ptable := Function.update s.ptable i
            { s.ptable i with sleep_ticks := 0, state := P_RUNNABLE } }
    else
      { s with
        ptable := Function.update s.ptable i
          { s.ptable i with sleep_ticks := dec_sleep_ticks (s.ptable i).sleep_ticks } }
  else s

/-- The loop `for (pid_t i = 0; i < NPROC; i++)` of the `SYSCALL_SLEEP` case. -/
def sleep_wake_loop (k : KConsts) (s : KState) : KState :=
  (List.range k.NPROC).foldl sleep_wake_step s

/-- How a trap into the kernel ends: the handler returns a value to the process that
trapped; `schedule()` has transferred control to `ptable[current]` of the given state;
`schedule()` spins forever in the given state; the kernel has called `panic` in the given
state; or an assertion has failed (or an array was left) inside a callee. -/
inductive Outcome where
  | returned (v : Nat) (s : KState)
  | resumed (s : KState)
  | spinning (s : KState)
  | panicked (s : KState)
  | failed

/-- The call `schedule()` at the end of a handler. -/
def schedule_from (k : KConsts) (s : KState) : Outcome :=
  match schedule k s with
  | some s1 => Outcome.resumed s1
  | none => Outcome.spinning s

/-- `syscall_exit()`: `free_all(current->pid); schedule();`. -/
def syscall_exit (k : KConsts) (s : KState) : Outcome :=
  match free_all k (s.ptable s.current).pid s with
  | none => Outcome.failed
  | some s1 => schedule_from k s1

/-- The first statement of `syscall`, `current->regs = *regs`. -/
def save_regs (regs : regstate) (s : KState) : KState :=
  { s with ptable := Function.update s.ptable s.current { s.ptable s.current with regs := regs } }

/-- `syscall(regs)`: the registers are copied into `current->regs`, then the call number
in `reg_rax` selects the case.  The `SYSCALL_SLEEP` case stores `reg_rbx` in the global
`ticks` (an `unsigned long`, so `ticks <= 0` is `ticks == 0`); both ways out of it are
`break`, which leads to `panic("Should not get here!")`, as does a `user_panic` and an
unknown number. -/
def syscall (n : SyscallNumbers) (k : KConsts) (regs : regstate) (s : KState) : Outcome :=
  if regs.reg_rax = n.SYSCALL_PANIC then Outcome.panicked (save_regs regs s)
  else if regs.reg_rax = n.SYSCALL_GETPID then
    Outcome.returned (toU64 ((s.ptable s.current).pid : Int)) (save_regs regs s)
  else if regs.reg_rax = n.SYSCALL_YIELD then
    schedule_from k (save_regs { regs with reg_rax := 0 } s)
  else if regs.reg_rax = n.SYSCALL_PAGE_ALLOC then
    match syscall_page_alloc k regs.reg_rdi (save_regs regs s) with
    | none => Outcome.failed
    | some r => Outcome.returned (toU64 r.1) r.2
  else if regs.reg_rax = n.SYSCALL_FORK then
    match syscall_fork k (save_regs regs s) with
    | none => Outcome.failed
    | some r => Outcome.returned (toU64 r.1) r.2
  else if regs.reg_rax = n.SYSCALL_EXIT then syscall_exit k (save_regs regs s)
  else if regs.reg_rax = n.SYSCALL_PAGE_FREE then
    Outcome.returned 0 (sys_page_free k regs.reg_rdi (save_regs regs s))
  else if regs.reg_rax = n.SYSCALL_KILL then
    match kill k (toInt32 regs.reg_rbx) (save_regs regs s) with
    | none => Outcome.failed
    | some r => Outcome.returned r.1 r.2
  else if regs.reg_rax = n.SYSCALL_SLEEP then
    if regs.reg_rbx = 0 then Outcome.panicked { save_regs regs s with ticks := regs.reg_rbx }
    else Outcome.panicked (sleep_wake_loop k { save_regs regs s with ticks := regs.reg_rbx })
  else Outcome.panicked (save_regs regs s)

/-! ## Further concrete states -/

/-- An instance of the call numbers. -/
def sysno : SyscallNumbers := ⟨1, 2, 3, 4, 5, 6, 7, 8, 9⟩

/-- Three system calls of process 1 from `s_boot`: `page_alloc(0x102000)`,
`page_free(0x9000)` and `page_alloc(0x103000)`. -/
def s_double_map : Option KState :=
  (syscall_page_alloc weensy 0x102000 s_boot).bind fun r1 =>
  (syscall_page_alloc weensy 0x103000 (sys_page_free weensy 0x9000 r1.2)).map (fun r => r.2)

/-- As `s_boot`, with process 1 owned by user 5 and a second RUNNABLE process in slot 2
owned by user 7. -/
def s_users : KState :=
  { s_boot with
    ptable := fun i =>
      if i = 1 then ⟨1, 5, 5, P_RUNNABLE, regs_boot, some pt_boot, 0, none⟩
      else if i = 2 then ⟨2, 7, 7, P_RUNNABLE, regs_boot, some pt_boot, 0, none⟩
      else ⟨i, 0, 0, P_FREE, ⟨0, 0, 0, 0, 0, 0, 0⟩, none, 0, none⟩ }

/-- The physical pages that `free_all` releases for a table `T`, one entry per `kfree`
call: the pages mapped in the process region, the lower-level table pages, the top. -/
def table_pages (k : KConsts) (T : x86_64_pagetable) : List Nat :=
  ((proc_region k).filter (fun va => decide (vmiter.perm k T va ≠ 0))).map
      (fun va => vmiter.pa k T va / k.PAGESIZE)
    ++ T.inner.map (fun e => e.2 / k.PAGESIZE) ++ [T.top / k.PAGESIZE]

/-! ## exception (kernel.cc 299-350) and sequences of kernel entries -/

/-- Modelled from the spec: the interrupt numbers of the missing `x86-64.h` ("Timer
interrupt", "Page fault"); they are taken as parameters. -/
structure IntNumbers where
  INT_IRQ : Nat
  IRQ_TIMER : Nat
  INT_PF : Nat

/-- The two labels of the `switch` in `exception` are different. -/
def IntNumbers.distinct (x : IntNumbers) : Prop := x.INT_IRQ + x.IRQ_TIMER ≠ x.INT_PF

instance (x : IntNumbers) : Decidable x.distinct := by
  unfold IntNumbers.distinct
  infer_instance

/-- The last statement of `exception` (lines 345-349): `run(current)` if
`current->state == P_RUNNABLE`, else `schedule()`. -/
def exception_tail (k : KConsts) (s : KState) : Outcome :=
  if (s.ptable s.current).state = P_RUNNABLE then Outcome.resumed s else schedule_from k s

/-- `exception(regs)`: the registers are copied into `current->regs`; a timer interrupt
increments `ticks` (an `unsigned long`) and calls `schedule()`; a page fault without the
user bit in the error code is a kernel panic, with it the faulting process becomes
`P_FAULTED` and the function goes on to its last statement; any other number is a panic. -/
def exception (x : IntNumbers) (k : KConsts) (regs : regstate) (s : KState) : Outcome :=
  if regs.reg_intno = x.INT_IRQ + x.IRQ_TIMER then
    schedule_from k { save_regs regs s with ticks := ((save_regs regs s).ticks + 1) % 2 ^ 64 }
  else if regs.reg_intno = x.INT_PF then
    if regs.reg_errcode &&& PTE_U = 0 then Outcome.panicked (save_regs regs s)
    else
      exception_tail k
        { save_regs regs s with
          ptable := Function.update (save_regs regs s).ptable s.current
            { (save_regs regs s).ptable s.current with state := P_FAULTED } }
  else Outcome.panicked (save_regs regs s)

/-- The two ways into the kernel from user mode. -/
inductive Trap where
  | syscall (regs : regstate)
  | exception (regs : regstate)

/-- The kernel's reaction to a trap of the running process. -/
def kernel_entry (n : SyscallNumbers) (x : IntNumbers) (k : KConsts) : Trap → KState → Outcome
  | Trap.syscall regs, s => syscall n k regs s
  | Trap.exception regs, s => exception x k regs s

/-- The state in which a process runs next in user mode, if the kernel gets there. -/
def Outcome.next : Outcome → Option KState
  | Outcome.returned _ s => some s
  | Outcome.resumed s => some s
  | _ => none

/-- The value and the state with which the handler returns to its caller. -/
def Outcome.ret : Outcome → Option (Nat × KState)
  | Outcome.returned v s => some (v, s)
  | _ => none

/-- The state in which the kernel has panicked. -/
def Outcome.panic_state : Outcome → Option KState
  | Outcome.panicked s => some s
  | _ => none

/-- The states the kernel passes through in user mode: `Runs n x k s s1` when `s1` is
reached from `s` by a sequence of traps, each of which the kernel leaves by returning to
a process. -/
inductive Runs (n : SyscallNumbers) (x : IntNumbers) (k : KConsts) : KState → KState → Prop where
  | refl (s : KState) : Runs n x k s s
  | step {s s1 s2 : KState} (t : Trap) :
      Runs n x k s s1 → (kernel_entry n x k t s1).next = some s2 → Runs n x k s s2

/-- The processes chosen by `m` consecutive calls of `schedule()`, with no other change
of the state in between. -/
def schedule_decisions (k : KConsts) : Nat → KState → Option (List Nat)
  | 0, _ => some []
  | m + 1, s =>
    match schedule k s with
    | none => none
    | some s1 => (schedule_decisions k m s1).map (fun l => s1.current :: l)

/-! ## kernel_start (kernel.cc 41-95) and process_setup (kernel.cc 205-271) -/

/-- Modelled from the spec: a segment of a program image ("code and data" that
`process_setup` "loads into memory"; `program_image` is declared in the missing
`kernel.hh`): start address, size in memory, writability, and the initialised bytes. -/
structure segment where
  va : Nat
  size : Nat
  writable : Bool
  data : Nat → Nat
  data_size : Nat

/-- Modelled from the spec: a program image, its segments and its entry point. -/
structure program_image where
  segments : List segment
  entry : Nat

/-- Modelled from the spec: the images `kernel_start` chooses from.  `command` is the image
named by the boot command (or by `WEENSYOS_FIRST_PROCESS`) when that image is not empty. -/
structure boot_images where
  command : Option program_image
  allocator : program_image
  allocator2 : program_image
  allocator3 : program_image
  allocator4 : program_image

/-- The permissions of the identity mapping of `addr` (lines 56-65). -/
def kernel_perm (k : KConsts) (console addr : Nat) : Nat :=
  if addr = 0 then 0
  else if addr < k.PROC_START_ADDR ∧ addr ≠ console then PTE_P ||| PTE_W
  else PTE_P ||| PTE_W ||| PTE_U

/-- The loop of lines 55-71 on the kernel page table; a mapping that fails trips the
assertion `r == 0`. -/
def kernel_map_loop (k : KConsts) (console : Nat) :
    List Nat → x86_64_pagetable → KState → Option (x86_64_pagetable × KState)
  | [], kpt, s => some (kpt, s)
  | addr :: addrs, kpt, s =>
    if (vmiter.try_map k kpt addr addr (kernel_perm k console addr) s).1 = 0 then
      kernel_map_loop k console addrs
        (vmiter.try_map k kpt addr addr (kernel_perm k console addr) s).2.1
        (vmiter.try_map k kpt addr addr (kernel_perm k console addr) s).2.2
    else none

/-- The loop of lines 74-77: `ptable[i].pid = i; ptable[i].state = P_FREE`. -/
def init_ptable (k : KConsts) (s : KState) : KState :=
  { s with
    ptable := fun i =>
      if i < k.NPROC then { s.ptable i with pid := i, state := P_FREE } else s.ptable i }

/-- A mapping into the table of process `pid` that must not fail: `try_map` followed by
`assert(f == 0)`, or `vmiter::map`.  A null table is a kernel fault. -/
def map_page (k : KConsts) (pid va pa perm : Nat) (s : KState) : Option KState :=
  match (s.ptable pid).pagetable with
  | none => none
  | some pt =>
    if (vmiter.try_map k pt va pa perm s).1 = 0 then
      some (set_pagetable (vmiter.try_map k pt va pa perm s).2.2 pid
        (some (vmiter.try_map k pt va pa perm s).2.1))
    else none

/-- The loop of lines 223-230 of `process_setup`: the mappings of the kernel table `kpt`
below `PROC_START_ADDR` are copied. -/
def setup_kernel_map (k : KConsts) (kpt : x86_64_pagetable) (pid : Nat) :
    List Nat → KState → Option KState
  | [], s => some s
  | va :: vas, s =>
    if va < k.PROC_START_ADDR then
      (map_page k pid va (vmiter.pa k kpt va) (vmiter.perm k kpt va) s).bind
        (setup_kernel_map k kpt pid vas)
    else setup_kernel_map k kpt pid vas s

/-- The inner loop of lines 234-247: a fresh page for each page of a segment. -/
def setup_segment_pages (k : KConsts) (pid perm : Nat) : List Nat → KState → Option KState
  | [], s => some s
  | a :: rest, s =>
    (map_page k pid a (kalloc k k.PAGESIZE s).1 perm (kalloc k k.PAGESIZE s).2).bind
      (setup_segment_pages k pid perm rest)

/-- The loop of lines 233-248 over the segments. -/
def setup_segments (k : KConsts) (pid : Nat) : List segment → KState → Option KState
  | [], s => some s
  | seg :: segs, s =>
    (setup_segment_pages k pid (if seg.writable then PTE_PWU else PTE_P ||| PTE_U)
      (pageSteps (seg.va - seg.va % k.PAGESIZE) (seg.va + seg.size) k.PAGESIZE) s).bind
      (setup_segments k pid segs)

/-- Memory after `memcpy(dst, data, n)` from bytes that are not in `mem`. -/
def write_bytes (mem : Nat → Nat) (dst : Nat) (data : Nat → Nat) (n : Nat) : Nat → Nat :=
  fun a => if dst ≤ a ∧ a < dst + n then data (a - dst) else mem a

/-- The loop of lines 251-255: the segments are cleared and filled from the image. -/
def setup_copy (k : KConsts) (pid : Nat) : List segment → KState → Option KState
  | [], s => some s
  | seg :: segs, s =>
    match (s.ptable pid).pagetable with
    | none => none
    | some pt =>
      setup_copy k pid segs
        { s with
          mem := write_bytes (memset s.mem (vmiter.pa k pt seg.va) 0 seg.size)
            (vmiter.pa k pt seg.va) seg.data seg.data_size }

/-- Lines 206-219 of `process_setup`: the owner is root, the table is a fresh empty one
(`none` when `kalloc_pagetable` returns `nullptr`), and a page is allocated and handed to
`sys_page_free`. -/
def setup_begin (k : KConsts) (pid : Nat) (s : KState) : KState :=
  sys_page_free k
    (kalloc k k.PAGESIZE
      (set_pagetable
        { (kalloc_pagetable k s).2 with
          ptable := Function.update (kalloc_pagetable k s).2.ptable pid
            { (kalloc_pagetable k s).2.ptable pid with uid := 0, euid := 0 } } pid
        (if (kalloc_pagetable k s).1 = 0 then none
         else some ⟨(kalloc_pagetable k s).1, [], fun _ => ⟨0, 0⟩⟩))).1
    (kalloc k k.PAGESIZE
      (set_pagetable
        { (kalloc_pagetable k s).2 with
          ptable := Function.update (kalloc_pagetable k s).2.ptable pid
            { (kalloc_pagetable k s).2.ptable pid with uid := 0, euid := 0 } } pid
        (if (kalloc_pagetable k s).1 = 0 then none
         else some ⟨(kalloc_pagetable k s).1, [], fun _ => ⟨0, 0⟩⟩))).2

/-- Lines 258-270 of `process_setup`: the entry point, the stack page below
`MEMSIZE_VIRTUAL`, the stack pointer, and the state `P_RUNNABLE`. -/
def setup_end (k : KConsts) (pid : Nat) (pgm : program_image) (s : KState) : Option KState :=
  (map_page k pid (k.MEMSIZE_VIRTUAL - k.PAGESIZE)
    (kalloc k k.PAGESIZE
      { s with
        ptable := Function.update s.ptable pid
          { s.ptable pid with regs := { (s.ptable pid).regs with reg_rip := pgm.entry } } }).1
    PTE_PWU
    (kalloc k k.PAGESIZE
      { s with
        ptable := Function.update s.ptable pid
          { s.ptable pid with regs := { (s.ptable pid).regs with reg_rip := pgm.entry } } }).2).map
    fun s1 =>
      { s1 with
        ptable := Function.update s1.ptable pid
          { s1.ptable pid with
            regs := { (s1.ptable pid).regs with
              reg_rsp := k.MEMSIZE_VIRTUAL - k.PAGESIZE + k.PAGESIZE }
            state := P_RUNNABLE } }

/-- `process_setup(pid, program_name)`, with the kernel page table `kpt` and the image
`pgm` of that name; `none` is a failed assertion or a kernel fault. -/
def process_setup (k : KConsts) (kpt : x86_64_pagetable) (pid : Nat) (pgm : program_image)
    (s : KState) : Option KState :=
  (setup_kernel_map k kpt pid (pageSteps 0 k.MEMSIZE_VIRTUAL k.PAGESIZE)
    (setup_begin k pid s)).bind fun s1 =>
  (setup_segments k pid pgm.segments s1).bind fun s2 =>
  (setup_copy k pid pgm.segments s2).bind (setup_end k pid pgm)

/-- The calls of `process_setup` in `kernel_start` (lines 81-89). -/
def setup_processes (k : KConsts) (kpt : x86_64_pagetable) (imgs : boot_images)
    (s : KState) : Option KState :=
  match imgs.command with
  | some pgm => process_setup k kpt 1 pgm s
  | none =>
    (process_setup k kpt 1 imgs.allocator s).bind fun s1 =>
    (process_setup k kpt 2 imgs.allocator2 s1).bind fun s2 =>
    (process_setup k kpt 3 imgs.allocator3 s2).bind (process_setup k kpt 4 imgs.allocator4)

/-- `kernel_start(command)` from the state `s` and the kernel page table `kpt0` that
`init_hardware` leaves: the kernel page table and the state in which process 1 starts to
run.  `console` is `CONSOLE_ADDR` of the missing `kernel.hh`. -/
def kernel_start (k : KConsts) (console : Nat) (imgs : boot_images) (kpt0 : x86_64_pagetable)
    (s : KState) : Option (x86_64_pagetable × KState) :=
  (kernel_map_loop k console (pageSteps 0 k.MEMSIZE_PHYSICAL k.PAGESIZE) kpt0
    { s with ticks := 1 }).bind fun r =>
  (setup_processes k r.1 imgs (init_ptable k r.2)).bind fun s1 =>
  if (s1.ptable 1).state = P_RUNNABLE then some (r.1, { s1 with current := 1 }) else none

/-- The kernel-region layout of a page table `T`: address 0 is not present, and every
other page-aligned address below `PROC_START_ADDR` is mapped to itself, the console page
present, writable and user-accessible, the others present and writable only. -/
def kernel_layout (k : KConsts) (console : Nat) (T : x86_64_pagetable) : Prop :=
  ∀ va, k.PAGESIZE ∣ va → va < k.PROC_START_ADDR →
    (va = 0 → vmiter.perm k T va &&& PTE_P = 0) ∧
    (va ≠ 0 → vmiter.pa k T va = va ∧
      vmiter.perm k T va = if va = console then PTE_P ||| PTE_W ||| PTE_U else PTE_P ||| PTE_W)

/-- The page tables `T` and `U` agree on the kernel region. -/
def same_kernel_map (k : KConsts) (T U : x86_64_pagetable) : Prop :=
  ∀ va, k.PAGESIZE ∣ va → va < k.PROC_START_ADDR →
    vmiter.perm k T va = vmiter.perm k U va ∧ vmiter.pa k T va = vmiter.pa k U va

/-- The states reached from `s` by system calls `fork` and `page_alloc` of the running
process and by scheduling decisions. -/
inductive Grows (k : KConsts) : KState → KState → Prop where
  | refl (s : KState) : Grows k s s
  | fork {s s1 s2 : KState} (r : Int) :
      Grows k s s1 → syscall_fork k s1 = some (r, s2) → Grows k s s2
  | page_alloc {s s1 s2 : KState} (addr : Nat) (r : Int) :
      Grows k s s1 → syscall_page_alloc k addr s1 = some (r, s2) → Grows k s s2
  | schedule {s s1 s2 : KState} :
      Grows k s s1 → schedule k s1 = some s2 → Grows k s s2

/-- The situation of a process in slot `i` that has been taken off the processor for
good: the slot numbers are the pids, another process, in a slot that is not FREE, is
running, and slot `i` is `P_FAULTED` or `P_ZOMBIE`. -/
structure Retired (k : KConsts) (i : Nat) (s : KState) : Prop where
  pids : ∀ j, j < k.NPROC → (s.ptable j).pid = j
  cur_lt : s.current < k.NPROC
  live : (s.ptable s.current).state ≠ P_FREE
  ne : s.current ≠ i
  dead : (s.ptable i).state = P_FAULTED ∨ (s.ptable i).state = P_ZOMBIE

/-- The images that `kernel_start` loads. -/
def boot_images.loaded (imgs : boot_images) : List program_image :=
  match imgs.command with
  | some pgm => [pgm]
  | none => [imgs.allocator, imgs.allocator2, imgs.allocator3, imgs.allocator4]

/-- Every segment of the image starts in the process region. -/
def program_image.in_region (k : KConsts) (pgm : program_image) : Prop :=
  ∀ seg ∈ pgm.segments, k.PROC_START_ADDR ≤ seg.va

instance (k : KConsts) (pgm : program_image) : Decidable (pgm.in_region k) := by
  unfold program_image.in_region
  infer_instance

/-- The table `T` holds, below `PROC_START_ADDR`, copies of the mappings of `U`. -/
def kernel_copy (k : KConsts) (T U : x86_64_pagetable) : Prop :=
  ∀ va, k.PAGESIZE ∣ va → va < k.PROC_START_ADDR →
    T.leaf (va / k.PAGESIZE) = ⟨vmiter.pa k U va / k.PAGESIZE, vmiter.perm k U va⟩

/-- A part of `process_setup(pid)` that leaves the kernel region of the table alone: only
the slot `pid` changes, it keeps its pid, and if it has a table afterwards it had one
before, with the same leaf entries below `PROC_START_ADDR`. -/
structure SetupStep (k : KConsts) (pid : Nat) (s s1 : KState) : Prop where
  current : s1.current = s.current
  others : ∀ j, j ≠ pid → s1.ptable j = s.ptable j
  pidf : (s1.ptable pid).pid = (s.ptable pid).pid
  kernel : ∀ T1, (s1.ptable pid).pagetable = some T1 →
    ∃ T, (s.ptable pid).pagetable = some T ∧
      ∀ va, k.PAGESIZE ∣ va → va < k.PROC_START_ADDR →
        T1.leaf (va / k.PAGESIZE) = T.leaf (va / k.PAGESIZE)

/-- The slot `i` has a page table with the kernel-region layout that maps the kernel region
as `kpt` does. -/
def good_table (k : KConsts) (console : Nat) (kpt : x86_64_pagetable) (s : KState) (i : Nat) :
    Prop :=
  ∃ T, (s.ptable i).pagetable = some T ∧ kernel_layout k console T ∧ same_kernel_map k T kpt

/-- The kernel-region layout invariant of a state: every slot that is not FREE has a page
table with the kernel-region layout, mapping the kernel region as `kpt` does. -/
def layout_inv (k : KConsts) (console : Nat) (kpt : x86_64_pagetable) (s : KState) : Prop :=
  ∀ i, i < k.NPROC → (s.ptable i).state ≠ P_FREE → good_table k console kpt s i

/-- The layout invariant together with what `fork` needs of its caller: the running
process is not FREE and its table has the layout. -/
def layout_ok (k : KConsts) (console : Nat) (kpt : x86_64_pagetable) (s : KState) : Prop :=
  layout_inv k console kpt s ∧ (s.ptable s.current).state ≠ P_FREE ∧
    good_table k console kpt s s.current

/-! ## Further concrete states and images -/

/-- An instance of the interrupt numbers: the timer is 32, the page fault 14. -/
def trapno : IntNumbers := ⟨32, 0, 14⟩

/-- As `s_users`, with the process in slot 2 SLEEPING for one more tick. -/
def s_sleeper : KState :=
  { s_boot with
    ptable := fun i =>
      if i = 1 then ⟨1, 0, 0, P_RUNNABLE, regs_boot, some pt_boot, 0, none⟩
      else if i = 2 then ⟨2, 0, 0, P_SLEEPING, regs_boot, some pt_boot, 1, none⟩
      else ⟨i, 0, 0, P_FREE, ⟨0, 0, 0, 0, 0, 0, 0⟩, none, 0, none⟩ }

/-- A program image with a read-only code segment of one page at `0x100000` and a writable
data segment of half a page at `0x101000`. -/
def img_small : program_image :=
  ⟨[⟨0x100000, 0x1000, false, fun _ => 0x90, 0x10⟩, ⟨0x101000, 0x800, true, fun _ => 0, 0⟩],
    0x100000⟩

/-- Boot images whose command names `img_small`. -/
def boot_small : boot_images := ⟨some img_small, img_small, img_small, img_small, img_small⟩

/-- A program image whose only segment, one writable page, starts at `0x1000`, below
`PROC_START_ADDR`. -/
def img_low : program_image := ⟨[⟨0x1000, 0x1000, true, fun _ => 0, 0⟩], 0x1000⟩

/-- Boot images whose command names `img_low`. -/
def boot_low : boot_images := ⟨some img_low, img_low, img_low, img_low, img_low⟩

/-- A kernel page table before `kernel_start`: its table pages lie in the kernel's own
memory from `0x50000` on, and nothing is mapped yet. -/
def kpt_reset : x86_64_pagetable :=
  ⟨0x50000, [(3 * 2 ^ 50, 0x51000), (2 * 2 ^ 50, 0x52000), (2 ^ 50, 0x53000)], fun _ => ⟨0, 0⟩⟩

/-- A state before `kernel_start`: no page is referenced. -/
def s_reset : KState := { s_boot with physpages := fun _ => 0, current := 0 }

/-- The result of `kernel_start` for `boot_small`, with the console at `0xB8000`. -/
def boot_result : Option (x86_64_pagetable × KState) :=
  kernel_start weensy 0xB8000 boot_small kpt_reset s_reset

/-- The kernel page table after that `kernel_start`. -/
def kpt_booted : x86_64_pagetable := (boot_result.getD (kpt_reset, s_reset)).1

/-- The state in which process 1 starts to run after that `kernel_start`. -/
def s_booted : KState := (boot_result.getD (kpt_reset, s_reset)).2

/-- The result and the state after process 1 has called `fork` in `s_booted`. -/
def booted_fork : Int × KState := (syscall_fork weensy s_booted).getD (-1, s_booted)

/-- The registers at a page fault in user mode: interrupt 14, error code 4 (a read of a
missing page with the user bit). -/
def regs_fault : regstate := ⟨0, 0, 0, 0, 0, 14, 4⟩

/-- The state `s_users` after process 1 has faulted: its registers are saved and its state
is `P_FAULTED`. -/
def s_faulted : KState :=
  { save_regs regs_fault s_users with
    ptable := Function.update (save_regs regs_fault s_users).ptable s_users.current
      { (save_regs regs_fault s_users).ptable s_users.current with state := P_FAULTED } }

/-- The state in which process 2 runs after the fault of process 1. -/
def s_after_fault : KState := { s_faulted with current := 2 }

/-! ## States and outcomes for exit, kill and fork -/

/-- Whether a handler ended in a failed assertion or in an access outside an array. -/
def Outcome.has_failed : Outcome → Bool
  | Outcome.failed => true
  | _ => false

/-- The registers of process 1 at its system call `page_free(0x5000)` after the boot. -/
def regs_free_code : regstate := ⟨sysno.SYSCALL_PAGE_FREE, 0, 0x5000, 0x100000, 0x300000, 0, 0⟩

/-- The state in which process 1 runs on after that call. -/
def s_booted_free : KState := sys_page_free weensy 0x5000 (save_regs regs_free_code s_booted)

/-- The result and the state after process 1 of `s_users` has called `fork`. -/
def users_fork : Int × KState := (syscall_fork weensy s_users).getD (-1, s_users)

end WeensyOS

/-!
# The debugging allocator (pset1/m61.cc)

A shallow embedding of `m61_malloc`, `m61_free` and `m61_realloc`.  The allocator state
(the two maps, the statistics, the buffer) and the bytes of memory are passed explicitly.
`abort()` and undefined behaviour are the result `none`.  Addresses and sizes are natural
numbers below `2^64`; the sums of an address in the buffer and a size up to the buffer
size do not wrap.
-/

namespace M61

/-- The size of `default_buffer`, `8 << 20`. -/
def buffer_size : Nat := 8 * 2 ^ 20

/-- The value of `max_align`, `alignof(max_align_t)`, on x86-64. -/
def max_align : Nat := 16

/-- The constant `random_int` written behind each allocation. -/
def random_int : Nat := 0xFEEEEF11

/-- The value of `sizeof(random_int)`, the size of an `unsigned long` on x86-64. -/
def sizeof_random_int : Nat := 8

/-- The struct `mem_track`; `file` is the pointer value. -/
structure mem_track where
  sz : Nat
  padding : Nat
  total_size : Nat
  file : Nat
  line : Int
  deriving DecidableEq, Repr

/-- The struct `m61_statistics` (declared in the missing `m61.hh`), with the fields that
the initialiser of `gstats` names. -/
structure m61_statistics where
  nactive : Nat
  active_size : Nat
  ntotal : Nat
  total_size : Nat
  nfail : Nat
  fail_size : Nat
  heap_min : Nat
  heap_max : Nat
  deriving DecidableEq, Repr

/-- The global state of the allocator: `default_buffer.buffer` (the address `mmap`
returned) and `default_buffer.pos`, the maps `active_map` and `free_memory` as lists in
the order of their keys, `gstats`, and the bytes of memory. -/
structure MState where
  buffer : Nat
  pos : Nat
  active_map : List (Nat × mem_track)
  free_memory : List (Nat × Nat)
  gstats : m61_statistics
  mem : Nat → Nat

/-- `std::map::insert`: the entry goes to its place in the order of the keys; a key that
is present keeps its value. -/
def map_insert {α : Type} (key : Nat) (v : α) : List (Nat × α) → List (Nat × α)
  | [] => [(key, v)]
  | e :: es =>
    if key < e.1 then (key, v) :: e :: es
    else if key = e.1 then e :: es
    else e :: map_insert key v es

/-- `std::map::erase(key)`. -/
def map_erase {α : Type} (key : Nat) (m : List (Nat × α)) : List (Nat × α) :=
  m.filter (fun e => decide (e.1 ≠ key))

/-- `std::map::find(key)`: the value, or `none` for `end()`. -/
def map_find {α : Type} (key : Nat) (m : List (Nat × α)) : Option α :=
  (m.find? (fun e => decide (e.1 = key))).map (fun e => e.2)

/-- `m61_find_free_space(allocation)`: the first free block that is large enough is taken
out of `free_memory` and its remainder put back; the result 0 is `nullptr`. -/
def m61_find_free_space (a : mem_track) (st : MState) : Nat × MState :=
  match st.free_memory.find? (fun it => decide (it.2 ≥ a.total_size ∧ a.sz > 0)) with
  | some it =>
    (it.1,
     { st with
       free_memory :=
         if it.2 > a.total_size then
           map_insert (it.1 + a.total_size) (it.2 - a.total_size) (map_erase it.1 st.free_memory)
         else map_erase it.1 st.free_memory })
  | none =>
    (0,
     { st with
       gstats := { st.gstats with
         nfail := st.gstats.nfail + 1
         fail_size := st.gstats.fail_size + a.sz } })

/-- The padding that `m61_malloc` computes (lines 117-120): the test
`sz + sizeof(random_int) % max_align != 0` is `sz + 8 != 0`. -/
def padding (sz : Nat) : Nat :=
  if sz + sizeof_random_int % max_align ≠ 0 then
    max_align - (sz + sizeof_random_int) % max_align
  else 0

/-- Lines 123-127 of `m61_malloc`: with both maps empty, `pos` is set from the first byte
of the buffer (a `char`) and the whole buffer becomes one free block. -/
def malloc_init (st : MState) : MState :=
  if st.active_map.isEmpty = true ∧ st.free_memory.isEmpty = true then
    { st with
      pos := WeensyOS.toU64
        ((if st.mem st.buffer % 256 < 128 then ((st.mem st.buffer % 256 : Nat) : Int)
          else ((st.mem st.buffer % 256 : Nat) : Int) - 256) + (buffer_size : Int))
      free_memory := map_insert st.buffer buffer_size st.free_memory }
  else st

/-- The bytes of an `unsigned long` in memory, least significant first. -/
def ulong_byte (v i : Nat) : Nat := v / 256 ^ i % 256

/-- Memory after `memcpy(dst, &random_int, sizeof(random_int))`. -/
def write_random_int (mem : Nat → Nat) (dst : Nat) : Nat → Nat :=
  fun a => if dst ≤ a ∧ a < dst + sizeof_random_int then ulong_byte random_int (a - dst) else mem a

/-- The statistics after a successful allocation of `sz` bytes at `ptr` (lines 134-148). -/
def malloc_stats (ptr sz : Nat) (g : m61_statistics) : m61_statistics :=
  { nactive := g.nactive + 1
    active_size := g.active_size + sz
    ntotal := g.ntotal + 1
    total_size := g.total_size + sz
    nfail := g.nfail
    fail_size := g.fail_size
    heap_min :=
      if ptr + sz > (if g.ntotal = 0 then ptr + sz else g.heap_max) then
        (if g.ntotal = 0 then ptr else g.heap_min)
      else if ptr < (if g.ntotal = 0 then ptr else g.heap_min) then ptr
      else (if g.ntotal = 0 then ptr else g.heap_min)
    heap_max :=
      if ptr + sz > (if g.ntotal = 0 then ptr + sz else g.heap_max) then ptr + sz
      else (if g.ntotal = 0 then ptr + sz else g.heap_max) }

/-- Lines 132-157 of `m61_malloc`, for a pointer `ptr` that is not null: the statistics,
the entry in `active_map`, the constant behind the block, and `pos`. -/
def malloc_commit (ptr : Nat) (a : mem_track) (st : MState) : MState :=
  { st with
    gstats := malloc_stats ptr a.sz st.gstats
    active_map := map_insert ptr a st.active_map
    mem := write_random_int st.mem (ptr + a.sz)
    pos := WeensyOS.toU64 ((WeensyOS.toInt32 (st.pos / max_align) + 1) * (max_align : Int)) }

/-- `m61_malloc(sz, file, line)`: the pointer (0 is `nullptr`) and the state after it. -/
def m61_malloc (sz file : Nat) (line : Int) (st : MState) : Nat × MState :=
  if sz > buffer_size ∨ sz = 0 then
    (0,
     { st with
       gstats := { st.gstats with
         nfail := st.gstats.nfail + 1
         fail_size := st.gstats.fail_size + sz } })
  else if (m61_find_free_space
      ⟨sz, padding sz, sz + padding sz + sizeof_random_int, file, line⟩ (malloc_init st)).1 = 0 then
    m61_find_free_space
      ⟨sz, padding sz, sz + padding sz + sizeof_random_int, file, line⟩ (malloc_init st)
  else
    ((m61_find_free_space
      ⟨sz, padding sz, sz + padding sz + sizeof_random_int, file, line⟩ (malloc_init st)).1,
     malloc_commit
      (m61_find_free_space
        ⟨sz, padding sz, sz + padding sz + sizeof_random_int, file, line⟩ (malloc_init st)).1
      ⟨sz, padding sz, sz + padding sz + sizeof_random_int, file, line⟩
      (m61_find_free_space
        ⟨sz, padding sz, sz + padding sz + sizeof_random_int, file, line⟩ (malloc_init st)).2)

/-- The first loop of `final_coalesce`: from the entry at index `i`, step down while the
entry before ends where this one starts (`can_coalesce_down`). -/
def coalesce_down_index (m : List (Nat × Nat)) : Nat → Nat
  | 0 => 0
  | i + 1 =>
    match m[i]?, m[i + 1]? with
    | some p, some c => if p.1 + p.2 = c.1 then coalesce_down_index m i else i + 1
    | _, _ => i + 1

/-- The second loop of `final_coalesce` on the block `(a, sz)` and the entries after it:
while the next entry starts where the block ends (`can_coalesce_up`), it is merged in. -/
def merge_up (a sz : Nat) : List (Nat × Nat) → List (Nat × Nat)
  | [] => [(a, sz)]
  | n :: rest => if a + sz = n.1 then merge_up a (sz + n.2) rest else (a, sz) :: n :: rest

/-- The second loop of `final_coalesce` run at the entry of index `i`. -/
def coalesce_up_at : Nat → List (Nat × Nat) → List (Nat × Nat)
  | _, [] => []
  | 0, e :: rest => merge_up e.1 e.2 rest
  | i + 1, e :: rest => e :: coalesce_up_at i rest

/-- `final_coalesce(ptr, sz)` on `free_memory`. -/
def final_coalesce (ptr sz : Nat) (m : List (Nat × Nat)) : List (Nat × Nat) :=
  coalesce_up_at
    (coalesce_down_index (map_insert ptr sz m)
      ((map_insert ptr sz m).findIdx (fun e => decide (e.1 = ptr))))
    (map_insert ptr sz m)

/-- The test `memcmp(ptr + sz, &random_int, sizeof(unsigned long)) == 0`. -/
def random_int_at (mem : Nat → Nat) (a : Nat) : Bool :=
  (List.range sizeof_random_int).all (fun i => decide (mem (a + i) % 256 = ulong_byte random_int i))

/-- `m61_free(ptr, file, line)`; `none` is `abort()`. -/
def m61_free (ptr : Nat) (st : MState) : Option MState :=
  if ptr = 0 then some st
  else if ptr < st.gstats.heap_min ∨ ptr > st.gstats.heap_max then none
  else if (map_find ptr st.free_memory).isSome = true then none
  else
    match map_find ptr st.active_map with
    | none => none
    | some a =>
      if random_int_at st.mem (ptr + a.sz) = false ∧ (ptr + a.sz % max_align) % 2 ^ 64 ≠ 0 then none
      else
        some
          { st with
            gstats := { st.gstats with
              nactive := st.gstats.nactive - 1
              active_size := st.gstats.active_size - a.sz }
            active_map := map_erase ptr st.active_map
            free_memory := final_coalesce ptr a.total_size st.free_memory }

/-- The bytes that `memcpy(dst, src, n)` leaves, when it is defined: both ranges must lie
in the memory the program owns, here the buffer, and must not overlap; otherwise the
behaviour is undefined (`none`). -/
def memcpy_checked (st : MState) (dst src n : Nat) : Option (Nat → Nat) :=
  if n = 0 then some st.mem
  else if st.buffer ≤ dst ∧ dst + n ≤ st.buffer + buffer_size ∧
      st.buffer ≤ src ∧ src + n ≤ st.buffer + buffer_size ∧
      (dst + n ≤ src ∨ src + n ≤ dst) then
    some (fun a => if dst ≤ a ∧ a < dst + n then st.mem (src + (a - dst)) else st.mem a)
  else none

/-- `m61_realloc(ptr, sz, file, line)`: the returned pointer and the state after it. -/
def m61_realloc (ptr sz file : Nat) (line : Int) (st : MState) : Option (Nat × MState) :=
  if ptr = 0 then some (m61_malloc sz file line st)
  else
    match memcpy_checked (m61_malloc sz file line st).2 (m61_malloc sz file line st).1 ptr sz with
    | none => none
    | some m =>
      (m61_free ptr { (m61_malloc sz file line st).2 with mem := m }).map
        (fun st2 => ((m61_malloc sz file line st).1, st2))

/-- The allocator before the first call: the buffer at `0x7f0000000000`, both maps empty,
all statistics 0. -/
def m_init : MState :=
  ⟨0x7f0000000000, 0, [], [], ⟨0, 0, 0, 0, 0, 0, 0, 0⟩, fun a => a % 251⟩

/-- The state after `ptr = m61_malloc(10)` and `memcpy(ptr, "CS61!", 5)` (lines 11-12 of
`test52.cc`). -/
def m_test52 : MState :=
  { (m61_malloc 10 0 11 m_init).2 with
    mem := fun a =>
      if a = 0x7f0000000000 then 67 else if a = 0x7f0000000001 then 83
      else if a = 0x7f0000000002 then 54 else if a = 0x7f0000000003 then 49
      else if a = 0x7f0000000004 then 33 else (m61_malloc 10 0 11 m_init).2.mem a }

/-- The state after `a = m61_malloc(4 MiB)`, `b = m61_malloc(16)` and `m61_free(a)`. -/
def m_tail : Option MState :=
  m61_free 0x7f0000000000 (m61_malloc 16 0 2 (m61_malloc (4 * 2 ^ 20) 0 1 m_init).2).2

/-- `m61_calloc(count, sz, file, line)`: the product `count * sz` is computed in `size_t`,
that is modulo `2^64`. -/
def m61_calloc (count sz file : Nat) (line : Int) (st : MState) : Nat × MState :=
  if count ≠ 0 ∧ (count * sz % 2 ^ 64) / count ≠ sz then
    (0, { st with gstats := { st.gstats with nfail := st.gstats.nfail + 1 } })
  else if (m61_malloc (count * sz % 2 ^ 64) file line st).1 ≠ 0 then
    ((m61_malloc (count * sz % 2 ^ 64) file line st).1,
     { (m61_malloc (count * sz % 2 ^ 64) file line st).2 with
       mem := WeensyOS.memset (m61_malloc (count * sz % 2 ^ 64) file line st).2.mem
         (m61_malloc (count * sz % 2 ^ 64) file line st).1 0 (count * sz % 2 ^ 64) })
  else m61_malloc (count * sz % 2 ^ 64) file line st

/-! ## Heap well-formedness -/

/-- Whether the address `a` lies in the block `b`, given by its first address and its
size. -/
def in_block (a : Nat) (b : Nat × Nat) : Bool := decide (b.1 ≤ a ∧ a < b.1 + b.2)

/-- The number of blocks of `l` in which the address `a` lies. -/
def holders (a : Nat) (l : List (Nat × Nat)) : Nat := l.countP (in_block a)

/-- The blocks recorded in `active_map`: each extends `total_size` bytes from its pointer. -/
def active_blocks (m : List (Nat × mem_track)) : List (Nat × Nat) :=
  m.map (fun e => (e.1, e.2.total_size))

/-- All blocks of the heap: the active ones, then those of `free_memory`. -/
def blocks (st : MState) : List (Nat × Nat) := active_blocks st.active_map ++ st.free_memory

/-- A block of positive size, a multiple of `max_align`, that starts at a multiple of
`max_align` from the address `buffer`. -/
def block_ok (buffer : Nat) (b : Nat × Nat) : Prop :=
  0 < b.2 ∧ (∃ n, b.2 = max_align * n) ∧ ∃ k, b.1 = buffer + max_align * k

/-- A call of `m61_malloc` or of `m61_free`. -/
inductive call where
  | malloc (sz file : Nat) (line : Int)
  | free (ptr : Nat)

/-- The state after one call; `none` when the call aborts. -/
def call.run : call → MState → Option MState
  | call.malloc sz file line, st => some (m61_malloc sz file line st).2
  | call.free ptr, st => m61_free ptr st

/-- The state after a sequence of calls, `none` when one of them aborts. -/
def run_calls : List call → MState → Option MState
  | [], st => some st
  | c :: cs, st => (c.run st).bind (run_calls cs)

/-- Heap well-formedness: every block lies in the buffer, the blocks are pairwise disjoint,
every byte of the buffer lies in a block, no free block ends where a free block starts,
and every block starts at a multiple of `max_align` from the start of the buffer. -/
structure well_formed (st : MState) : Prop where
  inside : ∀ b ∈ blocks st, st.buffer ≤ b.1 ∧ b.1 + b.2 ≤ st.buffer + buffer_size
  disjoint : (blocks st).Pairwise (fun x y => x.1 + x.2 ≤ y.1 ∨ y.1 + y.2 ≤ x.1)
  cover : ∀ a, st.buffer ≤ a → a < st.buffer + buffer_size →
    ∃ b ∈ blocks st, b.1 ≤ a ∧ a < b.1 + b.2
  coalesced : ∀ x ∈ st.free_memory, ∀ y ∈ st.free_memory, x.1 + x.2 ≠ y.1
  aligned : ∀ b ∈ blocks st, (b.1 - st.buffer) % max_align = 0

/-- The invariant of the two maps that `m61_malloc` and `m61_free` keep: the free blocks
lie in the order of their addresses with a gap between any two, the keys of `active_map`
are in order, every block has a positive size that is a multiple of `max_align` and starts
at a multiple of `max_align` from the start of the buffer, and an address lies in exactly
one block when it is in the buffer and in none otherwise. -/
structure heap_inv (st : MState) : Prop where
  buffer_pos : 0 < st.buffer
  free_gap : st.free_memory.Pairwise (fun x y => x.1 + x.2 < y.1)
  active_sorted : st.active_map.Pairwise (fun x y => x.1 < y.1)
  sizes : ∀ b ∈ blocks st, block_ok st.buffer b
  tiling : ∀ a, holders a (blocks st)
    = if st.buffer ≤ a ∧ a < st.buffer + buffer_size then 1 else 0

/-- Five calls after `m61_malloc(10)` on the untouched allocator: two more allocations,
the first block freed, an allocation that fits into its place, and the second block
freed. -/
def m_calls : List call :=
  [call.malloc 20 0 2, call.malloc 100 0 3, call.free 0x7f0000000000, call.malloc 5 0 5,
    call.free (0x7f0000000000 + 32)]

/-- The state after `m61_malloc(10)` and the calls `m_calls`. -/
def m_heap : MState := (run_calls m_calls (m61_malloc 10 0 1 m_init).2).getD m_init

end M61

/-!
# The single-slot cache (pset4/io61.cc)

A shallow embedding of `io61_fill`, `io61_read`, `io61_flush`, `io61_writec` and
`io61_write`.  Offsets and sizes (`off_t`, `ssize_t`) are integers.  The bytes in `cbuf` and
in the caller's buffer play no part in the tags, the return values or the assertions and
are left out; each access to `cbuf` is checked against the bounds of the array.  The system
calls `read` and `write` are not part of the sources: their results are taken from a script.
A failed `assert` and an access outside `cbuf` are the result `none`.
-/

namespace Pset4

/-- The cache block size, `io61_file::bufsize`. -/
def bufsize : Int := 8192

/-- The value of `O_RDONLY` in `<fcntl.h>`. -/
def O_RDONLY : Int := 0

/-- The value of `O_WRONLY` in `<fcntl.h>`. -/
def O_WRONLY : Int := 1

/-- The struct `io61_file`, without the bytes of `cbuf`. -/
structure io61_file where
  fd : Int
  mode : Int
  tag : Int
  end_tag : Int
  pos_tag : Int
  deriving DecidableEq, Repr

/-- The result of one call of `read`: the number of bytes delivered (at most the number
asked for; 0 at end of file), or the error return -1. -/
inductive read_result where
  | data (n : Nat)
  | error
  deriving DecidableEq, Repr

/-- The result of one call of `write`: the number of bytes accepted (at most the number
offered), the error return -1 with `errno` `EINTR` or `EAGAIN`, or -1 with another
`errno`. -/
inductive write_result where
  | accepted (n : Nat)
  | again
  | error
  deriving DecidableEq, Repr

/-- The results of the coming system calls on the descriptor.  When `reads` is used up,
`read` reports end of file; when `writes` is used up, `write` accepts all it is offered. -/
structure fd_script where
  reads : List read_result
  writes : List write_result
  deriving DecidableEq, Repr

/-- The two assertions "Check invariants" of `io61_fill`, `io61_read`, `io61_write` and
`io61_flush`. -/
def invariants (f : io61_file) : Prop :=
  (f.tag ≤ f.pos_tag ∧ f.pos_tag ≤ f.end_tag) ∧ f.end_tag - f.pos_tag ≤ bufsize

instance (f : io61_file) : Decidable (invariants f) := by
  unfold invariants
  infer_instance

/-- The conversion of a `size_t` to `ssize_t`. -/
def ssize_of (sz : Nat) : Int :=
  if sz % 2 ^ 64 < 2 ^ 63 then ((sz % 2 ^ 64 : Nat) : Int) else ((sz % 2 ^ 64 : Nat) : Int) - 2 ^ 64

/-- `io61_fill(f)`: the returned value, the file and the script after the call. -/
def io61_fill (f : io61_file) (w : fd_script) : Option (Int × io61_file × fd_script) :=
  match w.reads with
  | [] =>
    some (0, { f with tag := f.end_tag, pos_tag := f.end_tag, end_tag := f.end_tag + 0 }, w)
  | read_result.data n :: rs =>
    some (0,
      { f with tag := f.end_tag, pos_tag := f.end_tag, end_tag := f.end_tag + min (n : Int) bufsize },
      { w with reads := rs })
  | read_result.error :: rs =>
    if invariants { f with tag := f.end_tag, pos_tag := f.end_tag } then
      some (-1, { f with tag := f.end_tag, pos_tag := f.end_tag }, { w with reads := rs })
    else none

/-- The loop of `io61_read`, started with `pos` bytes read; `fuel` bounds the number of
iterations. -/
def read_loop (sz_read : Int) :
    Nat → Int → io61_file → fd_script → Option (Int × io61_file × fd_script)
  | 0, _, _, _ => none
  | fuel + 1, pos, f, w =>
    if pos < sz_read then
      match (if f.pos_tag = f.end_tag then (io61_fill f w).map (fun r => r.2) else some (f, w)) with
      | none => none
      | some (f1, w1) =>
        if f.pos_tag = f.end_tag ∧ f1.pos_tag = f1.end_tag then some (pos, f1, w1)
        else if f1.pos_tag < f1.end_tag then
          if 0 ≤ f1.pos_tag - f1.tag ∧
              f1.pos_tag - f1.tag + min (sz_read - pos) (f1.end_tag - f1.pos_tag) ≤ bufsize then
            read_loop sz_read fuel (pos + min (sz_read - pos) (f1.end_tag - f1.pos_tag))
              { f1 with pos_tag := f1.pos_tag + min (sz_read - pos) (f1.end_tag - f1.pos_tag) } w1
          else none
        else read_loop sz_read fuel pos f1 w1
    else some (pos, f, w)

/-- `io61_read(f, buf, sz)`: the returned value, the file and the script after the call.
Every iteration of the loop but the last reads at least one byte, so `sz + 1` iterations
are enough. -/
def io61_read (f : io61_file) (sz : Nat) (w : fd_script) :
    Option (Int × io61_file × fd_script) :=
  if invariants f then read_loop (ssize_of sz) ((ssize_of sz).toNat + 1) 0 f w else none

/-- The loop of `io61_flush`, started with `nwritten` bytes written: the final `nwritten`,
or `none` for the `return -1` in the loop, and the script that is left. -/
def flush_loop (nwanted : Int) : List write_result → Int → Option Int × List write_result
  | [], nwritten => (some (if nwritten < nwanted then nwanted else nwritten), [])
  | r :: rs, nwritten =>
    if nwritten < nwanted then
      match r with
      | write_result.accepted n =>
        flush_loop nwanted rs (nwritten + min (n : Int) (nwanted - nwritten))
      | write_result.again => flush_loop nwanted rs nwritten
      | write_result.error => (none, rs)
    else (some nwritten, r :: rs)

/-- `io61_flush(f)`: the returned value, the file and the script after the call. -/
def io61_flush (f : io61_file) (w : fd_script) : Option (Int × io61_file × fd_script) :=
  if invariants f then
    match flush_loop (f.pos_tag - f.tag) w.writes 0 with
    | (none, ws) => some (-1, f, { w with writes := ws })
    | (some nwritten, ws) =>
      if nwritten ≥ 0 then
        some (0, { f with tag := f.pos_tag, end_tag := f.end_tag + bufsize },
          { w with writes := ws })
      else some (-1, f, { w with writes := ws })
  else none

/-- `io61_writec(f, ch)`: the returned value, the file and the script after the call; the
byte goes to `cbuf[pos_tag - tag]`. -/
def io61_writec (f : io61_file) (w : fd_script) : Option (Int × io61_file × fd_script) :=
  match (if f.pos_tag = f.end_tag then io61_flush f w else some (0, f, w)) with
  | none => none
  | some (r, f1, w1) =>
    if r = -1 then some (-1, f1, w1)
    else if 0 ≤ f1.pos_tag - f1.tag ∧ f1.pos_tag - f1.tag < bufsize then
      some (0, { f1 with pos_tag := f1.pos_tag + 1 }, w1)
    else none

/-- The loop of `io61_write`, started with `pos` bytes taken; `fuel` bounds the number of
iterations. -/
def write_loop (sz_write : Int) :
    Nat → Int → io61_file → fd_script → Option (Int × io61_file × fd_script)
  | 0, _, _, _ => none
  | fuel + 1, pos, f, w =>
    if pos < sz_write then
      match (if f.pos_tag = f.end_tag then io61_flush f w else some (0, f, w)) with
      | none => none
      | some (r, f1, w1) =>
        if r = -1 then some (-1, f1, w1)
        else if f1.pos_tag - f1.tag < bufsize then
          if 0 ≤ f1.pos_tag - f1.tag then
            write_loop sz_write fuel
              (pos + min (sz_write - pos) (bufsize - (f1.pos_tag - f1.tag)))
              { f1 with
                pos_tag := f1.pos_tag + min (sz_write - pos) (bufsize - (f1.pos_tag - f1.tag))
                end_tag :=
                  if f1.pos_tag + min (sz_write - pos) (bufsize - (f1.pos_tag - f1.tag))
                      > f1.end_tag then
                    f1.pos_tag + min (sz_write - pos) (bufsize - (f1.pos_tag - f1.tag))
                  else f1.end_tag } w1
          else none
        else write_loop sz_write fuel pos f1 w1
    else some (pos, f, w)

/-- `io61_write(f, buf, sz)`: the returned value, the file and the script after the call;
running out of `fuel` stands for a loop that does not end. -/
def io61_write (f : io61_file) (sz : Nat) (w : fd_script) :
    Option (Int × io61_file × fd_script) :=
  if invariants f then
    if f.mode = O_RDONLY then some (-1, f, w)
    else write_loop (ssize_of sz) ((ssize_of sz).toNat + 1) 0 f w
  else none

/-- `n` calls of `io61_writec` in a row, each returning 0. -/
def writec_times : Nat → io61_file → fd_script → Option (io61_file × fd_script)
  | 0, f, w => some (f, w)
  | n + 1, f, w =>
    match io61_writec f w with
    | some (0, f1, w1) => writec_times n f1 w1
    | _ => none

/-- The tags of a file. -/
def tags (f : io61_file) : Int × Int × Int := (f.tag, f.pos_tag, f.end_tag)

/-- A write-only file just opened, with `tag = pos_tag = end_tag = 0`. -/
def f_fresh : io61_file := ⟨3, O_WRONLY, 0, 0, 0⟩

/-- The file `f_fresh` after `io61_writec` and `io61_flush`: one byte written and flushed. -/
def f_written : io61_file := ⟨3, O_WRONLY, 1, 16384, 1⟩

/-- A read-only file with an empty cache at offset 0. -/
def f_reader : io61_file := ⟨3, O_RDONLY, 0, 0, 0⟩

/-- A descriptor on which every `write` accepts all it is offered. -/
def w_ok : fd_script := ⟨[], []⟩

/-- A descriptor whose next `read` fails. -/
def w_read_error : fd_script := ⟨[read_result.error], []⟩

end Pset4

/-!
# Conditional chains of the shell (pset5/sh61.cc)

A shallow embedding of `run_conditional`.  What `run_pipeline` does to the processes is
outside this model: a pipeline carries the value that `run_pipeline` returns for it, and
the model records which pipelines of the chain are run.
-/

namespace Sh61

/-- The struct `pipeline` as `run_conditional` uses it: the flag `next_is_or` (set for the
connector `||` behind the pipeline, clear for `&&`), and the value `status` that
`run_pipeline` returns when the pipeline is run. -/
structure pipeline where
  next_is_or : Bool
  status : Int
  deriving DecidableEq, Repr

/-- The struct `conditional` as `run_conditional` uses it: the first pipeline, the pipelines
that follow it through `next_in_conditional`, and the flag `next`. -/
structure conditional where
  pipeline_child : pipeline
  rest : List pipeline
  next : Bool
  deriving DecidableEq, Repr

/-- The loop of `run_conditional` at the pipeline `pip`, with the pipelines behind it, the
current `reply` and `con->next`, and the record of the pipelines run so far: the returned
value, the final `con->next`, and for each pipeline whether it was run.  In
`pip->next_is_or == reply` the flag is converted to the `int` 0 or 1. -/
def run_loop : List pipeline → pipeline → Int → Bool → List Bool → Int × Bool × List Bool
  | [], pip, reply, next, ran =>
    (if next = true then pip.status else reply,
     decide ((if pip.next_is_or = true then (1 : Int) else 0)
       = (if next = true then pip.status else reply)),
     ran ++ [next])
  | p :: ps, pip, reply, next, ran =>
    run_loop ps p (if next = true then pip.status else reply)
      (decide ((if pip.next_is_or = true then (1 : Int) else 0)
        = (if next = true then pip.status else reply)))
      (ran ++ [next])

/-- `run_conditional(con)`: the returned value, the final `con->next`, and for each
pipeline of the chain whether it was run. -/
def run_conditional (con : conditional) : Int × Bool × List Bool :=
  run_loop con.rest con.pipeline_child 0 con.next []

/-- Short-circuit evaluation in the words of the specification, from the second pipeline
on: a pipeline is run if and only if the status of the most recently run pipeline is zero
when the connector before it is `&&`, or nonzero when the connector before it is `||`. -/
def spec_loop : List pipeline → Bool → Int → List Bool → Int × List Bool
  | [], _, last, ran => (last, ran)
  | p :: ps, is_or, last, ran =>
    if (is_or = false ∧ last = 0) ∨ (is_or = true ∧ last ≠ 0) then
      spec_loop ps p.next_is_or p.status (ran ++ [true])
    else spec_loop ps p.next_is_or last (ran ++ [false])

/-- Short-circuit evaluation in the words of the specification: the first pipeline is run,
the later ones as in `spec_loop`, and the value is the status of the last pipeline run. -/
def spec_conditional (con : conditional) : Int × List Bool :=
  spec_loop con.rest con.pipeline_child.next_is_or con.pipeline_child.status [true]

/-- The chain `a || b` with statuses `s` and `t`, as `parse_line` builds it (`next` set). -/
def or_chain (s t : Int) : conditional := ⟨⟨true, s⟩, [⟨false, t⟩], true⟩

end Sh61

/-!
# File range locks (pset6/io61.cc)

A shallow embedding of `find`, `may_overlap_with_other_lock` and `io61_try_lock`.  Of the
struct `io61_file` only the vector `rmap` is used by these functions; the mutex is held for
the whole call and is left out.  Thread ids are natural numbers.  An uncaught
`std::out_of_range` from `vector::at` and a failed `assert` are the result `none`.
-/

namespace Pset6

/-- The size of a region lock, `FINELOCKSIZE`. -/
def FINELOCKSIZE : Int := 16

/-- The value of `LOCK_SH` in `<sys/file.h>`. -/
def LOCK_SH : Int := 1

/-- The value of `LOCK_EX` in `<sys/file.h>`. -/
def LOCK_EX : Int := 2

/-- The struct `map_region`. -/
structure map_region where
  reg_num : Int
  owner : Nat
  locked : Nat
  deriving DecidableEq, Repr

/-- The struct `io61_file`, reduced to `rmap`. -/
structure io61_file where
  rmap : List map_region
  deriving DecidableEq, Repr

/-- The conversion of an integer value to `int`. -/
def to_int (z : Int) : Int := (z + 2 ^ 31) % 2 ^ 32 - 2 ^ 31

/-- `file_region(off)`, `(int) (off / FINELOCKSIZE)`. -/
def file_region (off : Int) : Int := to_int (Int.tdiv off FINELOCKSIZE)

/-- The loop of `find`, at index `i`. -/
def find_from (n : Int) : List map_region → Int → Int
  | [], _ => -1
  | r :: rs, i => if r.reg_num = n then i else find_from n rs (i + 1)

/-- `find(map, n)`: the index of the first region with number `n`, or -1. -/
def find (map : List map_region) (n : Int) : Int := find_from n map 0

/-- `vector::at(i)` for an `int` index: converted to `size_t`, a negative index is beyond
the size of any vector. -/
def at_index (map : List map_region) (i : Int) : Option map_region :=
  if i < 0 then none else map[i.toNat]?

/-- The region numbers that `for (int ri = rstart; ri <= rend; ++ri)` visits. -/
def regions (rstart rend : Int) : List Int :=
  (List.range (rend - rstart + 1).toNat).map (fun i => rstart + (i : Int))

/-- The loop of `may_overlap_with_other_lock` for the thread `me`: the result and `rmap`
after it. -/
def overlap_loop (me : Nat) : List Int → List map_region → Option (Bool × List map_region)
  | [], rmap => some (false, rmap)
  | ri :: ris, rmap =>
    if find rmap ri = -1 then overlap_loop me ris (rmap ++ [⟨ri, me, 0⟩])
    else
      match at_index rmap (find rmap ri) with
      | none => none
      | some region =>
        if region.locked > 0 ∧ region.owner ≠ me then some (true, rmap)
        else overlap_loop me ris rmap

/-- `may_overlap_with_other_lock(f, start, len)` called by the thread `me`. -/
def may_overlap_with_other_lock (f : io61_file) (me : Nat) (start len : Int) :
    Option (Bool × io61_file) :=
  (overlap_loop me (regions (file_region start) (file_region (start + len - 1))) f.rmap).map
    (fun r => (r.1, { f with rmap := r.2 }))

/-- The loop of `io61_try_lock` for the thread `me`: the returned value and `rmap` after
it. -/
def lock_loop (me : Nat) : List Int → List map_region → Option (Int × List map_region)
  | [], rmap => some (0, rmap)
  | ri :: ris, rmap =>
    if find rmap ri ≠ -1 then some (-1, rmap)
    else
      match at_index rmap (find rmap ri) with
      | none => none
      | some reg =>
        lock_loop me ris
          (rmap.eraseIdx (find rmap ri).toNat
            ++ [{ reg with locked := (reg.locked + 1) % 2 ^ 32, owner := me }])

/-- `io61_try_lock(f, start, len, locktype)` called by the thread `me`: the returned value
and the file after the call. -/
def io61_try_lock (f : io61_file) (me : Nat) (start len locktype : Int) :
    Option (Int × io61_file) :=
  if ¬ (start ≥ 0 ∧ len ≥ 0) then none
  else if ¬ (locktype = LOCK_EX ∨ locktype = LOCK_SH) then none
  else if len = 0 then some (0, f)
  else
    match may_overlap_with_other_lock f me start len with
    | none => none
    | some (true, f1) => some (-1, f1)
    | some (false, f1) =>
      (lock_loop me (regions (file_region start) (file_region (start + len - 1))) f1.rmap).map
        (fun r => (r.1, { f1 with rmap := r.2 }))

/-- A file on which no lock has been taken yet. -/
def f_unlocked : io61_file := ⟨[]⟩

end Pset6

namespace WeensyOS

open procstate_t

/-! ## Lemmas on the loops -/

theorem lt_steps_iff {n step i : Nat} (hstep : 0 < step) :
    i < (n + step - 1) / step ↔ i * step < n := by
  rw [Nat.lt_iff_add_one_le, Nat.le_div_iff_mul_le hstep, Nat.add_mul]
  omega

theorem mem_pageSteps {start stop step x : Nat} (hstep : 0 < step) :
    x ∈ pageSteps start stop step ↔ ∃ i, x = start + i * step ∧ x < stop := by
  unfold pageSteps
  simp only [List.mem_map, List.mem_range, lt_steps_iff hstep]
  constructor
  · rintro ⟨i, hi, rfl⟩
    exact ⟨i, rfl, by omega⟩
  · rintro ⟨i, rfl, hlt⟩
    exact ⟨i, by omega, rfl⟩

theorem dvd_of_mem_pageSteps {stop step x : Nat} (hstep : 0 < step)
    (h : x ∈ pageSteps 0 stop step) : step ∣ x ∧ x < stop := by
  obtain ⟨i, hx, hlt⟩ := (mem_pageSteps hstep).mp h
  exact ⟨⟨i, by rw [hx, Nat.zero_add, Nat.mul_comm]⟩, hlt⟩

theorem mem_pageSteps_zero {stop step x : Nat} (hstep : 0 < step) :
    x ∈ pageSteps 0 stop step ↔ step ∣ x ∧ x < stop := by
  constructor
  · exact dvd_of_mem_pageSteps hstep
  · rintro ⟨⟨i, rfl⟩, hlt⟩
    exact (mem_pageSteps hstep).mpr ⟨i, by rw [Nat.zero_add, Nat.mul_comm], hlt⟩

/-! ## kalloc -/

theorem kalloc_scan_none (k : KConsts) (s : KState) (l : List Nat)
    (h : ∀ pa ∈ l, ¬ (k.allocatable_physical_address pa = true ∧
      s.physpages (pa / k.PAGESIZE) = 0)) :
    kalloc_scan k s l = (0, s) := by
  induction l with
  | nil => rfl
  | cons a l ih =>
    rw [kalloc_scan, if_neg (h a (List.mem_cons_self a l))]
    exact ih (fun pa hpa => h pa (List.mem_cons_of_mem a hpa))

theorem kalloc_scan_some (k : KConsts) (s : KState) (l : List Nat)
    (h : ∃ pa ∈ l, k.allocatable_physical_address pa = true ∧
      s.physpages (pa / k.PAGESIZE) = 0) :
    ∃ pa ∈ l, k.allocatable_physical_address pa = true ∧ s.physpages (pa / k.PAGESIZE) = 0 ∧
      kalloc_scan k s l = (pa, kalloc_page k s pa) := by
  induction l with
  | nil => simp at h
  | cons a l ih =>
    by_cases ha : k.allocatable_physical_address a = true ∧ s.physpages (a / k.PAGESIZE) = 0
    · exact ⟨a, List.mem_cons_self a l, ha.1, ha.2, by rw [kalloc_scan, if_pos ha]⟩
    · obtain ⟨pa, hpa, hgood⟩ := h
      have hne : pa ≠ a := by
        rintro rfl
        exact ha hgood
      have hmem : pa ∈ l := by
        rcases List.mem_cons.mp hpa with h1 | h1
        · exact absurd h1 hne
        · exact h1
      obtain ⟨q, hq, h1, h2, h3⟩ := ih ⟨pa, hmem, hgood⟩
      exact ⟨q, List.mem_cons_of_mem a hq, h1, h2, by rw [kalloc_scan, if_neg ha, h3]⟩

/-- What a call of `kalloc` does: nothing (result `nullptr`), or it takes one free,
allocatable, page-aligned page below `MEMSIZE_PHYSICAL`. -/
theorem kalloc_cases (k : KConsts) (hk : k.wf) (sz : Nat) (s : KState) :
    kalloc k sz s = (0, s) ∨
    ∃ pa, pa ≠ 0 ∧ k.PAGESIZE ∣ pa ∧ pa < k.MEMSIZE_PHYSICAL ∧
      k.allocatable_physical_address pa = true ∧ s.physpages (pa / k.PAGESIZE) = 0 ∧
      kalloc k sz s = (pa, kalloc_page k s pa) := by
  unfold kalloc
  by_cases hsz : sz > k.PAGESIZE
  · left
    rw [if_pos hsz]
  · rw [if_neg hsz]
    by_cases h : ∃ pa ∈ pageSteps 0 k.MEMSIZE_PHYSICAL k.PAGESIZE,
        k.allocatable_physical_address pa = true ∧ s.physpages (pa / k.PAGESIZE) = 0
    · right
      obtain ⟨pa, hmem, h1, h2, h3⟩ := kalloc_scan_some k s _ h
      have hd := dvd_of_mem_pageSteps hk.1 hmem
      refine ⟨pa, ?_, hd.1, hd.2, h1, h2, h3⟩
      rintro rfl
      rw [hk.2.2.2.2] at h1
      exact Bool.false_ne_true h1
    · left
      apply kalloc_scan_none
      intro pa hpa hgood
      exact h ⟨pa, hpa, hgood⟩

theorem kalloc_page_physpages_self (k : KConsts) (s : KState) (pa : Nat) :
    (kalloc_page k s pa).physpages (pa / k.PAGESIZE) = s.physpages (pa / k.PAGESIZE) + 1 := by
  simp [kalloc_page]

theorem kalloc_page_physpages_other (k : KConsts) (s : KState) (pa q : Nat)
    (hq : q ≠ pa / k.PAGESIZE) : (kalloc_page k s pa).physpages q = s.physpages q := by
  simp [kalloc_page, Function.update_noteq hq]

theorem kalloc_page_mem_self (k : KConsts) (s : KState) (pa i : Nat) (hi : i < k.PAGESIZE) :
    (kalloc_page k s pa).mem (pa + i) = 0xCC := by
  simp [kalloc_page, memset, hi]

/-- With a free allocatable page and `sz <= PAGESIZE`, `kalloc` takes a page. -/
theorem kalloc_finds_free (k : KConsts) (hk : k.wf) (s : KState) (sz : Nat)
    (hsz : sz ≤ k.PAGESIZE)
    (hfree : ∃ pa, pa < k.MEMSIZE_PHYSICAL ∧ k.PAGESIZE ∣ pa ∧
      k.allocatable_physical_address pa = true ∧ s.physpages (pa / k.PAGESIZE) = 0) :
    ∃ pa, pa ≠ 0 ∧ k.PAGESIZE ∣ pa ∧ pa < k.MEMSIZE_PHYSICAL ∧
      k.allocatable_physical_address pa = true ∧ s.physpages (pa / k.PAGESIZE) = 0 ∧
      kalloc k sz s = (pa, kalloc_page k s pa) := by
  rcases kalloc_cases k hk sz s with h0 | h
  · exfalso
    obtain ⟨pa, hlt, hdvd, halloc, hrc⟩ := hfree
    have hmem : pa ∈ pageSteps 0 k.MEMSIZE_PHYSICAL k.PAGESIZE :=
      (mem_pageSteps_zero hk.1).mpr ⟨hdvd, hlt⟩
    obtain ⟨q, _, _, hq0, hq⟩ := kalloc_scan_some k s _ ⟨pa, hmem, halloc, hrc⟩
    have hkq : kalloc k sz s = (q, kalloc_page k s q) := by
      unfold kalloc
      rw [if_neg (by omega), hq]
    rw [hkq] at h0
    have h2 : (kalloc_page k s q).physpages (q / k.PAGESIZE) = s.physpages (q / k.PAGESIZE) := by
      rw [(Prod.mk.inj h0).2]
    rw [kalloc_page_physpages_self] at h2
    omega
  · exact h

/-- C5. `kalloc` success postcondition: for `sz <= PAGESIZE`, if some allocatable physical
page has refcount 0 then `kalloc(sz)` returns a non-null, page-aligned, allocatable address
below `MEMSIZE_PHYSICAL` whose refcount was 0 before the call and is exactly 1 after it,
every byte of that page is the sentinel `0xCC`, and the refcount of every other page is
unchanged. -/
theorem kalloc_success_postcondition (k : KConsts) (hk : k.wf) (s : KState) (sz : Nat)
    (hsz : sz ≤ k.PAGESIZE)
    (hfree : ∃ pa, pa < k.MEMSIZE_PHYSICAL ∧ k.PAGESIZE ∣ pa ∧
      k.allocatable_physical_address pa = true ∧ s.physpages (pa / k.PAGESIZE) = 0) :
    (kalloc k sz s).1 ≠ 0 ∧ k.PAGESIZE ∣ (kalloc k sz s).1 ∧
    (kalloc k sz s).1 < k.MEMSIZE_PHYSICAL ∧
    k.allocatable_physical_address (kalloc k sz s).1 = true ∧
    s.physpages ((kalloc k sz s).1 / k.PAGESIZE) = 0 ∧
    (kalloc k sz s).2.physpages ((kalloc k sz s).1 / k.PAGESIZE) = 1 ∧
    (∀ i, i < k.PAGESIZE → (kalloc k sz s).2.mem ((kalloc k sz s).1 + i) = 0xCC) ∧
    (∀ q, q ≠ (kalloc k sz s).1 / k.PAGESIZE →
      (kalloc k sz s).2.physpages q = s.physpages q) := by
  obtain ⟨pa, hne, hdvd, hlt, halloc, hrc, heq⟩ := kalloc_finds_free k hk s sz hsz hfree
  rw [heq]
  refine ⟨hne, hdvd, hlt, halloc, hrc, ?_, ?_, ?_⟩
  · show (kalloc_page k s pa).physpages (pa / k.PAGESIZE) = 1
    rw [kalloc_page_physpages_self, hrc]
  · intro i hi
    exact kalloc_page_mem_self k s pa i hi
  · intro q hq
    exact kalloc_page_physpages_other k s pa q hq

/-- The postcondition of `kalloc` at `s_boot`, for a request of 100 bytes. -/
theorem kalloc_success_postcondition_witness :
    (kalloc weensy 100 s_boot).1 ≠ 0 ∧ weensy.PAGESIZE ∣ (kalloc weensy 100 s_boot).1 ∧
    (kalloc weensy 100 s_boot).1 < weensy.MEMSIZE_PHYSICAL ∧
    weensy.allocatable_physical_address (kalloc weensy 100 s_boot).1 = true ∧
    s_boot.physpages ((kalloc weensy 100 s_boot).1 / weensy.PAGESIZE) = 0 ∧
    (kalloc weensy 100 s_boot).2.physpages ((kalloc weensy 100 s_boot).1 / weensy.PAGESIZE) = 1 ∧
    (∀ i, i < weensy.PAGESIZE →
      (kalloc weensy 100 s_boot).2.mem ((kalloc weensy 100 s_boot).1 + i) = 0xCC) ∧
    (∀ q, q ≠ (kalloc weensy 100 s_boot).1 / weensy.PAGESIZE →
      (kalloc weensy 100 s_boot).2.physpages q = s_boot.physpages q) :=
  kalloc_success_postcondition weensy (by decide) s_boot 100 (by decide)
    ⟨0x9000, by decide, by decide, by decide, by decide⟩

/-- C6. `kalloc` fails exactly when it must: `kalloc(sz)` returns `nullptr` if and only if
`sz > PAGESIZE` or no allocatable physical page has refcount 0; when it returns `nullptr`
no refcount is changed; a request with `sz < PAGESIZE` does exactly what a request for a
whole page does, and when it succeeds it consumes one whole page: the address returned is
page-aligned, the count of its page goes from 0 to 1 and no other count changes, all
`PAGESIZE` bytes of the page are filled with `0xCC`, and no later `kalloc` returns that
page again. -/
theorem kalloc_fails_iff (k : KConsts) (hk : k.wf) (s : KState) (sz : Nat) :
    ((kalloc k sz s).1 = 0 ↔
      (sz > k.PAGESIZE ∨ ¬ ∃ pa, pa < k.MEMSIZE_PHYSICAL ∧ k.PAGESIZE ∣ pa ∧
        k.allocatable_physical_address pa = true ∧ s.physpages (pa / k.PAGESIZE) = 0)) ∧
    ((kalloc k sz s).1 = 0 → (kalloc k sz s).2.physpages = s.physpages) ∧
    (sz < k.PAGESIZE → kalloc k sz s = kalloc k k.PAGESIZE s) ∧
    (sz < k.PAGESIZE → (kalloc k sz s).1 ≠ 0 →
      k.PAGESIZE ∣ (kalloc k sz s).1 ∧
      s.physpages ((kalloc k sz s).1 / k.PAGESIZE) = 0 ∧
      (kalloc k sz s).2.physpages ((kalloc k sz s).1 / k.PAGESIZE) = 1 ∧
      (∀ q, q ≠ (kalloc k sz s).1 / k.PAGESIZE →
        (kalloc k sz s).2.physpages q = s.physpages q) ∧
      (∀ i, i < k.PAGESIZE → (kalloc k sz s).2.mem ((kalloc k sz s).1 + i) = 0xCC) ∧
      (∀ sz2, (kalloc k sz2 (kalloc k sz s).2).1 ≠ (kalloc k sz s).1)) := by
  refine ⟨⟨?_, ?_⟩, ?_, ?_, ?_⟩
  · intro h0
    by_contra hcon
    push_neg at hcon
    obtain ⟨pa, hne, _, _, _, _, heq⟩ := kalloc_finds_free k hk s sz (by omega) hcon.2
    rw [heq] at h0
    exact hne h0
  · rintro (hsz | hno)
    · unfold kalloc
      rw [if_pos hsz]
    · rcases kalloc_cases k hk sz s with h0 | ⟨pa, _, hdvd, hlt, halloc, hrc, _⟩
      · rw [h0]
      · exact absurd ⟨pa, hlt, hdvd, halloc, hrc⟩ hno
  · intro h0
    rcases kalloc_cases k hk sz s with h1 | ⟨pa, hne, _, _, _, _, heq⟩
    · rw [h1]
    · rw [heq] at h0
      exact absurd h0 hne
  · intro hsz
    unfold kalloc
    rw [if_neg (by omega), if_neg (by omega)]
  · intro _ hne0
    rcases kalloc_cases k hk sz s with h1 | ⟨pa, hne, hdvd, _, _, hrc, heq⟩
    · rw [h1] at hne0
      exact absurd rfl hne0
    · rw [heq]
      have hone : (kalloc_page k s pa).physpages (pa / k.PAGESIZE) = 1 := by
        rw [kalloc_page_physpages_self, hrc]
      refine ⟨hdvd, hrc, hone, fun q hq => kalloc_page_physpages_other k s pa q hq,
        fun i hi => kalloc_page_mem_self k s pa i hi, ?_⟩
      intro sz2
      show (kalloc k sz2 (kalloc_page k s pa)).1 ≠ pa
      rcases kalloc_cases k hk sz2 (kalloc_page k s pa) with h2 | ⟨pb, _, _, _, _, hrcb, heqb⟩
      · rw [h2]
        exact Ne.symm hne
      · rw [heqb]
        intro hpb
        have hpb1 : pb = pa := hpb
        rw [hpb1, hone] at hrcb
        exact absurd hrcb (by decide)

/-- The three cases of `kalloc`: a request of 5000 bytes at `s_boot` is too large; a
request of 100 bytes at `s_full`, where no page is free, fails and changes no count; a
request of 100 bytes at `s_boot` does what a request of a whole page does and consumes the
whole page 9. -/
theorem kalloc_fails_iff_witness :
    (5000 > weensy.PAGESIZE ∧ (kalloc weensy 5000 s_boot).1 = 0 ∧
      (kalloc weensy 5000 s_boot).2.physpages = s_boot.physpages) ∧
    ((¬ ∃ pa, pa < weensy.MEMSIZE_PHYSICAL ∧ weensy.PAGESIZE ∣ pa ∧
        weensy.allocatable_physical_address pa = true ∧
        s_full.physpages (pa / weensy.PAGESIZE) = 0) ∧
      (kalloc weensy 100 s_full).1 = 0 ∧
      (kalloc weensy 100 s_full).2.physpages = s_full.physpages) ∧
    (100 < weensy.PAGESIZE ∧ (kalloc weensy 100 s_boot).1 = 0x9000 ∧
      kalloc weensy 100 s_boot = kalloc weensy weensy.PAGESIZE s_boot ∧
      weensy.PAGESIZE ∣ (kalloc weensy 100 s_boot).1 ∧
      s_boot.physpages ((kalloc weensy 100 s_boot).1 / weensy.PAGESIZE) = 0 ∧
      (kalloc weensy 100 s_boot).2.physpages ((kalloc weensy 100 s_boot).1 / weensy.PAGESIZE)
        = 1 ∧
      (∀ q, q ≠ (kalloc weensy 100 s_boot).1 / weensy.PAGESIZE →
        (kalloc weensy 100 s_boot).2.physpages q = s_boot.physpages q) ∧
      (∀ i, i < weensy.PAGESIZE →
        (kalloc weensy 100 s_boot).2.mem ((kalloc weensy 100 s_boot).1 + i) = 0xCC) ∧
      (∀ sz2, (kalloc weensy sz2 (kalloc weensy 100 s_boot).2).1
        ≠ (kalloc weensy 100 s_boot).1)) := by
  have hfull : ¬ ∃ pa, pa < weensy.MEMSIZE_PHYSICAL ∧ weensy.PAGESIZE ∣ pa ∧
      weensy.allocatable_physical_address pa = true ∧
      s_full.physpages (pa / weensy.PAGESIZE) = 0 := by
    rintro ⟨pa, _, _, _, h⟩
    exact Nat.one_ne_zero h
  have h9 : (kalloc weensy 100 s_boot).1 = 0x9000 := by decide!
  have hbig := (kalloc_fails_iff weensy (by decide) s_boot 5000).1.mpr (Or.inl (by decide))
  have hnone := (kalloc_fails_iff weensy (by decide) s_full 100).1.mpr (Or.inr hfull)
  exact ⟨⟨by decide, hbig, (kalloc_fails_iff weensy (by decide) s_boot 5000).2.1 hbig⟩,
    ⟨hfull, hnone, (kalloc_fails_iff weensy (by decide) s_full 100).2.1 hnone⟩,
    ⟨by decide, h9, (kalloc_fails_iff weensy (by decide) s_boot 100).2.2.1 (by decide),
      (kalloc_fails_iff weensy (by decide) s_boot 100).2.2.2 (by decide)
        (by rw [h9]; decide)⟩⟩

/-- C7. `kfree` releases one reference: for a page whose refcount `r` is at least 1,
`kfree` succeeds, leaves exactly that page's refcount at `r - 1` and changes no other
refcount (the page is free afterwards iff `r = 1`); for a page whose refcount is 0,
`kfree` is the fatal assertion failure and produces no state, so the count never wraps. -/
theorem kfree_releases_one_reference (k : KConsts) (s : KState) (kptr : Nat) :
    (1 ≤ s.physpages (kptr / k.PAGESIZE) →
      ∃ s1, kfree k kptr s = some s1 ∧
        s1.physpages (kptr / k.PAGESIZE) = s.physpages (kptr / k.PAGESIZE) - 1 ∧
        (∀ q, q ≠ kptr / k.PAGESIZE → s1.physpages q = s.physpages q) ∧
        (s1.physpages (kptr / k.PAGESIZE) = 0 ↔ s.physpages (kptr / k.PAGESIZE) = 1)) ∧
    (s.physpages (kptr / k.PAGESIZE) = 0 → kfree k kptr s = none) := by
  constructor
  · intro h
    refine ⟨_, by rw [kfree, if_pos (by omega)], ?_, ?_, ?_⟩
    · simp
    · intro q hq
      simp [Function.update_noteq hq]
    · simp
      omega
  · intro h
    rw [kfree, if_neg (by omega)]

/-- Releasing the data page `0x7000` of `s_boot`. -/
theorem kfree_releases_one_reference_witness :
    ∃ s1, kfree weensy 0x7000 s_boot = some s1 ∧
      s1.physpages (0x7000 / weensy.PAGESIZE) = s_boot.physpages (0x7000 / weensy.PAGESIZE) - 1 ∧
      (∀ q, q ≠ 0x7000 / weensy.PAGESIZE → s1.physpages q = s_boot.physpages q) ∧
      (s1.physpages (0x7000 / weensy.PAGESIZE) = 0 ↔
        s_boot.physpages (0x7000 / weensy.PAGESIZE) = 1) :=
  (kfree_releases_one_reference weensy s_boot 0x7000).1 (by decide)

/-! ## Allocation steps -/

theorem Stable.refl (k : KConsts) (s : KState) : Stable k s s :=
  ⟨fun _ => le_rfl, fun _ _ => rfl, fun _ h => by omega, fun _ _ => rfl, rfl, rfl⟩

theorem Stable.trans {k : KConsts} {s s1 s2 : KState} (h1 : Stable k s s1)
    (h2 : Stable k s1 s2) : Stable k s s2 where
  mono p := le_trans (h1.mono p) (h2.mono p)
  used p hp := by
    rw [h2.used p (by rw [h1.used p hp]; exact hp), h1.used p hp]
  fresh p hp := by
    rcases Nat.eq_zero_or_pos (s1.physpages p) with h0 | hpos
    · exact h2.fresh p h0
    · rw [h2.used p hpos]
      exact h1.fresh p hp
  mem a ha := by
    rw [h2.mem a (by rw [h1.used _ ha]; exact ha), h1.mem a ha]
  ptable := by rw [h2.ptable, h1.ptable]
  current := by rw [h2.current, h1.current]

theorem page_of_mem_range {P pa a : Nat} (hP : 0 < P) (hdvd : P ∣ pa) :
    (pa ≤ a ∧ a < pa + P) ↔ a / P = pa / P := by
  obtain ⟨q, rfl⟩ := hdvd
  rw [Nat.mul_div_cancel_left q hP]
  constructor
  · rintro ⟨h1, h2⟩
    apply Nat.div_eq_of_lt_le
    · rw [Nat.mul_comm]; exact h1
    · rw [Nat.add_mul, Nat.one_mul, Nat.mul_comm]; exact h2
  · intro h
    have h1 := Nat.div_add_mod a P
    have h2 := Nat.mod_lt a hP
    rw [h] at h1
    constructor <;> omega

/-- Taking the free page at `pa` (and then writing only inside that page) is a stable
step. -/
theorem stable_take (k : KConsts) (_hk : k.wf) (s : KState) (pa : Nat) (m : Nat → Nat)
    (_hdvd : k.PAGESIZE ∣ pa) (hfree : s.physpages (pa / k.PAGESIZE) = 0)
    (hm : ∀ a, a / k.PAGESIZE ≠ pa / k.PAGESIZE → m a = s.mem a) :
    Stable k s { kalloc_page k s pa with mem := m } where
  mono p := by
    by_cases hp : p = pa / k.PAGESIZE
    · subst hp
      show _ ≤ (kalloc_page k s pa).physpages _
      rw [kalloc_page_physpages_self]
      omega
    · show _ ≤ (kalloc_page k s pa).physpages _
      rw [kalloc_page_physpages_other k s pa p hp]
  used p hp := by
    have hne : p ≠ pa / k.PAGESIZE := by
      rintro rfl
      omega
    exact kalloc_page_physpages_other k s pa p hne
  fresh p hp := by
    by_cases hpp : p = pa / k.PAGESIZE
    · subst hpp
      show (kalloc_page k s pa).physpages _ ≤ 1
      rw [kalloc_page_physpages_self]
      omega
    · show (kalloc_page k s pa).physpages _ ≤ 1
      rw [kalloc_page_physpages_other k s pa p hpp]
      omega
  mem a ha := by
    apply hm
    intro h
    rw [h] at ha
    omega
  ptable := rfl
  current := rfl

theorem memset_other (k : KConsts) (hk : k.wf) (m : Nat → Nat) (pa v a : Nat)
    (hdvd : k.PAGESIZE ∣ pa) (ha : a / k.PAGESIZE ≠ pa / k.PAGESIZE) :
    memset m pa v k.PAGESIZE a = m a := by
  unfold memset
  rw [if_neg]
  rw [page_of_mem_range hk.1 hdvd]
  exact ha

theorem memcpy_other (k : KConsts) (hk : k.wf) (m : Nat → Nat) (pa src a : Nat)
    (hdvd : k.PAGESIZE ∣ pa) (ha : a / k.PAGESIZE ≠ pa / k.PAGESIZE) :
    memcpy m pa src k.PAGESIZE a = m a := by
  unfold memcpy
  rw [if_neg]
  rw [page_of_mem_range hk.1 hdvd]
  exact ha

theorem kalloc_stable (k : KConsts) (hk : k.wf) (sz : Nat) (s : KState) :
    Stable k s (kalloc k sz s).2 := by
  rcases kalloc_cases k hk sz s with h | ⟨pa, _, hdvd, _, _, hfree, h⟩
  · rw [h]
    exact Stable.refl k s
  · rw [h]
    exact stable_take k hk s pa _ hdvd hfree (fun a ha => memset_other k hk s.mem pa _ a hdvd ha)

/-- What `kalloc_pagetable` does: nothing (result `nullptr`), or it takes one free page. -/
theorem kalloc_pagetable_cases (k : KConsts) (hk : k.wf) (s : KState) :
    kalloc_pagetable k s = (0, s) ∨
    ∃ pa, pa ≠ 0 ∧ k.PAGESIZE ∣ pa ∧ s.physpages (pa / k.PAGESIZE) = 0 ∧
      (kalloc_pagetable k s).1 = pa ∧
      (kalloc_pagetable k s).2.physpages (pa / k.PAGESIZE) = 1 ∧
      (∀ p, p ≠ pa / k.PAGESIZE → (kalloc_pagetable k s).2.physpages p = s.physpages p) ∧
      Stable k s (kalloc_pagetable k s).2 := by
  unfold kalloc_pagetable
  rcases kalloc_cases k hk k.PAGESIZE s with h | ⟨pa, hne, hdvd, _, _, hfree, h⟩
  · left
    rw [h]
    simp
  · right
    rw [h]
    simp only [if_neg hne]
    refine ⟨pa, hne, hdvd, hfree, rfl, ?_, ?_, ?_⟩
    · show (kalloc_page k s pa).physpages _ = 1
      rw [kalloc_page_physpages_self, hfree]
    · intro p hp
      exact kalloc_page_physpages_other k s pa p hp
    · exact stable_take k hk s pa _ hdvd hfree (fun a ha => by
        rw [memset_other k hk _ pa _ a hdvd ha]
        exact memset_other k hk s.mem pa _ a hdvd ha)

theorem innercnt_append (k : KConsts) (l : List (Nat × Nat)) (e : Nat × Nat) (p : Nat) :
    innercnt k (l ++ [e]) p = innercnt k l p + (if e.2 / k.PAGESIZE = p then 1 else 0) := by
  unfold innercnt
  rw [List.countP_append]
  by_cases h : e.2 / k.PAGESIZE = p <;> simp [List.countP_cons, h]

theorem try_map_tables_spec (k : KConsts) (hk : k.wf) :
    ∀ (keys : List Nat) (T : x86_64_pagetable) (s : KState),
    ((try_map_tables k keys T s).1 = 0 ∨ (try_map_tables k keys T s).1 = -1) ∧
    Stable k s (try_map_tables k keys T s).2.2 ∧
    (try_map_tables k keys T s).2.1.top = T.top ∧
    (try_map_tables k keys T s).2.1.leaf = T.leaf ∧
    (∀ p, (try_map_tables k keys T s).2.2.physpages p + innercnt k T.inner p =
      s.physpages p + innercnt k (try_map_tables k keys T s).2.1.inner p) ∧
    (∀ e ∈ (try_map_tables k keys T s).2.1.inner,
      e ∈ T.inner ∨ s.physpages (e.2 / k.PAGESIZE) = 0) := by
  intro keys
  induction keys with
  | nil =>
    intro T s
    exact ⟨Or.inl rfl, Stable.refl k s, rfl, rfl, fun _ => rfl, fun e he => Or.inl he⟩
  | cons key keys ih =>
    intro T s
    rw [try_map_tables]
    by_cases hany : (T.inner.any fun e => decide (e.1 = key)) = true
    · rw [if_pos hany]
      exact ih T s
    · rw [if_neg hany]
      rcases kalloc_pagetable_cases k hk s with h0 | ⟨pa, hne, hdvd, hfree, h1, hrc1, hrco, hst⟩
      · have h01 : (kalloc_pagetable k s).1 = 0 := by rw [h0]
        rw [if_pos h01, h0]
        exact ⟨Or.inr rfl, Stable.refl k s, rfl, rfl, fun _ => rfl, fun e he => Or.inl he⟩
      · subst h1
        rw [if_neg hne]
        obtain ⟨a1, a2, a3, a4, a5, a6⟩ :=
          ih { T with inner := T.inner ++ [(key, (kalloc_pagetable k s).1)] }
            (kalloc_pagetable k s).2
        refine ⟨a1, hst.trans a2, a3, a4, ?_, ?_⟩
        · intro p
          have h5 := a5 p
          simp only [innercnt_append] at h5
          by_cases hp : (kalloc_pagetable k s).1 / k.PAGESIZE = p
          · subst hp
            rw [if_pos rfl, hrc1] at h5
            omega
          · rw [if_neg hp, hrco p (Ne.symm hp)] at h5
            omega
        · intro e he
          rcases a6 e he with h6 | h6
          · simp only [List.mem_append, List.mem_singleton] at h6
            rcases h6 with h6 | h6
            · exact Or.inl h6
            · right
              rw [h6]
              exact hfree
          · right
            have := hst.mono (e.2 / k.PAGESIZE)
            omega

theorem try_map_spec (k : KConsts) (hk : k.wf) (T : x86_64_pagetable) (va pa perm : Nat)
    (s : KState) (m : Int × x86_64_pagetable × KState)
    (hm : vmiter.try_map k T va pa perm s = m) :
    Stable k s m.2.2 ∧ m.2.1.top = T.top ∧
    (∀ p, m.2.2.physpages p + innercnt k T.inner p =
      s.physpages p + innercnt k m.2.1.inner p) ∧
    (∀ e ∈ m.2.1.inner, e ∈ T.inner ∨ s.physpages (e.2 / k.PAGESIZE) = 0) ∧
    ((m.1 < 0 ∧ m.2.1.leaf = T.leaf) ∨
     (¬ m.1 < 0 ∧ m.2.1.leaf = Function.update T.leaf (va / k.PAGESIZE) ⟨pa / k.PAGESIZE, perm⟩))
    := by
  obtain ⟨a1, a2, a3, a4, a5, a6⟩ := try_map_tables_spec k hk (k.ptpath va) T s
  unfold vmiter.try_map at hm
  by_cases hneg : (try_map_tables k (k.ptpath va) T s).1 < 0
  · rw [if_pos hneg] at hm
    subst hm
    exact ⟨a2, a3, a5, a6, Or.inl ⟨hneg, a4⟩⟩
  · rw [if_neg hneg] at hm
    subst hm
    refine ⟨a2, a3, a5, a6, Or.inr ⟨by simp, ?_⟩⟩
    simp only [a4]

/-! ## free_all -/

theorem kfree_some (k : KConsts) (s : KState) (kptr : Nat)
    (h : 1 ≤ s.physpages (kptr / k.PAGESIZE)) :
    ∃ s1, kfree k kptr s = some s1 ∧
      s1.physpages (kptr / k.PAGESIZE) = s.physpages (kptr / k.PAGESIZE) - 1 ∧
      (∀ q, q ≠ kptr / k.PAGESIZE → s1.physpages q = s.physpages q) ∧
      s1.ptable = s.ptable ∧ s1.current = s.current ∧ s1.mem = s.mem := by
  refine ⟨{ s with
      physpages := Function.update s.physpages (kptr / k.PAGESIZE)
        (s.physpages (kptr / k.PAGESIZE) - 1) }, by rw [kfree, if_pos (by omega)],
    ?_, ?_, rfl, rfl, rfl⟩
  · simp
  · intro q hq
    simp [Function.update_noteq hq]

theorem free_all_walk_spec (k : KConsts) (T : x86_64_pagetable) :
    ∀ (l : List Nat) (s : KState) (R : Nat → Nat),
    (∀ p, s.physpages p = R p + l.countP
      (fun va => decide (vmiter.perm k T va ≠ 0 ∧ vmiter.pa k T va / k.PAGESIZE = p))) →
    ∃ s1, free_all_walk k T l s = some s1 ∧ (∀ p, s1.physpages p = R p) ∧
      s1.ptable = s.ptable ∧ s1.current = s.current ∧ s1.mem = s.mem := by
  intro l
  induction l with
  | nil =>
    intro s R h
    exact ⟨s, rfl, fun p => by simpa using h p, rfl, rfl, rfl⟩
  | cons va l ih =>
    intro s R h
    rw [free_all_walk]
    by_cases hperm : vmiter.perm k T va ≠ 0
    · rw [if_pos hperm]
      have hge : 1 ≤ s.physpages (vmiter.pa k T va / k.PAGESIZE) := by
        rw [h, List.countP_cons_of_pos _ _ (by simpa using hperm)]
        omega
      obtain ⟨s1, h1, h2, h3, h4, h5, h6⟩ := kfree_some k s _ hge
      rw [h1]
      simp only [Option.some_bind]
      obtain ⟨s2, g1, g2, g3, g4, g5⟩ := ih s1 R (by
        intro p
        have hp := h p
        by_cases hpp : p = vmiter.pa k T va / k.PAGESIZE
        · subst hpp
          rw [List.countP_cons_of_pos _ _ (by simpa using hperm)] at hp
          rw [h2, hp]
          omega
        · rw [List.countP_cons_of_neg _ _ (by simpa using fun _ => Ne.symm hpp)] at hp
          rw [h3 p hpp, hp])
      exact ⟨s2, g1, g2, by rw [g3, h4], by rw [g4, h5], by rw [g5, h6]⟩
    · rw [if_neg hperm]
      apply ih s R
      intro p
      rw [h p, List.countP_cons_of_neg _ _ (by simpa using fun h1 => absurd h1 hperm)]

theorem free_all_ptiter_spec (k : KConsts) :
    ∀ (l : List (Nat × Nat)) (s : KState) (R : Nat → Nat),
    (∀ p, s.physpages p = R p + innercnt k l p) →
    ∃ s1, free_all_ptiter k l s = some s1 ∧ (∀ p, s1.physpages p = R p) ∧
      s1.ptable = s.ptable ∧ s1.current = s.current ∧ s1.mem = s.mem := by
  intro l
  induction l with
  | nil =>
    intro s R h
    exact ⟨s, rfl, fun p => by simpa [innercnt] using h p, rfl, rfl, rfl⟩
  | cons e l ih =>
    intro s R h
    rw [free_all_ptiter]
    have hge : 1 ≤ s.physpages (e.2 / k.PAGESIZE) := by
      rw [h, innercnt, List.countP_cons_of_pos _ _ (by simp)]
      omega
    obtain ⟨s1, h1, h2, h3, h4, h5, h6⟩ := kfree_some k s _ hge
    rw [h1]
    simp only [Option.some_bind]
    obtain ⟨s2, g1, g2, g3, g4, g5⟩ := ih s1 R (by
      intro p
      have hp := h p
      unfold innercnt at hp ⊢
      by_cases hpp : p = e.2 / k.PAGESIZE
      · subst hpp
        rw [List.countP_cons_of_pos _ _ (by simp)] at hp
        rw [h2, hp]
        omega
      · rw [List.countP_cons_of_neg _ _ (by simpa using Ne.symm hpp)] at hp
        rw [h3 p hpp, hp])
    exact ⟨s2, g1, g2, by rw [g3, h4], by rw [g4, h5], by rw [g5, h6]⟩

/-- `free_all` on a table whose pages carry, on top of the counts `R`, exactly the
references the table holds: no assertion fails and the counts are `R` again. -/
theorem free_all_spec (k : KConsts) (c : Nat) (s : KState) (T : x86_64_pagetable)
    (R : Nat → Nat) (hT : (s.ptable c).pagetable = some T)
    (h : ∀ p, s.physpages p = R p + cnt k T p) :
    ∃ s1, free_all k c s = some s1 ∧ (∀ p, s1.physpages p = R p) ∧
      s1.ptable = Function.update s.ptable c
        { s.ptable c with pagetable := none, state := P_FREE } ∧
      s1.current = s.current ∧ s1.mem = s.mem := by
  unfold free_all
  rw [hT]
  simp only
  obtain ⟨s1, h1, h2, h3, h4, h5⟩ := free_all_walk_spec k T (proc_region k) s
    (fun p => R p + innercnt k T.inner p + (if T.top / k.PAGESIZE = p then 1 else 0)) (by
      intro p
      rw [h p]
      unfold cnt leafcnt
      beta_reduce
      omega)
  obtain ⟨s2, g1, g2, g3, g4, g5⟩ := free_all_ptiter_spec k T.inner s1
    (fun p => R p + (if T.top / k.PAGESIZE = p then 1 else 0)) (by
      intro p
      rw [h2 p]
      beta_reduce
      omega)
  have hge : 1 ≤ s2.physpages (T.top / k.PAGESIZE) := by
    rw [g2]
    simp
  obtain ⟨s3, f1, f2, f3, f4, f5, f6⟩ := kfree_some k s2 T.top hge
  have hw : free_all_walk k T (pageSteps k.PROC_START_ADDR k.MEMSIZE_VIRTUAL k.PAGESIZE) s
      = some s1 := h1
  rw [hw]
  simp only [Option.some_bind, g1, f1, Option.map_some']
  refine ⟨_, rfl, ?_, ?_, ?_, ?_⟩
  · intro p
    show s3.physpages p = R p
    by_cases hp : p = T.top / k.PAGESIZE
    · subst hp
      rw [f2, g2]
      simp
    · rw [f3 p hp, g2]
      simp [Ne.symm hp]
  · show Function.update s3.ptable c _ = _
    rw [f4, g3, h3]
  · show s3.current = _
    rw [f5, g4, h4]
  · show s3.mem = _
    rw [f6, g5, h5]

/-! ## The process region and the leaf count -/

theorem mem_proc_region (k : KConsts) (hk : k.wf) (va : Nat) :
    va ∈ proc_region k ↔
      k.PROC_START_ADDR ≤ va ∧ va < k.MEMSIZE_VIRTUAL ∧ k.PAGESIZE ∣ va := by
  unfold proc_region
  rw [mem_pageSteps hk.1]
  obtain ⟨a, ha⟩ := hk.2.2.1
  constructor
  · rintro ⟨i, rfl, hlt⟩
    refine ⟨by omega, hlt, ⟨a + i, ?_⟩⟩
    rw [ha]
    ring
  · rintro ⟨h1, h2, ⟨b, rfl⟩⟩
    have hab : a ≤ b := by
      rw [ha] at h1
      exact Nat.le_of_mul_le_mul_left h1 hk.1
    refine ⟨b - a, ?_, h2⟩
    rw [ha, Nat.sub_mul, Nat.mul_comm a, Nat.mul_comm b]
    have := Nat.mul_le_mul_right k.PAGESIZE hab
    omega

theorem pageSteps_nodup (start stop step : Nat) (hstep : 0 < step) :
    (pageSteps start stop step).Nodup := by
  unfold pageSteps
  apply List.Nodup.map
  · intro i j hij
    simp only [Nat.add_left_cancel_iff] at hij
    exact Nat.eq_of_mul_eq_mul_right hstep hij
  · exact List.nodup_range _

theorem vpn_inj (k : KConsts) (_hk : k.wf) {va vb : Nat} (ha : k.PAGESIZE ∣ va)
    (hb : k.PAGESIZE ∣ vb) (h : va / k.PAGESIZE = vb / k.PAGESIZE) : va = vb := by
  rw [← Nat.div_mul_cancel ha, ← Nat.div_mul_cancel hb, h]

theorem vpn_lt_of_kernel (k : KConsts) (hk : k.wf) {va vb : Nat}
    (ha : va < k.PROC_START_ADDR) (hb : vb ∈ proc_region k) :
    vb / k.PAGESIZE ≠ va / k.PAGESIZE := by
  obtain ⟨h1, _, _⟩ := (mem_proc_region k hk vb).mp hb
  obtain ⟨a, ha1⟩ := hk.2.2.1
  intro h
  have h2 : a ≤ vb / k.PAGESIZE := by
    rw [Nat.le_div_iff_mul_le hk.1, Nat.mul_comm, ← ha1]
    exact h1
  have h3 : va / k.PAGESIZE < a := by
    rw [Nat.div_lt_iff_lt_mul hk.1, Nat.mul_comm, ← ha1]
    exact ha
  omega

theorem countP_change_one {α : Type} (l : List α) (f g : α → Bool) (x : α)
    (hnd : l.Nodup) (hx : x ∈ l) (hf : f x = false) (hg : g x = true)
    (hother : ∀ y ∈ l, y ≠ x → g y = f y) : l.countP g = l.countP f + 1 := by
  induction l with
  | nil => simp at hx
  | cons a l ih =>
    rw [List.nodup_cons] at hnd
    by_cases hax : a = x
    · subst hax
      rw [List.countP_cons_of_pos _ _ hg, List.countP_cons_of_neg _ _ (by simp [hf])]
      congr 1
      apply List.countP_congr
      intro y hy
      have hne : y ≠ a := by
        rintro rfl
        exact hnd.1 hy
      rw [hother y (List.mem_cons_of_mem _ hy) hne]
    · have hxl : x ∈ l := by
        rcases List.mem_cons.mp hx with h | h
        · exact absurd h.symm hax
        · exact h
      have hga : g a = f a := hother a (List.mem_cons_self a l) hax
      have ih1 := ih hnd.2 hxl (fun y hy hne => hother y (List.mem_cons_of_mem _ hy) hne)
      simp only [List.countP_cons, hga, ih1]
      omega

theorem perm_of_leaf_eq (k : KConsts) (T T1 : x86_64_pagetable) (va : Nat)
    (h : T1.leaf (va / k.PAGESIZE) = T.leaf (va / k.PAGESIZE)) :
    vmiter.perm k T1 va = vmiter.perm k T va ∧ vmiter.pa k T1 va = vmiter.pa k T va := by
  unfold vmiter.perm vmiter.pa
  rw [h]
  exact ⟨rfl, rfl⟩

theorem leafcnt_congr (k : KConsts) (T T1 : x86_64_pagetable) (p : Nat)
    (h : ∀ va ∈ proc_region k, T1.leaf (va / k.PAGESIZE) = T.leaf (va / k.PAGESIZE)) :
    leafcnt k T1 p = leafcnt k T p := by
  unfold leafcnt
  apply List.countP_congr
  intro va hva
  obtain ⟨h1, h2⟩ := perm_of_leaf_eq k T T1 va (h va hva)
  rw [h1, h2]

theorem leafcnt_update_kernel (k : KConsts) (hk : k.wf) (T T1 : x86_64_pagetable)
    (va : Nat) (e : PTE) (p : Nat) (hva : va < k.PROC_START_ADDR)
    (hleaf : T1.leaf = Function.update T.leaf (va / k.PAGESIZE) e) :
    leafcnt k T1 p = leafcnt k T p := by
  apply leafcnt_congr
  intro vb hvb
  rw [hleaf, Function.update_noteq (vpn_lt_of_kernel k hk hva hvb)]

theorem perm_ne_zero_of_present {perm : Nat} (h : perm &&& PTE_P ≠ 0) : perm ≠ 0 := by
  rintro rfl
  simp at h

theorem leafcnt_update_proc (k : KConsts) (hk : k.wf) (T T1 : x86_64_pagetable)
    (va q perm p : Nat) (hva : va ∈ proc_region k) (habs : vmiter.perm k T va = 0)
    (hperm : perm &&& PTE_P ≠ 0)
    (hleaf : T1.leaf = Function.update T.leaf (va / k.PAGESIZE) ⟨q, perm⟩) :
    leafcnt k T1 p = leafcnt k T p + (if q = p then 1 else 0) := by
  obtain ⟨_, _, hdvd⟩ := (mem_proc_region k hk va).mp hva
  have hother : ∀ vb ∈ proc_region k, vb ≠ va →
      T1.leaf (vb / k.PAGESIZE) = T.leaf (vb / k.PAGESIZE) := by
    intro vb hvb hne
    rw [hleaf, Function.update_noteq]
    intro h
    exact hne (vpn_inj k hk ((mem_proc_region k hk vb).mp hvb).2.2 hdvd h)
  have hself : vmiter.perm k T1 va = perm ∧ vmiter.pa k T1 va / k.PAGESIZE = q := by
    unfold vmiter.perm vmiter.pa
    rw [hleaf, Function.update_same]
    simp only [if_pos hperm, true_and]
    rw [Nat.mod_eq_zero_of_dvd hdvd, Nat.add_zero, Nat.mul_div_cancel _ hk.1]
  by_cases hq : q = p
  · rw [if_pos hq]
    unfold leafcnt
    apply countP_change_one _ _ _ va (pageSteps_nodup _ _ _ hk.1) hva
    · simp [habs]
    · simp [hself.1, hself.2, hq, perm_ne_zero_of_present hperm]
    · intro vb hvb hne
      obtain ⟨h1, h2⟩ := perm_of_leaf_eq k T T1 vb (hother vb hvb hne)
      rw [h1, h2]
  · rw [if_neg hq, Nat.add_zero]
    unfold leafcnt
    apply List.countP_congr
    intro vb hvb
    by_cases hne : vb = va
    · subst hne
      simp [habs, hself.2, hq]
    · obtain ⟨h1, h2⟩ := perm_of_leaf_eq k T T1 vb (hother vb hvb hne)
      rw [h1, h2]

theorem adv_of_stable (k : KConsts) (R : Nat → Nat) (Pt : x86_64_pagetable) (s s1 : KState)
    (h : Stable k s s1) : Adv k R Pt s s1 where
  current := h.current
  mono := h.mono
  mem := h.mem
  keep _ p _ hp := h.used p hp
  fresh _ p _ hp := by
    rcases Nat.eq_zero_or_pos (s.physpages p) with h0 | hpos
    · exact h.fresh p h0
    · rw [h.used p hpos]
      exact hp

/-- The read-only branch: one more reference on a page the parent maps, then a stable
step. -/
theorem adv_of_share (k : KConsts) (R : Nat → Nat) (Pt : x86_64_pagetable) (s s1 : KState)
    (pg : Nat) (hpg : mapped_in_use k Pt R → 1 ≤ R pg)
    (h : Stable k
      { s with physpages := Function.update s.physpages pg (s.physpages pg + 1) } s1) :
    Adv k R Pt s s1 where
  current := h.current
  mono p := by
    have h1 := h.mono p
    by_cases hp : p = pg
    · subst hp
      simp only [Function.update_same] at h1
      omega
    · simp only [Function.update_noteq hp] at h1
      exact h1
  mem a ha := by
    apply h.mem a
    show 1 ≤ Function.update s.physpages pg (s.physpages pg + 1) (a / k.PAGESIZE)
    by_cases hp : a / k.PAGESIZE = pg
    · rw [hp, Function.update_same]
      omega
    · rw [Function.update_noteq hp]
      exact ha
  keep hpre p hR hp := by
    have hne : p ≠ pg := by
      rintro rfl
      have := hpg hpre
      omega
    have h1 := h.used p (by
      show 1 ≤ Function.update s.physpages pg (s.physpages pg + 1) p
      rw [Function.update_noteq hne]
      exact hp)
    simp only [Function.update_noteq hne] at h1
    exact h1
  fresh hpre p hR hp := by
    have hne : p ≠ pg := by
      rintro rfl
      have := hpg hpre
      omega
    rcases Nat.eq_zero_or_pos (s.physpages p) with h0 | hpos
    · apply h.fresh p
      show Function.update s.physpages pg (s.physpages pg + 1) p = 0
      rw [Function.update_noteq hne]
      exact h0
    · have h1 := h.used p (by
        show 1 ≤ Function.update s.physpages pg (s.physpages pg + 1) p
        rw [Function.update_noteq hne]
        exact hpos)
      simp only [Function.update_noteq hne] at h1
      omega

theorem leafOk_keep (k : KConsts) (R M0 : Nat → Nat) (Pt : x86_64_pagetable)
    (s s1 : KState) (T T1 : x86_64_pagetable) (va : Nat) (hk : k.wf)
    (hadv : Adv k R Pt s s1) (hleaf : T1.leaf (va / k.PAGESIZE) = T.leaf (va / k.PAGESIZE))
    (h : LeafOk k R M0 Pt s T va) : LeafOk k R M0 Pt s1 T1 va := by
  obtain ⟨h1, h2, h3⟩ := h
  refine ⟨fun hn => by rw [hleaf]; exact h1 hn, fun hu hw => by rw [hleaf]; exact h2 hu hw, ?_⟩
  intro hu hw
  obtain ⟨q, hq1, hq2, hq3⟩ := h3 hu hw
  refine ⟨q, by rw [hleaf]; exact hq1, hq2, ?_⟩
  intro hpre
  obtain ⟨hrc, hbytes⟩ := hq3 hpre
  refine ⟨by rw [hadv.keep hpre q hq2 (by omega)]; exact hrc, ?_⟩
  intro i hi
  rw [hadv.mem _ (by
    rw [Nat.mul_comm, Nat.mul_add_div hk.1, Nat.div_eq_of_lt hi, Nat.add_zero, hrc])]
  exact hbytes i hi

/-- Assembling the invariant after one iteration that has installed the entry `e` at
`va` in the child table. -/
theorem forkInv_step (k : KConsts) (hk : k.wf) (c : Nat) (R M0 : Nat → Nat)
    (Pt : x86_64_pagetable) (ptab0 : Nat → proc) (cur : Nat) (done : List Nat) (va : Nat)
    (s s1 : KState) (T T1 : x86_64_pagetable) (e : PTE)
    (hinv : ForkInv k c R M0 Pt ptab0 cur done s)
    (hT : s.ptable c = { ptab0 c with pagetable := some T })
    (hch : ChildInv k R M0 Pt done s T)
    (hnew : ∀ v ∈ done, v / k.PAGESIZE ≠ va / k.PAGESIZE)
    (hpt : s1.ptable = Function.update s.ptable c { s.ptable c with pagetable := some T1 })
    (hadv : Adv k R Pt s s1)
    (hacc : ∀ p, s1.physpages p = R p + cnt k T1 p)
    (htop : T1.top = T.top)
    (hinner : ∀ e ∈ T1.inner, e ∈ T.inner ∨ R (e.2 / k.PAGESIZE) = 0)
    (hleaf : T1.leaf = Function.update T.leaf (va / k.PAGESIZE) e)
    (hva : va ∈ proc_region k → LeafOk k R M0 Pt s1 T1 va) :
    ForkInv k c R M0 Pt ptab0 cur (done ++ [va]) s1 where
  cur := by rw [hadv.current, hinv.cur]
  others i hi := by rw [hpt, Function.update_noteq hi, hinv.others i hi]
  child := by
    refine ⟨T1, by rw [hpt, Function.update_same, hT], ?_⟩
    refine ⟨hacc, ?_, by rw [htop]; exact hch.top, ?_, ?_, ?_, ?_, ?_⟩
    · intro vpn hvpn
      have hne : vpn ≠ va / k.PAGESIZE := fun h =>
        hvpn va (List.mem_append_right _ (List.mem_singleton_self va)) h.symm
      rw [hleaf, Function.update_noteq hne]
      exact hch.undone vpn (fun v hv => hvpn v (List.mem_append_left _ hv))
    · intro e1 he1
      rcases hinner e1 he1 with h | h
      · exact hch.inner e1 h
      · exact h
    · intro v hv hreg
      rcases List.mem_append.mp hv with h | h
      · apply leafOk_keep k R M0 Pt s s1 T T1 v hk hadv _ (hch.leaves v h hreg)
        rw [hleaf, Function.update_noteq (hnew v h)]
      · rw [List.mem_singleton] at h
        subst h
        exact hva hreg
    · intro p
      exact le_trans (hch.mono p) (hadv.mono p)
    · intro a ha
      rw [hadv.mem a (le_trans ha (hch.mono _))]
      exact hch.memstable a ha
    · intro hpre p hp
      exact hadv.fresh hpre p hp (hch.fresh hpre p hp)

/-- The common part of the three mapping branches of the walk: from the state `sm`, which
holds the references `pend` that the new entry will account for, `try_map` either fails,
leaving a child table that still accounts for every other reference, or installs the
entry and re-establishes the invariant. -/
theorem install_step (k : KConsts) (hk : k.wf) (c : Nat) (R M0 : Nat → Nat)
    (Pt : x86_64_pagetable) (ptab0 : Nat → proc) (cur : Nat) (done : List Nat)
    (va addr perm : Nat) (s sm : KState) (T : x86_64_pagetable) (pend : Nat → Nat)
    (hinv : ForkInv k c R M0 Pt ptab0 cur done s)
    (hT : s.ptable c = { ptab0 c with pagetable := some T })
    (hch : ChildInv k R M0 Pt done s T)
    (hnew : ∀ v ∈ done, v / k.PAGESIZE ≠ va / k.PAGESIZE)
    (hmpt : sm.ptable = s.ptable) (hmcur : sm.current = s.current)
    (hmacc : ∀ p, sm.physpages p = s.physpages p + pend p)
    (hmadv : ∀ s1, Stable k sm s1 → Adv k R Pt s s1)
    (hcntleaf : ∀ T1 : x86_64_pagetable,
      T1.leaf = Function.update T.leaf (va / k.PAGESIZE) ⟨addr / k.PAGESIZE, perm⟩ →
      ∀ p, leafcnt k T1 p = leafcnt k T p + pend p)
    (hleafok : va ∈ proc_region k → ∀ (s1 : KState) (T1 : x86_64_pagetable), Stable k sm s1 →
      T1.leaf (va / k.PAGESIZE) = ⟨addr / k.PAGESIZE, perm⟩ → LeafOk k R M0 Pt s1 T1 va)
    (m : Int × x86_64_pagetable × KState) (hm : vmiter.try_map k T va addr perm sm = m) :
    (m.1 < 0 →
      (∀ p, (set_pagetable m.2.2 c (some m.2.1)).physpages p = R p + cnt k m.2.1 p + pend p) ∧
      (set_pagetable m.2.2 c (some m.2.1)).current = cur ∧
      (∀ i, i ≠ c → (set_pagetable m.2.2 c (some m.2.1)).ptable i = ptab0 i) ∧
      (set_pagetable m.2.2 c (some m.2.1)).ptable c = { ptab0 c with pagetable := some m.2.1 } ∧
      (∀ a, 1 ≤ R (a / k.PAGESIZE) → (set_pagetable m.2.2 c (some m.2.1)).mem a = M0 a)) ∧
    (¬ m.1 < 0 →
      ForkInv k c R M0 Pt ptab0 cur (done ++ [va]) (set_pagetable m.2.2 c (some m.2.1))) := by
  obtain ⟨hst, htop, hin, hnewin, hleaf⟩ := try_map_spec k hk T va addr perm sm m hm
  have hpt : (set_pagetable m.2.2 c (some m.2.1)).ptable =
      Function.update s.ptable c { s.ptable c with pagetable := some m.2.1 } := by
    show Function.update m.2.2.ptable c { m.2.2.ptable c with pagetable := some m.2.1 } = _
    rw [hst.ptable, hmpt]
  have hcur : (set_pagetable m.2.2 c (some m.2.1)).current = cur := by
    show m.2.2.current = cur
    rw [hst.current, hmcur, hinv.cur]
  have hinnerR : ∀ e ∈ m.2.1.inner, e ∈ T.inner ∨ R (e.2 / k.PAGESIZE) = 0 := by
    intro e he
    rcases hnewin e he with h | h
    · exact Or.inl h
    · right
      have h1 := hch.mono (e.2 / k.PAGESIZE)
      have h2 := hmacc (e.2 / k.PAGESIZE)
      omega
  constructor
  · intro hneg
    have hl : m.2.1.leaf = T.leaf := by
      rcases hleaf with h | h
      · exact h.2
      · exact absurd hneg h.1
    refine ⟨?_, hcur, ?_, ?_, ?_⟩
    · intro p
      show m.2.2.physpages p = _
      have h1 := hin p
      have h2 := hmacc p
      have h3 := hch.acc p
      have h4 : leafcnt k m.2.1 p = leafcnt k T p := leafcnt_congr k T m.2.1 p (fun _ _ => by rw [hl])
      unfold cnt at h3 ⊢
      rw [htop, h4]
      omega
    · intro i hi
      rw [hpt, Function.update_noteq hi, hinv.others i hi]
    · rw [hpt, Function.update_same, hT]
    · intro a ha
      show m.2.2.mem a = M0 a
      rw [(hmadv m.2.2 hst).mem a (le_trans ha (hch.mono _))]
      exact hch.memstable a ha
  · intro hpos
    have hl : m.2.1.leaf =
        Function.update T.leaf (va / k.PAGESIZE) ⟨addr / k.PAGESIZE, perm⟩ := by
      rcases hleaf with h | h
      · exact absurd h.1 hpos
      · exact h.2
    have hadv := hmadv m.2.2 hst
    apply forkInv_step k hk c R M0 Pt ptab0 cur done va s _ T m.2.1 _ hinv hT hch hnew hpt
      ⟨hadv.current, hadv.mono, hadv.mem, hadv.keep, hadv.fresh⟩ _ htop hinnerR hl
    · intro hreg
      exact hleafok hreg m.2.2 m.2.1 hst (by rw [hl, Function.update_same])
    · intro p
      show m.2.2.physpages p = _
      have h1 := hin p
      have h2 := hmacc p
      have h3 := hch.acc p
      have h4 := hcntleaf m.2.1 hl p
      unfold cnt at h3 ⊢
      rw [htop, h4]
      omega

theorem forkFailed_of_free_all (k : KConsts) (c : Nat) (R M0 : Nat → Nat)
    (ptab0 : Nat → proc) (cur : Nat) (s : KState) (T : x86_64_pagetable)
    (hacc : ∀ p, s.physpages p = R p + cnt k T p) (hcur : s.current = cur)
    (hothers : ∀ i, i ≠ c → s.ptable i = ptab0 i)
    (hchild : s.ptable c = { ptab0 c with pagetable := some T })
    (hmem : ∀ a, 1 ≤ R (a / k.PAGESIZE) → s.mem a = M0 a) :
    ∃ s1, free_all k c s = some s1 ∧ ForkFailed k c R M0 ptab0 cur s1 := by
  obtain ⟨s1, f1, f2, f3, f4, f5⟩ := free_all_spec k c s T R (by rw [hchild]) hacc
  refine ⟨s1, f1, f2, fun a ha => by rw [f5]; exact hmem a ha, by rw [f4, hcur], ?_, ?_⟩
  · intro i hi
    rw [f3, Function.update_noteq hi, hothers i hi]
  · rw [f3, Function.update_same, hchild]

/-- The tail of an iteration (`fork_map`) from a state `sm` that holds one reference on
the page of `addr` for the entry to come. -/
theorem fork_map_step (k : KConsts) (hk : k.wf) (c : Nat) (R M0 : Nat → Nat)
    (Pt : x86_64_pagetable) (ptab0 : Nat → proc) (cur : Nat) (done : List Nat)
    (va addr perm : Nat) (s sm : KState) (T : x86_64_pagetable)
    (hinv : ForkInv k c R M0 Pt ptab0 cur done s)
    (hT : s.ptable c = { ptab0 c with pagetable := some T })
    (hch : ChildInv k R M0 Pt done s T)
    (hnew : ∀ v ∈ done, v / k.PAGESIZE ≠ va / k.PAGESIZE)
    (hreg : va ∈ proc_region k) (hperm : perm &&& PTE_P ≠ 0)
    (hmpt : sm.ptable = s.ptable) (hmcur : sm.current = s.current)
    (hmacc : ∀ p, sm.physpages p = s.physpages p + (if addr / k.PAGESIZE = p then 1 else 0))
    (hmadv : ∀ s1, Stable k sm s1 → Adv k R Pt s s1)
    (hleafok : ∀ (s1 : KState) (T1 : x86_64_pagetable), Stable k sm s1 →
      T1.leaf (va / k.PAGESIZE) = ⟨addr / k.PAGESIZE, perm⟩ → LeafOk k R M0 Pt s1 T1 va) :
    ∃ b s1, fork_map k c va addr perm sm = some (b, s1) ∧
      (b = true → ForkInv k c R M0 Pt ptab0 cur (done ++ [va]) s1) ∧
      (b = false → ForkFailed k c R M0 ptab0 cur s1) := by
  have habs : vmiter.perm k T va = 0 := by
    unfold vmiter.perm
    rw [hch.undone (va / k.PAGESIZE) hnew]
    simp
  have hcT : (sm.ptable c).pagetable = some T := by rw [hmpt, hT]
  unfold fork_map
  rw [hcT]
  simp only
  generalize hm : vmiter.try_map k T va addr perm sm = m
  obtain ⟨hfail, hok⟩ := install_step k hk c R M0 Pt ptab0 cur done va addr perm s sm T
    (fun p => if addr / k.PAGESIZE = p then 1 else 0) hinv hT hch hnew hmpt hmcur hmacc hmadv
    (fun T1 hl p => leafcnt_update_proc k hk T T1 va _ perm p hreg habs hperm hl)
    (fun _ => hleafok) m hm
  by_cases hneg : m.1 < 0
  · rw [if_pos hneg]
    obtain ⟨h1, h2, h3, h4, h5⟩ := hfail hneg
    have hge : 1 ≤ (set_pagetable m.2.2 c (some m.2.1)).physpages (addr / k.PAGESIZE) := by
      rw [h1]
      simp
    obtain ⟨sf, g1, g2, g3, g4, g5, g6⟩ := kfree_some k _ addr hge
    obtain ⟨s1, e1, e2⟩ := forkFailed_of_free_all k c R M0 ptab0 cur sf m.2.1 (by
        intro p
        by_cases hp : p = addr / k.PAGESIZE
        · subst hp
          rw [g2, h1]
          simp
        · rw [g3 p hp, h1, if_neg (Ne.symm hp)]
          rfl) (by rw [g5, h2]) (fun i hi => by rw [g4, h3 i hi]) (by rw [g4, h4])
      (fun a ha => by rw [g6]; exact h5 a ha)
    refine ⟨false, s1, ?_, by simp, fun _ => e2⟩
    rw [g1]
    simp only [Option.some_bind, e1, Option.map_some']
  · rw [if_neg hneg]
    exact ⟨true, _, rfl, fun _ => hok hneg, by simp⟩

theorem pa_add_div (k : KConsts) (hk : k.wf) (Pt : x86_64_pagetable) (va i : Nat)
    (hdvd : k.PAGESIZE ∣ va) (hperm : vmiter.perm k Pt va &&& PTE_P ≠ 0) (hi : i < k.PAGESIZE) :
    (vmiter.pa k Pt va + i) / k.PAGESIZE = vmiter.pa k Pt va / k.PAGESIZE := by
  have hpres : (Pt.leaf (va / k.PAGESIZE)).perm &&& PTE_P ≠ 0 := by
    intro h
    unfold vmiter.perm at hperm
    rw [if_neg (by simpa using h)] at hperm
    simp at hperm
  unfold vmiter.pa
  rw [if_pos hpres, Nat.mod_eq_zero_of_dvd hdvd, Nat.add_zero, Nat.mul_div_cancel _ hk.1,
    Nat.mul_comm, Nat.mul_add_div hk.1, Nat.div_eq_of_lt hi, Nat.add_zero]

/-- One iteration of the walk of `syscall_fork` never trips an assertion; it either
re-establishes the invariant or leaves with everything released. -/
theorem fork_page_step (k : KConsts) (hk : k.wf) (c : Nat) (R M0 : Nat → Nat)
    (Pt : x86_64_pagetable) (ptab0 : Nat → proc) (cur : Nat) (done : List Nat) (va : Nat)
    (s : KState) (hc : c ≠ cur) (hPt : (ptab0 cur).pagetable = some Pt)
    (hinv : ForkInv k c R M0 Pt ptab0 cur done s)
    (hnew : ∀ v ∈ done, v / k.PAGESIZE ≠ va / k.PAGESIZE)
    (hva : va < k.PROC_START_ADDR ∨ va ∈ proc_region k) :
    ∃ b s1, fork_page k c va s = some (b, s1) ∧
      (b = true → ForkInv k c R M0 Pt ptab0 cur (done ++ [va]) s1) ∧
      (b = false → ForkFailed k c R M0 ptab0 cur s1) := by
  obtain ⟨T, hT, hch⟩ := hinv.child
  have hp : (s.ptable s.current).pagetable = some Pt := by
    rw [hinv.cur, hinv.others cur (Ne.symm hc), hPt]
  have hcT : (s.ptable c).pagetable = some T := by rw [hT]
  have hundone : T.leaf (va / k.PAGESIZE) = ⟨0, 0⟩ := hch.undone (va / k.PAGESIZE) hnew
  unfold fork_page
  rw [hp, hcT]
  simp only
  by_cases hker : va < k.PROC_START_ADDR
  · -- the kernel region: the parent's entry is copied
    rw [if_pos hker]
    generalize hm : vmiter.try_map k T va (vmiter.pa k Pt va) (vmiter.perm k Pt va) s = m
    have hnotreg : va ∉ proc_region k := by
      intro h
      have := ((mem_proc_region k hk va).mp h).1
      omega
    obtain ⟨hfail, hok⟩ := install_step k hk c R M0 Pt ptab0 cur done va
      (vmiter.pa k Pt va) (vmiter.perm k Pt va) s s T (fun _ => 0) hinv hT hch hnew rfl rfl (fun _ => rfl)
      (fun s1 h => adv_of_stable k R Pt s s1 h)
      (fun T1 hl p => leafcnt_update_kernel k hk T T1 va _ p hker hl)
      (fun h => absurd h hnotreg) m hm
    by_cases hneg : m.1 < 0
    · rw [if_pos hneg]
      obtain ⟨h1, h2, h3, h4, h5⟩ := hfail hneg
      obtain ⟨s1, e1, e2⟩ := forkFailed_of_free_all k c R M0 ptab0 cur _ m.2.1 h1 h2 h3 h4 h5
      exact ⟨false, s1, by rw [e1]; rfl, by simp, fun _ => e2⟩
    · rw [if_neg hneg]
      exact ⟨true, _, rfl, fun _ => hok hneg, by simp⟩
  · rw [if_neg hker]
    have hreg : va ∈ proc_region k := hva.resolve_left hker
    have hdvd : k.PAGESIZE ∣ va := ((mem_proc_region k hk va).mp hreg).2.2
    by_cases hup : vmiter.perm k Pt va &&& PTE_P ≠ 0 ∧ vmiter.perm k Pt va &&& PTE_U ≠ 0
    · rw [if_pos hup]
      by_cases hw : vmiter.writable k Pt va = false
      · -- a read-only page is shared
        rw [if_pos hw]
        apply fork_map_step k hk c R M0 Pt ptab0 cur done va (vmiter.pa k Pt va)
          (vmiter.perm k Pt va) s
          { s with
            physpages := Function.update s.physpages (vmiter.pa k Pt va / k.PAGESIZE)
              (s.physpages (vmiter.pa k Pt va / k.PAGESIZE) + 1) }
          T hinv hT hch hnew hreg hup.1 rfl rfl
        · intro p
          show Function.update s.physpages _ _ p = _
          by_cases hpp : vmiter.pa k Pt va / k.PAGESIZE = p
          · subst hpp
            rw [Function.update_same, if_pos rfl]
          · rw [Function.update_noteq (Ne.symm hpp), if_neg hpp]
            rfl
        · intro s1 h
          exact adv_of_share k R Pt s s1 _ (fun hpre => hpre va hreg hup.1) h
        · intro s1 T1 _ hl
          refine ⟨fun hn => absurd hup hn, fun _ _ => hl, fun _ hw1 => ?_⟩
          rw [hw] at hw1
          exact absurd hw1 (by simp)
      · -- a writable page is copied to a fresh page
        rw [if_neg hw]
        have hwt : vmiter.writable k Pt va = true := by
          cases h : vmiter.writable k Pt va
          · exact absurd h hw
          · rfl
        rcases kalloc_cases k hk k.PAGESIZE s with h0 | ⟨addr, hne, hadvd, _, _, hfree, h1⟩
        · rw [h0, if_pos rfl]
          obtain ⟨s1, e1, e2⟩ := forkFailed_of_free_all k c R M0 ptab0 cur s T hch.acc hinv.cur
            hinv.others hT hch.memstable
          exact ⟨false, s1, by rw [e1]; rfl, by simp, fun _ => e2⟩
        · rw [h1, if_neg hne]
          have hstake : Stable k s { kalloc_page k s addr with
              mem := memcpy (kalloc_page k s addr).mem addr (vmiter.pa k Pt va) k.PAGESIZE } :=
            stable_take k hk s addr _ hadvd hfree (fun a ha => by
              rw [memcpy_other k hk _ addr _ a hadvd ha]
              exact memset_other k hk s.mem addr _ a hadvd ha)
          apply fork_map_step k hk c R M0 Pt ptab0 cur done va addr (vmiter.perm k Pt va) s
            { kalloc_page k s addr with
              mem := memcpy (kalloc_page k s addr).mem addr (vmiter.pa k Pt va) k.PAGESIZE }
            T hinv hT hch hnew hreg hup.1 rfl rfl
          · intro p
            show (kalloc_page k s addr).physpages p = _
            by_cases hpp : addr / k.PAGESIZE = p
            · subst hpp
              rw [kalloc_page_physpages_self, if_pos rfl]
            · rw [kalloc_page_physpages_other k s addr p (Ne.symm hpp), if_neg hpp]
              rfl
          · intro s1 h
            exact adv_of_stable k R Pt s s1 (hstake.trans h)
          · intro s1 T1 hst hl
            refine ⟨fun hn => absurd hup hn, fun _ hw1 => ?_, fun _ _ => ?_⟩
            · rw [hwt] at hw1
              exact absurd hw1 (by simp)
            · have hR0 : R (addr / k.PAGESIZE) = 0 := by
                have := hch.mono (addr / k.PAGESIZE)
                omega
              have hsm1 : (kalloc_page k s addr).physpages (addr / k.PAGESIZE) = 1 := by
                rw [kalloc_page_physpages_self, hfree]
              refine ⟨addr / k.PAGESIZE, hl, hR0, fun hpre => ⟨?_, ?_⟩⟩
              · rw [hst.used _ (by show 1 ≤ (kalloc_page k s addr).physpages _; omega)]
                exact hsm1
              · intro i hi
                have haddr : addr / k.PAGESIZE * k.PAGESIZE = addr := Nat.div_mul_cancel hadvd
                have hpage : (addr + i) / k.PAGESIZE = addr / k.PAGESIZE := by
                  rw [← haddr, Nat.mul_comm, Nat.mul_add_div hk.1, Nat.div_eq_of_lt hi,
                    Nat.add_zero, Nat.mul_div_cancel_left _ hk.1]
                have hsrc : (vmiter.pa k Pt va + i) / k.PAGESIZE ≠ addr / k.PAGESIZE := by
                  rw [pa_add_div k hk Pt va i hdvd hup.1 hi]
                  intro h
                  have h2 := hpre va hreg hup.1
                  have h3 := hch.mono (vmiter.pa k Pt va / k.PAGESIZE)
                  rw [h] at h2 h3
                  omega
                rw [haddr, hst.mem _ (by
                  rw [hpage]
                  show 1 ≤ (kalloc_page k s addr).physpages _
                  omega)]
                show memcpy (kalloc_page k s addr).mem addr (vmiter.pa k Pt va) k.PAGESIZE
                  (addr + i) = _
                unfold memcpy
                rw [if_pos ⟨by omega, by omega⟩, Nat.add_sub_cancel_left]
                show memset s.mem addr 0xCC k.PAGESIZE (vmiter.pa k Pt va + i) = _
                rw [memset_other k hk s.mem addr _ _ hadvd hsrc]
                apply hch.memstable
                rw [pa_add_div k hk Pt va i hdvd hup.1 hi]
                exact hpre va hreg hup.1
    · -- nothing to do for a page that is not present and user-accessible
      rw [if_neg hup]
      refine ⟨true, s, rfl, fun _ => ?_, by simp⟩
      apply forkInv_step k hk c R M0 Pt ptab0 cur done va s s T T ⟨0, 0⟩ hinv hT hch hnew _
        (adv_of_stable k R Pt s s (Stable.refl k s)) hch.acc rfl (fun e he => Or.inl he)
      · rw [← hundone, Function.update_eq_self]
      · intro _
        exact ⟨fun _ => hundone, fun h => absurd h hup, fun h => absurd h hup⟩
      · rw [hT]
        exact (Function.update_eq_self c s.ptable).symm.trans (by rw [hT])

/-- The walk of `syscall_fork` never trips an assertion; it either completes with the
invariant for all addresses, or leaves with everything released. -/
theorem fork_walk_spec (k : KConsts) (hk : k.wf) (c : Nat) (R M0 : Nat → Nat)
    (Pt : x86_64_pagetable) (ptab0 : Nat → proc) (cur : Nat) (hc : c ≠ cur)
    (hPt : (ptab0 cur).pagetable = some Pt) :
    ∀ (l done : List Nat) (s : KState), ForkInv k c R M0 Pt ptab0 cur done s →
    (∀ va ∈ l, va < k.PROC_START_ADDR ∨ va ∈ proc_region k) →
    (∀ va ∈ done ++ l, k.PAGESIZE ∣ va) → (done ++ l).Nodup →
    ∃ b s1, fork_walk k c l s = some (b, s1) ∧
      (b = true → ForkInv k c R M0 Pt ptab0 cur (done ++ l) s1) ∧
      (b = false → ForkFailed k c R M0 ptab0 cur s1) := by
  intro l
  induction l with
  | nil =>
    intro done s hinv _ _ _
    exact ⟨true, s, rfl, fun _ => by rw [List.append_nil]; exact hinv, by simp⟩
  | cons va l ih =>
    intro done s hinv hreg hdvd hnd
    have hnew : ∀ v ∈ done, v / k.PAGESIZE ≠ va / k.PAGESIZE := by
      intro v hv h
      have hvd := hdvd v (List.mem_append_left _ hv)
      have hvad := hdvd va (List.mem_append_right _ (List.mem_cons_self va l))
      have heq := vpn_inj k hk hvd hvad h
      subst heq
      have := List.disjoint_of_nodup_append hnd hv (List.mem_cons_self v l)
      exact this
    obtain ⟨b, s1, h1, h2, h3⟩ := fork_page_step k hk c R M0 Pt ptab0 cur done va s hc hPt hinv
      hnew (hreg va (List.mem_cons_self va l))
    rw [fork_walk, h1]
    cases b with
    | false => exact ⟨false, s1, rfl, by simp, fun _ => h3 rfl⟩
    | true =>
      have hassoc : done ++ va :: l = (done ++ [va]) ++ l := by simp
      simp only
      rw [hassoc] at hdvd hnd ⊢
      exact ih (done ++ [va]) s1 (h2 rfl) (fun v hv => hreg v (List.mem_cons_of_mem va hv))
        hdvd hnd

theorem walk_list_region (k : KConsts) (hk : k.wf) (va : Nat)
    (h : va ∈ pageSteps 0 k.MEMSIZE_VIRTUAL k.PAGESIZE) :
    va < k.PROC_START_ADDR ∨ va ∈ proc_region k := by
  obtain ⟨h1, h2⟩ := dvd_of_mem_pageSteps hk.1 h
  by_cases hlt : va < k.PROC_START_ADDR
  · exact Or.inl hlt
  · exact Or.inr ((mem_proc_region k hk va).mpr ⟨by omega, h2, h1⟩)

theorem proc_region_sub_walk (k : KConsts) (hk : k.wf) (va : Nat) (h : va ∈ proc_region k) :
    va ∈ pageSteps 0 k.MEMSIZE_VIRTUAL k.PAGESIZE := by
  obtain ⟨_, h2, h3⟩ := (mem_proc_region k hk va).mp h
  exact (mem_pageSteps_zero hk.1).mpr ⟨h3, h2⟩

theorem leafcnt_empty (k : KConsts) (top : Nat) (p : Nat) :
    leafcnt k ⟨top, [], fun _ => ⟨0, 0⟩⟩ p = 0 := by
  unfold leafcnt
  rw [List.countP_eq_zero]
  intro va _
  simp [vmiter.perm]

theorem fork_find_slot_spec (k : KConsts) (s : KState) (c : Nat)
    (h : fork_find_slot k s = some c) :
    1 ≤ c ∧ c < k.NPROC ∧ (s.ptable c).state = P_FREE := by
  unfold fork_find_slot at h
  have h1 := List.find?_some h
  have h2 := List.mem_of_find?_eq_some h
  rw [List.mem_range'_1] at h2
  exact ⟨h2.1, by omega, by simpa using h1⟩

theorem fork_find_slot_congr (k : KConsts) (s s1 : KState) (h : s1.ptable = s.ptable) :
    fork_find_slot k s1 = fork_find_slot k s := by
  unfold fork_find_slot
  rw [h]

/-- What `syscall_fork` does for a live caller with a page table: it always returns, and
either it returns `-1` and has left no trace, or it returns a slot `c` and the walk
invariant holds for the child's table. -/
theorem syscall_fork_spec (k : KConsts) (hk : k.wf) (s : KState) (Pt : x86_64_pagetable)
    (hlive : (s.ptable s.current).state ≠ P_FREE)
    (hPt : (s.ptable s.current).pagetable = some Pt) :
    ∃ r s1, syscall_fork k s = some (r, s1) ∧
      ((r = -1 ∧ ForkAtomic k s s1) ∨
        (∃ (c : Nat) (T : x86_64_pagetable), r = (c : Int) ∧ ForkDone k s s1 c Pt T)) := by
  have hslotfree : ∀ c, fork_find_slot k s = some c → (s.ptable c).state = P_FREE :=
    fun c h => (fork_find_slot_spec k s c h).2.2
  unfold syscall_fork
  rcases kalloc_pagetable_cases k hk s with h0 | ⟨top, hne, hdvd, hfree, h1, hrc1, hrco, hst⟩
  · rw [h0, if_pos (Or.inr rfl)]
    exact ⟨-1, s, rfl, Or.inl ⟨rfl, fun _ => rfl, fun _ _ => rfl, fun _ => Or.inl rfl, rfl,
      fun _ => rfl, fun _ => rfl, fun _ _ => rfl, hslotfree⟩⟩
  · have hcond : ¬ (((kalloc_pagetable k s).2.ptable
        (kalloc_pagetable k s).2.current).pagetable.isNone = true ∨
        (kalloc_pagetable k s).1 = 0) := by
      rw [hst.ptable, hst.current, hPt, h1]
      simp [hne]
    rw [if_neg hcond, fork_find_slot_congr k s _ hst.ptable]
    cases hslot : fork_find_slot k s with
    | none =>
      simp only
      obtain ⟨s2, g1, g2, g3, g4, g5, g6⟩ := kfree_some k (kalloc_pagetable k s).2
        (kalloc_pagetable k s).1 (by rw [h1, hrc1])
      rw [g1]
      refine ⟨-1, s2, rfl, Or.inl ⟨rfl, ?_, ?_, ?_, by rw [g5, hst.current], ?_, ?_, ?_, ?_⟩⟩
      · intro p
        by_cases hp : p = top / k.PAGESIZE
        · subst hp
          rw [← h1] at hfree ⊢
          rw [g2, hfree]
          rw [h1, hrc1]
        · rw [g3 p (by rw [h1]; exact hp), hrco p hp]
      · intro a ha
        rw [g6]
        exact hst.mem a ha
      · intro i
        left
        rw [g4, hst.ptable]
      · intro i
        rw [g4, hst.ptable]
      · intro i
        rw [g4, hst.ptable]
      · intro i _
        rw [g4, hst.ptable]
      · intro c hc
        rw [hslot] at hc
        cases hc
    | some c =>
      simp only
      obtain ⟨hc1, hc2, hcfree⟩ := fork_find_slot_spec k s c hslot
      have hcne : c ≠ s.current := by
        rintro rfl
        exact hlive hcfree
      have hptab : (set_pagetable (kalloc_pagetable k s).2 c
          (some ⟨(kalloc_pagetable k s).1, [], fun _ => ⟨0, 0⟩⟩)).ptable =
          Function.update s.ptable c
            { s.ptable c with
              pagetable := some ⟨(kalloc_pagetable k s).1, [], fun _ => ⟨0, 0⟩⟩ } := by
        show Function.update (kalloc_pagetable k s).2.ptable c _ = _
        rw [hst.ptable]
      have hinv0 : ForkInv k c s.physpages s.mem Pt
          (set_pagetable (kalloc_pagetable k s).2 c
            (some ⟨(kalloc_pagetable k s).1, [], fun _ => ⟨0, 0⟩⟩)).ptable s.current []
          (set_pagetable (kalloc_pagetable k s).2 c
            (some ⟨(kalloc_pagetable k s).1, [], fun _ => ⟨0, 0⟩⟩)) := by
        refine ⟨hst.current, fun _ _ => rfl, ⟨(kalloc_pagetable k s).1, [], fun _ => ⟨0, 0⟩⟩,
          ?_, ?_⟩
        · rw [hptab, Function.update_same]
        · refine ⟨?_, fun _ _ => rfl, by rw [h1]; exact hfree, fun e he => by simp at he,
            fun va hva => by simp at hva, hst.mono, fun a ha => hst.mem a ha,
            fun _ p hp => hst.fresh p hp⟩
          intro p
          show (kalloc_pagetable k s).2.physpages p = _
          unfold cnt
          rw [leafcnt_empty, h1]
          by_cases hp : top / k.PAGESIZE = p
          · subst hp
            rw [hrc1, hfree]
            simp [innercnt]
          · rw [hrco p (Ne.symm hp), if_neg hp]
            simp [innercnt]
      obtain ⟨b, s2, hw, hok, hfail⟩ := fork_walk_spec k hk c s.physpages s.mem Pt _ s.current
        hcne (by rw [hptab, Function.update_noteq (Ne.symm hcne), hPt])
        (pageSteps 0 k.MEMSIZE_VIRTUAL k.PAGESIZE) [] _ hinv0
        (fun va hva => walk_list_region k hk va hva)
        (fun va hva => (dvd_of_mem_pageSteps hk.1 (by simpa using hva)).1)
        (by simpa using pageSteps_nodup 0 k.MEMSIZE_VIRTUAL k.PAGESIZE hk.1)
      rw [hw]
      cases b with
      | false =>
        simp only
        have hf := hfail rfl
        refine ⟨-1, s2, rfl, Or.inl ⟨rfl, hf.rc, hf.mem, ?_, hf.cur, ?_, ?_, ?_, ?_⟩⟩
        · intro i
          by_cases hi : i = c
          · subst hi
            right
            rw [hf.child]
          · left
            rw [hf.others i hi, hptab, Function.update_noteq hi]
        · intro i
          by_cases hi : i = c
          · subst hi
            rw [hf.child, hcfree]
          · rw [hf.others i hi, hptab, Function.update_noteq hi]
        · intro i
          by_cases hi : i = c
          · subst hi
            rw [hf.child, hptab, Function.update_same]
          · rw [hf.others i hi, hptab, Function.update_noteq hi]
        · intro i hi
          have hic : i ≠ c := by
            rintro rfl
            exact hi hslot
          rw [hf.others i hic, hptab, Function.update_noteq hic]
        · intro c1 hc1'
          rw [hslot] at hc1'
          cases hc1'
          rw [hf.child]
      | true =>
        simp only
        have hi := hok rfl
        obtain ⟨T, hT, hch⟩ := hi.child
        rw [List.nil_append] at hch
        refine ⟨(c : Int), _, rfl, Or.inr ⟨c, T, rfl, hslot, hcne, hi.cur, ?_, ?_,
          ⟨hch.acc, hch.undone, hch.top, hch.inner, hch.leaves, hch.mono, hch.memstable,
            hch.fresh⟩⟩⟩
        · intro i hic
          show Function.update s2.ptable c _ i = _
          rw [Function.update_noteq hic, hi.others i hic, hptab, Function.update_noteq hic]
        · show Function.update s2.ptable c _ c = _
          rw [Function.update_same, hT, hi.cur, hi.others s.current (Ne.symm hcne), hptab,
            Function.update_noteq (Ne.symm hcne), Function.update_same]

theorem kalloc_pagetable_frame (k : KConsts) (hk : k.wf) (s : KState) :
    (kalloc_pagetable k s).2.ptable = s.ptable ∧
    (kalloc_pagetable k s).2.current = s.current := by
  rcases kalloc_pagetable_cases k hk s with h0 | ⟨_, _, _, _, _, _, _, hst⟩
  · rw [h0]
    exact ⟨rfl, rfl⟩
  · exact ⟨hst.ptable, hst.current⟩

/-- Without a page table the caller gets `-1`. -/
theorem syscall_fork_null_pagetable (k : KConsts) (hk : k.wf) (s : KState)
    (hPt : (s.ptable s.current).pagetable = none) :
    syscall_fork k s = some (-1, (kalloc_pagetable k s).2) := by
  unfold syscall_fork
  rw [if_pos]
  left
  rw [(kalloc_pagetable_frame k hk s).1, (kalloc_pagetable_frame k hk s).2, hPt]
  rfl

/-- The lookup in a table whose leaf entry for the page of `va` is present. -/
theorem lookup_of_leaf (k : KConsts) (hk : k.wf) (T : x86_64_pagetable) (va q perm : Nat)
    (hdvd : k.PAGESIZE ∣ va) (hperm : perm &&& PTE_P ≠ 0)
    (hleaf : T.leaf (va / k.PAGESIZE) = ⟨q, perm⟩) :
    vmiter.perm k T va = perm ∧ vmiter.pa k T va = q * k.PAGESIZE ∧
    vmiter.pa k T va / k.PAGESIZE = q := by
  unfold vmiter.perm vmiter.pa
  rw [hleaf]
  simp only [if_pos hperm, true_and]
  rw [Nat.mod_eq_zero_of_dvd hdvd, Nat.add_zero, Nat.mul_div_cancel _ hk.1]
  exact ⟨rfl, rfl⟩

theorem pa_aligned (k : KConsts) (hk : k.wf) (Pt : x86_64_pagetable) (va : Nat)
    (hdvd : k.PAGESIZE ∣ va) (hperm : vmiter.perm k Pt va &&& PTE_P ≠ 0) :
    vmiter.pa k Pt va / k.PAGESIZE * k.PAGESIZE = vmiter.pa k Pt va := by
  have hpres : (Pt.leaf (va / k.PAGESIZE)).perm &&& PTE_P ≠ 0 := by
    intro h
    unfold vmiter.perm at hperm
    rw [if_neg (by simpa using h)] at hperm
    simp at hperm
  unfold vmiter.pa
  rw [if_pos hpres, Nat.mod_eq_zero_of_dvd hdvd, Nat.add_zero, Nat.mul_div_cancel _ hk.1]

/-! ## The fork claims -/

/-- The fork of process 1 in `s_boot` succeeds with child 2. -/
theorem syscall_fork_s_boot : ∃ s1, syscall_fork weensy s_boot = some (2, s1) := by
  have hfst : (syscall_fork weensy s_boot).map Prod.fst = some 2 := by decide!
  cases hf : syscall_fork weensy s_boot with
  | none =>
    rw [hf] at hfst
    cases hfst
  | some rs =>
    obtain ⟨r, s1⟩ := rs
    rw [hf] at hfst
    simp only [Option.map_some', Option.some.injEq] at hfst
    subst hfst
    exact ⟨s1, rfl⟩

/-- The fork of process 1 in `s_low_mem` runs out of memory during the walk. -/
theorem syscall_fork_s_low_mem : ∃ s1, syscall_fork weensy s_low_mem = some (-1, s1) := by
  have hfst : (syscall_fork weensy s_low_mem).map Prod.fst = some (-1) := by decide!
  cases hf : syscall_fork weensy s_low_mem with
  | none =>
    rw [hf] at hfst
    cases hfst
  | some rs =>
    obtain ⟨r, s1⟩ := rs
    rw [hf] at hfst
    simp only [Option.map_some', Option.some.injEq] at hfst
    subst hfst
    exact ⟨s1, rfl⟩

/-- In `s_boot` every page mapped by process 1 is in use. -/
theorem mapped_in_use_s_boot : mapped_in_use weensy pt_boot s_boot.physpages := by
  decide!

/-! ## The pages of the tables -/

theorem table_page_in_use (k : KConsts) (s : KState) (a : Nat) (htab : tables_in_use k s)
    (h : on_table_page k s a) : 1 ≤ s.physpages (a / k.PAGESIZE) := by
  obtain ⟨i, hi, T, hT, pa, hpa, heq⟩ := h
  rw [heq]
  exact htab i hi T hT pa hpa

theorem innercnt_pos (k : KConsts) (inner : List (Nat × Nat)) (e : Nat × Nat)
    (he : e ∈ inner) : 1 ≤ innercnt k inner (e.2 / k.PAGESIZE) := by
  unfold innercnt
  exact List.countP_pos_iff.mpr ⟨e, he, by simp⟩

theorem mem_table_addrs (T : x86_64_pagetable) (pa : Nat) :
    pa ∈ table_addrs T ↔ pa = T.top ∨ ∃ e ∈ T.inner, e.2 = pa := by
  unfold table_addrs
  rw [List.mem_cons, List.mem_map]

/-- A failed fork from a state whose tables are in use keeps the tables. -/
theorem forkAtomic_tables (k : KConsts) (s s1 : KState) (ha : ForkAtomic k s s1)
    (htab : tables_in_use k s) : tables_kept k s s1 := by
  refine ⟨fun a h => ha.mem a (table_page_in_use k s a htab h), ?_⟩
  intro i hi T hT pa hpa
  rw [ha.rc]
  rcases ha.table i with h | h
  · rw [Option.mem_def, h] at hT
    exact htab i hi T hT pa hpa
  · rw [Option.mem_def, h] at hT
    cases hT

/-- A fork that has succeeded from a state whose tables are in use has built the child's
table on pages that held no table, and has kept the tables. -/
theorem forkDone_tables (k : KConsts) (s s1 : KState) (c : Nat) (Pt T : x86_64_pagetable)
    (hd : ForkDone k s s1 c Pt T) (htab : tables_in_use k s) :
    (∀ pa ∈ table_addrs T, ¬ on_table_page k s pa) ∧ tables_kept k s s1 := by
  have hfree : ∀ pa ∈ table_addrs T, s.physpages (pa / k.PAGESIZE) = 0 := by
    intro pa hpa
    rcases (mem_table_addrs T pa).mp hpa with h | ⟨e, he, h⟩
    · rw [h]
      exact hd.inv.top
    · rw [← h]
      exact hd.inv.inner e he
  refine ⟨?_, fun a h => hd.inv.memstable a (table_page_in_use k s a htab h), ?_⟩
  · intro pa hpa h
    have h1 := table_page_in_use k s pa htab h
    have h2 := hfree pa hpa
    omega
  · intro i hi U hU pa hpa
    by_cases hic : i = c
    · subst hic
      rw [Option.mem_def, hd.child] at hU
      cases hU
      have hacc := hd.inv.acc (pa / k.PAGESIZE)
      unfold cnt at hacc
      rcases (mem_table_addrs T pa).mp hpa with h | ⟨e, he, h⟩
      · rw [h] at hacc ⊢
        rw [if_pos rfl] at hacc
        omega
      · have := innercnt_pos k T.inner e he
        rw [h] at this
        omega
    · rw [hd.others i hic] at hU
      exact le_trans (htab i hi U hU pa hpa) (hd.inv.mono _)

/-- C1. Fork return asymmetry: whenever `syscall_fork` succeeds (returns a value other
than `-1`) for a RUNNABLE caller whose `pid` is its slot number, the value is a slot `c`
with `1 <= c < NPROC` and `c` different from the caller's pid, slot `c` was FREE before the
call and is RUNNABLE after it, and `ptable[c].regs` equals the caller's saved registers
except that `reg_rax` is 0 (the caller's own saved registers are as before). -/
theorem fork_return_asymmetry (k : KConsts) (hk : k.wf) (s : KState) (r : Int) (s1 : KState)
    (hrun : (s.ptable s.current).state = P_RUNNABLE)
    (hpid : (s.ptable s.current).pid = s.current)
    (hfork : syscall_fork k s = some (r, s1)) (hsucc : r ≠ -1) :
    ∃ c : Nat, r = (c : Int) ∧ 1 ≤ c ∧ c < k.NPROC ∧ c ≠ (s.ptable s.current).pid ∧
      (s.ptable c).state = P_FREE ∧ (s1.ptable c).state = P_RUNNABLE ∧
      (s1.ptable c).regs = { (s.ptable s.current).regs with reg_rax := 0 } ∧
      (s1.ptable s.current).regs = (s.ptable s.current).regs := by
  cases hPt : (s.ptable s.current).pagetable with
  | none =>
    rw [syscall_fork_null_pagetable k hk s hPt] at hfork
    cases hfork
    exact absurd rfl hsucc
  | some Pt =>
    obtain ⟨r', s', h1, h2⟩ := syscall_fork_spec k hk s Pt (by rw [hrun]; decide) hPt
    rw [hfork] at h1
    cases h1
    rcases h2 with ⟨h, _⟩ | ⟨c, T, hr, hd⟩
    · exact absurd h hsucc
    · obtain ⟨hc1, hc2, hcfree⟩ := fork_find_slot_spec k s c hd.slot
      refine ⟨c, hr, hc1, hc2, by rw [hpid]; exact hd.ne, hcfree, ?_, ?_, ?_⟩
      · rw [hd.child]
      · rw [hd.child]
      · rw [hd.others _ (Ne.symm hd.ne)]

/-- The return contract of fork at `s_boot`. -/
theorem fork_return_asymmetry_witness :
    ∃ (c : Nat) (s1 : KState), syscall_fork weensy s_boot = some ((c : Int), s1) ∧
      1 ≤ c ∧ c < weensy.NPROC ∧ c ≠ (s_boot.ptable s_boot.current).pid ∧
      (s_boot.ptable c).state = P_FREE ∧ (s1.ptable c).state = P_RUNNABLE ∧
      (s1.ptable c).regs = { (s_boot.ptable s_boot.current).regs with reg_rax := 0 } ∧
      (s1.ptable s_boot.current).regs = (s_boot.ptable s_boot.current).regs := by
  obtain ⟨s1, hf⟩ := syscall_fork_s_boot
  obtain ⟨c, hc, h⟩ := fork_return_asymmetry weensy (by decide) s_boot 2 s1 (by decide)
    (by decide) hf (by decide)
  exact ⟨c, s1, by rw [hf, hc], h⟩

/-- C10 (amended). Fork failure is atomic: in a state where every page that holds a page
table is in use, when the (live) caller's page table is present and `syscall_fork` returns
`-1`, every physical page's refcount equals its value before the call, no process-table
slot has changed state (the candidate child slot is FREE), every slot but the candidate is
untouched, the caller's page table and saved registers are unchanged, no byte on a page
that held a page table has changed, and every page that holds a page table is still in
use. -/
theorem fork_failure_atomic (k : KConsts) (hk : k.wf) (s s1 : KState)
    (Pt : x86_64_pagetable) (hlive : (s.ptable s.current).state ≠ P_FREE)
    (hPt : (s.ptable s.current).pagetable = some Pt)
    (htab : tables_in_use k s)
    (hfork : syscall_fork k s = some (-1, s1)) :
    (∀ p, s1.physpages p = s.physpages p) ∧
    (∀ i, (s1.ptable i).state = (s.ptable i).state) ∧
    (∀ c, fork_find_slot k s = some c → (s1.ptable c).state = P_FREE) ∧
    (∀ i, fork_find_slot k s ≠ some i → s1.ptable i = s.ptable i) ∧
    s1.current = s.current ∧
    (s1.ptable s.current).pagetable = some Pt ∧
    (s1.ptable s.current).regs = (s.ptable s.current).regs ∧
    tables_kept k s s1 := by
  obtain ⟨r', s', h1, h2⟩ := syscall_fork_spec k hk s Pt hlive hPt
  rw [hfork] at h1
  cases h1
  rcases h2 with ⟨_, ha⟩ | ⟨c, T, hr, _⟩
  · have hcur : fork_find_slot k s ≠ some s.current := by
      intro h
      exact hlive (fork_find_slot_spec k s _ h).2.2
    exact ⟨ha.rc, ha.state, ha.slot, ha.others, ha.current,
      by rw [ha.others _ hcur, hPt], ha.regs _, forkAtomic_tables k s s1 ha htab⟩
  · omega

/-- The failed fork at `s_low_mem`, where the pages of the table are in use, leaves no
trace. -/
theorem fork_failure_atomic_witness :
    tables_in_use weensy s_low_mem ∧
    ∃ s1, syscall_fork weensy s_low_mem = some (-1, s1) ∧
      (∀ p, s1.physpages p = s_low_mem.physpages p) ∧
      (∀ i, (s1.ptable i).state = (s_low_mem.ptable i).state) ∧
      (∀ c, fork_find_slot weensy s_low_mem = some c → (s1.ptable c).state = P_FREE) ∧
      (∀ i, fork_find_slot weensy s_low_mem ≠ some i → s1.ptable i = s_low_mem.ptable i) ∧
      s1.current = s_low_mem.current ∧
      (s1.ptable s_low_mem.current).pagetable = some pt_boot ∧
      (s1.ptable s_low_mem.current).regs = (s_low_mem.ptable s_low_mem.current).regs ∧
      tables_kept weensy s_low_mem s1 := by
  obtain ⟨s1, hf⟩ := syscall_fork_s_low_mem
  exact ⟨by decide, s1, hf,
    fork_failure_atomic weensy (by decide) s_low_mem s1 pt_boot (by decide) rfl (by decide) hf⟩

/-- C10, as stated, fails on the code: in `s_no_slot` the caller, process 1, is RUNNABLE
with its page table, whose top-level page `0x1000` has refcount 0, and no slot is FREE.
`kalloc_pagetable` takes the page `0x1000` for the table of the child; `syscall_fork` finds
no slot, releases the page and returns `-1` with the refcount of page 1 at 0 again, but
every byte of the page `0x1000`, the caller's top-level table, is 0 after the call (the
byte at `0x1000` was 80 before): the caller has lost its mappings. -/
theorem fork_failure_wipes_table_counterexample :
    (s_no_slot.ptable s_no_slot.current).state = P_RUNNABLE ∧
    (s_no_slot.ptable s_no_slot.current).pagetable.map (fun T => (T.top, T.leaf 0x101))
      = some (0x1000, ⟨7, PTE_PWU⟩) ∧
    s_no_slot.physpages 1 = 0 ∧
    fork_find_slot weensy s_no_slot = none ∧
    (kalloc_pagetable weensy s_no_slot).1 = 0x1000 ∧
    s_no_slot.mem 0x1000 = 80 ∧
    (syscall_fork weensy s_no_slot).map (fun r =>
      (r.1, r.2.physpages 1,
        (List.range weensy.PAGESIZE).all (fun i => decide (r.2.mem (0x1000 + i) = 0))))
      = some (-1, 0, true) ∧
    ¬ tables_in_use weensy s_no_slot := by
  decide!

theorem writable_of_bits (k : KConsts) (Pt : x86_64_pagetable) (va : Nat) :
    (vmiter.writable k Pt va = true ↔ vmiter.perm k Pt va &&& PTE_W ≠ 0) ∧
    (vmiter.writable k Pt va = false ↔ vmiter.perm k Pt va &&& PTE_W = 0) := by
  unfold vmiter.writable
  constructor
  · simp
  · simp

/-- C2 (amended). Fork duplicates writable pages: in a state where every physical page
mapped in the (live) caller's process region has refcount at least 1 and every page that
holds a page table is in use, after a successful `syscall_fork`, for every page-aligned
`va` in `[PROC_START_ADDR, MEMSIZE_VIRTUAL)` where the parent has a present,
user-accessible, writable mapping, the child maps `va` with the same permission bits to a
different physical page, whose refcount is 1 and whose `PAGESIZE` bytes equal the bytes of
the parent's page (which the call has not changed); the parent's table is unchanged, the
child's table lies on pages that held no page table, no byte on a page that held a page
table has changed, and every page that holds a page table is still in use. -/
theorem fork_duplicates_writable_pages (k : KConsts) (hk : k.wf) (s : KState) (r : Int)
    (s1 : KState) (Pt : x86_64_pagetable)
    (hlive : (s.ptable s.current).state ≠ P_FREE)
    (hPt : (s.ptable s.current).pagetable = some Pt)
    (hpre : mapped_in_use k Pt s.physpages) (htab : tables_in_use k s)
    (hfork : syscall_fork k s = some (r, s1)) (hsucc : r ≠ -1) :
    ∃ (c : Nat) (T : x86_64_pagetable), r = (c : Int) ∧
      (s1.ptable c).pagetable = some T ∧ (s1.ptable s.current).pagetable = some Pt ∧
      (∀ pa ∈ table_addrs T, ¬ on_table_page k s pa) ∧ tables_kept k s s1 ∧
      ∀ va, k.PROC_START_ADDR ≤ va → va < k.MEMSIZE_VIRTUAL → k.PAGESIZE ∣ va →
        vmiter.perm k Pt va &&& PTE_P ≠ 0 → vmiter.perm k Pt va &&& PTE_U ≠ 0 →
        vmiter.perm k Pt va &&& PTE_W ≠ 0 →
          vmiter.perm k T va = vmiter.perm k Pt va ∧
          vmiter.pa k T va ≠ vmiter.pa k Pt va ∧
          vmiter.pa k T va / k.PAGESIZE ≠ vmiter.pa k Pt va / k.PAGESIZE ∧
          k.PAGESIZE ∣ vmiter.pa k T va ∧
          s1.physpages (vmiter.pa k T va / k.PAGESIZE) = 1 ∧
          ∀ i, i < k.PAGESIZE →
            s1.mem (vmiter.pa k T va + i) = s1.mem (vmiter.pa k Pt va + i) ∧
            s1.mem (vmiter.pa k Pt va + i) = s.mem (vmiter.pa k Pt va + i) := by
  obtain ⟨r', s', h1, h2⟩ := syscall_fork_spec k hk s Pt hlive hPt
  rw [hfork] at h1
  cases h1
  rcases h2 with ⟨h, _⟩ | ⟨c, T, hr, hd⟩
  · exact absurd h hsucc
  · refine ⟨c, T, hr, by rw [hd.child], by rw [hd.others _ (Ne.symm hd.ne), hPt],
      (forkDone_tables k s s1 c Pt T hd htab).1, (forkDone_tables k s s1 c Pt T hd htab).2, ?_⟩
    intro va h1 h2 h3 hp hu hw
    have hreg : va ∈ proc_region k := (mem_proc_region k hk va).mpr ⟨h1, h2, h3⟩
    obtain ⟨_, _, hrw⟩ := hd.inv.leaves va (proc_region_sub_walk k hk va hreg) hreg
    obtain ⟨q, hq1, hq2, hq3⟩ := hrw ⟨hp, hu⟩ ((writable_of_bits k Pt va).1.mpr hw)
    obtain ⟨hrc, hbytes⟩ := hq3 hpre
    obtain ⟨l1, l2, l3⟩ := lookup_of_leaf k hk T va q _ h3 hp hq1
    have hin := hpre va hreg hp
    have hne : vmiter.pa k T va / k.PAGESIZE ≠ vmiter.pa k Pt va / k.PAGESIZE := by
      rw [l3]
      intro h
      rw [← h] at hin
      omega
    refine ⟨l1, fun h => hne (by rw [h]), hne, by rw [l2]; exact Dvd.intro_left q rfl,
      by rw [l3]; exact hrc, ?_⟩
    intro i hi
    have hpar : s1.mem (vmiter.pa k Pt va + i) = s.mem (vmiter.pa k Pt va + i) := by
      apply hd.inv.memstable
      rw [pa_add_div k hk Pt va i h3 hp hi]
      exact hin
    rw [l2, hbytes i hi, hpar]
    exact ⟨rfl, rfl⟩

/-- The copies of the writable pages after the fork at `s_boot`, where the mapped pages
and the pages of the table are in use. -/
theorem fork_duplicates_writable_pages_witness :
    mapped_in_use weensy pt_boot s_boot.physpages ∧ tables_in_use weensy s_boot ∧
    ∃ (c : Nat) (T : x86_64_pagetable) (s1 : KState),
      syscall_fork weensy s_boot = some ((c : Int), s1) ∧
      (s1.ptable c).pagetable = some T ∧ (s1.ptable s_boot.current).pagetable = some pt_boot ∧
      (∀ pa ∈ table_addrs T, ¬ on_table_page weensy s_boot pa) ∧ tables_kept weensy s_boot s1 ∧
      ∀ va, weensy.PROC_START_ADDR ≤ va → va < weensy.MEMSIZE_VIRTUAL → weensy.PAGESIZE ∣ va →
        vmiter.perm weensy pt_boot va &&& PTE_P ≠ 0 → vmiter.perm weensy pt_boot va &&& PTE_U ≠ 0 →
        vmiter.perm weensy pt_boot va &&& PTE_W ≠ 0 →
          vmiter.perm weensy T va = vmiter.perm weensy pt_boot va ∧
          vmiter.pa weensy T va ≠ vmiter.pa weensy pt_boot va ∧
          vmiter.pa weensy T va / weensy.PAGESIZE ≠ vmiter.pa weensy pt_boot va / weensy.PAGESIZE ∧
          weensy.PAGESIZE ∣ vmiter.pa weensy T va ∧
          s1.physpages (vmiter.pa weensy T va / weensy.PAGESIZE) = 1 ∧
          ∀ i, i < weensy.PAGESIZE →
            s1.mem (vmiter.pa weensy T va + i) = s1.mem (vmiter.pa weensy pt_boot va + i) ∧
            s1.mem (vmiter.pa weensy pt_boot va + i) = s_boot.mem (vmiter.pa weensy pt_boot va + i) := by
  obtain ⟨s1, hf⟩ := syscall_fork_s_boot
  obtain ⟨c, T, hc, h⟩ := fork_duplicates_writable_pages weensy (by decide) s_boot 2 s1 pt_boot
    (by decide) rfl mapped_in_use_s_boot (by decide) hf (by decide)
  exact ⟨mapped_in_use_s_boot, by decide, c, T, s1, by rw [hf, hc], h⟩

/-- C2, as stated, fails on the code: in `s_tab_free` the caller, process 1, is RUNNABLE,
maps `0x101000` writable to the page 7, and every page mapped in its process region has
refcount at least 1, but the page `0x1000` of its top-level table has refcount 0.
`kalloc_pagetable` takes the page `0x1000` for the table of the child: after the fork,
which returns the child 2, the top-level table of the child and that of the caller are the
same page `0x1000`, and every byte of that page is 0 (the byte at `0x1000` was 80 before).
The table the walk reads has been cleared, so no page is copied, and two slots whose
top-level table is the same page cannot map `0x101000` to different pages. -/
theorem fork_wipes_parent_table_counterexample :
    (s_tab_free.ptable s_tab_free.current).state = P_RUNNABLE ∧
    (s_tab_free.ptable s_tab_free.current).pagetable.map
      (fun T => (T.top, T.leaf 0x101, decide (mapped_in_use weensy T s_tab_free.physpages)))
      = some (0x1000, ⟨7, PTE_PWU⟩, true) ∧
    s_tab_free.physpages 1 = 0 ∧
    (kalloc_pagetable weensy s_tab_free).1 = 0x1000 ∧
    s_tab_free.mem 0x1000 = 80 ∧
    (syscall_fork weensy s_tab_free).map (fun r =>
      (r.1, (r.2.ptable 1).pagetable.map (fun T => T.top),
        (r.2.ptable 2).pagetable.map (fun T => T.top),
        (List.range weensy.PAGESIZE).all (fun i => decide (r.2.mem (0x1000 + i) = 0))))
      = some (2, some 0x1000, some 0x1000, true) ∧
    ¬ tables_in_use weensy s_tab_free := by
  decide!

/-- C3 (amended). Fork shares read-only pages: in a state where every physical page
mapped in the (live) caller's process region has refcount at least 1 and every page that
holds a page table is in use, after a successful `syscall_fork`, for every page-aligned
`va` in the process region where the parent has a present, user-accessible, non-writable
mapping, the child maps `va` to the same physical address with identical permission bits
and that page's refcount is at least 2; the refcount of every page that was in use has
grown by exactly the number of such `va` mapped to it (by nothing if there is none), and a
page that was free has at most one reference afterwards; the child's table lies on pages
that held no page table, no byte on a page that held a page table has changed, and every
page that holds a page table is still in use. -/
theorem fork_shares_readonly_pages (k : KConsts) (hk : k.wf) (s : KState) (r : Int)
    (s1 : KState) (Pt : x86_64_pagetable)
    (hlive : (s.ptable s.current).state ≠ P_FREE)
    (hPt : (s.ptable s.current).pagetable = some Pt)
    (hpre : mapped_in_use k Pt s.physpages) (htab : tables_in_use k s)
    (hfork : syscall_fork k s = some (r, s1)) (hsucc : r ≠ -1) :
    ∃ (c : Nat) (T : x86_64_pagetable), r = (c : Int) ∧
      (s1.ptable c).pagetable = some T ∧
      (∀ pa ∈ table_addrs T, ¬ on_table_page k s pa) ∧ tables_kept k s s1 ∧
      (∀ va, k.PROC_START_ADDR ≤ va → va < k.MEMSIZE_VIRTUAL → k.PAGESIZE ∣ va →
        vmiter.perm k Pt va &&& PTE_P ≠ 0 → vmiter.perm k Pt va &&& PTE_U ≠ 0 →
        vmiter.perm k Pt va &&& PTE_W = 0 →
          vmiter.pa k T va = vmiter.pa k Pt va ∧
          vmiter.perm k T va = vmiter.perm k Pt va ∧
          2 ≤ s1.physpages (vmiter.pa k Pt va / k.PAGESIZE)) ∧
      (∀ p, 1 ≤ s.physpages p →
        s1.physpages p = s.physpages p + (proc_region k).countP (fun va =>
          decide (vmiter.perm k Pt va &&& PTE_P ≠ 0 ∧ vmiter.perm k Pt va &&& PTE_U ≠ 0 ∧
            vmiter.perm k Pt va &&& PTE_W = 0 ∧ vmiter.pa k Pt va / k.PAGESIZE = p))) ∧
      (∀ p, s.physpages p = 0 → s1.physpages p ≤ 1) := by
  obtain ⟨r', s', h1, h2⟩ := syscall_fork_spec k hk s Pt hlive hPt
  rw [hfork] at h1
  cases h1
  rcases h2 with ⟨h, _⟩ | ⟨c, T, hr, hd⟩
  · exact absurd h hsucc
  · have hcount : ∀ p, 1 ≤ s.physpages p →
        s1.physpages p = s.physpages p + (proc_region k).countP (fun va =>
          decide (vmiter.perm k Pt va &&& PTE_P ≠ 0 ∧ vmiter.perm k Pt va &&& PTE_U ≠ 0 ∧
            vmiter.perm k Pt va &&& PTE_W = 0 ∧ vmiter.pa k Pt va / k.PAGESIZE = p)) := by
      intro p hp
      rw [hd.inv.acc p]
      unfold cnt
      have htop : ¬ T.top / k.PAGESIZE = p := by
        intro h
        have := hd.inv.top
        rw [h] at this
        omega
      have hinner : innercnt k T.inner p = 0 := by
        unfold innercnt
        rw [List.countP_eq_zero]
        intro e he
        have := hd.inv.inner e he
        simp only [decide_eq_true_eq]
        intro h
        rw [h] at this
        omega
      rw [if_neg htop, hinner, Nat.add_zero]
      congr 1
      unfold leafcnt
      apply List.countP_congr
      intro va hreg
      have hdvd := ((mem_proc_region k hk va).mp hreg).2.2
      obtain ⟨hskip, hro, hrw⟩ := hd.inv.leaves va (proc_region_sub_walk k hk va hreg) hreg
      simp only [decide_eq_true_eq]
      by_cases hup : user_present k Pt va
      · by_cases hw : vmiter.perm k Pt va &&& PTE_W = 0
        · obtain ⟨l1, _, l3⟩ := lookup_of_leaf k hk T va _ _ hdvd hup.1
            (hro hup ((writable_of_bits k Pt va).2.mpr hw))
          rw [l1, l3]
          constructor
          · intro h
            exact ⟨hup.1, hup.2, hw, h.2⟩
          · intro h
            exact ⟨perm_ne_zero_of_present hup.1, h.2.2.2⟩
        · obtain ⟨q, hq1, hq2, _⟩ := hrw hup ((writable_of_bits k Pt va).1.mpr hw)
          obtain ⟨_, _, l3⟩ := lookup_of_leaf k hk T va q _ hdvd hup.1 hq1
          rw [l3]
          constructor
          · intro h
            rw [h.2] at hq2
            omega
          · intro h
            exact absurd h.2.2.1 hw
      · constructor
        · intro h
          exfalso
          apply h.1
          unfold vmiter.perm
          rw [hskip hup]
          simp
        · intro h
          exact absurd ⟨h.1, h.2.1⟩ hup
    refine ⟨c, T, hr, by rw [hd.child], (forkDone_tables k s s1 c Pt T hd htab).1,
      (forkDone_tables k s s1 c Pt T hd htab).2, ?_, hcount, hd.inv.fresh hpre⟩
    intro va h1 h2 h3 hp hu hw
    have hreg : va ∈ proc_region k := (mem_proc_region k hk va).mpr ⟨h1, h2, h3⟩
    obtain ⟨_, hro, _⟩ := hd.inv.leaves va (proc_region_sub_walk k hk va hreg) hreg
    obtain ⟨l1, l2, _⟩ := lookup_of_leaf k hk T va _ _ h3 hp
      (hro ⟨hp, hu⟩ ((writable_of_bits k Pt va).2.mpr hw))
    refine ⟨by rw [l2, pa_aligned k hk Pt va h3 hp], l1, ?_⟩
    have hin := hpre va hreg hp
    rw [hcount _ hin]
    have hpos : 0 < (proc_region k).countP (fun v =>
        decide (vmiter.perm k Pt v &&& PTE_P ≠ 0 ∧ vmiter.perm k Pt v &&& PTE_U ≠ 0 ∧
          vmiter.perm k Pt v &&& PTE_W = 0 ∧
          vmiter.pa k Pt v / k.PAGESIZE = vmiter.pa k Pt va / k.PAGESIZE)) := by
      rw [List.countP_pos_iff]
      exact ⟨va, hreg, by simpa using ⟨hp, hu, hw⟩⟩
    omega

/-- The shared read-only pages after the fork at `s_boot`, where the mapped pages and the
pages of the table are in use. -/
theorem fork_shares_readonly_pages_witness :
    mapped_in_use weensy pt_boot s_boot.physpages ∧ tables_in_use weensy s_boot ∧
    ∃ (c : Nat) (T : x86_64_pagetable) (s1 : KState),
      syscall_fork weensy s_boot = some ((c : Int), s1) ∧
      (s1.ptable c).pagetable = some T ∧
      (∀ pa ∈ table_addrs T, ¬ on_table_page weensy s_boot pa) ∧ tables_kept weensy s_boot s1 ∧
      (∀ va, weensy.PROC_START_ADDR ≤ va → va < weensy.MEMSIZE_VIRTUAL → weensy.PAGESIZE ∣ va →
        vmiter.perm weensy pt_boot va &&& PTE_P ≠ 0 → vmiter.perm weensy pt_boot va &&& PTE_U ≠ 0 →
        vmiter.perm weensy pt_boot va &&& PTE_W = 0 →
          vmiter.pa weensy T va = vmiter.pa weensy pt_boot va ∧
          vmiter.perm weensy T va = vmiter.perm weensy pt_boot va ∧
          2 ≤ s1.physpages (vmiter.pa weensy pt_boot va / weensy.PAGESIZE)) ∧
      (∀ p, 1 ≤ s_boot.physpages p →
        s1.physpages p = s_boot.physpages p + (proc_region weensy).countP (fun va =>
          decide (vmiter.perm weensy pt_boot va &&& PTE_P ≠ 0 ∧
            vmiter.perm weensy pt_boot va &&& PTE_U ≠ 0 ∧
            vmiter.perm weensy pt_boot va &&& PTE_W = 0 ∧
            vmiter.pa weensy pt_boot va / weensy.PAGESIZE = p))) ∧
      (∀ p, s_boot.physpages p = 0 → s1.physpages p ≤ 1) := by
  obtain ⟨s1, hf⟩ := syscall_fork_s_boot
  obtain ⟨c, T, hc, h⟩ := fork_shares_readonly_pages weensy (by decide) s_boot 2 s1 pt_boot
    (by decide) rfl mapped_in_use_s_boot (by decide) hf (by decide)
  exact ⟨mapped_in_use_s_boot, by decide, c, T, s1, by rw [hf, hc], h⟩

/-- C3, as stated, fails on the code: in `s_ro_free` process 1 (RUNNABLE) maps exactly one
address read-only, `0x100000`, to the physical page 6, whose refcount is 0.
`syscall_fork` succeeds with child 2, takes page 6 as the child's top-level page table
and shares it: the child maps `0x100000` to page 6 as well, and the refcount of page 6
has grown by 2, not by one per read-only mapping. -/
theorem fork_share_of_free_page_counterexample :
    (s_ro_free.ptable s_ro_free.current).state = P_RUNNABLE ∧
    ((s_ro_free.ptable s_ro_free.current).pagetable.map (fun T => T.leaf 0x100)) = some ⟨6, 5⟩ ∧
    ((s_ro_free.ptable s_ro_free.current).pagetable.map (fun T =>
      (proc_region weensy).countP (fun va =>
        decide (vmiter.perm weensy T va &&& PTE_P ≠ 0 ∧ vmiter.perm weensy T va &&& PTE_U ≠ 0 ∧
          vmiter.perm weensy T va &&& PTE_W = 0 ∧
          vmiter.pa weensy T va / weensy.PAGESIZE = 6)))) = some 1 ∧
    s_ro_free.physpages 6 = 0 ∧
    (syscall_fork weensy s_ro_free).map (fun r =>
      (r.1, r.2.physpages 6, (r.2.ptable 2).pagetable.map (fun T => (T.top, T.leaf 0x100))))
      = some (2, 2, some (0x6000, ⟨6, 5⟩)) := by
  decide!

/-! ## The invariants and `sys_page_free`, `syscall_page_alloc` -/

/-- C8. No dangling mappings fails on the code: in `s_boot` every page mapped in the
process region of a live process has refcount at least 1, and after `page_free(0x7000)`
the page `0x7000`, still mapped at `0x101000` by process 1, has refcount 0. -/
theorem page_free_leaves_dangling_mapping :
    no_dangling weensy s_boot ∧ ¬ no_dangling weensy (sys_page_free weensy 0x7000 s_boot) ∧
    (s_boot.ptable 1).state = P_RUNNABLE ∧
    ((s_boot.ptable 1).pagetable.map (fun T => T.leaf 0x101)) = some ⟨7, PTE_PWU⟩ ∧
    (((sys_page_free weensy 0x7000 s_boot).ptable 1).pagetable.map (fun T => T.leaf 0x101))
      = some ⟨7, PTE_PWU⟩ ∧
    s_boot.physpages 7 = 1 ∧ (sys_page_free weensy 0x7000 s_boot).physpages 7 = 0 := by
  decide!

/-- C4. Isolation fails on the code: after the fork the two processes are isolated; after
process 1 allocates at `0x102000`, calls `page_free(0x10000)` and yields, and process 2
allocates at `0x102000`, both live processes map the physical page `0x10` writable and
user-accessible. -/
theorem page_free_breaks_isolation :
    s_forked.map (fun s => decide (isolated weensy s)) = some true ∧
    s_after_free_and_alloc.map (fun s => decide (isolated weensy s)) = some false ∧
    s_after_free_and_alloc.map (fun s =>
      ((s.ptable 1).state, (s.ptable 1).pagetable.map (fun T => T.leaf 0x102),
       (s.ptable 2).state, (s.ptable 2).pagetable.map (fun T => T.leaf 0x102)))
      = some (P_RUNNABLE, some ⟨0x10, PTE_PWU⟩, P_RUNNABLE, some ⟨0x10, PTE_PWU⟩) := by
  decide!

/-- C9. No leaked pages is not preserved by `syscall_page_alloc` at an address that is
already mapped: in `s_heap` every allocatable page in use is reachable; `page_alloc` at
`0x13A000` returns 0, and afterwards the page `0x100000` it replaced still has refcount 1
and no live process reaches it. -/
theorem page_alloc_leaks_replaced_page :
    no_leak weensy s_heap ∧
    (syscall_page_alloc weensy 0x13A000 s_heap).map
      (fun r => (r.1, decide (no_leak weensy r.2), r.2.physpages 0x100,
        decide (reachable weensy r.2 0x100))) = some (0, false, 1, false) ∧
    weensy.allocatable_physical_address 0x100000 = true := by
  decide!

/-! ## Exit -/

/-- A page that `free_all` releases at least once is listed in `table_pages`. -/
theorem mem_table_pages_of_cnt (k : KConsts) (T : x86_64_pagetable) (p : Nat)
    (h : cnt k T p ≠ 0) : p ∈ table_pages k T := by
  unfold table_pages
  simp only [List.mem_append, List.mem_map, List.mem_filter, List.mem_singleton]
  by_cases hl : leafcnt k T p = 0
  · by_cases hi : innercnt k T.inner p = 0
    · right
      by_contra htop
      apply h
      unfold cnt
      rw [hl, hi, if_neg (fun h0 => htop h0.symm)]
    · left
      right
      have hpos : 0 < innercnt k T.inner p := Nat.pos_of_ne_zero hi
      unfold innercnt at hpos
      obtain ⟨e, he, hp⟩ := List.countP_pos_iff.mp hpos
      exact ⟨e, he, of_decide_eq_true hp⟩
  · left
    left
    have hpos : 0 < leafcnt k T p := Nat.pos_of_ne_zero hl
    unfold leafcnt at hpos
    obtain ⟨va, hva, hp⟩ := List.countP_pos_iff.mp hpos
    have hp1 := of_decide_eq_true hp
    exact ⟨va, ⟨hva, decide_eq_true hp1.1⟩, hp1.2⟩

/-- A bound on the counts that holds on the listed pages holds on every page. -/
theorem cnt_le_of_table_pages (k : KConsts) (T : x86_64_pagetable) (R : Nat → Nat)
    (h : ∀ p ∈ table_pages k T, cnt k T p ≤ R p) : ∀ p, cnt k T p ≤ R p := by
  intro p
  by_cases h0 : cnt k T p = 0
  · omega
  · exact h p (mem_table_pages_of_cnt k T p h0)

/-- C11, as amended. Exit reclamation: for a process with table `T` such that every
physical page has a refcount of at least the number of references `T` holds on it
(`cnt`: its process-region virtual pages with a non-zero permission mapping the page, plus
one for each of its lower-level table pages on the page, plus one for the top-level
table), `free_all` returns and lowers the refcount of every page by exactly that number.
So a page all of whose references were the process's ends with refcount 0, a page with a
further reference (shared read-only with a live process) keeps refcount >= 1, and a page
the table does not reference keeps its count; afterwards the slot is FREE with a null page
table, and the other slots, `current` and the memory are unchanged. -/
theorem exit_reclamation (k : KConsts) (s : KState) (c : Nat) (T : x86_64_pagetable)
    (hT : (s.ptable c).pagetable = some T)
    (hrc : ∀ p, cnt k T p ≤ s.physpages p) :
    ∃ s1, free_all k c s = some s1 ∧
      (∀ p, s1.physpages p = s.physpages p - cnt k T p) ∧
      (∀ p, s.physpages p = cnt k T p → s1.physpages p = 0) ∧
      (∀ p, cnt k T p < s.physpages p → 1 ≤ s1.physpages p) ∧
      (∀ p, cnt k T p = 0 → s1.physpages p = s.physpages p) ∧
      (s1.ptable c).state = P_FREE ∧ (s1.ptable c).pagetable = none ∧
      (∀ i, i ≠ c → s1.ptable i = s.ptable i) ∧
      s1.current = s.current ∧ s1.mem = s.mem := by
  obtain ⟨s1, hfree, hphys, hptab, hcur, hmem⟩ :=
    free_all_spec k c s T (fun p => s.physpages p - cnt k T p) hT (fun p => by
      have := hrc p
      beta_reduce
      omega)
  refine ⟨s1, hfree, hphys, ?_, ?_, ?_, ?_, ?_, ?_, hcur, hmem⟩
  · intro p hp
    rw [hphys, hp, Nat.sub_self]
  · intro p hp
    rw [hphys]
    omega
  · intro p hp
    rw [hphys, hp, Nat.sub_zero]
  · rw [hptab]
    simp
  · rw [hptab]
    simp
  · intro i hi
    rw [hptab, Function.update_noteq hi]

/-- The exit of process 1 in `s_boot`. -/
theorem exit_reclamation_witness :
    ∃ s1, free_all weensy 1 s_boot = some s1 ∧
      (∀ p, s1.physpages p = s_boot.physpages p - cnt weensy pt_boot p) ∧
      (∀ p, s_boot.physpages p = cnt weensy pt_boot p → s1.physpages p = 0) ∧
      (∀ p, cnt weensy pt_boot p < s_boot.physpages p → 1 ≤ s1.physpages p) ∧
      (∀ p, cnt weensy pt_boot p = 0 → s1.physpages p = s_boot.physpages p) ∧
      (s1.ptable 1).state = P_FREE ∧ (s1.ptable 1).pagetable = none ∧
      (∀ i, i ≠ 1 → s1.ptable i = s_boot.ptable i) ∧
      s1.current = s_boot.current ∧ s1.mem = s_boot.mem :=
  exit_reclamation weensy s_boot 1 pt_boot rfl
    (cnt_le_of_table_pages weensy pt_boot s_boot.physpages (by decide!))

/-- C11, counterexample. After `page_alloc(0x102000)`, `page_free(0x9000)` and
`page_alloc(0x103000)` from `s_boot`, process 1 maps the physical page 9 at both
`0x102000` and `0x103000` while its refcount is 1: every process-region mapping of the
process points to a page with refcount >= 1 and every table page has refcount 1, yet
`free_all` cannot lower the count of page 9 by the 2 virtual pages mapping it; the second
`kfree` of that page fails its assertion. -/
theorem exit_double_mapping_counterexample :
    s_double_map.map (fun s =>
      decide (∀ T ∈ (s.ptable 1).pagetable, mapped_in_use weensy T s.physpages)) = some true ∧
    s_double_map.map (fun s => (s.ptable 1).pagetable.map (fun T =>
      (vmiter.pa weensy T 0x102000, vmiter.perm weensy T 0x102000)))
      = some (some (0x9000, PTE_PWU)) ∧
    s_double_map.map (fun s => (s.ptable 1).pagetable.map (fun T =>
      (vmiter.pa weensy T 0x103000, vmiter.perm weensy T 0x103000)))
      = some (some (0x9000, PTE_PWU)) ∧
    s_double_map.map (fun s => (s.ptable 1).pagetable.map (fun T =>
      (T.inner.map (fun e => s.physpages (e.2 / weensy.PAGESIZE)),
        s.physpages (T.top / weensy.PAGESIZE)))) = some (some ([1, 1, 1, 1], 1)) ∧
    s_double_map.map (fun s => (s.ptable 1).pagetable.map (fun T => leafcnt weensy T 9))
      = some (some 2) ∧
    s_double_map.map (fun s => s.physpages 9) = some 1 ∧
    s_double_map.map (fun s => (free_all weensy 1 s).isSome) = some false := by
  decide!

/-! ## kill -/

/-- C12. Kill permission denial: for every caller whose effective uid is nonzero and every
in-range target pid different from the caller's pid whose uid differs from the caller's
euid, `kill` returns the failure sentinel `(uintptr_t) -1` and leaves the whole kernel
state, the target's state included, unchanged. -/
theorem kill_permission_denied (k : KConsts) (s : KState) (pid : Int)
    (heuid : (s.ptable s.current).euid ≠ 0)
    (hrange : 0 ≤ pid ∧ pid < (k.NPROC : Int))
    (hne : pid ≠ ((s.ptable s.current).pid : Int))
    (huid : (s.ptable pid.toNat).uid ≠ (s.ptable s.current).euid) :
    kill k pid s = some (toU64 (-1), s) ∧ toU64 (-1) = 2 ^ 64 - 1 := by
  refine ⟨?_, by decide⟩
  unfold kill
  rw [if_neg hne, if_neg (by omega), if_pos ⟨heuid, fun h => huid h.symm⟩]

/-- The denied kill of process 2 (user 7) by process 1 (user 5) in `s_users`. -/
theorem kill_permission_denied_witness :
    kill weensy 2 s_users = some (toU64 (-1), s_users) ∧ toU64 (-1) = 2 ^ 64 - 1 :=
  kill_permission_denied weensy s_users 2 (by decide) (by decide) (by decide) (by decide)

/-- C13. Self-kill always succeeds: in every state (so for every value of the caller's uid
and euid) `kill(current->pid)` returns 0 and sets the caller's state to ZOMBIE, changing
nothing else. -/
theorem self_kill_succeeds (k : KConsts) (s : KState) :
    ∃ s1, kill k ((s.ptable s.current).pid : Int) s = some (0, s1) ∧
      (s1.ptable s.current).state = P_ZOMBIE ∧
      s1 = { s with
        ptable := Function.update s.ptable s.current
          { s.ptable s.current with state := P_ZOMBIE } } := by
  refine ⟨_, by rw [kill, if_pos rfl], ?_, rfl⟩
  simp

/-- C14. Authorised kill affects only the target's state: for every in-range target pid
other than the caller's (the caller's pid being its slot number), if the caller's euid is
0 or equals the target's uid then `kill` returns 0 and sets `ptable[pid].state` to ZOMBIE,
and nothing else changes: the refcounts, the memory, `current`, the tick counter and the
run queue, every other slot (the caller's included) and every other field of the target's
slot, its page table included, are as before. -/
theorem authorised_kill_frame (k : KConsts) (s : KState) (pid : Int)
    (hpid : (s.ptable s.current).pid = s.current)
    (hrange : 0 ≤ pid ∧ pid < (k.NPROC : Int))
    (hne : pid ≠ ((s.ptable s.current).pid : Int))
    (hauth : (s.ptable s.current).euid = 0 ∨
      (s.ptable s.current).euid = (s.ptable pid.toNat).uid) :
    ∃ s1, kill k pid s = some (0, s1) ∧
      (s1.ptable pid.toNat).state = P_ZOMBIE ∧
      s1.ptable pid.toNat = { s.ptable pid.toNat with state := P_ZOMBIE } ∧
      (s1.ptable pid.toNat).pagetable = (s.ptable pid.toNat).pagetable ∧
      (∀ i, i ≠ pid.toNat → s1.ptable i = s.ptable i) ∧
      s1.ptable s.current = s.ptable s.current ∧
      s1.physpages = s.physpages ∧ s1.mem = s.mem ∧ s1.current = s.current ∧
      s1.ticks = s.ticks ∧ s1.runqueue_head = s.runqueue_head ∧
      s1.runqueue_tail = s.runqueue_tail := by
  have hcur : s.current ≠ pid.toNat := by
    intro h
    apply hne
    rw [hpid, h]
    omega
  have hden : ¬ ((s.ptable s.current).euid ≠ 0 ∧
      (s.ptable s.current).euid ≠ (s.ptable pid.toNat).uid) := by
    rintro ⟨h1, h2⟩
    rcases hauth with h | h
    · exact h1 h
    · exact h2 h
  refine ⟨{ s with
      ptable := Function.update s.ptable pid.toNat
        { s.ptable pid.toNat with state := P_ZOMBIE } },
    by rw [kill, if_neg hne, if_neg (by omega), if_neg hden], ?_, ?_, ?_, ?_, ?_,
    rfl, rfl, rfl, rfl, rfl, rfl⟩
  · simp
  · simp
  · simp
  · intro i hi
    simp [Function.update_noteq hi]
  · simp [Function.update_noteq hcur]

/-- The kill of slot 2 by process 1 (euid 0) in `s_boot`. -/
theorem authorised_kill_frame_witness :
    ∃ s1, kill weensy 2 s_boot = some (0, s1) ∧
      (s1.ptable (2 : Int).toNat).state = P_ZOMBIE ∧
      s1.ptable (2 : Int).toNat = { s_boot.ptable (2 : Int).toNat with state := P_ZOMBIE } ∧
      (s1.ptable (2 : Int).toNat).pagetable = (s_boot.ptable (2 : Int).toNat).pagetable ∧
      (∀ i, i ≠ (2 : Int).toNat → s1.ptable i = s_boot.ptable i) ∧
      s1.ptable s_boot.current = s_boot.ptable s_boot.current ∧
      s1.physpages = s_boot.physpages ∧ s1.mem = s_boot.mem ∧ s1.current = s_boot.current ∧
      s1.ticks = s_boot.ticks ∧ s1.runqueue_head = s_boot.runqueue_head ∧
      s1.runqueue_tail = s_boot.runqueue_tail :=
  authorised_kill_frame weensy s_boot 2 (by decide) (by decide) (by decide) (by decide)

/-! ## syscall_page_alloc and sys_page_free -/

theorem innercnt_zero (k : KConsts) (inner : List (Nat × Nat)) (p : Nat)
    (h : ∀ e ∈ inner, e.2 / k.PAGESIZE ≠ p) : innercnt k inner p = 0 := by
  unfold innercnt
  rw [List.countP_eq_zero]
  intro e he
  simpa using h e he

/-- What `syscall_page_alloc` leaves of the tables when it maps the page `pa` that `kalloc`
returned: from a state whose tables are in use and in which the caller's table shares no
page with another table, the page `pa` held no table, no byte on a page of the table of
another slot has changed, the pages of the tables are still in use, and the caller's
table, with the levels added, still shares no page with another table. -/
theorem page_alloc_tables (k : KConsts) (hk : k.wf) (s : KState) (addr : Nat)
    (pt : x86_64_pagetable) (pa : Nat)
    (hpt : (s.ptable s.current).pagetable = some pt)
    (htab : tables_in_use k s) (hapart : table_apart k s s.current)
    (hdvd : k.PAGESIZE ∣ pa) (hrc : s.physpages (pa / k.PAGESIZE) = 0)
    (hk1 : kalloc k k.PAGESIZE s = (pa, kalloc_page k s pa))
    (m : Int × x86_64_pagetable × KState)
    (hm : vmiter.try_map k pt addr pa PTE_PWU (kalloc_page k s pa) = m)
    (q : Nat) (hq : q = pa) (hcur : m.2.2.current = s.current) :
    ¬ on_table_page k s pa ∧
    (∀ j, j < k.NPROC → j ≠ s.current → ∀ a, on_table_page_of k s j a →
      ({ set_pagetable m.2.2 s.current (some m.2.1) with
        mem := memset m.2.2.mem q 0 k.PAGESIZE } : KState).mem a = s.mem a) ∧
    tables_in_use k
      { set_pagetable m.2.2 s.current (some m.2.1) with
        mem := memset m.2.2.mem q 0 k.PAGESIZE } ∧
    table_apart k
      { set_pagetable m.2.2 s.current (some m.2.1) with
        mem := memset m.2.2.mem q 0 k.PAGESIZE }
      { set_pagetable m.2.2 s.current (some m.2.1) with
        mem := memset m.2.2.mem q 0 k.PAGESIZE }.current := by
  subst hq
  obtain ⟨hst, htop, hin, hnewin, _⟩ := try_map_spec k hk pt addr q PTE_PWU _ m hm
  have hsk : Stable k s (kalloc_page k s q) :=
    stable_take k hk s q _ hdvd hrc (fun a ha => memset_other k hk s.mem q _ a hdvd ha)
  have hsm : Stable k s m.2.2 := hsk.trans hst
  have hnot : ¬ on_table_page k s q := by
    intro h
    have := table_page_in_use k s q htab h
    omega
  have hptab : ∀ j, j ≠ s.current →
      (Function.update m.2.2.ptable s.current
        { m.2.2.ptable s.current with pagetable := some m.2.1 }) j = s.ptable j := by
    intro j hj
    rw [Function.update_noteq hj, hsm.ptable]
  have hnew : ∀ pb ∈ table_addrs m.2.1,
      pb ∈ table_addrs pt ∨ s.physpages (pb / k.PAGESIZE) = 0 := by
    intro pb hpb
    rcases (mem_table_addrs m.2.1 pb).mp hpb with h | ⟨e, he, h⟩
    · left
      rw [h, htop]
      exact (mem_table_addrs pt pt.top).mpr (Or.inl rfl)
    · rcases hnewin e he with h1 | h1
      · left
        exact (mem_table_addrs pt pb).mpr (Or.inr ⟨e, h1, h⟩)
      · right
        have := hsk.mono (e.2 / k.PAGESIZE)
        rw [← h]
        omega
  refine ⟨hnot, ?_, ?_, ?_⟩
  · intro j hj _ a ha
    have hin1 := table_page_in_use k s a htab ⟨j, hj, ha⟩
    show memset m.2.2.mem q 0 k.PAGESIZE a = s.mem a
    rw [memset_other k hk _ q _ a hdvd (by
      intro h
      rw [h] at hin1
      omega)]
    exact hsm.mem a hin1
  · intro i hi U hU pb hpb
    show 1 ≤ m.2.2.physpages (pb / k.PAGESIZE)
    by_cases hic : i = s.current
    · subst hic
      have hU1 : U = m.2.1 := by
        have : (Function.update m.2.2.ptable s.current
            { m.2.2.ptable s.current with pagetable := some m.2.1 } s.current).pagetable
            = some U := hU
        rw [Function.update_same] at this
        exact (Option.some.inj this).symm
      subst hU1
      rcases hnew pb hpb with h | h
      · exact le_trans (htab s.current hi pt hpt pb h) (hsm.mono _)
      · rcases (mem_table_addrs m.2.1 pb).mp hpb with h1 | ⟨e, he, h1⟩
        · have := htab s.current hi pt hpt pt.top ((mem_table_addrs pt pt.top).mpr (Or.inl rfl))
          rw [h1, htop] at h
          omega
        · have h2 := hin (pb / k.PAGESIZE)
          have h3 := innercnt_pos k m.2.1.inner e he
          rw [h1] at h3
          have h4 : innercnt k pt.inner (pb / k.PAGESIZE) = 0 := by
            apply innercnt_zero
            intro e1 he1 heq
            have := htab s.current hi pt hpt e1.2
              ((mem_table_addrs pt e1.2).mpr (Or.inr ⟨e1, he1, rfl⟩))
            rw [heq] at this
            omega
          omega
    · have hU1 : U ∈ (s.ptable i).pagetable := by
        have : (Function.update m.2.2.ptable s.current
            { m.2.2.ptable s.current with pagetable := some m.2.1 } i).pagetable
            = some U := hU
        rw [hptab i hic] at this
        exact this
      exact le_trans (htab i hi U hU1 pb hpb) (hsm.mono _)
  · intro j hj hjc T hT U hU pb hpb pc hpc
    have hcur1 : ({ set_pagetable m.2.2 s.current (some m.2.1) with
        mem := memset m.2.2.mem q 0 k.PAGESIZE } : KState).current = s.current := hcur
    rw [hcur1] at hjc hT
    have hT1 : T = m.2.1 := by
      have : (Function.update m.2.2.ptable s.current
          { m.2.2.ptable s.current with pagetable := some m.2.1 } s.current).pagetable
          = some T := hT
      rw [Function.update_same] at this
      exact (Option.some.inj this).symm
    subst hT1
    have hU1 : U ∈ (s.ptable j).pagetable := by
      have : (Function.update m.2.2.ptable s.current
          { m.2.2.ptable s.current with pagetable := some m.2.1 } j).pagetable
          = some U := hU
      rw [hptab j hjc] at this
      exact this
    rcases hnew pb hpb with h | h
    · exact hapart j hj hjc pt hpt U hU1 pb h pc hpc
    · intro heq
      have := htab j hj U hU1 pc hpc
      rw [heq] at h
      omega
/-- C15 (amended). `page_alloc` success postcondition: in a state where every page that
holds a page table is in use and the caller's table shares no page with the table of
another slot, for every page-aligned `addr` with `PROC_START_ADDR <= addr <
MEMSIZE_VIRTUAL`, when an allocatable physical page is free and the mapping succeeds,
`syscall_page_alloc` returns 0 and afterwards the caller's table maps `addr` to a physical
page (the one `kalloc` returned) that had refcount 0 before and has refcount 1 now, with
permissions present + writable + user; all `PAGESIZE` bytes of that page are zero, and
every other slot of the process table, so every other process's page table, is unchanged:
the page held no page table, no byte on a page of the table of another slot has changed,
every page that holds a page table is still in use, and the caller's table still shares no
page with the table of another slot. -/
theorem page_alloc_success (k : KConsts) (hk : k.wf) (s : KState) (addr : Nat)
    (pt : x86_64_pagetable)
    (hlo : k.PROC_START_ADDR ≤ addr) (hhi : addr < k.MEMSIZE_VIRTUAL)
    (hal : k.PAGESIZE ∣ addr)
    (hpt : (s.ptable s.current).pagetable = some pt)
    (hfree : ∃ pa, pa < k.MEMSIZE_PHYSICAL ∧ k.PAGESIZE ∣ pa ∧
      k.allocatable_physical_address pa = true ∧ s.physpages (pa / k.PAGESIZE) = 0)
    (hmap : ¬ (vmiter.try_map k pt addr (kalloc k k.PAGESIZE s).1 PTE_PWU
      (kalloc k k.PAGESIZE s).2).1 < 0)
    (htab : tables_in_use k s) (hapart : table_apart k s s.current) :
    ∃ (s1 : KState) (T : x86_64_pagetable),
      syscall_page_alloc k addr s = some (0, s1) ∧
      s1.current = s.current ∧ (s1.ptable s.current).pagetable = some T ∧
      vmiter.perm k T addr = PTE_P ||| PTE_W ||| PTE_U ∧
      vmiter.pa k T addr = (kalloc k k.PAGESIZE s).1 ∧
      k.PAGESIZE ∣ vmiter.pa k T addr ∧
      s.physpages (vmiter.pa k T addr / k.PAGESIZE) = 0 ∧
      s1.physpages (vmiter.pa k T addr / k.PAGESIZE) = 1 ∧
      (∀ i, i < k.PAGESIZE → s1.mem (vmiter.pa k T addr + i) = 0) ∧
      (∀ i, i ≠ s.current → s1.ptable i = s.ptable i) ∧
      ¬ on_table_page k s (vmiter.pa k T addr) ∧
      (∀ j, j < k.NPROC → j ≠ s.current → ∀ a, on_table_page_of k s j a →
        s1.mem a = s.mem a) ∧
      tables_in_use k s1 ∧ table_apart k s1 s1.current := by
  obtain ⟨pa, hpa0, hdvd, _, _, hrc, hk1⟩ := kalloc_finds_free k hk s k.PAGESIZE le_rfl hfree
  obtain ⟨hst, _, _, _, hleaf⟩ := try_map_spec k hk pt addr (kalloc k k.PAGESIZE s).1 PTE_PWU
    (kalloc k k.PAGESIZE s).2 _ rfl
  have hleaf1 := hleaf.resolve_left (fun h => hmap h.1)
  have hlook := lookup_of_leaf k hk _ addr ((kalloc k k.PAGESIZE s).1 / k.PAGESIZE) PTE_PWU hal
    (by decide) (by rw [hleaf1.2]; simp)
  have hval : ¬ (addr < k.PROC_START_ADDR ∨ addr % k.PAGESIZE ≠ 0 ∨
      addr ≥ k.MEMSIZE_VIRTUAL) := by
    have := Nat.mod_eq_zero_of_dvd hal
    omega
  have hne0 : ¬ (kalloc k k.PAGESIZE s).1 = 0 := by rw [hk1]; exact hpa0
  have hptab : (kalloc k k.PAGESIZE s).2.ptable = s.ptable := by rw [hk1]; rfl
  have hcur : (kalloc k k.PAGESIZE s).2.current = s.current := by rw [hk1]; rfl
  have hpt1 : ((kalloc k k.PAGESIZE s).2.ptable s.current).pagetable = some pt := by
    rw [hptab]; exact hpt
  have hpaeq : vmiter.pa k (vmiter.try_map k pt addr (kalloc k k.PAGESIZE s).1 PTE_PWU
      (kalloc k k.PAGESIZE s).2).2.1 addr = (kalloc k k.PAGESIZE s).1 := by
    rw [hlook.2.1, hk1]
    exact Nat.div_mul_cancel hdvd
  refine ⟨{ set_pagetable
        (vmiter.try_map k pt addr (kalloc k k.PAGESIZE s).1 PTE_PWU
          (kalloc k k.PAGESIZE s).2).2.2 s.current
        (some (vmiter.try_map k pt addr (kalloc k k.PAGESIZE s).1 PTE_PWU
          (kalloc k k.PAGESIZE s).2).2.1) with
      mem := memset
        (vmiter.try_map k pt addr (kalloc k k.PAGESIZE s).1 PTE_PWU
          (kalloc k k.PAGESIZE s).2).2.2.mem
        (vmiter.pa k
          (vmiter.try_map k pt addr (kalloc k k.PAGESIZE s).1 PTE_PWU
            (kalloc k k.PAGESIZE s).2).2.1 addr) 0 k.PAGESIZE },
    (vmiter.try_map k pt addr (kalloc k k.PAGESIZE s).1 PTE_PWU
      (kalloc k k.PAGESIZE s).2).2.1, ?_, ?_, ?_, ?_, hpaeq, ?_, ?_, ?_, ?_, ?_, ?_⟩
  · unfold syscall_page_alloc
    rw [if_neg hval, if_neg hne0]
    simp only [hpt1]
    rw [if_neg hmap]
  · show (vmiter.try_map k pt addr (kalloc k k.PAGESIZE s).1 PTE_PWU
      (kalloc k k.PAGESIZE s).2).2.2.current = s.current
    rw [hst.current, hcur]
  · simp [set_pagetable]
  · rw [hlook.1]; decide
  · rw [hpaeq, hk1]; exact hdvd
  · rw [hpaeq, hk1]; exact hrc
  · show (vmiter.try_map k pt addr (kalloc k k.PAGESIZE s).1 PTE_PWU
      (kalloc k k.PAGESIZE s).2).2.2.physpages _ = 1
    rw [hpaeq]
    have h1 : (kalloc k k.PAGESIZE s).2.physpages ((kalloc k k.PAGESIZE s).1 / k.PAGESIZE)
        = 1 := by
      rw [hk1]
      show (kalloc_page k s pa).physpages (pa / k.PAGESIZE) = 1
      rw [kalloc_page_physpages_self, hrc]
    rw [hst.used _ (by omega), h1]
  · intro i hi
    show memset _ _ 0 k.PAGESIZE _ = 0
    unfold memset
    rw [if_pos ⟨by omega, by omega⟩]
  · intro i hi
    show (set_pagetable _ _ _).ptable i = _
    simp only [set_pagetable, Function.update_noteq hi]
    rw [hst.ptable, hptab]
  · rw [hpaeq]
    have hcur1 : (vmiter.try_map k pt addr (kalloc k k.PAGESIZE s).1 PTE_PWU
        (kalloc k k.PAGESIZE s).2).2.2.current = s.current := by rw [hst.current, hcur]
    rw [hk1] at hcur1 ⊢
    exact page_alloc_tables k hk s addr pt pa hpt htab hapart hdvd hrc hk1
      (vmiter.try_map k pt addr pa PTE_PWU (kalloc_page k s pa)) rfl pa rfl hcur1

/-- The call `page_alloc(0x102000)` of process 1 in `s_boot`, where the pages of the only
table are in use. -/
theorem page_alloc_success_witness :
    tables_in_use weensy s_boot ∧ table_apart weensy s_boot s_boot.current ∧
    ∃ (s1 : KState) (T : x86_64_pagetable),
      syscall_page_alloc weensy 0x102000 s_boot = some (0, s1) ∧
      s1.current = s_boot.current ∧ (s1.ptable s_boot.current).pagetable = some T ∧
      vmiter.perm weensy T 0x102000 = PTE_P ||| PTE_W ||| PTE_U ∧
      vmiter.pa weensy T 0x102000 = (kalloc weensy weensy.PAGESIZE s_boot).1 ∧
      weensy.PAGESIZE ∣ vmiter.pa weensy T 0x102000 ∧
      s_boot.physpages (vmiter.pa weensy T 0x102000 / weensy.PAGESIZE) = 0 ∧
      s1.physpages (vmiter.pa weensy T 0x102000 / weensy.PAGESIZE) = 1 ∧
      (∀ i, i < weensy.PAGESIZE → s1.mem (vmiter.pa weensy T 0x102000 + i) = 0) ∧
      (∀ i, i ≠ s_boot.current → s1.ptable i = s_boot.ptable i) ∧
      ¬ on_table_page weensy s_boot (vmiter.pa weensy T 0x102000) ∧
      (∀ j, j < weensy.NPROC → j ≠ s_boot.current → ∀ a, on_table_page_of weensy s_boot j a →
        s1.mem a = s_boot.mem a) ∧
      tables_in_use weensy s1 ∧ table_apart weensy s1 s1.current :=
  ⟨by decide, by decide,
    page_alloc_success weensy (by decide) s_boot 0x102000 pt_boot (by decide) (by decide)
      (by decide) rfl ⟨0x9000, by decide!⟩ (by decide!) (by decide) (by decide)⟩

/-- C15, as stated, fails on the code: after process 1 has forked in `s_boot` and has
called `page_free(0x9000)`, process 2 is RUNNABLE with its top-level page table on the page
`0x9000`, whose refcount is 0, and `kalloc` returns that page.  The call `page_alloc(0x102000)`
of process 1 returns 0 and maps `0x102000` present, writable and user-accessible to the
page `0x9000`; every byte of that page, the top-level table of process 2, is 0 after the
call. -/
theorem page_alloc_wipes_child_table_counterexample :
    s_child_tab_free.map (fun s => (s.current, (s.ptable 2).state)) = some (1, P_RUNNABLE) ∧
    s_child_tab_free.map (fun s =>
      ((s.ptable 2).pagetable.map (fun T => T.top), s.physpages 9,
        (kalloc weensy weensy.PAGESIZE s).1)) = some (some 0x9000, 0, 0x9000) ∧
    s_child_tab_free.map (fun s => decide (tables_in_use weensy s)) = some false ∧
    (s_child_tab_free.bind (syscall_page_alloc weensy 0x102000)).map (fun r =>
      (r.1, (r.2.ptable 1).pagetable.map
        (fun T => (vmiter.perm weensy T 0x102000, vmiter.pa weensy T 0x102000))))
      = some (0, some (PTE_P ||| PTE_W ||| PTE_U, 0x9000)) ∧
    (s_child_tab_free.bind (syscall_page_alloc weensy 0x102000)).map (fun r =>
      ((r.2.ptable 2).pagetable.map (fun T => T.top),
        (List.range weensy.PAGESIZE).all (fun i => decide (r.2.mem (0x9000 + i) = 0))))
      = some (some 0x9000, true) := by
  decide!

/-- C16. `page_alloc` rejects bad requests without side effects: if `addr <
PROC_START_ADDR`, or `addr` is not a multiple of `PAGESIZE`, or `addr >= MEMSIZE_VIRTUAL`,
or no allocatable physical page is free, then `syscall_page_alloc` returns `-1` and the
kernel state (every refcount, every page table) is unchanged. -/
theorem page_alloc_rejects (k : KConsts) (hk : k.wf) (s : KState) (addr : Nat)
    (hbad : addr < k.PROC_START_ADDR ∨ ¬ k.PAGESIZE ∣ addr ∨ addr ≥ k.MEMSIZE_VIRTUAL ∨
      ¬ ∃ pa, pa < k.MEMSIZE_PHYSICAL ∧ k.PAGESIZE ∣ pa ∧
        k.allocatable_physical_address pa = true ∧ s.physpages (pa / k.PAGESIZE) = 0) :
    syscall_page_alloc k addr s = some (-1, s) := by
  unfold syscall_page_alloc
  by_cases hval : addr < k.PROC_START_ADDR ∨ addr % k.PAGESIZE ≠ 0 ∨ addr ≥ k.MEMSIZE_VIRTUAL
  · rw [if_pos hval]
  · rw [if_neg hval]
    have hno : ¬ ∃ pa, pa < k.MEMSIZE_PHYSICAL ∧ k.PAGESIZE ∣ pa ∧
        k.allocatable_physical_address pa = true ∧ s.physpages (pa / k.PAGESIZE) = 0 := by
      rcases hbad with h | h | h | h
      · exact absurd (Or.inl h) hval
      · exact absurd (Or.inr (Or.inl (fun h0 => h (Nat.dvd_of_mod_eq_zero h0)))) hval
      · exact absurd (Or.inr (Or.inr h)) hval
      · exact h
    rcases kalloc_cases k hk k.PAGESIZE s with h0 | ⟨pa, _, hdvd, hlt, halloc, hrc, _⟩
    · rw [h0, if_pos rfl]
    · exact absurd ⟨pa, hlt, hdvd, halloc, hrc⟩ hno

/-- A misaligned request in `s_boot`. -/
theorem page_alloc_rejects_witness :
    syscall_page_alloc weensy 0x102004 s_boot = some (-1, s_boot) :=
  page_alloc_rejects weensy (by decide) s_boot 0x102004 (Or.inr (Or.inl (by decide)))

/-- C19. `page_free` is a no-op on a null or misaligned address: for every `ptr` that is 0
or not a multiple of `PAGESIZE`, `sys_page_free` returns the state it was given, and the
`page_free` system call with that argument returns 0 to the caller, the state being the
one on entry with the caller's registers saved (`save_regs`). -/
theorem page_free_noop (n : SyscallNumbers) (k : KConsts) (hn : n.distinct) (regs : regstate)
    (s : KState) (ptr : Nat) (hbad : ptr = 0 ∨ ¬ k.PAGESIZE ∣ ptr) :
    sys_page_free k ptr s = s ∧
    (regs.reg_rax = n.SYSCALL_PAGE_FREE → regs.reg_rdi = ptr →
      syscall n k regs s = Outcome.returned 0 (save_regs regs s)) := by
  have hcond : ∀ s0 : KState, sys_page_free k ptr s0 = s0 := by
    intro s0
    unfold sys_page_free
    rw [if_pos]
    rcases hbad with h | h
    · exact Or.inl h
    · exact Or.inr (fun h0 => h (Nat.dvd_of_mod_eq_zero h0))
  refine ⟨hcond s, ?_⟩
  intro hrax hrdi
  unfold SyscallNumbers.distinct at hn
  simp only [List.nodup_cons, List.mem_cons, List.mem_singleton, not_or, List.not_mem_nil,
    not_false_eq_true, List.nodup_nil, and_true] at hn
  obtain ⟨h1, h2, h3, h4, h5, h6, h7⟩ := hn
  unfold syscall
  rw [hrax, if_neg (Ne.symm h1.2.2.2.2.2.1), if_neg (Ne.symm h2.2.2.2.2.1),
    if_neg (Ne.symm h3.2.2.2.1), if_neg (Ne.symm h4.2.2.1), if_neg (Ne.symm h5.2.1),
    if_neg (Ne.symm h6.1), if_pos rfl, hrdi, hcond]

/-- The call `page_free(0x101004)` of process 1 in `s_boot`. -/
theorem page_free_noop_witness :
    sys_page_free weensy 0x101004 s_boot = s_boot ∧
    ((⟨7, 0, 0x101004, 0, 0, 0, 0⟩ : regstate).reg_rax = sysno.SYSCALL_PAGE_FREE →
      (⟨7, 0, 0x101004, 0, 0, 0, 0⟩ : regstate).reg_rdi = 0x101004 →
      syscall sysno weensy ⟨7, 0, 0x101004, 0, 0, 0, 0⟩ s_boot
        = Outcome.returned 0 (save_regs ⟨7, 0, 0x101004, 0, 0, 0, 0⟩ s_boot)) :=
  page_free_noop sysno weensy (by decide) ⟨7, 0, 0x101004, 0, 0, 0, 0⟩ s_boot 0x101004
    (Or.inr (by decide))

/-- C17. `page_free` does not release the page mapped at `addr`: in `s_boot` the caller,
process 1, maps the page-aligned process-region address `0x101000` to the physical page 7,
whose refcount is 1; `sys_page_free(0x101000)` leaves that refcount at 1, not at 0, and
changes no refcount at all (the page number it looks at is `0x101`, which is free). -/
theorem page_free_keeps_mapped_page :
    s_boot.current = 1 ∧
    ((s_boot.ptable 1).pagetable.map (fun T =>
      (vmiter.pa weensy T 0x101000, vmiter.perm weensy T 0x101000))) = some (0x7000, PTE_PWU) ∧
    weensy.PROC_START_ADDR ≤ 0x101000 ∧ 0x101000 < weensy.MEMSIZE_VIRTUAL ∧
    weensy.PAGESIZE ∣ 0x101000 ∧
    s_boot.physpages 7 = 1 ∧
    (sys_page_free weensy 0x101000 s_boot).physpages 7 = 1 ∧
    (List.range (NPAGES weensy)).all (fun p =>
      decide ((sys_page_free weensy 0x101000 s_boot).physpages p = s_boot.physpages p)) = true := by
  decide!

/-- C18. `page_free` reaches pages the caller does not map at `ptr`: in `s_boot`,
`sys_page_free(0x7000)`, an address below `PROC_START_ADDR`, sets the refcount of the
physical page 7 from 1 to 0, and so does `sys_page_free(2^44 + 0x7000)`, an address above
`MEMSIZE_VIRTUAL` whose page number does not fit in an `int`. -/
theorem page_free_outside_region :
    0x7000 < weensy.PROC_START_ADDR ∧ weensy.MEMSIZE_VIRTUAL ≤ 2 ^ 44 + 0x7000 ∧
    2 ^ 31 ≤ (2 ^ 44 + 0x7000) / weensy.PAGESIZE ∧ 2 ^ 44 + 0x7000 < 2 ^ 64 ∧
    s_boot.physpages 7 = 1 ∧
    (sys_page_free weensy 0x7000 s_boot).physpages 7 = 0 ∧
    (sys_page_free weensy (2 ^ 44 + 0x7000) s_boot).physpages 7 = 0 := by
  decide!

/-! ## schedule -/

/-- The scan stops at the first RUNNABLE slot of the circular sequence
`(c + 1) % NPROC, (c + 2) % NPROC, ...`, given fuel for that many probes. -/
theorem schedule_scan_hit (k : KConsts) (s : KState) :
    ∀ (j fuel c : Nat), 1 ≤ j → j ≤ fuel →
      (∀ i, 1 ≤ i → i < j → (s.ptable ((c + i) % k.NPROC)).state ≠ P_RUNNABLE) →
      (s.ptable ((c + j) % k.NPROC)).state = P_RUNNABLE →
      schedule_scan k s fuel c = some ((c + j) % k.NPROC) := by
  intro j
  induction j with
  | zero => intro fuel c h; omega
  | succ j ih =>
    intro fuel c _ hf hbefore hrun
    obtain ⟨f, rfl⟩ : ∃ f, fuel = f + 1 := ⟨fuel - 1, by omega⟩
    unfold schedule_scan
    by_cases hj : j = 0
    · subst hj
      rw [if_pos hrun]
    · rw [if_neg (hbefore 1 (le_refl 1) (by omega))]
      have hshift : ∀ i, ((c + 1) % k.NPROC + i) % k.NPROC = (c + (i + 1)) % k.NPROC := by
        intro i
        rw [Nat.mod_add_mod]
        congr 1
        omega
      rw [ih f ((c + 1) % k.NPROC) (by omega) (by omega) ?_ ?_, hshift]
      · intro i hi1 hi2
        rw [hshift]
        exact hbefore (i + 1) (by omega) (by omega)
      · rw [hshift]
        exact hrun

/-- With no RUNNABLE slot the scan finds nothing, whatever the fuel. -/
theorem schedule_scan_miss (k : KConsts) (s : KState) (hN : 0 < k.NPROC)
    (hnone : ∀ i, i < k.NPROC → (s.ptable i).state ≠ P_RUNNABLE) :
    ∀ (fuel c : Nat), schedule_scan k s fuel c = none := by
  intro fuel
  induction fuel with
  | zero => intro c; rfl
  | succ f ih =>
    intro c
    unfold schedule_scan
    rw [if_neg (hnone _ (Nat.mod_lt _ hN)), ih]

/-- Every slot is met within `NPROC` steps of the circular sequence. -/
theorem circular_reaches (N c i : Nat) (hi : i < N) :
    ∃ j, 1 ≤ j ∧ j ≤ N ∧ (c + j) % N = i := by
  by_cases h : c % N < i
  · refine ⟨i - c % N, by omega, by omega, ?_⟩
    rw [← Nat.mod_add_mod, show c % N + (i - c % N) = i by omega, Nat.mod_eq_of_lt hi]
  · have hc : c % N < N := Nat.mod_lt _ (by omega)
    refine ⟨N + i - c % N, by omega, by omega, ?_⟩
    rw [← Nat.mod_add_mod, show c % N + (N + i - c % N) = i + N by omega, Nat.add_mod_right,
      Nat.mod_eq_of_lt hi]

/-- A step of fewer than `NPROC` slots does not come back to the start. -/
theorem circular_ne (N c j : Nat) (hc : c < N) (hj1 : 1 ≤ j) (hjN : j < N) :
    (c + j) % N ≠ c := by
  by_cases h : c + j < N
  · rw [Nat.mod_eq_of_lt h]
    omega
  · rw [Nat.mod_eq_sub_mod (by omega), Nat.mod_eq_of_lt (by omega)]
    omega

/-- C20. Scheduler selection: with `N = NPROC > 0` and `c = current->pid`, if some slot
below `N` is RUNNABLE then `schedule` returns, and the process it runs is the slot `(c + j)
% N` for the least `j` in `1..N` for which that slot is RUNNABLE (the first RUNNABLE slot
of the circular order starting just after the caller); the caller itself is chosen only
when no other slot is RUNNABLE.  If no slot is RUNNABLE, the scan finds nothing however
long it runs: `schedule` does not return. -/
theorem schedule_selection (k : KConsts) (s : KState) (hN : 0 < k.NPROC) :
    ((∃ i, i < k.NPROC ∧ (s.ptable i).state = P_RUNNABLE) →
      ∃ j, 1 ≤ j ∧ j ≤ k.NPROC ∧
        (s.ptable (((s.ptable s.current).pid + j) % k.NPROC)).state = P_RUNNABLE ∧
        (∀ i, 1 ≤ i → i < j →
          (s.ptable (((s.ptable s.current).pid + i) % k.NPROC)).state ≠ P_RUNNABLE) ∧
        (∀ fuel, k.NPROC ≤ fuel →
          schedule_scan k s fuel (s.ptable s.current).pid
            = some (((s.ptable s.current).pid + j) % k.NPROC)) ∧
        schedule k s
          = some { s with current := ((s.ptable s.current).pid + j) % k.NPROC } ∧
        ((s.ptable s.current).pid < k.NPROC →
          ((s.ptable s.current).pid + j) % k.NPROC = (s.ptable s.current).pid →
          ∀ i, i < k.NPROC → i ≠ (s.ptable s.current).pid →
            (s.ptable i).state ≠ P_RUNNABLE)) ∧
    ((∀ i, i < k.NPROC → (s.ptable i).state ≠ P_RUNNABLE) →
      (∀ fuel, schedule_scan k s fuel (s.ptable s.current).pid = none) ∧
      schedule k s = none) := by
  constructor
  · rintro ⟨i, hi, hrun⟩
    have hex : ∃ j, 1 ≤ j ∧
        (s.ptable (((s.ptable s.current).pid + j) % k.NPROC)).state = P_RUNNABLE := by
      obtain ⟨j, hj1, _, hj⟩ := circular_reaches k.NPROC (s.ptable s.current).pid i hi
      exact ⟨j, hj1, by rw [hj]; exact hrun⟩
    classical
    have hspec := Nat.find_spec hex
    have hmin : ∀ i, 1 ≤ i → i < Nat.find hex →
        (s.ptable (((s.ptable s.current).pid + i) % k.NPROC)).state ≠ P_RUNNABLE :=
      fun i hi1 hi2 hr => Nat.find_min hex hi2 ⟨hi1, hr⟩
    have hle : Nat.find hex ≤ k.NPROC := by
      obtain ⟨j, hj1, hjN, hj⟩ := circular_reaches k.NPROC (s.ptable s.current).pid i hi
      exact le_trans (Nat.find_min' hex ⟨hj1, by rw [hj]; exact hrun⟩) hjN
    have hscan : ∀ fuel, k.NPROC ≤ fuel →
        schedule_scan k s fuel (s.ptable s.current).pid
          = some (((s.ptable s.current).pid + Nat.find hex) % k.NPROC) :=
      fun fuel hf => schedule_scan_hit k s _ fuel _ hspec.1 (le_trans hle hf) hmin hspec.2
    refine ⟨Nat.find hex, hspec.1, hle, hspec.2, hmin, hscan, ?_, ?_⟩
    · unfold schedule
      rw [hscan _ (le_refl _)]
      rfl
    · intro hc hback i0 hi0 hne hr
      have hjN : Nat.find hex = k.NPROC := by
        by_contra hlt
        exact circular_ne k.NPROC _ _ hc hspec.1 (by omega) hback
      obtain ⟨j, hj1, hjle, hj⟩ := circular_reaches k.NPROC (s.ptable s.current).pid i0 hi0
      have hjlt : j < k.NPROC := by
        by_contra hge
        have hjeq : j = k.NPROC := by omega
        rw [hjeq, Nat.add_mod_right, Nat.mod_eq_of_lt hc] at hj
        exact hne hj.symm
      exact hmin j hj1 (by omega) (by rw [hj]; exact hr)
  · intro hnone
    refine ⟨fun fuel => schedule_scan_miss k s hN hnone fuel _, ?_⟩
    unfold schedule
    rw [schedule_scan_miss k s hN hnone]
    rfl

/-- The scheduler in `s_users`, where the slots 1 (the caller) and 2 are RUNNABLE. -/
theorem schedule_selection_witness :
    ∃ j, 1 ≤ j ∧ j ≤ weensy.NPROC ∧
      (s_users.ptable (((s_users.ptable s_users.current).pid + j) % weensy.NPROC)).state
        = P_RUNNABLE ∧
      (∀ i, 1 ≤ i → i < j →
        (s_users.ptable (((s_users.ptable s_users.current).pid + i) % weensy.NPROC)).state
          ≠ P_RUNNABLE) ∧
      (∀ fuel, weensy.NPROC ≤ fuel →
        schedule_scan weensy s_users fuel (s_users.ptable s_users.current).pid
          = some (((s_users.ptable s_users.current).pid + j) % weensy.NPROC)) ∧
      schedule weensy s_users
        = some { s_users with
            current := ((s_users.ptable s_users.current).pid + j) % weensy.NPROC } ∧
      ((s_users.ptable s_users.current).pid < weensy.NPROC →
        ((s_users.ptable s_users.current).pid + j) % weensy.NPROC
          = (s_users.ptable s_users.current).pid →
        ∀ i, i < weensy.NPROC → i ≠ (s_users.ptable s_users.current).pid →
          (s_users.ptable i).state ≠ P_RUNNABLE) :=
  (schedule_selection weensy s_users (by decide)).1 ⟨2, by decide, by decide⟩

/-! ## sleep, the timer and the return from `syscall` -/

/-- Saving the registers changes no other field of any slot. -/
theorem save_regs_fields (regs : regstate) (s : KState) (i : Nat) :
    ((save_regs regs s).ptable i).state = (s.ptable i).state ∧
    ((save_regs regs s).ptable i).pid = (s.ptable i).pid ∧
    ((save_regs regs s).ptable i).pagetable = (s.ptable i).pagetable ∧
    ((save_regs regs s).ptable i).sleep_ticks = (s.ptable i).sleep_ticks ∧
    ((save_regs regs s).ptable i).uid = (s.ptable i).uid ∧
    ((save_regs regs s).ptable i).euid = (s.ptable i).euid := by
  have hp : (save_regs regs s).ptable
      = Function.update s.ptable s.current { s.ptable s.current with regs := regs } := rfl
  rw [hp]
  by_cases h : i = s.current
  · subst h
    simp only [Function.update_same]
    exact ⟨trivial, trivial, trivial, trivial, trivial, trivial⟩
  · simp only [Function.update_noteq h]
    exact ⟨trivial, trivial, trivial, trivial, trivial, trivial⟩

/-- The `SYSCALL_SLEEP` case of `syscall`. -/
theorem syscall_sleep_eq (n : SyscallNumbers) (k : KConsts) (hn : n.distinct) (regs : regstate)
    (s : KState) (hrax : regs.reg_rax = n.SYSCALL_SLEEP) :
    syscall n k regs s =
      if regs.reg_rbx = 0 then Outcome.panicked { save_regs regs s with ticks := regs.reg_rbx }
      else Outcome.panicked (sleep_wake_loop k { save_regs regs s with ticks := regs.reg_rbx })
    := by
  unfold SyscallNumbers.distinct at hn
  simp only [List.nodup_cons, List.mem_cons, List.mem_singleton, not_or, List.not_mem_nil,
    not_false_eq_true, List.nodup_nil, and_true] at hn
  obtain ⟨h1, h2, h3, h4, h5, h6, h7, h8⟩ := hn
  unfold syscall
  rw [hrax, if_neg (Ne.symm h1.2.2.2.2.2.2.2), if_neg (Ne.symm h2.2.2.2.2.2.2),
    if_neg (Ne.symm h3.2.2.2.2.2), if_neg (Ne.symm h4.2.2.2.2), if_neg (Ne.symm h5.2.2.2),
    if_neg (Ne.symm h6.2.2), if_neg (Ne.symm h7.2), if_neg (Ne.symm h8), if_pos rfl]

/-- The wake-up loop changes nothing when no process is SLEEPING. -/
theorem sleep_wake_loop_idle (k : KConsts) (s : KState)
    (hs : ∀ i, (s.ptable i).state ≠ P_SLEEPING) : sleep_wake_loop k s = s := by
  have hloop : ∀ (l : List Nat) (s : KState),
      (∀ i, (s.ptable i).state ≠ P_SLEEPING) → l.foldl sleep_wake_step s = s := by
    intro l
    induction l with
    | nil => intro s _; rfl
    | cons i l ih =>
      intro s hs
      rw [List.foldl_cons]
      have : sleep_wake_step s i = s := by
        unfold sleep_wake_step
        rw [if_neg (hs i)]
      rw [this]
      exact ih s hs
  exact hloop _ s hs

/-- C23. The `sleep` system call does not put the caller to sleep: for every `n`, handling
`sleep(n + 1)` in `s_boot` ends in the kernel panic at the end of `syscall`, and in the
state in which it panics the caller is still `P_RUNNABLE` with `sleep_ticks` 0, not
`P_SLEEPING` with `sleep_ticks = n + 1`; the argument has been stored in the global tick
counter instead. -/
theorem sleep_leaves_caller_runnable (n : Nat) :
    (syscall sysno weensy ⟨sysno.SYSCALL_SLEEP, n + 1, 0, 0, 0, 0, 0⟩ s_boot).panic_state.map
      (fun s => ((s.ptable s.current).state, (s.ptable s.current).sleep_ticks, s.ticks))
      = some (P_RUNNABLE, 0, n + 1) ∧
    (syscall sysno weensy ⟨sysno.SYSCALL_SLEEP, n + 1, 0, 0, 0, 0, 0⟩ s_boot).next = none := by
  rw [syscall_sleep_eq sysno weensy (by decide) _ s_boot rfl, if_neg (Nat.succ_ne_zero n),
    sleep_wake_loop_idle]
  · exact ⟨rfl, rfl⟩
  · intro i
    show ((save_regs _ s_boot).ptable i).state ≠ P_SLEEPING
    rw [(save_regs_fields _ s_boot i).1]
    unfold s_boot
    dsimp only
    split
    · decide
    · exact fun h => procstate_t.noConfusion h

/-- C24. A timer interrupt wakes nobody: in `s_sleeper` the process in slot 2 is
`P_SLEEPING` with `sleep_ticks` 1; after one timer interrupt, and after a second one, it is
still `P_SLEEPING` with `sleep_ticks` 1, while `ticks` has gone from 1 to 2 and to 3 and
process 1 has been resumed. -/
theorem timer_interrupt_wakes_nobody :
    ((s_sleeper.ptable 2).state, (s_sleeper.ptable 2).sleep_ticks, s_sleeper.ticks)
      = (P_SLEEPING, 1, 1) ∧
    (exception trapno weensy ⟨0, 0, 0, 0, 0, 32, 0⟩ s_sleeper).next.map
      (fun s => ((s.ptable 2).state, (s.ptable 2).sleep_ticks, s.ticks, s.current))
      = some (P_SLEEPING, 1, 2, 1) ∧
    ((exception trapno weensy ⟨0, 0, 0, 0, 0, 32, 0⟩ s_sleeper).next.bind
      (fun s => (exception trapno weensy ⟨0, 0, 0, 0, 0, 32, 0⟩ s).next)).map
      (fun s => ((s.ptable 2).state, (s.ptable 2).sleep_ticks, s.ticks, s.current))
      = some (P_SLEEPING, 1, 3, 1) := by
  decide!

/-- C25. `syscall` returns to a caller that is not RUNNABLE: in `s_boot` process 1 is
`P_RUNNABLE`; its system call `kill(1)` returns the value 0 to it, and at that moment
`current->state` is `P_ZOMBIE`. -/
theorem self_kill_returns_to_zombie :
    (s_boot.ptable s_boot.current).state = P_RUNNABLE ∧
    (s_boot.ptable s_boot.current).pid = 1 ∧
    (syscall sysno weensy ⟨sysno.SYSCALL_KILL, 1, 0, 0, 0, 0, 0⟩ s_boot).ret.map
      (fun r => (r.1, r.2.current, (r.2.ptable r.2.current).state)) = some (0, 1, P_ZOMBIE) := by
  decide!

/-- C26. The recognised system call `sleep` panics the kernel: for every argument value
and every state, handling the call number `SYSCALL_SLEEP` ends in the panic at the end of
`syscall`; no value is returned and no process runs next. -/
theorem sleep_always_panics (rbx rdi rip rsp intno errcode : Nat) (s : KState) :
    (syscall sysno weensy ⟨sysno.SYSCALL_SLEEP, rbx, rdi, rip, rsp, intno, errcode⟩
      s).panic_state.isSome = true ∧
    (syscall sysno weensy ⟨sysno.SYSCALL_SLEEP, rbx, rdi, rip, rsp, intno, errcode⟩ s).next
      = none ∧
    (syscall sysno weensy ⟨sysno.SYSCALL_SLEEP, rbx, rdi, rip, rsp, intno, errcode⟩ s).ret
      = none := by
  rw [syscall_sleep_eq sysno weensy (by decide) _ s rfl]
  by_cases h : rbx = 0
  · rw [if_pos h]
    exact ⟨rfl, rfl, rfl⟩
  · rw [if_neg h]
    exact ⟨rfl, rfl, rfl⟩

/-- C27. `kill` moves a FREE slot to ZOMBIE: in `s_boot` slot 2 is `P_FREE`; `kill(2)` by
process 1 (euid 0) returns 0 and leaves slot 2 `P_ZOMBIE`, and the slot search of a
following `fork` passes over slot 2 and takes slot 3. -/
theorem kill_makes_free_slot_zombie :
    (s_boot.ptable 2).state = P_FREE ∧ fork_find_slot weensy s_boot = some 2 ∧
    (kill weensy 2 s_boot).map (fun r => (r.1, (r.2.ptable 2).state)) = some (0, P_ZOMBIE) ∧
    (kill weensy 2 s_boot).map (fun r => fork_find_slot weensy r.2) = some (some 3) := by
  decide!

/-- C29. `kfree(nullptr)` is not a no-op: it treats the null pointer as the address of
physical page 0.  When that page has refcount 0, as in `s_boot`, the assertion fails; when
it has refcount 1 the call lowers it to 0. -/
theorem kfree_nullptr_touches_page_zero :
    s_boot.physpages 0 = 0 ∧ (kfree weensy 0 s_boot).isSome = false ∧
    (kfree weensy 0 { s_boot with physpages := Function.update s_boot.physpages 0 1 }).map
      (fun s => s.physpages 0) = some 0 := by
  decide!

/-! ## Scheduler fairness -/

/-- The scan depends on the starting pid modulo `NPROC` only. -/
theorem schedule_scan_mod (k : KConsts) (s : KState) (fuel c : Nat) :
    schedule_scan k s fuel (c % k.NPROC) = schedule_scan k s fuel c := by
  cases fuel with
  | zero => rfl
  | succ f =>
    unfold schedule_scan
    rw [Nat.mod_add_mod]

/-- The slots `(c + d) % N` for `d = 1 .. N` are pairwise different. -/
theorem circular_inj (N c d1 d2 : Nat) (h1 : 1 ≤ d1 ∧ d1 ≤ N) (h2 : 1 ≤ d2 ∧ d2 ≤ N)
    (h : (c + d1) % N = (c + d2) % N) : d1 = d2 := by
  have hmod : d1 % N = d2 % N := Nat.ModEq.add_left_cancel' c h
  by_cases e1 : d1 = N
  · by_cases e2 : d2 = N
    · omega
    · rw [e1, Nat.mod_self, Nat.mod_eq_of_lt (by omega)] at hmod
      omega
  · by_cases e2 : d2 = N
    · rw [e2, Nat.mod_self, Nat.mod_eq_of_lt (by omega)] at hmod
      omega
    · rw [Nat.mod_eq_of_lt (by omega), Nat.mod_eq_of_lt (by omega)] at hmod
      exact hmod

/-- The walk of consecutive scheduling decisions along the circular order: from a process
at distance `dlast` from `c0`, with no RUNNABLE slot at the distances up to `dprev`, the
decisions are the RUNNABLE slots at the distances `dprev + 1 .. dprev + m`, in that order. -/
theorem schedule_decisions_walk (k : KConsts) (s : KState) (c0 : Nat)
    (hN : 0 < k.NPROC) (hpid : ∀ i, i < k.NPROC → (s.ptable i).pid = i) :
    ∀ (m dprev dlast cur : Nat), dlast ≤ dprev → dprev + m ≤ k.NPROC →
      (s.ptable cur).pid % k.NPROC = (c0 + dlast) % k.NPROC →
      (∀ d, dlast < d → d ≤ dprev → (s.ptable ((c0 + d) % k.NPROC)).state ≠ P_RUNNABLE) →
      schedule_decisions k
        ((List.range' (dprev + 1) m).filter
          (fun d => decide ((s.ptable ((c0 + d) % k.NPROC)).state = P_RUNNABLE))).length
        { s with current := cur }
      = some (((List.range' (dprev + 1) m).filter
          (fun d => decide ((s.ptable ((c0 + d) % k.NPROC)).state = P_RUNNABLE))).map
          (fun d => (c0 + d) % k.NPROC)) := by
  intro m
  induction m with
  | zero => intro dprev dlast cur _ _ _ _; rfl
  | succ m ih =>
    intro dprev dlast cur hle hfit hcur hgap
    rw [List.range'_succ]
    by_cases hrun : (s.ptable ((c0 + (dprev + 1)) % k.NPROC)).state = P_RUNNABLE
    · rw [List.filter_cons_of_pos (by simpa using hrun), List.length_cons, List.map_cons]
      have hscan : schedule_scan k { s with current := cur } k.NPROC (s.ptable cur).pid
          = some ((c0 + (dprev + 1)) % k.NPROC) := by
        rw [← schedule_scan_mod, hcur, schedule_scan_mod,
          schedule_scan_hit k { s with current := cur } (dprev + 1 - dlast) k.NPROC (c0 + dlast)
            (by omega) (by omega) ?_ ?_]
        · congr 2
          omega
        · intro i hi1 hi2
          show (s.ptable ((c0 + dlast + i) % k.NPROC)).state ≠ P_RUNNABLE
          rw [Nat.add_assoc]
          exact hgap (dlast + i) (by omega) (by omega)
        · show (s.ptable ((c0 + dlast + (dprev + 1 - dlast)) % k.NPROC)).state = P_RUNNABLE
          rw [show c0 + dlast + (dprev + 1 - dlast) = c0 + (dprev + 1) by omega]
          exact hrun
      have hsched : schedule k { s with current := cur }
          = some { s with current := (c0 + (dprev + 1)) % k.NPROC } := by
        unfold schedule
        show (schedule_scan k { s with current := cur } k.NPROC (s.ptable cur).pid).map _ = _
        rw [hscan]
        rfl
      have hnext := ih (dprev + 1) (dprev + 1) ((c0 + (dprev + 1)) % k.NPROC) (le_refl _)
        (by omega)
        (by rw [hpid _ (Nat.mod_lt _ hN), Nat.mod_mod])
        (fun d h1 h2 => by omega)
      show schedule_decisions k (_ + 1) { s with current := cur } = _
      unfold schedule_decisions
      rw [hsched]
      dsimp only
      rw [hnext]
      rfl
    · rw [List.filter_cons_of_neg (by simpa using hrun)]
      exact ih (dprev + 1) dlast cur (by omega) (by omega) hcur (fun d h1 h2 => by
        by_cases hd : d = dprev + 1
        · rw [hd]; exact hrun
        · exact hgap d h1 (by omega))

/-- The circular order from `c` lists every slot once. -/
theorem circular_perm (N c : Nat) (hN : 0 < N) :
    ((List.range' 1 N).map (fun d => (c + d) % N)).Perm (List.range N) := by
  rw [List.perm_ext_iff_of_nodup]
  · intro a
    simp only [List.mem_map, List.mem_range'_1, List.mem_range]
    constructor
    · rintro ⟨d, _, rfl⟩
      exact Nat.mod_lt _ hN
    · intro ha
      obtain ⟨j, hj1, hjN, hj⟩ := circular_reaches N c a ha
      exact ⟨j, ⟨hj1, by omega⟩, hj⟩
  · apply List.Nodup.map_on _ (List.nodup_range' 1 N)
    intro d1 h1 d2 h2 h
    rw [List.mem_range'_1] at h1 h2
    exact circular_inj N c d1 d2 ⟨h1.1, by omega⟩ ⟨h2.1, by omega⟩ h
  · exact List.nodup_range N

/-- C21. Scheduler fairness as a finite statement: when the slot number of every process
is its pid and the set of RUNNABLE slots has `N` members, `N` consecutive scheduling
decisions with no change of the process states in between, starting from any value of
`current`, all return, and the list of the processes they select is a rearrangement of the
list of the RUNNABLE slots: every member is selected, each exactly once, and nothing
else is. -/
theorem scheduler_fairness (k : KConsts) (s : KState) (hN : 0 < k.NPROC)
    (hpid : ∀ i, i < k.NPROC → (s.ptable i).pid = i) (N : Nat)
    (hR : ((List.range k.NPROC).filter
      (fun i => decide ((s.ptable i).state = P_RUNNABLE))).length = N) :
    ∃ l, schedule_decisions k N s = some l ∧ l.length = N ∧
      l.Perm ((List.range k.NPROC).filter (fun i => decide ((s.ptable i).state = P_RUNNABLE))) ∧
      l.Nodup ∧
      (∀ i, i < k.NPROC → (s.ptable i).state = P_RUNNABLE → l.count i = 1) ∧
      (∀ i, i ∈ l → i < k.NPROC ∧ (s.ptable i).state = P_RUNNABLE) := by
  have hwalk := schedule_decisions_walk k s (s.ptable s.current).pid hN hpid k.NPROC 0 0
    s.current (le_refl 0) (by omega) rfl (fun d h1 h2 => by omega)
  have hperm : (((List.range' (0 + 1) k.NPROC).filter
      (fun d => decide ((s.ptable (((s.ptable s.current).pid + d) % k.NPROC)).state
        = P_RUNNABLE))).map (fun d => ((s.ptable s.current).pid + d) % k.NPROC)).Perm
      ((List.range k.NPROC).filter (fun i => decide ((s.ptable i).state = P_RUNNABLE))) := by
    have h1 := (circular_perm k.NPROC (s.ptable s.current).pid hN).filter
      (fun i => decide ((s.ptable i).state = P_RUNNABLE))
    rw [List.filter_map] at h1
    exact h1
  have hlen := hperm.length_eq
  rw [List.length_map, hR] at hlen
  rw [hlen] at hwalk
  have hnodup : ((List.range k.NPROC).filter
      (fun i => decide ((s.ptable i).state = P_RUNNABLE))).Nodup :=
    (List.nodup_range k.NPROC).filter _
  refine ⟨_, hwalk, ?_, hperm, hperm.nodup_iff.mpr hnodup, ?_, ?_⟩
  · rw [hperm.length_eq, hR]
  · intro i hi hrun
    rw [hperm.count_eq]
    exact List.count_eq_one_of_mem hnodup
      (List.mem_filter.mpr ⟨List.mem_range.mpr hi, by simpa using hrun⟩)
  · intro i hi
    have := (hperm.mem_iff).mp hi
    rw [List.mem_filter, List.mem_range] at this
    exact ⟨this.1, by simpa using this.2⟩

/-- Two scheduling decisions in `s_users`, where the slots 1 and 2 are RUNNABLE. -/
theorem scheduler_fairness_witness :
    ∃ l, schedule_decisions weensy 2 s_users = some l ∧ l.length = 2 ∧
      l.Perm ((List.range weensy.NPROC).filter
        (fun i => decide ((s_users.ptable i).state = P_RUNNABLE))) ∧
      l.Nodup ∧
      (∀ i, i < weensy.NPROC → (s_users.ptable i).state = P_RUNNABLE → l.count i = 1) ∧
      (∀ i, i ∈ l → i < weensy.NPROC ∧ (s_users.ptable i).state = P_RUNNABLE) :=
  scheduler_fairness weensy s_users (by decide) (by decide) 2 (by decide)

/-! ## A FAULTED process is never resumed -/

/-- A hit of the scan is a RUNNABLE slot below `NPROC`. -/
theorem schedule_scan_some (k : KConsts) (s : KState) (hN : 0 < k.NPROC) :
    ∀ (fuel c q : Nat), schedule_scan k s fuel c = some q →
      q < k.NPROC ∧ (s.ptable q).state = P_RUNNABLE := by
  intro fuel
  induction fuel with
  | zero => intro c q h; cases h
  | succ f ih =>
    intro c q h
    unfold schedule_scan at h
    by_cases hr : (s.ptable ((c + 1) % k.NPROC)).state = P_RUNNABLE
    · rw [if_pos hr] at h
      cases h
      exact ⟨Nat.mod_lt _ hN, hr⟩
    · rw [if_neg hr] at h
      exact ih _ q h

/-- What `schedule()` does when it returns: only `current` changes, to a RUNNABLE slot. -/
theorem schedule_some (k : KConsts) (s s1 : KState) (hN : 0 < k.NPROC)
    (h : schedule k s = some s1) :
    s1 = { s with current := s1.current } ∧ s1.current < k.NPROC ∧
      (s.ptable s1.current).state = P_RUNNABLE := by
  unfold schedule at h
  cases hs : schedule_scan k s k.NPROC (s.ptable s.current).pid with
  | none => rw [hs] at h; cases h
  | some q =>
    rw [hs] at h
    cases h
    obtain ⟨h1, h2⟩ := schedule_scan_some k s hN _ _ q hs
    exact ⟨rfl, h1, h2⟩

/-- The process that runs after `schedule()`. -/
theorem schedule_from_next (k : KConsts) (s s1 : KState)
    (h : (schedule_from k s).next = some s1) : schedule k s = some s1 := by
  unfold schedule_from at h
  cases hs : schedule k s with
  | none => rw [hs] at h; cases h
  | some s2 =>
    rw [hs] at h
    exact h

/-- A scheduling decision never picks a retired slot. -/
theorem retired_schedule (k : KConsts) (i : Nat) (s s1 : KState) (hN : 0 < k.NPROC)
    (hpids : ∀ j, j < k.NPROC → (s.ptable j).pid = j)
    (hdead : (s.ptable i).state = P_FAULTED ∨ (s.ptable i).state = P_ZOMBIE)
    (h : schedule k s = some s1) : Retired k i s1 := by
  obtain ⟨heq, hlt, hrun⟩ := schedule_some k s s1 hN h
  have hpt : s1.ptable = s.ptable := by rw [heq]
  refine ⟨?_, hlt, ?_, ?_, ?_⟩
  · intro j hj
    rw [hpt]
    exact hpids j hj
  · rw [hpt, hrun]
    decide
  · intro hc
    rw [hc] at hrun
    rcases hdead with hd | hd <;> rw [hd] at hrun <;> cases hrun
  · rw [hpt]
    exact hdead

/-- `kfree` touches the reference counts only. -/
theorem kfree_frame (k : KConsts) (kptr : Nat) (s s1 : KState) (h : kfree k kptr s = some s1) :
    s1.ptable = s.ptable ∧ s1.current = s.current := by
  unfold kfree at h
  by_cases hc : s.physpages (kptr / k.PAGESIZE) ≠ 0
  · rw [if_pos hc] at h
    cases h
    exact ⟨rfl, rfl⟩
  · rw [if_neg hc] at h
    cases h

/-- The first loop of `free_all` touches the reference counts only. -/
theorem free_all_walk_frame (k : KConsts) (pt : x86_64_pagetable) :
    ∀ (l : List Nat) (s s1 : KState), free_all_walk k pt l s = some s1 →
      s1.ptable = s.ptable ∧ s1.current = s.current := by
  intro l
  induction l with
  | nil => intro s s1 h; cases h; exact ⟨rfl, rfl⟩
  | cons va vas ih =>
    intro s s1 h
    unfold free_all_walk at h
    by_cases hp : vmiter.perm k pt va ≠ 0
    · rw [if_pos hp] at h
      cases hf : kfree k (vmiter.pa k pt va) s with
      | none => rw [hf] at h; cases h
      | some s2 =>
        rw [hf, Option.some_bind] at h
        obtain ⟨h1, h2⟩ := kfree_frame k _ s s2 hf
        obtain ⟨h3, h4⟩ := ih s2 s1 h
        exact ⟨h3.trans h1, h4.trans h2⟩
    · rw [if_neg hp] at h
      exact ih s s1 h

/-- The second loop of `free_all` touches the reference counts only. -/
theorem free_all_ptiter_frame (k : KConsts) :
    ∀ (l : List (Nat × Nat)) (s s1 : KState), free_all_ptiter k l s = some s1 →
      s1.ptable = s.ptable ∧ s1.current = s.current := by
  intro l
  induction l with
  | nil => intro s s1 h; cases h; exact ⟨rfl, rfl⟩
  | cons e es ih =>
    intro s s1 h
    unfold free_all_ptiter at h
    cases hf : kfree k e.2 s with
    | none => rw [hf] at h; cases h
    | some s2 =>
      rw [hf, Option.some_bind] at h
      obtain ⟨h1, h2⟩ := kfree_frame k _ s s2 hf
      obtain ⟨h3, h4⟩ := ih s2 s1 h
      exact ⟨h3.trans h1, h4.trans h2⟩

/-- What `free_all` does to the process table when it returns. -/
theorem free_all_frame (k : KConsts) (c : Nat) (s s1 : KState) (h : free_all k c s = some s1) :
    s1.ptable = Function.update s.ptable c
      { s.ptable c with pagetable := none, state := P_FREE } ∧ s1.current = s.current := by
  unfold free_all at h
  cases hT : (s.ptable c).pagetable with
  | none => rw [hT] at h; cases h
  | some pt =>
    rw [hT] at h
    dsimp only at h
    cases hw : free_all_walk k pt (pageSteps k.PROC_START_ADDR k.MEMSIZE_VIRTUAL k.PAGESIZE) s with
    | none => rw [hw] at h; cases h
    | some s2 =>
      rw [hw, Option.some_bind] at h
      obtain ⟨a1, a2⟩ := free_all_walk_frame k pt _ s s2 hw
      cases hp : free_all_ptiter k pt.inner s2 with
      | none => rw [hp] at h; cases h
      | some s3 =>
        rw [hp, Option.some_bind] at h
        obtain ⟨b1, b2⟩ := free_all_ptiter_frame k _ s2 s3 hp
        cases hf : kfree k pt.top s3 with
        | none => rw [hf] at h; cases h
        | some s4 =>
          rw [hf] at h
          obtain ⟨c1, c2⟩ := kfree_frame k _ s3 s4 hf
          cases h
          have hpt : s4.ptable = s.ptable := c1.trans (b1.trans a1)
          refine ⟨?_, c2.trans (b2.trans a2)⟩
          show Function.update s4.ptable c _ = _
          rw [hpt]

/-- What `syscall_page_alloc` does to the process table when it returns: `current` and
every slot but the caller's are unchanged, and the caller's slot changes in its page table
only, whose leaf entries are as before except, for a valid `addr`, the one of `addr`. -/
theorem page_alloc_frame (k : KConsts) (hk : k.wf) (addr : Nat) (s s1 : KState) (r : Int)
    (h : syscall_page_alloc k addr s = some (r, s1)) :
    s1.current = s.current ∧ (∀ j, j ≠ s.current → s1.ptable j = s.ptable j) ∧
    (s1.ptable s.current = s.ptable s.current ∨
      ∃ T T1, (s.ptable s.current).pagetable = some T ∧
        s1.ptable s.current = { s.ptable s.current with pagetable := some T1 } ∧
        k.PROC_START_ADDR ≤ addr ∧
        ∀ vpn, vpn ≠ addr / k.PAGESIZE → T1.leaf vpn = T.leaf vpn) := by
  unfold syscall_page_alloc at h
  by_cases hval : addr < k.PROC_START_ADDR ∨ addr % k.PAGESIZE ≠ 0 ∨ addr ≥ k.MEMSIZE_VIRTUAL
  · rw [if_pos hval] at h
    cases h
    exact ⟨rfl, fun _ _ => rfl, Or.inl rfl⟩
  · rw [if_neg hval] at h
    have hst := kalloc_stable k hk k.PAGESIZE s
    by_cases h0 : (kalloc k k.PAGESIZE s).1 = 0
    · rw [if_pos h0] at h
      cases h
      exact ⟨hst.current, fun j _ => by rw [hst.ptable], Or.inl (by rw [hst.ptable])⟩
    · rw [if_neg h0] at h
      cases hT : ((kalloc k k.PAGESIZE s).2.ptable s.current).pagetable with
      | none => rw [hT] at h; cases h
      | some pt =>
        rw [hT] at h
        dsimp only at h
        obtain ⟨hst2, _, _, _, hleaf⟩ := try_map_spec k hk pt addr (kalloc k k.PAGESIZE s).1
          PTE_PWU (kalloc k k.PAGESIZE s).2 _ rfl
        have hT0 : (s.ptable s.current).pagetable = some pt := by
          rw [← hst.ptable]; exact hT
        have hptab : (vmiter.try_map k pt addr (kalloc k k.PAGESIZE s).1 PTE_PWU
            (kalloc k k.PAGESIZE s).2).2.2.ptable = s.ptable := by
          rw [hst2.ptable, hst.ptable]
        have hcur : (vmiter.try_map k pt addr (kalloc k k.PAGESIZE s).1 PTE_PWU
            (kalloc k k.PAGESIZE s).2).2.2.current = s.current := by
          rw [hst2.current, hst.current]
        have hleaf1 : ∀ vpn, vpn ≠ addr / k.PAGESIZE →
            (vmiter.try_map k pt addr (kalloc k k.PAGESIZE s).1 PTE_PWU
              (kalloc k k.PAGESIZE s).2).2.1.leaf vpn = pt.leaf vpn := by
          intro vpn hv
          rcases hleaf with ⟨_, hl⟩ | ⟨_, hl⟩
          · rw [hl]
          · rw [hl, Function.update_noteq hv]
        have hfin : ∀ s2 : KState, s2.current = s.current →
            s2.ptable = Function.update s.ptable s.current
              { s.ptable s.current with
                pagetable := some (vmiter.try_map k pt addr (kalloc k k.PAGESIZE s).1 PTE_PWU
                  (kalloc k k.PAGESIZE s).2).2.1 } →
            s2.current = s.current ∧ (∀ j, j ≠ s.current → s2.ptable j = s.ptable j) ∧
            (s2.ptable s.current = s.ptable s.current ∨
              ∃ T T1, (s.ptable s.current).pagetable = some T ∧
                s2.ptable s.current = { s.ptable s.current with pagetable := some T1 } ∧
                k.PROC_START_ADDR ≤ addr ∧
                ∀ vpn, vpn ≠ addr / k.PAGESIZE → T1.leaf vpn = T.leaf vpn) := by
          intro s2 hc hp
          refine ⟨hc, fun j hj => by rw [hp, Function.update_noteq hj], Or.inr ⟨pt, _, hT0, ?_,
            by omega, hleaf1⟩⟩
          rw [hp, Function.update_same]
        have hset : (set_pagetable
            (vmiter.try_map k pt addr (kalloc k k.PAGESIZE s).1 PTE_PWU
              (kalloc k k.PAGESIZE s).2).2.2 s.current
            (some (vmiter.try_map k pt addr (kalloc k k.PAGESIZE s).1 PTE_PWU
              (kalloc k k.PAGESIZE s).2).2.1)).ptable
            = Function.update s.ptable s.current
              { s.ptable s.current with
                pagetable := some (vmiter.try_map k pt addr (kalloc k k.PAGESIZE s).1 PTE_PWU
                  (kalloc k k.PAGESIZE s).2).2.1 } := by
          show Function.update _ _ _ = _
          rw [hptab]
        by_cases hm : (vmiter.try_map k pt addr (kalloc k k.PAGESIZE s).1 PTE_PWU
            (kalloc k k.PAGESIZE s).2).1 < 0
        · rw [if_pos hm] at h
          cases hf : kfree k (kalloc k k.PAGESIZE s).1
              (set_pagetable
                (vmiter.try_map k pt addr (kalloc k k.PAGESIZE s).1 PTE_PWU
                  (kalloc k k.PAGESIZE s).2).2.2 s.current
                (some (vmiter.try_map k pt addr (kalloc k k.PAGESIZE s).1 PTE_PWU
                  (kalloc k k.PAGESIZE s).2).2.1)) with
          | none => rw [hf] at h; cases h
          | some s2 =>
            rw [hf] at h
            obtain ⟨f1, f2⟩ := kfree_frame k _ _ s2 hf
            cases h
            exact hfin _ (f2.trans hcur) (f1.trans hset)
        · rw [if_neg hm] at h
          cases h
          exact hfin _ hcur hset

/-- What installing a mapping in the table of slot `c` does to the process table and to
the leaf entries. -/
theorem install_frame (k : KConsts) (hk : k.wf) (c va a perm : Nat) (sm : KState)
    (T : x86_64_pagetable) :
    (set_pagetable (vmiter.try_map k T va a perm sm).2.2 c
      (some (vmiter.try_map k T va a perm sm).2.1)).current = sm.current ∧
    (set_pagetable (vmiter.try_map k T va a perm sm).2.2 c
      (some (vmiter.try_map k T va a perm sm).2.1)).ptable
      = Function.update sm.ptable c
          { sm.ptable c with pagetable := some (vmiter.try_map k T va a perm sm).2.1 } ∧
    (∀ vpn, vpn ≠ va / k.PAGESIZE → (vmiter.try_map k T va a perm sm).2.1.leaf vpn = T.leaf vpn) ∧
    (¬ (vmiter.try_map k T va a perm sm).1 < 0 →
      (vmiter.try_map k T va a perm sm).2.1.leaf (va / k.PAGESIZE) = ⟨a / k.PAGESIZE, perm⟩) := by
  obtain ⟨hst, _, _, _, hleaf⟩ := try_map_spec k hk T va a perm sm _ rfl
  refine ⟨hst.current, ?_, ?_, ?_⟩
  · show Function.update _ _ _ = _
    rw [hst.ptable]
  · intro vpn hv
    rcases hleaf with ⟨_, hl⟩ | ⟨_, hl⟩
    · rw [hl]
    · rw [hl, Function.update_noteq hv]
  · intro hm
    rcases hleaf with ⟨h1, _⟩ | ⟨_, hl⟩
    · exact absurd h1 hm
    · rw [hl, Function.update_same]

/-- The state after `free_all` of a slot whose table has just been set. -/
theorem free_all_after_set (k : KConsts) (c : Nat) (sm s2 s1 : KState)
    (T1 : x86_64_pagetable)
    (hp : s2.ptable = Function.update sm.ptable c { sm.ptable c with pagetable := some T1 })
    (hc : s2.current = sm.current) (h : free_all k c s2 = some s1) :
    s1.current = sm.current ∧ (∀ j, j ≠ c → s1.ptable j = sm.ptable j) ∧
      s1.ptable c = { sm.ptable c with pagetable := none, state := P_FREE } := by
  obtain ⟨h1, h2⟩ := free_all_frame k c s2 s1 h
  refine ⟨h2.trans hc, ?_, ?_⟩
  · intro j hj
    rw [h1, Function.update_noteq hj, hp, Function.update_noteq hj]
  · rw [h1, Function.update_same, hp, Function.update_same]

/-- What the tail of an iteration of the walk of `syscall_fork` does to the process table
and to the leaf entries of the child's table `T`. -/
theorem fork_map_frame (k : KConsts) (hk : k.wf) (c va a perm : Nat) (sm s1 : KState)
    (T : x86_64_pagetable) (b : Bool) (hT : (sm.ptable c).pagetable = some T)
    (h : fork_map k c va a perm sm = some (b, s1)) :
    s1.current = sm.current ∧ (∀ j, j ≠ c → s1.ptable j = sm.ptable j) ∧
    (b = true → ∃ T1, s1.ptable c = { sm.ptable c with pagetable := some T1 } ∧
      (∀ vpn, vpn ≠ va / k.PAGESIZE → T1.leaf vpn = T.leaf vpn) ∧
      T1.leaf (va / k.PAGESIZE) = ⟨a / k.PAGESIZE, perm⟩) ∧
    (b = false → s1.ptable c = { sm.ptable c with pagetable := none, state := P_FREE }) := by
  obtain ⟨i1, i2, i3, i4⟩ := install_frame k hk c va a perm sm T
  unfold fork_map at h
  rw [hT] at h
  dsimp only at h
  by_cases hm : (vmiter.try_map k T va a perm sm).1 < 0
  · rw [if_pos hm] at h
    cases hf : kfree k a (set_pagetable (vmiter.try_map k T va a perm sm).2.2 c
        (some (vmiter.try_map k T va a perm sm).2.1)) with
    | none => rw [hf] at h; cases h
    | some s2 =>
      rw [hf, Option.some_bind] at h
      obtain ⟨f1, f2⟩ := kfree_frame k _ _ s2 hf
      cases hfa : free_all k c s2 with
      | none => rw [hfa] at h; cases h
      | some s3 =>
        rw [hfa] at h
        obtain ⟨g1, g2, g3⟩ := free_all_after_set k c sm s2 s3 _ (f1.trans i2) (f2.trans i1) hfa
        cases h
        exact ⟨g1, g2, fun hb => Bool.noConfusion hb, fun _ => g3⟩
  · rw [if_neg hm] at h
    cases h
    refine ⟨i1, ?_, fun _ => ⟨_, ?_, i3, i4 hm⟩, fun hb => Bool.noConfusion hb⟩
    · intro j hj
      rw [i2, Function.update_noteq hj]
    · rw [i2, Function.update_same]

/-- What one iteration of the walk of `syscall_fork` does to the process table and to the
leaf entries of the child's table: only the child's slot changes, in its page table (or,
on failure, to FREE with a null table), only the leaf entry of `va` changes, and below
`PROC_START_ADDR` it becomes the parent's mapping. -/
theorem fork_page_frame (k : KConsts) (hk : k.wf) (c va : Nat) (s s1 : KState) (b : Bool)
    (Pt T : x86_64_pagetable) (hPt : (s.ptable s.current).pagetable = some Pt)
    (hT : (s.ptable c).pagetable = some T) (h : fork_page k c va s = some (b, s1)) :
    s1.current = s.current ∧ (∀ j, j ≠ c → s1.ptable j = s.ptable j) ∧
    (b = true → ∃ T1, s1.ptable c = { s.ptable c with pagetable := some T1 } ∧
      (∀ vpn, vpn ≠ va / k.PAGESIZE → T1.leaf vpn = T.leaf vpn) ∧
      (va < k.PROC_START_ADDR →
        T1.leaf (va / k.PAGESIZE) = ⟨vmiter.pa k Pt va / k.PAGESIZE, vmiter.perm k Pt va⟩)) ∧
    (b = false → s1.ptable c = { s.ptable c with pagetable := none, state := P_FREE }) := by
  unfold fork_page at h
  rw [hPt, hT] at h
  dsimp only at h
  by_cases hker : va < k.PROC_START_ADDR
  · rw [if_pos hker] at h
    obtain ⟨i1, i2, i3, i4⟩ :=
      install_frame k hk c va (vmiter.pa k Pt va) (vmiter.perm k Pt va) s T
    by_cases hm : (vmiter.try_map k T va (vmiter.pa k Pt va) (vmiter.perm k Pt va) s).1 < 0
    · rw [if_pos hm] at h
      cases hfa : free_all k c (set_pagetable
          (vmiter.try_map k T va (vmiter.pa k Pt va) (vmiter.perm k Pt va) s).2.2 c
          (some (vmiter.try_map k T va (vmiter.pa k Pt va) (vmiter.perm k Pt va) s).2.1)) with
      | none => rw [hfa] at h; cases h
      | some s3 =>
        rw [hfa] at h
        obtain ⟨g1, g2, g3⟩ := free_all_after_set k c s _ s3 _ i2 i1 hfa
        cases h
        exact ⟨g1, g2, fun hb => Bool.noConfusion hb, fun _ => g3⟩
    · rw [if_neg hm] at h
      cases h
      refine ⟨i1, ?_, fun _ => ⟨_, ?_, i3, fun _ => i4 hm⟩, fun hb => Bool.noConfusion hb⟩
      · intro j hj
        rw [i2, Function.update_noteq hj]
      · rw [i2, Function.update_same]
  · rw [if_neg hker] at h
    by_cases hup : vmiter.perm k Pt va &&& PTE_P ≠ 0 ∧ vmiter.perm k Pt va &&& PTE_U ≠ 0
    · rw [if_pos hup] at h
      by_cases hw : vmiter.writable k Pt va = false
      · rw [if_pos hw] at h
        obtain ⟨m1, m2, m3, m4⟩ := fork_map_frame k hk c va (vmiter.pa k Pt va)
          (vmiter.perm k Pt va)
          { s with
            physpages := Function.update s.physpages (vmiter.pa k Pt va / k.PAGESIZE)
              (s.physpages (vmiter.pa k Pt va / k.PAGESIZE) + 1) } s1 T b hT h
        refine ⟨m1, m2, ?_, m4⟩
        intro hb
        obtain ⟨T1, t1, t2, _⟩ := m3 hb
        exact ⟨T1, t1, t2, fun hlt => absurd hlt hker⟩
      · rw [if_neg hw] at h
        have hst := kalloc_stable k hk k.PAGESIZE s
        by_cases h0 : (kalloc k k.PAGESIZE s).1 = 0
        · rw [if_pos h0] at h
          cases hfa : free_all k c (kalloc k k.PAGESIZE s).2 with
          | none => rw [hfa] at h; cases h
          | some s3 =>
            rw [hfa] at h
            obtain ⟨f1, f2⟩ := free_all_frame k c _ s3 hfa
            cases h
            refine ⟨f2.trans hst.current, ?_, fun hb => Bool.noConfusion hb, fun _ => ?_⟩
            · intro j hj
              rw [f1, Function.update_noteq hj, hst.ptable]
            · rw [f1, Function.update_same, hst.ptable]
        · rw [if_neg h0] at h
          have hT1 : (({ (kalloc k k.PAGESIZE s).2 with
              mem := memcpy (kalloc k k.PAGESIZE s).2.mem (kalloc k k.PAGESIZE s).1
                (vmiter.pa k Pt va) k.PAGESIZE } : KState).ptable c).pagetable = some T := by
            show (((kalloc k k.PAGESIZE s).2.ptable) c).pagetable = some T
            rw [hst.ptable]
            exact hT
          obtain ⟨m1, m2, m3, m4⟩ := fork_map_frame k hk c va (kalloc k k.PAGESIZE s).1
            (vmiter.perm k Pt va)
            { (kalloc k k.PAGESIZE s).2 with
              mem := memcpy (kalloc k k.PAGESIZE s).2.mem (kalloc k k.PAGESIZE s).1
                (vmiter.pa k Pt va) k.PAGESIZE } s1 T b hT1 h
          have hp : ({ (kalloc k k.PAGESIZE s).2 with
              mem := memcpy (kalloc k k.PAGESIZE s).2.mem (kalloc k k.PAGESIZE s).1
                (vmiter.pa k Pt va) k.PAGESIZE } : KState).ptable = s.ptable := hst.ptable
          rw [hp] at m2 m3 m4
          refine ⟨m1.trans hst.current, m2, ?_, m4⟩
          intro hb
          obtain ⟨T1, t1, t2, _⟩ := m3 hb
          exact ⟨T1, t1, t2, fun hlt => absurd hlt hker⟩
    · rw [if_neg hup] at h
      cases h
      refine ⟨rfl, fun _ _ => rfl, fun _ => ⟨T, ?_, fun _ _ => rfl,
        fun hlt => absurd hlt hker⟩, fun hb => Bool.noConfusion hb⟩
      rw [← hT]

/-- What the walk of `syscall_fork` does to the process table and to the leaf entries of
the child's table `T`, with `Pt` the parent's table. -/
theorem fork_walk_frame (k : KConsts) (hk : k.wf) (c : Nat) (Pt : x86_64_pagetable) :
    ∀ (l : List Nat) (s s1 : KState) (b : Bool) (T : x86_64_pagetable),
      c ≠ s.current → (s.ptable s.current).pagetable = some Pt →
      (s.ptable c).pagetable = some T → (∀ va ∈ l, k.PAGESIZE ∣ va) → l.Nodup →
      fork_walk k c l s = some (b, s1) →
      s1.current = s.current ∧ (∀ j, j ≠ c → s1.ptable j = s.ptable j) ∧
      (b = true → ∃ T1, s1.ptable c = { s.ptable c with pagetable := some T1 } ∧
        (∀ vpn, (∀ va ∈ l, vpn ≠ va / k.PAGESIZE) → T1.leaf vpn = T.leaf vpn) ∧
        (∀ va ∈ l, va < k.PROC_START_ADDR →
          T1.leaf (va / k.PAGESIZE) = ⟨vmiter.pa k Pt va / k.PAGESIZE, vmiter.perm k Pt va⟩)) ∧
      (b = false → s1.ptable c = { s.ptable c with pagetable := none, state := P_FREE }) := by
  intro l
  induction l with
  | nil =>
    intro s s1 b T _ _ hT _ _ h
    cases h
    refine ⟨rfl, fun _ _ => rfl, fun _ => ⟨T, ?_, fun _ _ => rfl, ?_⟩,
      fun hb => Bool.noConfusion hb⟩
    · rw [← hT]
    · intro va hva
      cases hva
  | cons va vas ih =>
    intro s s1 b T hc hPt hT hal hnd h
    unfold fork_walk at h
    cases hfp : fork_page k c va s with
    | none => rw [hfp] at h; cases h
    | some r =>
      obtain ⟨b0, s0⟩ := r
      rw [hfp] at h
      obtain ⟨p1, p2, p3, p4⟩ := fork_page_frame k hk c va s s0 b0 Pt T hPt hT hfp
      cases b0 with
      | false =>
        dsimp only at h
        cases h
        exact ⟨p1, p2, fun hb => Bool.noConfusion hb, fun _ => p4 rfl⟩
      | true =>
        dsimp only at h
        obtain ⟨T0, t1, t2, t3⟩ := p3 rfl
        have hc0 : c ≠ s0.current := by rw [p1]; exact hc
        have hPt0 : (s0.ptable s0.current).pagetable = some Pt := by
          rw [p1, p2 _ (Ne.symm hc)]; exact hPt
        have hT0 : (s0.ptable c).pagetable = some T0 := by rw [t1]
        obtain ⟨q1, q2, q3, q4⟩ := ih s0 s1 b T0 hc0 hPt0 hT0
          (fun v hv => hal v (List.mem_cons_of_mem _ hv)) (List.nodup_cons.mp hnd).2 h
        refine ⟨q1.trans p1, fun j hj => (q2 j hj).trans (p2 j hj), ?_, ?_⟩
        · intro hb
          obtain ⟨T1, u1, u2, u3⟩ := q3 hb
          refine ⟨T1, ?_, ?_, ?_⟩
          · rw [u1, t1]
          · intro vpn hv
            rw [u2 vpn (fun v hv1 => hv v (List.mem_cons_of_mem _ hv1)),
              t2 vpn (hv va (List.mem_cons_self _ _))]
          · intro v hv hlt
            rcases List.mem_cons.mp hv with rfl | hv1
            · rw [u2 (v / k.PAGESIZE) ?_]
              · exact t3 hlt
              · intro w hw heq
                have hvw : v = w := vpn_inj k hk (hal v (List.mem_cons_self _ _))
                  (hal w (List.mem_cons_of_mem _ hw)) heq
                rw [hvw] at hnd
                exact (List.nodup_cons.mp hnd).1 hw
            · exact u3 v hv1 hlt
        · intro hb
          rw [q4 hb, t1]

/-- What `syscall_fork` does to the process table when it returns: `current` is unchanged,
and either no slot changes, or only the slot `c` that the search finds; that slot ends FREE
with a null table, or RUNNABLE with the caller's registers and a table whose leaf entries
below `PROC_START_ADDR` are copies of the mappings of the caller's table. -/
theorem syscall_fork_frame (k : KConsts) (hk : k.wf) (s s1 : KState) (r : Int)
    (hlive : (s.ptable s.current).state ≠ P_FREE) (h : syscall_fork k s = some (r, s1)) :
    s1.current = s.current ∧
    ((∀ j, s1.ptable j = s.ptable j) ∨
      ∃ c, fork_find_slot k s = some c ∧ (∀ j, j ≠ c → s1.ptable j = s.ptable j) ∧
        (s1.ptable c = { s.ptable c with pagetable := none, state := P_FREE } ∨
          ∃ Pt T1, (s.ptable s.current).pagetable = some Pt ∧
            s1.ptable c =
              { s.ptable c with
                pagetable := some T1
                regs := { (s.ptable s.current).regs with reg_rax := 0 }
                state := P_RUNNABLE } ∧
            ∀ va, k.PAGESIZE ∣ va → va < k.PROC_START_ADDR →
              T1.leaf (va / k.PAGESIZE)
                = ⟨vmiter.pa k Pt va / k.PAGESIZE, vmiter.perm k Pt va⟩)) := by
  obtain ⟨kp1, kp2⟩ := kalloc_pagetable_frame k hk s
  unfold syscall_fork at h
  by_cases hcond : ((kalloc_pagetable k s).2.ptable (kalloc_pagetable k s).2.current).pagetable.isNone
      = true ∨ (kalloc_pagetable k s).1 = 0
  · rw [if_pos hcond] at h
    cases h
    exact ⟨kp2, Or.inl (fun j => by rw [kp1])⟩
  · rw [if_neg hcond] at h
    have hslot_eq : fork_find_slot k (kalloc_pagetable k s).2 = fork_find_slot k s :=
      fork_find_slot_congr k s _ kp1
    cases hslot : fork_find_slot k (kalloc_pagetable k s).2 with
    | none =>
      rw [hslot] at h
      dsimp only at h
      cases hf : kfree k (kalloc_pagetable k s).1 (kalloc_pagetable k s).2 with
      | none => rw [hf] at h; cases h
      | some s2 =>
        rw [hf] at h
        obtain ⟨f1, f2⟩ := kfree_frame k _ _ s2 hf
        cases h
        exact ⟨f2.trans kp2, Or.inl (fun j => by rw [f1, kp1])⟩
    | some c =>
      rw [hslot] at h
      dsimp only at h
      have hfree : (s.ptable c).state = P_FREE := by
        rw [hslot_eq] at hslot
        exact (fork_find_slot_spec k s c hslot).2.2
      have hc : c ≠ s.current := by
        intro hcc
        rw [hcc] at hfree
        exact hlive hfree
      obtain ⟨Pt, hPt⟩ : ∃ Pt, (s.ptable s.current).pagetable = some Pt := by
        cases hp : (s.ptable s.current).pagetable with
        | none =>
          exfalso
          apply hcond
          left
          rw [kp1, kp2, hp]
          rfl
        | some Pt => exact ⟨Pt, rfl⟩
      have hc0 : c ≠ (set_pagetable (kalloc_pagetable k s).2 c
          (some ⟨(kalloc_pagetable k s).1, [], fun _ => ⟨0, 0⟩⟩)).current := by
        show c ≠ (kalloc_pagetable k s).2.current
        rw [kp2]; exact hc
      have hp0 : (set_pagetable (kalloc_pagetable k s).2 c
          (some ⟨(kalloc_pagetable k s).1, [], fun _ => ⟨0, 0⟩⟩)).ptable
          = Function.update s.ptable c
              { s.ptable c with
                pagetable := some ⟨(kalloc_pagetable k s).1, [], fun _ => ⟨0, 0⟩⟩ } := by
        show Function.update _ _ _ = _
        rw [kp1]
      have hPt0 : ((set_pagetable (kalloc_pagetable k s).2 c
          (some ⟨(kalloc_pagetable k s).1, [], fun _ => ⟨0, 0⟩⟩)).ptable
          (set_pagetable (kalloc_pagetable k s).2 c
            (some ⟨(kalloc_pagetable k s).1, [], fun _ => ⟨0, 0⟩⟩)).current).pagetable
          = some Pt := by
        rw [hp0]
        show ((Function.update s.ptable c _) (kalloc_pagetable k s).2.current).pagetable = _
        rw [kp2, Function.update_noteq (Ne.symm hc)]
        exact hPt
      have hT0 : ((set_pagetable (kalloc_pagetable k s).2 c
          (some ⟨(kalloc_pagetable k s).1, [], fun _ => ⟨0, 0⟩⟩)).ptable c).pagetable
          = some ⟨(kalloc_pagetable k s).1, [], fun _ => ⟨0, 0⟩⟩ := by
        rw [hp0, Function.update_same]
      cases hw : fork_walk k c (pageSteps 0 k.MEMSIZE_VIRTUAL k.PAGESIZE)
          (set_pagetable (kalloc_pagetable k s).2 c
            (some ⟨(kalloc_pagetable k s).1, [], fun _ => ⟨0, 0⟩⟩)) with
      | none => rw [hw] at h; cases h
      | some rw0 =>
        obtain ⟨b, s2⟩ := rw0
        rw [hw] at h
        obtain ⟨w1, w2, w3, w4⟩ := fork_walk_frame k hk c Pt _ _ s2 b _ hc0 hPt0 hT0
          (fun va hva => (dvd_of_mem_pageSteps hk.1 hva).1) (pageSteps_nodup _ _ _ hk.1) hw
        have hcur2 : s2.current = s.current := w1.trans kp2
        have hoth : ∀ j, j ≠ c → s2.ptable j = s.ptable j := by
          intro j hj
          rw [w2 j hj, hp0, Function.update_noteq hj]
        cases b with
        | false =>
          dsimp only at h
          cases h
          refine ⟨hcur2, Or.inr ⟨c, hslot_eq ▸ hslot, hoth, Or.inl ?_⟩⟩
          rw [w4 rfl, hp0, Function.update_same]
        | true =>
          dsimp only at h
          cases h
          obtain ⟨T1, u1, _, u3⟩ := w3 rfl
          refine ⟨hcur2, Or.inr ⟨c, hslot_eq ▸ hslot, ?_, Or.inr ⟨Pt, T1, hPt, ?_, ?_⟩⟩⟩
          · intro j hj
            show Function.update s2.ptable c _ j = _
            rw [Function.update_noteq hj]
            exact hoth j hj
          · show Function.update s2.ptable c _ c = _
            rw [Function.update_same, u1, hp0, Function.update_same, hcur2,
              hoth _ (Ne.symm hc)]
          · intro va hal hlt
            exact u3 va ((mem_pageSteps_zero hk.1).mpr ⟨hal, by
              have := hk.2.2.2.1
              omega⟩) hlt

/-- `sys_page_free` touches the reference counts only. -/
theorem sys_page_free_frame (k : KConsts) (ptr : Nat) (s : KState) :
    (sys_page_free k ptr s).ptable = s.ptable ∧ (sys_page_free k ptr s).current = s.current := by
  unfold sys_page_free
  split_ifs <;> exact ⟨rfl, rfl⟩

/-- What `kill` does to the process table when it returns: a slot keeps its fields, or
keeps all but its state, which becomes ZOMBIE. -/
theorem kill_frame (k : KConsts) (pid : Int) (s s1 : KState) (v : Nat)
    (h : kill k pid s = some (v, s1)) :
    s1.current = s.current ∧ ∀ j, (s1.ptable j).pid = (s.ptable j).pid ∧
      (s1.ptable j).pagetable = (s.ptable j).pagetable ∧
      ((s1.ptable j).state = (s.ptable j).state ∨ (s1.ptable j).state = P_ZOMBIE) := by
  have hupd : ∀ (t : Nat) (j : Nat),
      ((Function.update s.ptable t { s.ptable t with state := P_ZOMBIE }) j).pid
        = (s.ptable j).pid ∧
      ((Function.update s.ptable t { s.ptable t with state := P_ZOMBIE }) j).pagetable
        = (s.ptable j).pagetable ∧
      (((Function.update s.ptable t { s.ptable t with state := P_ZOMBIE }) j).state
        = (s.ptable j).state ∨
      ((Function.update s.ptable t { s.ptable t with state := P_ZOMBIE }) j).state
        = P_ZOMBIE) := by
    intro t j
    by_cases hj : j = t
    · subst hj
      simp only [Function.update_same]
      exact ⟨trivial, trivial, Or.inr trivial⟩
    · simp only [Function.update_noteq hj]
      exact ⟨trivial, trivial, Or.inl trivial⟩
  unfold kill at h
  by_cases h1 : pid = ((s.ptable s.current).pid : Int)
  · rw [if_pos h1] at h
    cases h
    exact ⟨rfl, hupd _⟩
  · rw [if_neg h1] at h
    by_cases h2 : pid < 0 ∨ pid ≥ (k.NPROC : Int)
    · rw [if_pos h2] at h
      cases h
    · rw [if_neg h2] at h
      by_cases h3 : (s.ptable s.current).euid ≠ 0 ∧
          (s.ptable s.current).euid ≠ (s.ptable pid.toNat).uid
      · rw [if_pos h3] at h
        cases h
        exact ⟨rfl, fun j => ⟨rfl, rfl, Or.inl rfl⟩⟩
      · rw [if_neg h3] at h
        cases h
        exact ⟨rfl, hupd _⟩

/-- A retired slot stays retired when the running process stays the same and every slot
keeps its pid and either keeps its state, or becomes ZOMBIE, or was FREE. -/
theorem retired_of_fields (k : KConsts) (i : Nat) (s s1 : KState) (hinv : Retired k i s)
    (hcur : s1.current = s.current)
    (hpid : ∀ j, (s1.ptable j).pid = (s.ptable j).pid)
    (hstate : ∀ j, (s1.ptable j).state = (s.ptable j).state ∨ (s1.ptable j).state = P_ZOMBIE ∨
      (s.ptable j).state = P_FREE) : Retired k i s1 := by
  refine ⟨fun j hj => by rw [hpid, hinv.pids j hj], by rw [hcur]; exact hinv.cur_lt, ?_,
    by rw [hcur]; exact hinv.ne, ?_⟩
  · rw [hcur]
    rcases hstate s.current with h | h | h
    · rw [h]; exact hinv.live
    · rw [h]; decide
    · exact absurd h hinv.live
  · rcases hstate i with h | h | h
    · rw [h]; exact hinv.dead
    · exact Or.inr h
    · rcases hinv.dead with hd | hd <;> rw [hd] at h <;> cases h

/-- Saving the registers keeps a retired slot retired. -/
theorem retired_save_regs (k : KConsts) (i : Nat) (regs : regstate) (s : KState)
    (hinv : Retired k i s) : Retired k i (save_regs regs s) :=
  retired_of_fields k i s _ hinv rfl (fun j => (save_regs_fields regs s j).2.1)
    (fun j => Or.inl (save_regs_fields regs s j).1)

/-- The ways in which `syscall` gets back to a process. -/
theorem syscall_next_cases (n : SyscallNumbers) (k : KConsts) (regs : regstate) (s s1 : KState)
    (h : (syscall n k regs s).next = some s1) :
    s1 = save_regs regs s ∨
    schedule k (save_regs { regs with reg_rax := 0 } s) = some s1 ∨
    (∃ r, syscall_page_alloc k regs.reg_rdi (save_regs regs s) = some (r, s1)) ∨
    (∃ r, syscall_fork k (save_regs regs s) = some (r, s1)) ∨
    (∃ s2, free_all k ((save_regs regs s).ptable (save_regs regs s).current).pid
      (save_regs regs s) = some s2 ∧ schedule k s2 = some s1) ∨
    s1 = sys_page_free k regs.reg_rdi (save_regs regs s) ∨
    (∃ v, kill k (toInt32 regs.reg_rbx) (save_regs regs s) = some (v, s1)) := by
  unfold syscall at h
  by_cases c1 : regs.reg_rax = n.SYSCALL_PANIC
  · rw [if_pos c1] at h
    exact Option.noConfusion h
  rw [if_neg c1] at h
  by_cases c2 : regs.reg_rax = n.SYSCALL_GETPID
  · rw [if_pos c2] at h
    exact Or.inl (Option.some.inj h).symm
  rw [if_neg c2] at h
  by_cases c3 : regs.reg_rax = n.SYSCALL_YIELD
  · rw [if_pos c3] at h
    exact Or.inr (Or.inl (schedule_from_next k _ s1 h))
  rw [if_neg c3] at h
  by_cases c4 : regs.reg_rax = n.SYSCALL_PAGE_ALLOC
  · rw [if_pos c4] at h
    cases hp : syscall_page_alloc k regs.reg_rdi (save_regs regs s) with
    | none => rw [hp] at h; exact Option.noConfusion h
    | some r =>
      rw [hp] at h
      obtain ⟨r1, r2⟩ := r
      exact Or.inr (Or.inr (Or.inl ⟨r1, by rw [← Option.some.inj h]⟩))
  rw [if_neg c4] at h
  by_cases c5 : regs.reg_rax = n.SYSCALL_FORK
  · rw [if_pos c5] at h
    cases hp : syscall_fork k (save_regs regs s) with
    | none => rw [hp] at h; exact Option.noConfusion h
    | some r =>
      rw [hp] at h
      obtain ⟨r1, r2⟩ := r
      exact Or.inr (Or.inr (Or.inr (Or.inl ⟨r1, by rw [← Option.some.inj h]⟩)))
  rw [if_neg c5] at h
  by_cases c6 : regs.reg_rax = n.SYSCALL_EXIT
  · rw [if_pos c6] at h
    unfold syscall_exit at h
    cases hf : free_all k ((save_regs regs s).ptable (save_regs regs s).current).pid
        (save_regs regs s) with
    | none => rw [hf] at h; exact Option.noConfusion h
    | some s2 =>
      rw [hf] at h
      exact Or.inr (Or.inr (Or.inr (Or.inr (Or.inl ⟨s2, rfl, schedule_from_next k _ s1 h⟩))))
  rw [if_neg c6] at h
  by_cases c7 : regs.reg_rax = n.SYSCALL_PAGE_FREE
  · rw [if_pos c7] at h
    exact Or.inr (Or.inr (Or.inr (Or.inr (Or.inr (Or.inl (Option.some.inj h).symm)))))
  rw [if_neg c7] at h
  by_cases c8 : regs.reg_rax = n.SYSCALL_KILL
  · rw [if_pos c8] at h
    cases hp : kill k (toInt32 regs.reg_rbx) (save_regs regs s) with
    | none => rw [hp] at h; exact Option.noConfusion h
    | some r =>
      rw [hp] at h
      obtain ⟨r1, r2⟩ := r
      exact Or.inr (Or.inr (Or.inr (Or.inr (Or.inr (Or.inr ⟨r1, by rw [← Option.some.inj h]⟩)))))
  rw [if_neg c8] at h
  by_cases c9 : regs.reg_rax = n.SYSCALL_SLEEP
  · rw [if_pos c9] at h
    by_cases c10 : regs.reg_rbx = 0
    · rw [if_pos c10] at h
      exact Option.noConfusion h
    · rw [if_neg c10] at h
      exact Option.noConfusion h
  rw [if_neg c9] at h
  exact Option.noConfusion h

/-- The ways in which `exception` gets back to a process: through `schedule()`, after a
timer interrupt or after the running process has become FAULTED. -/
theorem exception_next_cases (x : IntNumbers) (k : KConsts) (regs : regstate) (s s1 : KState)
    (h : (exception x k regs s).next = some s1) :
    schedule k { save_regs regs s with ticks := ((save_regs regs s).ticks + 1) % 2 ^ 64 }
      = some s1 ∨
    (regs.reg_intno = x.INT_PF ∧ regs.reg_errcode &&& PTE_U ≠ 0 ∧
      schedule k
        { save_regs regs s with
          ptable := Function.update (save_regs regs s).ptable s.current
            { (save_regs regs s).ptable s.current with state := P_FAULTED } } = some s1) := by
  unfold exception at h
  by_cases c1 : regs.reg_intno = x.INT_IRQ + x.IRQ_TIMER
  · rw [if_pos c1] at h
    exact Or.inl (schedule_from_next k _ s1 h)
  rw [if_neg c1] at h
  by_cases c2 : regs.reg_intno = x.INT_PF
  · rw [if_pos c2] at h
    by_cases c3 : regs.reg_errcode &&& PTE_U = 0
    · rw [if_pos c3] at h
      exact Option.noConfusion h
    · rw [if_neg c3] at h
      unfold exception_tail at h
      by_cases c4 : (({ save_regs regs s with
          ptable := Function.update (save_regs regs s).ptable s.current
            { (save_regs regs s).ptable s.current with state := P_FAULTED } } : KState).ptable
          ({ save_regs regs s with
            ptable := Function.update (save_regs regs s).ptable s.current
              { (save_regs regs s).ptable s.current with state := P_FAULTED } }
            : KState).current).state = P_RUNNABLE
      · exfalso
        have h2 : ((Function.update (save_regs regs s).ptable s.current
            { (save_regs regs s).ptable s.current with state := P_FAULTED }) s.current).state
            = P_RUNNABLE := c4
        rw [Function.update_same] at h2
        exact procstate_t.noConfusion h2
      · rw [if_neg c4] at h
        exact Or.inr ⟨c2, c3, schedule_from_next k _ s1 h⟩
  rw [if_neg c2] at h
  exact Option.noConfusion h

/-- No kernel entry that returns to a process brings a retired slot back: the slot stays
FAULTED or ZOMBIE and is not the one that runs. -/
theorem retired_entry (n : SyscallNumbers) (x : IntNumbers) (k : KConsts) (hk : k.wf)
    (hN : 0 < k.NPROC) (i : Nat) (t : Trap) (s s1 : KState) (hinv : Retired k i s)
    (h : (kernel_entry n x k t s).next = some s1) : Retired k i s1 := by
  cases t with
  | syscall regs =>
    have h0 := retired_save_regs k i regs s hinv
    rcases syscall_next_cases n k regs s s1 h with e | e | ⟨r, hp⟩ | ⟨r, hp⟩ | ⟨s2, hf, hs⟩ | e |
      ⟨v, hp⟩
    · rw [e]
      exact h0
    · exact retired_schedule k i _ s1 hN
        (retired_save_regs k i { regs with reg_rax := 0 } s hinv).pids
        (retired_save_regs k i { regs with reg_rax := 0 } s hinv).dead e
    · obtain ⟨a1, a2, a3⟩ := page_alloc_frame k hk regs.reg_rdi (save_regs regs s) s1 r hp
      refine retired_of_fields k i _ _ h0 a1 ?_ ?_
      · intro j
        by_cases hj : j = (save_regs regs s).current
        · rw [hj]
          rcases a3 with a | ⟨T, T1, _, a, _⟩ <;> rw [a]
        · rw [a2 j hj]
      · intro j
        left
        by_cases hj : j = (save_regs regs s).current
        · rw [hj]
          rcases a3 with a | ⟨T, T1, _, a, _⟩ <;> rw [a]
        · rw [a2 j hj]
    · obtain ⟨a1, a2⟩ := syscall_fork_frame k hk (save_regs regs s) s1 r h0.live hp
      rcases a2 with a | ⟨c, hc, a, b⟩
      · exact retired_of_fields k i _ _ h0 a1 (fun j => by rw [a]) (fun j => Or.inl (by rw [a]))
      · have hfree := (fork_find_slot_spec k _ c hc).2.2
        refine retired_of_fields k i _ _ h0 a1 ?_ ?_
        · intro j
          by_cases hj : j = c
          · rw [hj]
            rcases b with b | ⟨Pt, T1, _, b, _⟩ <;> rw [b]
          · rw [a j hj]
        · intro j
          by_cases hj : j = c
          · rw [hj]
            exact Or.inr (Or.inr hfree)
          · rw [a j hj]
            exact Or.inl rfl
    · obtain ⟨f1, f2⟩ := free_all_frame k _ _ s2 hf
      have hpc : ((save_regs regs s).ptable (save_regs regs s).current).pid
          = (save_regs regs s).current := h0.pids _ h0.cur_lt
      rw [hpc] at f1
      refine retired_schedule k i s2 s1 hN ?_ ?_ hs
      · intro j hj
        rw [f1]
        by_cases hjc : j = (save_regs regs s).current
        · rw [hjc, Function.update_same]
          exact h0.pids _ h0.cur_lt
        · rw [Function.update_noteq hjc]
          exact h0.pids j hj
      · rw [f1, Function.update_noteq (Ne.symm h0.ne)]
        exact h0.dead
    · rw [e]
      obtain ⟨a1, a2⟩ := sys_page_free_frame k regs.reg_rdi (save_regs regs s)
      exact retired_of_fields k i _ _ h0 a2 (fun j => by rw [a1]) (fun j => Or.inl (by rw [a1]))
    · obtain ⟨a1, a2⟩ := kill_frame k _ (save_regs regs s) s1 v hp
      refine retired_of_fields k i _ _ h0 a1 (fun j => (a2 j).1) ?_
      intro j
      rcases (a2 j).2.2 with a | a
      · exact Or.inl a
      · exact Or.inr (Or.inl a)
  | exception regs =>
    have h0 := retired_save_regs k i regs s hinv
    rcases exception_next_cases x k regs s s1 h with e | ⟨_, _, e⟩
    · exact retired_schedule k i
        { save_regs regs s with ticks := ((save_regs regs s).ticks + 1) % 2 ^ 64 } s1 hN
        h0.pids h0.dead e
    · have hne : s.current ≠ i := hinv.ne
      refine retired_schedule k i _ s1 hN ?_ ?_ e
      · intro j hj
        show ((Function.update (save_regs regs s).ptable s.current
          { (save_regs regs s).ptable s.current with state := P_FAULTED }) j).pid = j
        by_cases hjc : j = s.current
        · rw [hjc, Function.update_same]
          exact h0.pids _ h0.cur_lt
        · rw [Function.update_noteq hjc]
          exact h0.pids j hj
      · show ((Function.update (save_regs regs s).ptable s.current
            { (save_regs regs s).ptable s.current with state := P_FAULTED }) i).state = _ ∨
          ((Function.update (save_regs regs s).ptable s.current
            { (save_regs regs s).ptable s.current with state := P_FAULTED }) i).state = _
        rw [Function.update_noteq (Ne.symm hne)]
        exact h0.dead

/-- Along every sequence of kernel entries a retired slot stays retired. -/
theorem retired_runs (n : SyscallNumbers) (x : IntNumbers) (k : KConsts) (hk : k.wf)
    (hN : 0 < k.NPROC) (i : Nat) (s s1 : KState) (hinv : Retired k i s)
    (h : Runs n x k s s1) : Retired k i s1 := by
  induction h with
  | refl => exact hinv
  | step t _ hnext ih => exact retired_entry n x k hk hN i t _ _ ih hnext

/-- The wake-up loop leaves a slot that is not SLEEPING in its state. -/
theorem sleep_wake_loop_state (k : KConsts) (s : KState) (i : Nat)
    (hi : (s.ptable i).state ≠ P_SLEEPING) :
    ((sleep_wake_loop k s).ptable i).state = (s.ptable i).state := by
  have hstep : ∀ (s0 : KState) (j : Nat), (s0.ptable i).state ≠ P_SLEEPING →
      ((sleep_wake_step s0 j).ptable i).state = (s0.ptable i).state := by
    intro s0 j h0
    unfold sleep_wake_step
    by_cases hj : (s0.ptable j).state = P_SLEEPING
    · have hij : i ≠ j := fun e => h0 (e ▸ hj)
      rw [if_pos hj]
      by_cases hd : dec_sleep_ticks (s0.ptable j).sleep_ticks = 0
      · rw [if_pos hd]
        unfold runqueue_add
        dsimp only
        split
        · rename_i t ht
          dsimp only
          by_cases hit : i = t
          · subst hit
            rw [Function.update_same, Function.update_noteq hij, Function.update_noteq hij]
          · rw [Function.update_noteq hit, Function.update_noteq hij, Function.update_noteq hij]
        · dsimp only
          rw [Function.update_noteq hij, Function.update_noteq hij]
      · rw [if_neg hd]
        dsimp only
        rw [Function.update_noteq hij]
    · rw [if_neg hj]
  have hloop : ∀ (l : List Nat) (s0 : KState), (s0.ptable i).state ≠ P_SLEEPING →
      ((l.foldl sleep_wake_step s0).ptable i).state = (s0.ptable i).state := by
    intro l
    induction l with
    | nil => intro s0 _; rfl
    | cons j l ih =>
      intro s0 h0
      rw [List.foldl_cons, ih _ (by rw [hstep s0 j h0]; exact h0), hstep s0 j h0]
  exact hloop _ s hi

/-- C22. A FAULTED process is never resumed.  In a state whose slot numbers are the pids, a
page fault of the running process with the user bit in its error code makes `exception`
set that process's state to `P_FAULTED` and call `schedule()`, not `run(current)`; if
`schedule()` finds a process `s1.current` to run, it is another one, and it is RUNNABLE.
From then on, along every sequence of kernel entries that return to a process (timer
interrupts, page faults and system calls of whichever process runs, `fork` with its slot
search included), the faulted slot is never RUNNABLE again (it stays FAULTED, or becomes
ZOMBIE by a `kill`) and is never the process that runs.  The wake-up loop of the `sleep`
case, after which the kernel panics, does not change the state of a FAULTED slot either. -/
theorem faulted_never_resumed (n : SyscallNumbers) (x : IntNumbers) (k : KConsts)
    (hk : k.wf) (hx : x.distinct) (hN : 0 < k.NPROC) (regs : regstate) (s s1 s2 : KState)
    (hpids : ∀ j, j < k.NPROC → (s.ptable j).pid = j) (hcur : s.current < k.NPROC)
    (hpf : regs.reg_intno = x.INT_PF) (huser : regs.reg_errcode &&& PTE_U ≠ 0)
    (hnext : (exception x k regs s).next = some s1) (hruns : Runs n x k s1 s2) :
    exception x k regs s = schedule_from k
      { save_regs regs s with
        ptable := Function.update (save_regs regs s).ptable s.current
          { (save_regs regs s).ptable s.current with state := P_FAULTED } } ∧
    (s1.ptable s.current).state = P_FAULTED ∧ s1.current ≠ s.current ∧
    (s1.ptable s1.current).state = P_RUNNABLE ∧
    ((s2.ptable s.current).state = P_FAULTED ∨ (s2.ptable s.current).state = P_ZOMBIE) ∧
    (s2.ptable s.current).state ≠ P_RUNNABLE ∧ s2.current ≠ s.current ∧
    (∀ (s0 : KState) (i : Nat), (s0.ptable i).state = P_FAULTED →
      ((sleep_wake_loop k s0).ptable i).state = P_FAULTED) := by
  have hnt : ¬ regs.reg_intno = x.INT_IRQ + x.IRQ_TIMER := by
    rw [hpf]
    exact fun h => hx h.symm
  have hexc : exception x k regs s = schedule_from k
      { save_regs regs s with
        ptable := Function.update (save_regs regs s).ptable s.current
          { (save_regs regs s).ptable s.current with state := P_FAULTED } } := by
    unfold exception
    rw [if_neg hnt, if_pos hpf, if_neg huser]
    unfold exception_tail
    rw [if_neg]
    show ¬ ((Function.update (save_regs regs s).ptable s.current
      { (save_regs regs s).ptable s.current with state := P_FAULTED }) s.current).state
      = P_RUNNABLE
    rw [Function.update_same]
    exact fun h => procstate_t.noConfusion h
  have hsched : schedule k
      { save_regs regs s with
        ptable := Function.update (save_regs regs s).ptable s.current
          { (save_regs regs s).ptable s.current with state := P_FAULTED } } = some s1 := by
    rw [hexc] at hnext
    exact schedule_from_next k _ s1 hnext
  have h0pid : ∀ j, j < k.NPROC →
      ((Function.update (save_regs regs s).ptable s.current
        { (save_regs regs s).ptable s.current with state := P_FAULTED }) j).pid = j := by
    intro j hj
    by_cases hjc : j = s.current
    · rw [hjc, Function.update_same]
      show ((save_regs regs s).ptable s.current).pid = s.current
      rw [(save_regs_fields regs s s.current).2.1]
      exact hpids _ hcur
    · rw [Function.update_noteq hjc, (save_regs_fields regs s j).2.1]
      exact hpids j hj
  have hret : Retired k s.current s1 := by
    refine retired_schedule k s.current _ s1 hN h0pid (Or.inl ?_) hsched
    show ((Function.update (save_regs regs s).ptable s.current
      { (save_regs regs s).ptable s.current with state := P_FAULTED }) s.current).state = _
    rw [Function.update_same]
  have hret2 := retired_runs n x k hk hN s.current s1 s2 hret hruns
  obtain ⟨heq, _, hrun⟩ := schedule_some k _ s1 hN hsched
  have hpt1 : s1.ptable = Function.update (save_regs regs s).ptable s.current
      { (save_regs regs s).ptable s.current with state := P_FAULTED } := by
    rw [heq]
  refine ⟨hexc, ?_, hret.ne, ?_, hret2.dead, ?_, hret2.ne, ?_⟩
  · rw [hpt1, Function.update_same]
  · rw [hpt1]
    exact hrun
  · rcases hret2.dead with h | h <;> rw [h] <;> decide
  · intro s0 i hi
    rw [sleep_wake_loop_state k s0 i (by rw [hi]; decide), hi]

/-- The page fault of process 1 in `s_users`, after which process 2 runs and calls
`getpid`. -/
theorem faulted_never_resumed_witness :
    exception trapno weensy regs_fault s_users = schedule_from weensy s_faulted ∧
    (s_after_fault.ptable s_users.current).state = P_FAULTED ∧
    s_after_fault.current ≠ s_users.current ∧
    (s_after_fault.ptable s_after_fault.current).state = P_RUNNABLE ∧
    (((save_regs ⟨2, 0, 0, 0, 0, 0, 0⟩ s_after_fault).ptable s_users.current).state = P_FAULTED ∨
      ((save_regs ⟨2, 0, 0, 0, 0, 0, 0⟩ s_after_fault).ptable s_users.current).state
        = P_ZOMBIE) ∧
    ((save_regs ⟨2, 0, 0, 0, 0, 0, 0⟩ s_after_fault).ptable s_users.current).state
      ≠ P_RUNNABLE ∧
    (save_regs ⟨2, 0, 0, 0, 0, 0, 0⟩ s_after_fault).current ≠ s_users.current ∧
    (∀ (s0 : KState) (i : Nat), (s0.ptable i).state = P_FAULTED →
      ((sleep_wake_loop weensy s0).ptable i).state = P_FAULTED) :=
  faulted_never_resumed sysno trapno weensy (by decide) (by decide) (by decide)
    regs_fault s_users s_after_fault (save_regs ⟨2, 0, 0, 0, 0, 0, 0⟩ s_after_fault)
    (by decide) (by decide) rfl (by decide) rfl
    (Runs.step (Trap.syscall ⟨2, 0, 0, 0, 0, 0, 0⟩) (Runs.refl _) rfl)

/-! ## The kernel-region layout -/

/-- A page-aligned address below `PROC_START_ADDR` and an address from it on lie on
different pages. -/
theorem vpn_ne_of_kernel (k : KConsts) (hk : k.wf) {va a : Nat}
    (hva : va < k.PROC_START_ADDR) (ha : k.PROC_START_ADDR ≤ a) :
    va / k.PAGESIZE ≠ a / k.PAGESIZE := by
  obtain ⟨m, hm⟩ := hk.2.2.1
  have h1 : va / k.PAGESIZE < m := by
    rw [Nat.div_lt_iff_lt_mul hk.1, Nat.mul_comm, ← hm]
    exact hva
  have h2 : m ≤ a / k.PAGESIZE := by
    rw [Nat.le_div_iff_mul_le hk.1, Nat.mul_comm, ← hm]
    exact ha
  omega

/-- The layout that the identity mappings of `kernel_start` give. -/
theorem layout_of_leaf (k : KConsts) (hk : k.wf) (console : Nat) (T : x86_64_pagetable)
    (h : ∀ va, k.PAGESIZE ∣ va → va < k.PROC_START_ADDR →
      T.leaf (va / k.PAGESIZE) = ⟨va / k.PAGESIZE, kernel_perm k console va⟩) :
    kernel_layout k console T := by
  intro va hal hlt
  have hl := h va hal hlt
  constructor
  · intro h0
    have hp0 : kernel_perm k console va = 0 := by
      unfold kernel_perm
      rw [if_pos h0]
    rw [hp0] at hl
    unfold vmiter.perm
    rw [hl]
    dsimp only
    decide
  · intro h0
    have hperm : kernel_perm k console va
        = if va = console then PTE_P ||| PTE_W ||| PTE_U else PTE_P ||| PTE_W := by
      unfold kernel_perm
      rw [if_neg h0]
      by_cases hc : va = console
      · rw [if_neg (fun h => h.2 hc), if_pos hc]
      · rw [if_pos ⟨hlt, hc⟩, if_neg hc]
    have hpres : kernel_perm k console va &&& PTE_P ≠ 0 := by
      rw [hperm]
      split <;> decide
    obtain ⟨l1, l2, _⟩ := lookup_of_leaf k hk T va (va / k.PAGESIZE)
      (kernel_perm k console va) hal hpres hl
    exact ⟨by rw [l2]; exact Nat.div_mul_cancel hal, by rw [l1, hperm]⟩

/-- A table whose kernel region is a copy of a table with the kernel-region layout has
that layout, and maps the kernel region in the same way. -/
theorem layout_of_copy (k : KConsts) (hk : k.wf) (console : Nat) (T U : x86_64_pagetable)
    (hU : kernel_layout k console U) (hcopy : kernel_copy k T U) :
    kernel_layout k console T ∧ same_kernel_map k T U := by
  have key : ∀ va, k.PAGESIZE ∣ va → va < k.PROC_START_ADDR →
      vmiter.perm k T va = vmiter.perm k U va ∧ vmiter.pa k T va = vmiter.pa k U va := by
    intro va hal hlt
    have hl := hcopy va hal hlt
    obtain ⟨u0, u1⟩ := hU va hal hlt
    by_cases h0 : va = 0
    · have hu := u0 h0
      have hpu : vmiter.perm k U va = 0 := by
        unfold vmiter.perm at hu ⊢
        by_cases hp : (U.leaf (va / k.PAGESIZE)).perm &&& PTE_P ≠ 0
        · rw [if_pos hp] at hu
          exact absurd hu hp
        · rw [if_neg hp]
      have hau : vmiter.pa k U va = 2 ^ 64 - 1 := by
        unfold vmiter.perm at hpu
        unfold vmiter.pa
        by_cases hp : (U.leaf (va / k.PAGESIZE)).perm &&& PTE_P ≠ 0
        · rw [if_pos hp] at hpu
          rw [hpu] at hp
          exact absurd rfl hp
        · rw [if_neg hp]
      rw [hpu] at hl
      have hpt : vmiter.perm k T va = 0 := by
        unfold vmiter.perm
        rw [hl]
        dsimp only
        decide
      have hat : vmiter.pa k T va = 2 ^ 64 - 1 := by
        unfold vmiter.pa
        rw [hl]
        dsimp only
        rw [if_neg (by decide)]
      exact ⟨hpt.trans hpu.symm, hat.trans hau.symm⟩
    · obtain ⟨ua, up⟩ := u1 h0
      have hpres : vmiter.perm k U va &&& PTE_P ≠ 0 := by
        rw [up]
        split <;> decide
      obtain ⟨l1, l2, _⟩ := lookup_of_leaf k hk T va (vmiter.pa k U va / k.PAGESIZE)
        (vmiter.perm k U va) hal hpres hl
      refine ⟨l1, ?_⟩
      rw [l2, ua]
      exact Nat.div_mul_cancel hal
  refine ⟨?_, key⟩
  intro va hal hlt
  obtain ⟨k1, k2⟩ := key va hal hlt
  rw [k1, k2]
  exact hU va hal hlt

/-- A table that agrees with `T` on the leaf entries of the kernel region has the layout
and the kernel mappings of `T`. -/
theorem layout_congr (k : KConsts) (console : Nat) (T T1 U : x86_64_pagetable)
    (hT : kernel_layout k console T ∧ same_kernel_map k T U)
    (h : ∀ va, k.PAGESIZE ∣ va → va < k.PROC_START_ADDR →
      T1.leaf (va / k.PAGESIZE) = T.leaf (va / k.PAGESIZE)) :
    kernel_layout k console T1 ∧ same_kernel_map k T1 U := by
  constructor
  · intro va hal hlt
    obtain ⟨e1, e2⟩ := perm_of_leaf_eq k T T1 va (h va hal hlt)
    rw [e1, e2]
    exact hT.1 va hal hlt
  · intro va hal hlt
    obtain ⟨e1, e2⟩ := perm_of_leaf_eq k T T1 va (h va hal hlt)
    rw [e1, e2]
    exact hT.2 va hal hlt

/-- The loop of `kernel_start` installs the identity mapping with the permissions of
`kernel_perm` at each address it visits, and leaves the process table alone. -/
theorem kernel_map_loop_spec (k : KConsts) (hk : k.wf) (console : Nat) :
    ∀ (l : List Nat) (kpt kpt1 : x86_64_pagetable) (s s1 : KState),
      (∀ a ∈ l, k.PAGESIZE ∣ a) → l.Nodup →
      kernel_map_loop k console l kpt s = some (kpt1, s1) →
      s1.ptable = s.ptable ∧ s1.current = s.current ∧
      (∀ a ∈ l, kpt1.leaf (a / k.PAGESIZE) = ⟨a / k.PAGESIZE, kernel_perm k console a⟩) ∧
      (∀ vpn, (∀ a ∈ l, vpn ≠ a / k.PAGESIZE) → kpt1.leaf vpn = kpt.leaf vpn) := by
  intro l
  induction l with
  | nil =>
    intro kpt kpt1 s s1 _ _ h
    cases h
    exact ⟨rfl, rfl, fun a ha => absurd ha (List.not_mem_nil a), fun _ _ => rfl⟩
  | cons a rest ih =>
    intro kpt kpt1 s s1 hal hnd h
    unfold kernel_map_loop at h
    by_cases hm : (vmiter.try_map k kpt a a (kernel_perm k console a) s).1 = 0
    · rw [if_pos hm] at h
      obtain ⟨hst, _, _, _, hleaf⟩ := try_map_spec k hk kpt a a (kernel_perm k console a) s _ rfl
      have hl := hleaf.resolve_left (fun hh => by rw [hm] at hh; exact absurd hh.1 (by decide))
      obtain ⟨q1, q2, q3, q4⟩ := ih _ kpt1 _ s1 (fun b hb => hal b (List.mem_cons_of_mem _ hb))
        (List.nodup_cons.mp hnd).2 h
      refine ⟨q1.trans hst.ptable, q2.trans hst.current, ?_, ?_⟩
      · intro b hb
        rcases List.mem_cons.mp hb with rfl | hb1
        · rw [q4 (b / k.PAGESIZE) ?_, hl.2, Function.update_same]
          intro w hw heq
          have hbw : b = w := vpn_inj k hk (hal b (List.mem_cons_self _ _))
            (hal w (List.mem_cons_of_mem _ hw)) heq
          rw [hbw] at hnd
          exact (List.nodup_cons.mp hnd).1 hw
        · exact q3 b hb1
      · intro vpn hv
        rw [q4 vpn (fun b hb => hv b (List.mem_cons_of_mem _ hb)), hl.2,
          Function.update_noteq (hv a (List.mem_cons_self _ _))]
    · rw [if_neg hm] at h
      cases h

/-- What a mapping that must not fail does when it succeeds. -/
theorem map_page_frame (k : KConsts) (hk : k.wf) (pid va pa perm : Nat) (s s1 : KState)
    (h : map_page k pid va pa perm s = some s1) :
    s1.current = s.current ∧ (∀ j, j ≠ pid → s1.ptable j = s.ptable j) ∧
    ∃ T T1, (s.ptable pid).pagetable = some T ∧
      s1.ptable pid = { s.ptable pid with pagetable := some T1 } ∧
      (∀ vpn, vpn ≠ va / k.PAGESIZE → T1.leaf vpn = T.leaf vpn) ∧
      T1.leaf (va / k.PAGESIZE) = ⟨pa / k.PAGESIZE, perm⟩ := by
  unfold map_page at h
  cases hT : (s.ptable pid).pagetable with
  | none => rw [hT] at h; cases h
  | some T =>
    rw [hT] at h
    dsimp only at h
    obtain ⟨i1, i2, i3, i4⟩ := install_frame k hk pid va pa perm s T
    by_cases hm : (vmiter.try_map k T va pa perm s).1 = 0
    · rw [if_pos hm] at h
      cases h
      refine ⟨i1, fun j hj => by rw [i2, Function.update_noteq hj], T, _, rfl, ?_, i3,
        i4 (by rw [hm]; decide)⟩
      rw [i2, Function.update_same]
    · rw [if_neg hm] at h
      cases h

/-- A step that does nothing. -/
theorem setupStep_refl (k : KConsts) (pid : Nat) (s : KState) : SetupStep k pid s s :=
  ⟨rfl, fun _ _ => rfl, rfl, fun T1 h => ⟨T1, h, fun _ _ _ => rfl⟩⟩

/-- Steps compose. -/
theorem setupStep_trans {k : KConsts} {pid : Nat} {s s1 s2 : KState}
    (h1 : SetupStep k pid s s1) (h2 : SetupStep k pid s1 s2) : SetupStep k pid s s2 where
  current := h2.current.trans h1.current
  others j hj := (h2.others j hj).trans (h1.others j hj)
  pidf := h2.pidf.trans h1.pidf
  kernel T2 hT2 := by
    obtain ⟨T1, hT1, e2⟩ := h2.kernel T2 hT2
    obtain ⟨T, hT, e1⟩ := h1.kernel T1 hT1
    exact ⟨T, hT, fun va hal hlt => (e2 va hal hlt).trans (e1 va hal hlt)⟩

/-- A state that differs in `ptable` fields of slot `pid` other than `pid` and
`pagetable`, or outside the process table, is a step that leaves the tables alone. -/
theorem setupStep_of_ptable (k : KConsts) (pid : Nat) (s s1 : KState)
    (hc : s1.current = s.current) (ho : ∀ j, j ≠ pid → s1.ptable j = s.ptable j)
    (hp : (s1.ptable pid).pid = (s.ptable pid).pid)
    (ht : (s1.ptable pid).pagetable = (s.ptable pid).pagetable) : SetupStep k pid s s1 :=
  ⟨hc, ho, hp, fun T1 h => ⟨T1, by rw [← ht]; exact h, fun _ _ _ => rfl⟩⟩

/-- A mapping at an address of the process region leaves the kernel region alone. -/
theorem setupStep_map_page (k : KConsts) (hk : k.wf) (pid va pa perm : Nat) (s s1 : KState)
    (hva : k.PROC_START_ADDR ≤ va) (h : map_page k pid va pa perm s = some s1) :
    SetupStep k pid s s1 := by
  obtain ⟨m1, m2, T, T1, hT, hT1, hl, _⟩ := map_page_frame k hk pid va pa perm s s1 h
  refine ⟨m1, m2, by rw [hT1], ?_⟩
  intro T2 hT2
  rw [hT1] at hT2
  cases hT2
  exact ⟨T, hT, fun v _ hlt => hl _ (vpn_ne_of_kernel k hk hlt hva)⟩

/-- `kalloc` is a step that leaves the process table alone. -/
theorem setupStep_kalloc (k : KConsts) (hk : k.wf) (pid : Nat) (s : KState) :
    SetupStep k pid s (kalloc k k.PAGESIZE s).2 := by
  have hst := kalloc_stable k hk k.PAGESIZE s
  exact setupStep_of_ptable k pid s _ hst.current (fun j _ => by rw [hst.ptable])
    (by rw [hst.ptable]) (by rw [hst.ptable])

/-- The pages of a segment are mapped in the process region. -/
theorem setup_segment_pages_step (k : KConsts) (hk : k.wf) (pid perm : Nat) :
    ∀ (l : List Nat) (s s1 : KState), (∀ a ∈ l, k.PROC_START_ADDR ≤ a) →
      setup_segment_pages k pid perm l s = some s1 → SetupStep k pid s s1 := by
  intro l
  induction l with
  | nil =>
    intro s s1 _ h
    cases h
    exact setupStep_refl k pid s
  | cons a rest ih =>
    intro s s1 hl h
    unfold setup_segment_pages at h
    cases hm : map_page k pid a (kalloc k k.PAGESIZE s).1 perm (kalloc k k.PAGESIZE s).2 with
    | none => rw [hm] at h; cases h
    | some s2 =>
      rw [hm, Option.some_bind] at h
      exact setupStep_trans (setupStep_trans (setupStep_kalloc k hk pid s)
        (setupStep_map_page k hk pid a _ perm _ s2 (hl a (List.mem_cons_self _ _)) hm))
        (ih s2 s1 (fun b hb => hl b (List.mem_cons_of_mem _ hb)) h)

/-- The segments of an image that lies in the process region are mapped there. -/
theorem setup_segments_step (k : KConsts) (hk : k.wf) (pid : Nat) :
    ∀ (segs : List segment) (s s1 : KState), (∀ seg ∈ segs, k.PROC_START_ADDR ≤ seg.va) →
      setup_segments k pid segs s = some s1 → SetupStep k pid s s1 := by
  intro segs
  induction segs with
  | nil =>
    intro s s1 _ h
    cases h
    exact setupStep_refl k pid s
  | cons seg rest ih =>
    intro s s1 hl h
    unfold setup_segments at h
    cases hm : setup_segment_pages k pid (if seg.writable then PTE_PWU else PTE_P ||| PTE_U)
        (pageSteps (seg.va - seg.va % k.PAGESIZE) (seg.va + seg.size) k.PAGESIZE) s with
    | none => rw [hm] at h; cases h
    | some s2 =>
      rw [hm, Option.some_bind] at h
      refine setupStep_trans (setup_segment_pages_step k hk pid _ _ s s2 ?_ hm)
        (ih s2 s1 (fun b hb => hl b (List.mem_cons_of_mem _ hb)) h)
      intro a ha
      obtain ⟨i, hi, _⟩ := (mem_pageSteps hk.1).mp ha
      have hseg := hl seg (List.mem_cons_self _ _)
      obtain ⟨m, hm0⟩ := hk.2.2.1
      have hrd : k.PROC_START_ADDR ≤ seg.va - seg.va % k.PAGESIZE := by
        have h1 : k.PAGESIZE * m ≤ k.PAGESIZE * (seg.va / k.PAGESIZE) := by
          apply Nat.mul_le_mul_left
          rw [Nat.le_div_iff_mul_le hk.1, Nat.mul_comm, ← hm0]
          exact hseg
        have h2 := Nat.div_add_mod seg.va k.PAGESIZE
        omega
      omega

/-- The copy of the segment bytes touches the memory only. -/
theorem setup_copy_frame (k : KConsts) (pid : Nat) :
    ∀ (segs : List segment) (s s1 : KState), setup_copy k pid segs s = some s1 →
      s1.ptable = s.ptable ∧ s1.current = s.current := by
  intro segs
  induction segs with
  | nil =>
    intro s s1 h
    cases h
    exact ⟨rfl, rfl⟩
  | cons seg rest ih =>
    intro s s1 h
    unfold setup_copy at h
    cases hT : (s.ptable pid).pagetable with
    | none => rw [hT] at h; cases h
    | some pt =>
      rw [hT] at h
      dsimp only at h
      exact ih
        { s with
          mem := write_bytes (memset s.mem (vmiter.pa k pt seg.va) 0 seg.size)
            (vmiter.pa k pt seg.va) seg.data seg.data_size } s1 h

/-- The loop of `process_setup` over the kernel region copies the mappings of the kernel
page table `kpt`. -/
theorem setup_kernel_map_spec (k : KConsts) (hk : k.wf) (kpt : x86_64_pagetable) (pid : Nat) :
    ∀ (l : List Nat) (s s1 : KState), (∀ a ∈ l, k.PAGESIZE ∣ a) → l.Nodup →
      setup_kernel_map k kpt pid l s = some s1 →
      s1.current = s.current ∧ (∀ j, j ≠ pid → s1.ptable j = s.ptable j) ∧
      (s1.ptable pid).pid = (s.ptable pid).pid ∧
      ∀ T1, (s1.ptable pid).pagetable = some T1 →
        ∀ va ∈ l, va < k.PROC_START_ADDR →
          T1.leaf (va / k.PAGESIZE) = ⟨vmiter.pa k kpt va / k.PAGESIZE, vmiter.perm k kpt va⟩ := by
  have aux : ∀ (l : List Nat) (s s1 : KState), (∀ a ∈ l, k.PAGESIZE ∣ a) → l.Nodup →
      setup_kernel_map k kpt pid l s = some s1 →
      s1.current = s.current ∧ (∀ j, j ≠ pid → s1.ptable j = s.ptable j) ∧
      (s1.ptable pid).pid = (s.ptable pid).pid ∧
      (∀ T1, (s1.ptable pid).pagetable = some T1 →
        ∀ va ∈ l, va < k.PROC_START_ADDR →
          T1.leaf (va / k.PAGESIZE)
            = ⟨vmiter.pa k kpt va / k.PAGESIZE, vmiter.perm k kpt va⟩) ∧
      (∀ T T1, (s.ptable pid).pagetable = some T → (s1.ptable pid).pagetable = some T1 →
        ∀ vpn, (∀ va ∈ l, vpn ≠ va / k.PAGESIZE) → T1.leaf vpn = T.leaf vpn) := by
    intro l
    induction l with
    | nil =>
      intro s s1 _ _ h
      cases h
      refine ⟨rfl, fun _ _ => rfl, rfl, fun _ _ va hva => absurd hva (List.not_mem_nil va), ?_⟩
      intro T T1 hT hT1 vpn _
      rw [hT] at hT1
      cases hT1
      rfl
    | cons a rest ih =>
      intro s s1 hal hnd h
      unfold setup_kernel_map at h
      by_cases hker : a < k.PROC_START_ADDR
      · rw [if_pos hker] at h
        cases hm : map_page k pid a (vmiter.pa k kpt a) (vmiter.perm k kpt a) s with
        | none => rw [hm] at h; cases h
        | some s2 =>
          rw [hm, Option.some_bind] at h
          obtain ⟨m1, m2, T, T2, hT, hT2, hl, hla⟩ := map_page_frame k hk pid a _ _ s s2 hm
          obtain ⟨q1, q2, q3, q4, q5⟩ := ih s2 s1
            (fun b hb => hal b (List.mem_cons_of_mem _ hb)) (List.nodup_cons.mp hnd).2 h
          have hT2' : (s2.ptable pid).pagetable = some T2 := by rw [hT2]
          refine ⟨q1.trans m1, fun j hj => (q2 j hj).trans (m2 j hj), ?_, ?_, ?_⟩
          · rw [q3, hT2]
          · intro T1 hT1 va hva hlt
            rcases List.mem_cons.mp hva with rfl | hva1
            · rw [q5 T2 T1 hT2' hT1 (va / k.PAGESIZE) ?_]
              · exact hla
              · intro w hw heq
                have hvw : va = w := vpn_inj k hk (hal va (List.mem_cons_self _ _))
                  (hal w (List.mem_cons_of_mem _ hw)) heq
                rw [hvw] at hnd
                exact (List.nodup_cons.mp hnd).1 hw
            · exact q4 T1 hT1 va hva1 hlt
          · intro T0 T1 hT0 hT1 vpn hv
            rw [hT] at hT0
            cases hT0
            rw [q5 T2 T1 hT2' hT1 vpn (fun b hb => hv b (List.mem_cons_of_mem _ hb)),
              hl vpn (hv a (List.mem_cons_self _ _))]
      · rw [if_neg hker] at h
        obtain ⟨q1, q2, q3, q4, q5⟩ := ih s s1
          (fun b hb => hal b (List.mem_cons_of_mem _ hb)) (List.nodup_cons.mp hnd).2 h
        refine ⟨q1, q2, q3, ?_, ?_⟩
        · intro T1 hT1 va hva hlt
          rcases List.mem_cons.mp hva with rfl | hva1
          · exact absurd hlt hker
          · exact q4 T1 hT1 va hva1 hlt
        · intro T0 T1 hT0 hT1 vpn hv
          exact q5 T0 T1 hT0 hT1 vpn (fun b hb => hv b (List.mem_cons_of_mem _ hb))
  intro l s s1 hal hnd h
  obtain ⟨a1, a2, a3, a4, _⟩ := aux l s s1 hal hnd h
  exact ⟨a1, a2, a3, a4⟩

/-- The first lines of `process_setup` change the slot `pid` only, and not its pid. -/
theorem setup_begin_frame (k : KConsts) (hk : k.wf) (pid : Nat) (s : KState) :
    (setup_begin k pid s).current = s.current ∧
    (∀ j, j ≠ pid → (setup_begin k pid s).ptable j = s.ptable j) ∧
    ((setup_begin k pid s).ptable pid).pid = (s.ptable pid).pid := by
  obtain ⟨kp1, kp2⟩ := kalloc_pagetable_frame k hk s
  have hst := kalloc_stable k hk k.PAGESIZE
    (set_pagetable
      { (kalloc_pagetable k s).2 with
        ptable := Function.update (kalloc_pagetable k s).2.ptable pid
          { (kalloc_pagetable k s).2.ptable pid with uid := 0, euid := 0 } } pid
      (if (kalloc_pagetable k s).1 = 0 then none
       else some ⟨(kalloc_pagetable k s).1, [], fun _ => ⟨0, 0⟩⟩))
  obtain ⟨f1, f2⟩ := sys_page_free_frame k
    (kalloc k k.PAGESIZE
      (set_pagetable
        { (kalloc_pagetable k s).2 with
          ptable := Function.update (kalloc_pagetable k s).2.ptable pid
            { (kalloc_pagetable k s).2.ptable pid with uid := 0, euid := 0 } } pid
        (if (kalloc_pagetable k s).1 = 0 then none
         else some ⟨(kalloc_pagetable k s).1, [], fun _ => ⟨0, 0⟩⟩))).1
    (kalloc k k.PAGESIZE
      (set_pagetable
        { (kalloc_pagetable k s).2 with
          ptable := Function.update (kalloc_pagetable k s).2.ptable pid
            { (kalloc_pagetable k s).2.ptable pid with uid := 0, euid := 0 } } pid
        (if (kalloc_pagetable k s).1 = 0 then none
         else some ⟨(kalloc_pagetable k s).1, [], fun _ => ⟨0, 0⟩⟩))).2
  have hp : (setup_begin k pid s).ptable
      = Function.update
          (Function.update s.ptable pid { s.ptable pid with uid := 0, euid := 0 }) pid
          { Function.update s.ptable pid { s.ptable pid with uid := 0, euid := 0 } pid with
            pagetable := (if (kalloc_pagetable k s).1 = 0 then none
              else some ⟨(kalloc_pagetable k s).1, [], fun _ => ⟨0, 0⟩⟩) } := by
    unfold setup_begin
    rw [f1, hst.ptable]
    show Function.update (Function.update (kalloc_pagetable k s).2.ptable pid _) pid _ = _
    rw [kp1]
  refine ⟨?_, ?_, ?_⟩
  · unfold setup_begin
    rw [f2, hst.current]
    exact kp2
  · intro j hj
    rw [hp, Function.update_noteq hj, Function.update_noteq hj]
  · rw [hp, Function.update_same, Function.update_same]

/-- The last lines of `process_setup`: the stack page is mapped in the process region, and
the slot ends RUNNABLE with a page table. -/
theorem setup_end_spec (k : KConsts) (hk : k.wf) (pid : Nat) (pgm : program_image)
    (s s1 : KState) (hstack : k.PROC_START_ADDR + k.PAGESIZE ≤ k.MEMSIZE_VIRTUAL)
    (h : setup_end k pid pgm s = some s1) :
    SetupStep k pid s s1 ∧ (s1.ptable pid).state = P_RUNNABLE ∧
      ∃ T1, (s1.ptable pid).pagetable = some T1 := by
  unfold setup_end at h
  cases hm : map_page k pid (k.MEMSIZE_VIRTUAL - k.PAGESIZE)
      (kalloc k k.PAGESIZE
        { s with
          ptable := Function.update s.ptable pid
            { s.ptable pid with regs := { (s.ptable pid).regs with reg_rip := pgm.entry } } }).1
      PTE_PWU
      (kalloc k k.PAGESIZE
        { s with
          ptable := Function.update s.ptable pid
            { s.ptable pid with regs := { (s.ptable pid).regs with reg_rip := pgm.entry } } }).2
      with
  | none => rw [hm] at h; cases h
  | some s2 =>
    rw [hm] at h
    have e1 : SetupStep k pid s
        { s with
          ptable := Function.update s.ptable pid
            { s.ptable pid with regs := { (s.ptable pid).regs with reg_rip := pgm.entry } } } := by
      refine setupStep_of_ptable k pid s _ rfl (fun j hj => Function.update_noteq hj _ _) ?_ ?_
      · show ((Function.update s.ptable pid _) pid).pid = _
        rw [Function.update_same]
      · show ((Function.update s.ptable pid _) pid).pagetable = _
        rw [Function.update_same]
    have e2 := setupStep_kalloc k hk pid
        { s with
          ptable := Function.update s.ptable pid
            { s.ptable pid with regs := { (s.ptable pid).regs with reg_rip := pgm.entry } } }
    have e3 := setupStep_map_page k hk pid _ _ _ _ s2 (by omega) hm
    obtain ⟨_, _, T, T1, _, hT1, _, _⟩ := map_page_frame k hk pid _ _ _ _ s2 hm
    have e4 : SetupStep k pid s2 s1 := by
      cases h
      refine setupStep_of_ptable k pid s2 _ rfl (fun j hj => Function.update_noteq hj _ _) ?_ ?_
      · show ((Function.update s2.ptable pid _) pid).pid = _
        rw [Function.update_same]
      · show ((Function.update s2.ptable pid _) pid).pagetable = _
        rw [Function.update_same]
    refine ⟨setupStep_trans (setupStep_trans (setupStep_trans e1 e2) e3) e4, ?_, T1, ?_⟩
    · cases h
      show ((Function.update s2.ptable pid _) pid).state = _
      rw [Function.update_same]
    · cases h
      show ((Function.update s2.ptable pid _) pid).pagetable = _
      rw [Function.update_same, hT1]

/-- What `process_setup(pid)` does to the process table when it returns, for an image in
the process region: only the slot `pid` changes; it keeps its pid, ends RUNNABLE, and has
a page table whose kernel region is a copy of the kernel page table. -/
theorem process_setup_spec (k : KConsts) (hk : k.wf) (kpt : x86_64_pagetable) (pid : Nat)
    (pgm : program_image) (s s1 : KState) (hreg : pgm.in_region k)
    (hstack : k.PROC_START_ADDR + k.PAGESIZE ≤ k.MEMSIZE_VIRTUAL)
    (h : process_setup k kpt pid pgm s = some s1) :
    s1.current = s.current ∧ (∀ j, j ≠ pid → s1.ptable j = s.ptable j) ∧
    (s1.ptable pid).pid = (s.ptable pid).pid ∧ (s1.ptable pid).state = P_RUNNABLE ∧
    ∃ T1, (s1.ptable pid).pagetable = some T1 ∧ kernel_copy k T1 kpt := by
  unfold process_setup at h
  obtain ⟨b1, b2, b3⟩ := setup_begin_frame k hk pid s
  cases hkm : setup_kernel_map k kpt pid (pageSteps 0 k.MEMSIZE_VIRTUAL k.PAGESIZE)
      (setup_begin k pid s) with
  | none => rw [hkm] at h; cases h
  | some sk =>
    rw [hkm, Option.some_bind] at h
    obtain ⟨k1, k2, k3, k4⟩ := setup_kernel_map_spec k hk kpt pid _ _ sk
      (fun a ha => (dvd_of_mem_pageSteps hk.1 ha).1) (pageSteps_nodup _ _ _ hk.1) hkm
    cases hsg : setup_segments k pid pgm.segments sk with
    | none => rw [hsg] at h; cases h
    | some sg =>
      rw [hsg, Option.some_bind] at h
      have g := setup_segments_step k hk pid pgm.segments sk sg hreg hsg
      cases hcp : setup_copy k pid pgm.segments sg with
      | none => rw [hcp] at h; cases h
      | some sc =>
        rw [hcp, Option.some_bind] at h
        obtain ⟨c1, c2⟩ := setup_copy_frame k pid pgm.segments sg sc hcp
        obtain ⟨e, est, T1, hT1⟩ := setup_end_spec k hk pid pgm sc s1 hstack h
        refine ⟨?_, ?_, ?_, est, T1, hT1, ?_⟩
        · rw [e.current, c2, g.current, k1, b1]
        · intro j hj
          rw [e.others j hj, c1, g.others j hj, k2 j hj, b2 j hj]
        · rw [e.pidf, c1, g.pidf, k3, b3]
        · intro va hal hlt
          obtain ⟨Tc, hTc, ec⟩ := e.kernel T1 hT1
          rw [c1] at hTc
          obtain ⟨Tk, hTk, eg⟩ := g.kernel Tc hTc
          rw [ec va hal hlt, eg va hal hlt]
          exact k4 Tk hTk va ((mem_pageSteps_zero hk.1).mpr ⟨hal, by
            have := hk.2.2.2.1
            omega⟩) hlt

/-- `same_kernel_map` is transitive. -/
theorem same_kernel_map_trans (k : KConsts) (T U V : x86_64_pagetable)
    (h1 : same_kernel_map k T U) (h2 : same_kernel_map k U V) : same_kernel_map k T V :=
  fun va hal hlt =>
    ⟨(h1 va hal hlt).1.trans (h2 va hal hlt).1, (h1 va hal hlt).2.trans (h2 va hal hlt).2⟩

/-- `process_setup` keeps the layout invariant and gives the slot it sets up a table with
the layout. -/
theorem process_setup_layout (k : KConsts) (hk : k.wf) (console : Nat)
    (kpt : x86_64_pagetable) (pid : Nat) (pgm : program_image) (s s1 : KState)
    (hkpt : kernel_layout k console kpt) (hreg : pgm.in_region k)
    (hstack : k.PROC_START_ADDR + k.PAGESIZE ≤ k.MEMSIZE_VIRTUAL)
    (hinv : layout_inv k console kpt s) (h : process_setup k kpt pid pgm s = some s1) :
    layout_inv k console kpt s1 ∧ good_table k console kpt s1 pid ∧
      (s1.ptable pid).state = P_RUNNABLE ∧ s1.current = s.current ∧
      (∀ j, j ≠ pid → s1.ptable j = s.ptable j) := by
  obtain ⟨p1, p2, _, p4, T1, hT1, hcopy⟩ := process_setup_spec k hk kpt pid pgm s s1 hreg hstack h
  have hgood : good_table k console kpt s1 pid :=
    ⟨T1, hT1, layout_of_copy k hk console T1 kpt hkpt hcopy⟩
  refine ⟨?_, hgood, p4, p1, p2⟩
  intro i hi hlive
  by_cases hip : i = pid
  · rw [hip]
    exact hgood
  · unfold good_table
    rw [p2 i hip] at hlive ⊢
    exact hinv i hi hlive

/-- The calls of `process_setup` in `kernel_start` keep the layout invariant and set up
slot 1 with a table that has the layout. -/
theorem setup_processes_layout (k : KConsts) (hk : k.wf) (console : Nat)
    (kpt : x86_64_pagetable) (imgs : boot_images) (s s1 : KState)
    (hkpt : kernel_layout k console kpt) (hreg : ∀ pgm ∈ imgs.loaded, pgm.in_region k)
    (hstack : k.PROC_START_ADDR + k.PAGESIZE ≤ k.MEMSIZE_VIRTUAL)
    (hinv : layout_inv k console kpt s) (h : setup_processes k kpt imgs s = some s1) :
    layout_inv k console kpt s1 ∧ good_table k console kpt s1 1 := by
  unfold setup_processes at h
  unfold boot_images.loaded at hreg
  cases hc : imgs.command with
  | some pgm =>
    rw [hc] at h hreg
    obtain ⟨a1, a2, _⟩ := process_setup_layout k hk console kpt 1 pgm s s1 hkpt
      (hreg pgm (List.mem_singleton.mpr rfl)) hstack hinv h
    exact ⟨a1, a2⟩
  | none =>
    rw [hc] at h hreg
    dsimp only at h hreg
    cases h1 : process_setup k kpt 1 imgs.allocator s with
    | none => rw [h1] at h; cases h
    | some t1 =>
      rw [h1, Option.some_bind] at h
      obtain ⟨a1, a2, _, _, _⟩ := process_setup_layout k hk console kpt 1 _ s t1 hkpt
        (hreg _ (by simp)) hstack hinv h1
      cases h2 : process_setup k kpt 2 imgs.allocator2 t1 with
      | none => rw [h2] at h; cases h
      | some t2 =>
        rw [h2, Option.some_bind] at h
        obtain ⟨b1, _, _, _, b5⟩ := process_setup_layout k hk console kpt 2 _ t1 t2 hkpt
          (hreg _ (by simp)) hstack a1 h2
        cases h3 : process_setup k kpt 3 imgs.allocator3 t2 with
        | none => rw [h3] at h; cases h
        | some t3 =>
          rw [h3, Option.some_bind] at h
          obtain ⟨c1, _, _, _, c5⟩ := process_setup_layout k hk console kpt 3 _ t2 t3 hkpt
            (hreg _ (by simp)) hstack b1 h3
          obtain ⟨d1, _, _, _, d5⟩ := process_setup_layout k hk console kpt 4 _ t3 s1 hkpt
            (hreg _ (by simp)) hstack c1 h
          refine ⟨d1, ?_⟩
          unfold good_table at a2 ⊢
          rw [d5 1 (by decide), c5 1 (by decide), b5 1 (by decide)]
          exact a2

/-- After `kernel_start` the kernel page table has the kernel-region layout, and so has
the table of every process it has set up; process 1 runs. -/
theorem kernel_start_layout (k : KConsts) (hk : k.wf) (console : Nat) (imgs : boot_images)
    (kpt0 kpt : x86_64_pagetable) (s0 s : KState)
    (hphys : k.PROC_START_ADDR ≤ k.MEMSIZE_PHYSICAL)
    (hstack : k.PROC_START_ADDR + k.PAGESIZE ≤ k.MEMSIZE_VIRTUAL)
    (hreg : ∀ pgm ∈ imgs.loaded, pgm.in_region k)
    (h : kernel_start k console imgs kpt0 s0 = some (kpt, s)) :
    kernel_layout k console kpt ∧ layout_ok k console kpt s := by
  unfold kernel_start at h
  cases hl : kernel_map_loop k console (pageSteps 0 k.MEMSIZE_PHYSICAL k.PAGESIZE) kpt0
      { s0 with ticks := 1 } with
  | none => rw [hl] at h; cases h
  | some r =>
    obtain ⟨kp, sk⟩ := r
    rw [hl, Option.some_bind] at h
    dsimp only at h
    obtain ⟨_, _, l3, _⟩ := kernel_map_loop_spec k hk console _ kpt0 kp _ sk
      (fun a ha => (dvd_of_mem_pageSteps hk.1 ha).1) (pageSteps_nodup _ _ _ hk.1) hl
    have hkp : kernel_layout k console kp :=
      layout_of_leaf k hk console kp (fun va hal hlt =>
        l3 va ((mem_pageSteps_zero hk.1).mpr ⟨hal, by omega⟩))
    have hinit : layout_inv k console kp (init_ptable k sk) := by
      intro i hi hlive
      exfalso
      apply hlive
      show (if i < k.NPROC then ({ sk.ptable i with pid := i, state := P_FREE } : proc)
        else sk.ptable i).state = P_FREE
      rw [if_pos hi]
    cases hs : setup_processes k kp imgs (init_ptable k sk) with
    | none => rw [hs] at h; cases h
    | some t =>
      rw [hs, Option.some_bind] at h
      obtain ⟨a1, a2⟩ := setup_processes_layout k hk console kp imgs _ t hkp hreg hstack hinit hs
      by_cases hrun : (t.ptable 1).state = P_RUNNABLE
      · rw [if_pos hrun] at h
        cases h
        refine ⟨hkp, a1, ?_, a2⟩
        show (t.ptable 1).state ≠ P_FREE
        rw [hrun]
        decide
      · rw [if_neg hrun] at h
        cases h

/-- The layout invariant is kept by `fork`, by `page_alloc` and by the scheduler. -/
theorem grows_layout (k : KConsts) (hk : k.wf) (hN : 0 < k.NPROC) (console : Nat)
    (kpt : x86_64_pagetable) (s s1 : KState) (hinv : layout_ok k console kpt s)
    (h : Grows k s s1) : layout_ok k console kpt s1 := by
  induction h with
  | refl => exact hinv
  | fork r _ hf ih =>
    rename_i sa sb _
    obtain ⟨i1, i2, T, hT, hlay, hsame⟩ := ih
    obtain ⟨a1, a2⟩ := syscall_fork_frame k hk sa sb r i2 hf
    rcases a2 with a | ⟨c, hc, a, b⟩
    · refine ⟨?_, ?_, ?_⟩
      · intro i hi hlive
        unfold good_table
        rw [a i] at hlive ⊢
        exact i1 i hi hlive
      · rw [a1, a]; exact i2
      · unfold good_table
        rw [a1, a]
        exact ⟨T, hT, hlay, hsame⟩
    · have hfree := (fork_find_slot_spec k sa c hc).2.2
      have hcc : sa.current ≠ c := fun e => i2 (e ▸ hfree)
      refine ⟨?_, ?_, ?_⟩
      · intro i hi hlive
        by_cases hic : i = c
        · rw [hic] at hlive ⊢
          rcases b with b | ⟨Pt, T1, hPt, b, hcopy⟩
          · rw [b] at hlive
            exact absurd rfl hlive
          · rw [hT] at hPt
            cases hPt
            obtain ⟨l1, l2⟩ := layout_of_copy k hk console T1 T hlay hcopy
            exact ⟨T1, by rw [b], l1, same_kernel_map_trans k T1 T kpt l2 hsame⟩
        · unfold good_table
          rw [a i hic] at hlive ⊢
          exact i1 i hi hlive
      · rw [a1, a _ hcc]; exact i2
      · unfold good_table
        rw [a1, a _ hcc]
        exact ⟨T, hT, hlay, hsame⟩
  | page_alloc addr r _ hp ih =>
    rename_i sa sb _
    obtain ⟨i1, i2, T, hT, hlay, hsame⟩ := ih
    obtain ⟨a1, a2, a3⟩ := page_alloc_frame k hk addr sa sb r hp
    have hgood : good_table k console kpt sb sa.current := by
      rcases a3 with a | ⟨T0, T1, hT0, a, hge, hl⟩
      · unfold good_table
        rw [a]
        exact ⟨T, hT, hlay, hsame⟩
      · rw [hT] at hT0
        cases hT0
        obtain ⟨l1, l2⟩ := layout_congr k console T T1 kpt ⟨hlay, hsame⟩
          (fun va _ hlt => hl _ (vpn_ne_of_kernel k hk hlt hge))
        exact ⟨T1, by rw [a], l1, l2⟩
    have hstate : (sb.ptable sa.current).state = (sa.ptable sa.current).state := by
      rcases a3 with a | ⟨T0, T1, hT0, a, hge, hl⟩ <;> rw [a]
    refine ⟨?_, ?_, ?_⟩
    · intro i hi hlive
      by_cases hic : i = sa.current
      · rw [hic]
        exact hgood
      · unfold good_table
        rw [a2 i hic] at hlive ⊢
        exact i1 i hi hlive
    · rw [a1, hstate]; exact i2
    · rw [a1]; exact hgood
  | schedule _ hs ih =>
    rename_i sa sb _
    obtain ⟨i1, _, _⟩ := ih
    obtain ⟨heq, hlt, hrun⟩ := schedule_some k sa sb hN hs
    have hpt : sb.ptable = sa.ptable := by rw [heq]
    have hlive : (sa.ptable sb.current).state ≠ P_FREE := by rw [hrun]; decide
    refine ⟨?_, ?_, ?_⟩
    · intro i hi hl
      unfold good_table
      rw [hpt] at hl ⊢
      exact i1 i hi hl
    · rw [hpt]; exact hlive
    · unfold good_table
      rw [hpt]
      exact i1 _ hlt hlive

/-- C28 (amended). Kernel-region layout invariant: when `PROC_START_ADDR` does not exceed
`MEMSIZE_PHYSICAL`, the stack page lies in the process region and the segments of the
loaded images start in the process region, then after `kernel_start` (with its calls of
`process_setup`), and after any sequence of `fork` and `page_alloc` calls of the running
process and scheduling decisions, the kernel page table has the kernel-region layout and
every live process has a page table that maps every page-aligned `va < PROC_START_ADDR`
exactly as the kernel page table does: address 0 is not present, `CONSOLE_ADDR` is mapped
to itself present, writable and user-accessible, and every other such address is mapped to
itself present and writable and not user-accessible. -/
theorem kernel_region_layout (k : KConsts) (hk : k.wf) (hN : 0 < k.NPROC) (console : Nat)
    (imgs : boot_images) (kpt0 kpt : x86_64_pagetable) (s0 s s1 : KState)
    (hphys : k.PROC_START_ADDR ≤ k.MEMSIZE_PHYSICAL)
    (hstack : k.PROC_START_ADDR + k.PAGESIZE ≤ k.MEMSIZE_VIRTUAL)
    (hreg : ∀ pgm ∈ imgs.loaded, pgm.in_region k)
    (hstart : kernel_start k console imgs kpt0 s0 = some (kpt, s)) (hgrow : Grows k s s1) :
    kernel_layout k console kpt ∧
    (∀ i, i < k.NPROC → (s1.ptable i).state ≠ P_FREE →
      ∃ T, (s1.ptable i).pagetable = some T ∧ same_kernel_map k T kpt ∧
        ∀ va, k.PAGESIZE ∣ va → va < k.PROC_START_ADDR →
          (va = 0 → vmiter.perm k T va &&& PTE_P = 0) ∧
          (va ≠ 0 → vmiter.pa k T va = va ∧
            vmiter.perm k T va
              = if va = console then PTE_P ||| PTE_W ||| PTE_U else PTE_P ||| PTE_W)) ∧
    (PTE_P ||| PTE_W) &&& PTE_U = 0 := by
  obtain ⟨h1, h2⟩ := kernel_start_layout k hk console imgs kpt0 kpt s0 s hphys hstack hreg hstart
  obtain ⟨g1, _, _⟩ := grows_layout k hk hN console kpt s s1 h2 hgrow
  refine ⟨h1, ?_, by decide⟩
  intro i hi hlive
  obtain ⟨T, hT, hl, hs⟩ := g1 i hi hlive
  exact ⟨T, hT, hs, hl⟩

/-- The boot of `boot_small` succeeds. -/
theorem boot_result_some : kernel_start weensy 0xB8000 boot_small kpt_reset s_reset
    = some (kpt_booted, s_booted) := by
  have h : boot_result.isSome = true := by decide!
  unfold kpt_booted s_booted
  cases hb : boot_result with
  | none => rw [hb] at h; cases h
  | some r => exact hb

/-- The `fork` of process 1 after the boot returns the child's pid 2. -/
theorem booted_fork_some :
    syscall_fork weensy s_booted = some (booted_fork.1, booted_fork.2) ∧ booted_fork.1 = 2 := by
  have h : (syscall_fork weensy s_booted).map Prod.fst = some 2 := by decide!
  unfold booted_fork
  cases hb : syscall_fork weensy s_booted with
  | none => rw [hb] at h; cases h
  | some r =>
    rw [hb] at h
    exact ⟨rfl, Option.some.inj h⟩

/-- The boot of `boot_small` followed by a `fork` of process 1. -/
theorem kernel_region_layout_witness :
    kernel_layout weensy 0xB8000 kpt_booted ∧
    (∀ i, i < weensy.NPROC → (booted_fork.2.ptable i).state ≠ P_FREE →
      ∃ T, (booted_fork.2.ptable i).pagetable = some T ∧ same_kernel_map weensy T kpt_booted ∧
        ∀ va, weensy.PAGESIZE ∣ va → va < weensy.PROC_START_ADDR →
          (va = 0 → vmiter.perm weensy T va &&& PTE_P = 0) ∧
          (va ≠ 0 → vmiter.pa weensy T va = va ∧
            vmiter.perm weensy T va
              = if va = 0xB8000 then PTE_P ||| PTE_W ||| PTE_U else PTE_P ||| PTE_W)) ∧
    (PTE_P ||| PTE_W) &&& PTE_U = 0 :=
  kernel_region_layout weensy (by decide) (by decide) 0xB8000 boot_small kpt_reset kpt_booted
    s_reset s_booted booted_fork.2 (by decide) (by decide) (by decide) boot_result_some
    (Grows.fork booted_fork.1 (Grows.refl s_booted) booted_fork_some.1)

/-- C28, without the condition on the images: `process_setup` maps the pages of a segment
wherever the image places them.  The boot of `boot_low`, whose image has a writable segment
at `0x1000`, succeeds; the kernel page table maps `0x1000` to itself, present and writable
and not user-accessible, but the page table of the live process 1 maps `0x1000` to the
physical page `0x5000`, present, writable and user-accessible. -/
theorem kernel_region_low_segment_counterexample :
    0x1000 < weensy.PROC_START_ADDR ∧ weensy.PAGESIZE ∣ 0x1000 ∧
    (kernel_start weensy 0xB8000 boot_low kpt_reset s_reset).map
      (fun r => ((r.2.ptable 1).state, vmiter.perm weensy r.1 0x1000, vmiter.pa weensy r.1 0x1000,
        (r.2.ptable 1).pagetable.map
          (fun T => (vmiter.perm weensy T 0x1000, vmiter.pa weensy T 0x1000))))
      = some (P_RUNNABLE, PTE_P ||| PTE_W, 0x1000, some (PTE_P ||| PTE_W ||| PTE_U, 0x5000)) := by
  refine ⟨by decide, by decide, ?_⟩
  decide!

/-! ## Exit after page_free, kill outside the table, fork and the user ids -/

/-- The `fork` of process 1 in `s_users` returns the child's pid 3. -/
theorem users_fork_some :
    syscall_fork weensy s_users = some (users_fork.1, users_fork.2) ∧ users_fork.1 = 3 := by
  have h : (syscall_fork weensy s_users).map Prod.fst = some 3 := by decide!
  unfold users_fork
  cases hb : syscall_fork weensy s_users with
  | none => rw [hb] at h; cases h
  | some r =>
    rw [hb] at h
    exact ⟨rfl, Option.some.inj h⟩

/-- C34. Exit trips the assertion of `kfree` after a `page_free`: the boot of `boot_small`
succeeds and leaves process 1 running with its code page at `0x100000` on the physical
page 5, refcount 1.  Its system call `page_free(0x5000)` returns to it with that refcount
at 0 and the mapping still in place.  In the state reached, `kfree(0x5000)` fails its
assertion, `free_all(1)` fails with it, and the system call `exit` of process 1 ends in
that failed assertion. -/
theorem exit_trips_double_free_check :
    kernel_start weensy 0xB8000 boot_small kpt_reset s_reset = some (kpt_booted, s_booted) ∧
    Runs sysno trapno weensy s_booted s_booted_free ∧
    (s_booted_free.ptable s_booted_free.current).pid = 1 ∧
    (s_booted_free.ptable 1).pagetable.map
      (fun T => (vmiter.perm weensy T 0x100000, vmiter.pa weensy T 0x100000)) = some (5, 0x5000) ∧
    s_booted.physpages 5 = 1 ∧ s_booted_free.physpages 5 = 0 ∧
    (kfree weensy 0x5000 s_booted_free).isSome = false ∧
    (free_all weensy 1 s_booted_free).isSome = false ∧
    (syscall sysno weensy ⟨sysno.SYSCALL_EXIT, 0, 0, 0x100000, 0x300000, 0, 0⟩
      s_booted_free).has_failed = true := by
  refine ⟨boot_result_some, Runs.step (Trap.syscall regs_free_code) (Runs.refl _) rfl, ?_⟩
  decide!

/-- C35. `kill` does not stay inside the process table: `kill` has no test of its
argument against `NPROC`.  For every state and every system call `kill` whose argument,
taken as the `pid_t` that `kill` receives, is not the caller's pid and is negative or not
below `NPROC`, the entry `ptable[pid]` that `kill` reads (and writes) lies outside the
array, and the system call ends in that access. -/
theorem kill_leaves_process_table (k : KConsts) (regs : regstate) (s : KState)
    (hrax : regs.reg_rax = sysno.SYSCALL_KILL)
    (hne : toInt32 regs.reg_rbx ≠ ((s.ptable s.current).pid : Int))
    (hout : toInt32 regs.reg_rbx < 0 ∨ toInt32 regs.reg_rbx ≥ (k.NPROC : Int)) :
    kill k (toInt32 regs.reg_rbx) (save_regs regs s) = none ∧
    (syscall sysno k regs s).has_failed = true := by
  have hk : kill k (toInt32 regs.reg_rbx) (save_regs regs s) = none := by
    unfold kill
    have hpid : ((save_regs regs s).ptable (save_regs regs s).current).pid
        = (s.ptable s.current).pid := (save_regs_fields regs s s.current).2.1
    rw [hpid, if_neg hne, if_pos hout]
  refine ⟨hk, ?_⟩
  unfold syscall
  rw [hrax, hk]
  rfl

/-- Process 1 of `s_boot` calls `kill(-1)`; the register holds `2^32 - 1`. -/
theorem kill_leaves_process_table_witness :
    (toInt32 (2 ^ 32 - 1) = -1 ∧ weensy.NPROC = 16 ∧ (s_boot.ptable s_boot.current).pid = 1) ∧
    (kill weensy (toInt32 (2 ^ 32 - 1))
        (save_regs ⟨sysno.SYSCALL_KILL, 2 ^ 32 - 1, 0, 0, 0, 0, 0⟩ s_boot) = none ∧
      (syscall sysno weensy ⟨sysno.SYSCALL_KILL, 2 ^ 32 - 1, 0, 0, 0, 0, 0⟩ s_boot).has_failed
        = true) :=
  ⟨by decide,
    kill_leaves_process_table weensy ⟨sysno.SYSCALL_KILL, 2 ^ 32 - 1, 0, 0, 0, 0, 0⟩ s_boot rfl
      (by decide) (Or.inl (by decide))⟩

/-- C36. `syscall_fork` does not set the child's identity: when a call of `syscall_fork`
by a live process returns, every slot of the process table, the child's among them, has
the `uid` and the `euid` it had before the call.  The permission check of `kill` after the
fork therefore compares with the `uid` the slot held before: a caller whose `euid` is not 0
and differs from that `uid` is refused. -/
theorem fork_keeps_slot_identity (k : KConsts) (hk : k.wf) (s s1 : KState) (r : Int)
    (hlive : (s.ptable s.current).state ≠ P_FREE) (h : syscall_fork k s = some (r, s1)) :
    (∀ j, (s1.ptable j).uid = (s.ptable j).uid ∧ (s1.ptable j).euid = (s.ptable j).euid) ∧
    ∀ pid : Int, pid ≠ ((s.ptable s.current).pid : Int) → 0 ≤ pid → pid < (k.NPROC : Int) →
      (s.ptable s.current).euid ≠ 0 → (s.ptable s.current).euid ≠ (s.ptable pid.toNat).uid →
      kill k pid s1 = some (toU64 (-1), s1) := by
  obtain ⟨hcur, hcase⟩ := syscall_fork_frame k hk s s1 r hlive h
  have hid : ∀ j, (s1.ptable j).uid = (s.ptable j).uid ∧
      (s1.ptable j).euid = (s.ptable j).euid ∧ (s1.ptable j).pid = (s.ptable j).pid := by
    intro j
    rcases hcase with hsame | ⟨c, _, hother, hc⟩
    · rw [hsame j]; exact ⟨rfl, rfl, rfl⟩
    · by_cases hj : j = c
      · subst hj
        rcases hc with hfree | ⟨Pt, T1, _, hchild, _⟩
        · rw [hfree]; exact ⟨rfl, rfl, rfl⟩
        · rw [hchild]; exact ⟨rfl, rfl, rfl⟩
      · rw [hother j hj]; exact ⟨rfl, rfl, rfl⟩
  refine ⟨fun j => ⟨(hid j).1, (hid j).2.1⟩, ?_⟩
  intro pid hne h0 hlt heuid hdiff
  unfold kill
  rw [hcur, (hid s.current).2.2, (hid s.current).2.1, (hid pid.toNat).1, if_neg hne,
    if_neg (by omega), if_pos ⟨heuid, hdiff⟩]

/-- Process 1 of `s_users`, owned by user 5, forks: the child is in slot 3, whose `uid`
and `euid` were 0 and stay 0, and the parent's `kill(3)` is refused. -/
theorem fork_keeps_slot_identity_witness :
    (users_fork.1 = 3 ∧ (s_users.ptable s_users.current).uid = 5 ∧
      (s_users.ptable s_users.current).euid = 5 ∧ (s_users.ptable 3).uid = 0 ∧
      (s_users.ptable 3).euid = 0) ∧
    (∀ j, (users_fork.2.ptable j).uid = (s_users.ptable j).uid ∧
      (users_fork.2.ptable j).euid = (s_users.ptable j).euid) ∧
    kill weensy 3 users_fork.2 = some (toU64 (-1), users_fork.2) :=
  ⟨⟨users_fork_some.2, by decide, by decide, by decide, by decide⟩,
    (fork_keeps_slot_identity weensy (by decide) s_users users_fork.2 users_fork.1 (by decide)
      users_fork_some.1).1,
    (fork_keeps_slot_identity weensy (by decide) s_users users_fork.2 users_fork.1 (by decide)
      users_fork_some.1).2 3 (by decide) (by decide) (by decide) (by decide) (by decide)⟩

end WeensyOS

namespace M61

/-! ## m61_realloc -/

/-- C30. `m61_realloc` copies `sz` bytes from the old block whatever its size.  On the path
of `test52.cc` (a block of 10 bytes holding "CS61!" grown to 20 bytes) the new block lies
32 bytes further on and the copy works.  Growing the same block to 100 bytes, the new
allocation succeeds, again 32 bytes further on, but the copy reads the 100 bytes from the
old pointer on, which overlap the new block: the behaviour of `memcpy` is undefined.  And
for a block of 16 bytes behind a freed block of 4 MiB, growing it to 4 MiB puts the new
block at the start of the buffer, and the 4 MiB read from the old pointer on runs 16 bytes
past the end of the buffer. -/
theorem realloc_reads_past_old_block :
    (map_find m_init.buffer m_test52.active_map).map (fun a => a.sz) = some 10 ∧
    (m61_realloc m_init.buffer 20 0 13 m_test52).map
      (fun r => (r.1, (List.range 5).map (fun i => r.2.mem (r.1 + i)),
        (map_find r.1 r.2.active_map).map (fun a => a.sz),
        (map_find m_init.buffer r.2.active_map).isSome))
      = some (m_init.buffer + 32, [67, 83, 54, 49, 33], some 20, false) ∧
    (m61_malloc 100 0 13 m_test52).1 = m_init.buffer + 32 ∧
    (m61_realloc m_init.buffer 100 0 13 m_test52).isSome = false ∧
    m_tail.map (fun s =>
      ((map_find (m_init.buffer + 4194320) s.active_map).map (fun a => a.sz),
        (m61_malloc (4 * 2 ^ 20) 0 3 s).1,
        decide (m_init.buffer + 4194320 + 4 * 2 ^ 20 > m_init.buffer + buffer_size),
        (m61_realloc (m_init.buffer + 4194320) (4 * 2 ^ 20) 0 3 s).isSome))
      = some (some 16, m_init.buffer, true, false) := by
  decide!

/-! ## m61_realloc after a failed allocation -/

/-- `m61_malloc` leaves the address of the buffer alone. -/
theorem malloc_buffer (sz file : Nat) (line : Int) (st : MState) :
    (m61_malloc sz file line st).2.buffer = st.buffer := by
  have hi : (malloc_init st).buffer = st.buffer := by
    unfold malloc_init
    split_ifs <;> rfl
  have hf : ∀ a s, (m61_find_free_space a s).2.buffer = s.buffer := by
    intro a s
    unfold m61_find_free_space
    split <;> rfl
  unfold m61_malloc
  by_cases h1 : sz > buffer_size ∨ sz = 0
  · rw [if_pos h1]
  · rw [if_neg h1]
    by_cases h2 : (m61_find_free_space
      ⟨sz, padding sz, sz + padding sz + sizeof_random_int, file, line⟩ (malloc_init st)).1 = 0
    · rw [if_pos h2, hf, hi]
    · rw [if_neg h2]
      show (malloc_commit _ _ _).buffer = _
      unfold malloc_commit
      show (m61_find_free_space _ _).2.buffer = _
      rw [hf, hi]

/-- An erased key is not found. -/
theorem map_find_erase {α : Type} (key : Nat) (m : List (Nat × α)) :
    map_find key (map_erase key m) = none := by
  unfold map_find map_erase
  rw [Option.map_eq_none', List.find?_eq_none]
  intro e he
  have := (List.mem_filter.mp he).2
  simpa using this

/-- The result of `m61_free` when none of its checks aborts. -/
theorem free_eq (ptr : Nat) (st : MState) (a : mem_track) (hptr : ptr ≠ 0)
    (h1 : ¬ (ptr < st.gstats.heap_min ∨ ptr > st.gstats.heap_max))
    (h2 : ¬ ((map_find ptr st.free_memory).isSome = true))
    (hact : map_find ptr st.active_map = some a)
    (h3 : ¬ (random_int_at st.mem (ptr + a.sz) = false ∧
      (ptr + a.sz % max_align) % 2 ^ 64 ≠ 0)) :
    m61_free ptr st = some
      { st with
        gstats := { st.gstats with
          nactive := st.gstats.nactive - 1
          active_size := st.gstats.active_size - a.sz }
        active_map := map_erase ptr st.active_map
        free_memory := final_coalesce ptr a.total_size st.free_memory } := by
  unfold m61_free
  rw [if_neg hptr, if_neg h1, if_neg h2, hact]
  simp only [if_neg h3]

/-- The checks that a call of `m61_free` which does not abort has passed. -/
theorem free_checks (ptr : Nat) (st : MState) (hptr : ptr ≠ 0)
    (h : (m61_free ptr st).isSome = true) :
    ∃ a, map_find ptr st.active_map = some a ∧
      ¬ (ptr < st.gstats.heap_min ∨ ptr > st.gstats.heap_max) ∧
      ¬ ((map_find ptr st.free_memory).isSome = true) ∧
      ¬ (random_int_at st.mem (ptr + a.sz) = false ∧
        (ptr + a.sz % max_align) % 2 ^ 64 ≠ 0) := by
  unfold m61_free at h
  rw [if_neg hptr] at h
  by_cases h1 : ptr < st.gstats.heap_min ∨ ptr > st.gstats.heap_max
  · rw [if_pos h1] at h; cases h
  · rw [if_neg h1] at h
    by_cases h2 : (map_find ptr st.free_memory).isSome = true
    · rw [if_pos h2] at h; cases h
    · rw [if_neg h2] at h
      cases hact : map_find ptr st.active_map with
      | none => rw [hact] at h; cases h
      | some a =>
        rw [hact] at h
        refine ⟨a, rfl, h1, h2, ?_⟩
        intro h3
        simp only [if_pos h3] at h
        cases h

/-- C31. `m61_realloc` does not test the result of `m61_malloc`.  Let `ptr` be an active
block that `m61_free` accepts, and let the new allocation fail.  For `sz > 0` the call
`memcpy(nullptr, ptr, sz)` writes through the null pointer: no value is returned.  For
`sz = 0` nothing is copied, the old block is freed, and `nullptr` is returned with `ptr`
no longer in `active_map` and `nactive` and `active_size` lowered. -/
theorem realloc_failure_frees_or_faults (ptr sz file : Nat) (line : Int) (st : MState)
    (a : mem_track) (hptr : ptr ≠ 0) (hbuf : 0 < st.buffer)
    (hact : map_find ptr st.active_map = some a)
    (hfree : (m61_free ptr st).isSome = true)
    (hfail : (m61_malloc sz file line st).1 = 0) :
    (0 < sz → m61_realloc ptr sz file line st = none) ∧
    (sz = 0 → ∃ st2, m61_realloc ptr sz file line st = some (0, st2) ∧
      map_find ptr st2.active_map = none ∧
      st2.gstats.nactive = st.gstats.nactive - 1 ∧
      st2.gstats.active_size = st.gstats.active_size - a.sz) := by
  constructor
  · intro hsz
    unfold m61_realloc
    rw [if_neg hptr, hfail]
    have hb := malloc_buffer sz file line st
    have hnone : memcpy_checked (m61_malloc sz file line st).2 0 ptr sz = none := by
      unfold memcpy_checked
      rw [if_neg (Nat.pos_iff_ne_zero.mp hsz), if_neg]
      rw [hb]
      intro h
      exact absurd h.1 (Nat.not_le.mpr hbuf)
    rw [hnone]
  · intro hsz
    subst hsz
    have hm : m61_malloc 0 file line st
        = (0, { st with gstats := { st.gstats with
            nfail := st.gstats.nfail + 1, fail_size := st.gstats.fail_size + 0 } }) := by
      unfold m61_malloc
      rw [if_pos (Or.inr rfl)]
    obtain ⟨a2, ha2, h1, h2, h3⟩ := free_checks ptr st hptr hfree
    have haa : a2 = a := Option.some.inj (ha2.symm.trans hact)
    subst haa
    have hfr := free_eq ptr { st with gstats := { st.gstats with
        nfail := st.gstats.nfail + 1, fail_size := st.gstats.fail_size + 0 } } a2 hptr h1 h2
      hact h3
    unfold m61_realloc
    rw [if_neg hptr, hm]
    have hc : memcpy_checked { st with gstats := { st.gstats with
            nfail := st.gstats.nfail + 1, fail_size := st.gstats.fail_size + 0 } } 0 ptr 0
        = some st.mem := by
      unfold memcpy_checked
      rw [if_pos rfl]
    simp only [hc]
    rw [show ({ ({ st with gstats := { st.gstats with
            nfail := st.gstats.nfail + 1, fail_size := st.gstats.fail_size + 0 } } : MState)
          with mem := st.mem } : MState)
        = { st with gstats := { st.gstats with
            nfail := st.gstats.nfail + 1, fail_size := st.gstats.fail_size + 0 } } from rfl, hfr]
    exact ⟨_, rfl, map_find_erase ptr st.active_map, rfl, rfl⟩

/-- The block of `test52.cc`, 10 bytes at the start of the buffer: `m61_realloc` to 8 MiB,
for which no free block is large enough, and `m61_realloc` to 0 bytes. -/
theorem realloc_failure_frees_or_faults_witness :
    ((m61_malloc buffer_size 0 13 m_test52).1 = 0 ∧ (m61_malloc 0 0 13 m_test52).1 = 0 ∧
      (map_find m_init.buffer m_test52.active_map).map (fun a => a.sz) = some 10 ∧
      (m_test52.gstats.nactive, m_test52.gstats.active_size) = (1, 10)) ∧
    m61_realloc m_init.buffer buffer_size 0 13 m_test52 = none ∧
    ∃ st2, m61_realloc m_init.buffer 0 0 13 m_test52 = some (0, st2) ∧
      map_find m_init.buffer st2.active_map = none ∧
      st2.gstats.nactive = m_test52.gstats.nactive - 1 ∧
      st2.gstats.active_size = m_test52.gstats.active_size - 10 :=
  ⟨by decide!,
    (realloc_failure_frees_or_faults m_init.buffer buffer_size 0 13 m_test52 ⟨10, 14, 32, 0, 11⟩
      (by decide) (by decide) (by decide!) (by decide!) (by decide!)).1 (by decide),
    (realloc_failure_frees_or_faults m_init.buffer 0 0 13 m_test52 ⟨10, 14, 32, 0, 11⟩
      (by decide) (by decide) (by decide!) (by decide!) (by decide!)).2 rfl⟩

/-! ## m61_calloc -/

/-- The test of `m61_calloc` is true exactly when the product does not fit in 64 bits. -/
theorem calloc_guard_iff (count sz : Nat) :
    (count ≠ 0 ∧ (count * sz % 2 ^ 64) / count ≠ sz) ↔ 2 ^ 64 ≤ count * sz := by
  constructor
  · rintro ⟨hc, hne⟩
    by_contra hlt
    rw [Nat.mod_eq_of_lt (Nat.not_le.mp hlt),
      Nat.mul_div_cancel_left sz (Nat.pos_of_ne_zero hc)] at hne
    exact hne rfl
  · intro hge
    have hc : count ≠ 0 := by
      rintro rfl
      rw [Nat.zero_mul] at hge
      exact absurd hge (by decide)
    refine ⟨hc, fun heq => ?_⟩
    have h1 : count * sz % 2 ^ 64 / count * count ≤ count * sz % 2 ^ 64 := Nat.div_mul_le_self _ _
    rw [heq, Nat.mul_comm] at h1
    have h2 : count * sz % 2 ^ 64 < 2 ^ 64 := Nat.mod_lt _ (by decide)
    exact absurd (Nat.lt_of_lt_of_le h2 hge) (Nat.not_lt.mpr h1)

/-- C39. `m61_calloc` detects multiplication overflow exactly: for 64-bit `count` and `sz`
the test `count != 0 && (count * sz) / count != sz`, computed modulo `2^64`, is true if and
only if the product is at least `2^64`; then `m61_calloc` returns `nullptr` and changes
nothing but `nfail`, which grows by one.  Otherwise a call that returns a pointer returns
the block that `m61_malloc(count * sz)` allocates, and its `count * sz` bytes are all 0. -/
theorem calloc_detects_overflow (count sz file : Nat) (line : Int) (st : MState)
    (_hcount : count < 2 ^ 64) (_hsz : sz < 2 ^ 64) :
    ((count ≠ 0 ∧ (count * sz % 2 ^ 64) / count ≠ sz) ↔ 2 ^ 64 ≤ count * sz) ∧
    (2 ^ 64 ≤ count * sz →
      m61_calloc count sz file line st
        = (0, { st with gstats := { st.gstats with nfail := st.gstats.nfail + 1 } })) ∧
    (count * sz < 2 ^ 64 → (m61_calloc count sz file line st).1 ≠ 0 →
      (m61_calloc count sz file line st).1 = (m61_malloc (count * sz) file line st).1 ∧
      (m61_calloc count sz file line st).2.active_map
        = (m61_malloc (count * sz) file line st).2.active_map ∧
      (m61_calloc count sz file line st).2.free_memory
        = (m61_malloc (count * sz) file line st).2.free_memory ∧
      ∀ i, i < count * sz →
        (m61_calloc count sz file line st).2.mem ((m61_calloc count sz file line st).1 + i) = 0) := by
  refine ⟨calloc_guard_iff count sz, fun hge => ?_, fun hlt hne => ?_⟩
  · unfold m61_calloc
    rw [if_pos ((calloc_guard_iff count sz).mpr hge)]
  · have hg : ¬ (count ≠ 0 ∧ (count * sz % 2 ^ 64) / count ≠ sz) :=
      fun h => absurd ((calloc_guard_iff count sz).mp h) (Nat.not_le.mpr hlt)
    have hmod : count * sz % 2 ^ 64 = count * sz := Nat.mod_eq_of_lt hlt
    unfold m61_calloc at hne ⊢
    rw [if_neg hg, hmod] at hne ⊢
    by_cases hp : (m61_malloc (count * sz) file line st).1 ≠ 0
    · rw [if_pos hp]
      refine ⟨rfl, rfl, rfl, fun i hi => ?_⟩
      show WeensyOS.memset _ _ 0 _ _ = 0
      unfold WeensyOS.memset
      rw [if_pos ⟨Nat.le_add_right _ _, Nat.add_lt_add_left hi _⟩]
    · rw [if_neg hp] at hne
      exact absurd hne hp

/-- The calls `m61_calloc(2^32, 2^32)`, whose product is `2^64`, and `m61_calloc(3, 4)`, on
the untouched allocator. -/
theorem calloc_detects_overflow_witness :
    ((2 : Nat) ^ 64 ≤ 2 ^ 32 * 2 ^ 32 ∧ (m61_calloc 3 4 0 1 m_init).1 = m_init.buffer) ∧
    m61_calloc (2 ^ 32) (2 ^ 32) 0 1 m_init
      = (0, { m_init with gstats := { m_init.gstats with nfail := m_init.gstats.nfail + 1 } }) ∧
    ∀ i, i < 3 * 4 →
      (m61_calloc 3 4 0 1 m_init).2.mem ((m61_calloc 3 4 0 1 m_init).1 + i) = 0 :=
  ⟨by decide!,
    (calloc_detects_overflow (2 ^ 32) (2 ^ 32) 0 1 m_init (by decide) (by decide)).2.1
      (by decide),
    ((calloc_detects_overflow 3 4 0 1 m_init (by decide) (by decide)).2.2
      (by decide) (by decide!)).2.2.2⟩

/-! ## The heap invariant -/

/-- The holders of an address in two lists of blocks. -/
theorem holders_append (a : Nat) (l1 l2 : List (Nat × Nat)) :
    holders a (l1 ++ l2) = holders a l1 + holders a l2 :=
  List.countP_append _ _ _

/-- The holders of an address in a list, split off its first block. -/
theorem holders_cons (a : Nat) (b : Nat × Nat) (l : List (Nat × Nat)) :
    holders a (b :: l) = holders a l + holders a [b] := by
  unfold holders
  rw [List.countP_cons, List.countP_cons, List.countP_nil, Nat.zero_add]

/-- No block, no holder. -/
theorem holders_nil (a : Nat) : holders a [] = 0 := rfl

/-- One block holds the addresses from its start up to its end. -/
theorem holders_single (a : Nat) (b : Nat × Nat) :
    holders a [b] = if b.1 ≤ a ∧ a < b.1 + b.2 then 1 else 0 := by
  unfold holders in_block
  rw [List.countP_cons, List.countP_nil, Nat.zero_add]
  by_cases h : b.1 ≤ a ∧ a < b.1 + b.2
  · rw [if_pos h, if_pos (decide_eq_true h)]
  · rw [if_neg h, if_neg (by rw [decide_eq_true_iff]; exact h)]

/-- A block and the block that starts where it ends hold the addresses of their union. -/
theorem holders_split (a p s t : Nat) :
    holders a [(p, s + t)] = holders a [(p, s)] + holders a [(p + s, t)] := by
  rw [holders_single, holders_single, holders_single]
  dsimp only
  split_ifs <;> omega

/-- An address has a holder exactly when it lies in a block of the list. -/
theorem holders_pos_iff (a : Nat) (l : List (Nat × Nat)) :
    0 < holders a l ↔ ∃ b ∈ l, b.1 ≤ a ∧ a < b.1 + b.2 := by
  unfold holders
  rw [List.countP_pos_iff]
  constructor
  · rintro ⟨b, hb, h⟩
    exact ⟨b, hb, of_decide_eq_true h⟩
  · rintro ⟨b, hb, h⟩
    exact ⟨b, hb, decide_eq_true h⟩

/-- An entry put between the smaller and the larger keys. -/
theorem map_insert_at {α : Type} (k : Nat) (v : α) (pre post : List (Nat × α))
    (hpre : ∀ x ∈ pre, x.1 < k) (hpost : ∀ y ∈ post, k < y.1) :
    map_insert k v (pre ++ post) = pre ++ (k, v) :: post := by
  induction pre with
  | nil =>
    cases post with
    | nil => rfl
    | cons y ys =>
      show map_insert k v (y :: ys) = _
      unfold map_insert
      rw [if_pos (hpost y (List.mem_cons_self _ _))]
      rfl
  | cons x xs ih =>
    have hx := hpre x (List.mem_cons_self _ _)
    show map_insert k v (x :: (xs ++ post)) = _
    unfold map_insert
    rw [if_neg (Nat.lt_asymm hx), if_neg (Nat.ne_of_gt hx),
      ih (fun z hz => hpre z (List.mem_cons_of_mem _ hz))]
    rfl

/-- Erasing the one entry with the key `k`. -/
theorem map_erase_at {α : Type} (k : Nat) (v : α) (pre post : List (Nat × α))
    (hpre : ∀ x ∈ pre, x.1 ≠ k) (hpost : ∀ y ∈ post, y.1 ≠ k) :
    map_erase k (pre ++ (k, v) :: post) = pre ++ post := by
  unfold map_erase
  rw [List.filter_append, List.filter_cons, if_neg (by simp)]
  congr 1
  · exact List.filter_eq_self.mpr (fun x hx => decide_eq_true (hpre x hx))
  · exact List.filter_eq_self.mpr (fun x hx => decide_eq_true (hpost x hx))

/-- An entry that `find` returns splits the map. -/
theorem map_find_split {α : Type} (k : Nat) (v : α) (m : List (Nat × α))
    (h : map_find k m = some v) :
    ∃ pre post, m = pre ++ (k, v) :: post := by
  unfold map_find at h
  rw [Option.map_eq_some'] at h
  obtain ⟨e, he, hv⟩ := h
  have hmem := List.mem_of_find?_eq_some he
  have hk := List.find?_some he
  obtain ⟨pre, post, hm⟩ := List.append_of_mem hmem
  refine ⟨pre, post, ?_⟩
  rw [hm]
  have : e = (k, v) := Prod.ext (of_decide_eq_true hk) hv
  rw [this]

/-- A key that is not in the map is not found. -/
theorem map_find_none {α : Type} (k : Nat) (m : List (Nat × α)) (h : ∀ e ∈ m, e.1 ≠ k) :
    map_find k m = none := by
  unfold map_find
  rw [Option.map_eq_none', List.find?_eq_none]
  intro e he
  simpa using h e he

/-- A map in the order of its keys, split around a place for the key `k`. -/
theorem map_split {α : Type} (k : Nat) (m : List (Nat × α))
    (hs : m.Pairwise (fun x y => x.1 < y.1)) (hk : ∀ e ∈ m, e.1 ≠ k) :
    ∃ pre post, m = pre ++ post ∧ (∀ x ∈ pre, x.1 < k) ∧ (∀ y ∈ post, k < y.1) := by
  induction m with
  | nil => exact ⟨[], [], rfl, fun _ h => absurd h (List.not_mem_nil _),
      fun _ h => absurd h (List.not_mem_nil _)⟩
  | cons e es ih =>
    rw [List.pairwise_cons] at hs
    by_cases hlt : k < e.1
    · refine ⟨[], e :: es, rfl, fun _ h => absurd h (List.not_mem_nil _), ?_⟩
      intro y hy
      rcases List.mem_cons.mp hy with rfl | hy
      · exact hlt
      · exact Nat.lt_trans hlt (hs.1 y hy)
    · have hne := hk e (List.mem_cons_self _ _)
      obtain ⟨pre, post, hm, h1, h2⟩ := ih hs.2 (fun z hz => hk z (List.mem_cons_of_mem _ hz))
      refine ⟨e :: pre, post, by rw [hm]; rfl, ?_, h2⟩
      intro x hx
      rcases List.mem_cons.mp hx with rfl | hx
      · omega
      · exact h1 x hx

/-- Merging the blocks behind a free block changes the number of holders of no address. -/
theorem holders_merge_up (a p : Nat) (post : List (Nat × Nat)) :
    ∀ s, holders a (merge_up p s post) = holders a ((p, s) :: post) := by
  induction post with
  | nil => intro s; rfl
  | cons n rest ih =>
    intro s
    unfold merge_up
    by_cases adj : p + s = n.1
    · rw [if_pos adj, ih (s + n.2), holders_cons, holders_cons a (p, s), holders_cons a n,
        holders_split a p s n.2, adj, Prod.mk.eta]
      omega
    · rw [if_neg adj]

/-- The second loop of `final_coalesce` changes the number of holders of no address. -/
theorem holders_coalesce_up_at (a : Nat) :
    ∀ (i : Nat) (m : List (Nat × Nat)), holders a (coalesce_up_at i m) = holders a m := by
  intro i
  induction i with
  | zero =>
    intro m
    cases m with
    | nil => rfl
    | cons e rest =>
      show holders a (merge_up e.1 e.2 rest) = _
      rw [holders_merge_up]
  | succ i ih =>
    intro m
    cases m with
    | nil => rfl
    | cons e rest =>
      show holders a (e :: coalesce_up_at i rest) = _
      rw [holders_cons, ih rest, ← holders_cons]

/-- The second loop of `final_coalesce`, run at the entry behind the entries `pre`. -/
theorem coalesce_up_at_append (pre : List (Nat × Nat)) (e : Nat × Nat) (rest : List (Nat × Nat)) :
    coalesce_up_at pre.length (pre ++ e :: rest) = pre ++ merge_up e.1 e.2 rest := by
  induction pre with
  | nil => rfl
  | cons x xs ih =>
    show x :: coalesce_up_at xs.length (xs ++ e :: rest) = _
    rw [ih]
    rfl

/-- The index at which `find` meets the inserted key. -/
theorem findIdx_at (pre : List (Nat × Nat)) (p s : Nat) (post : List (Nat × Nat))
    (hpre : ∀ x ∈ pre, x.1 ≠ p) :
    (pre ++ (p, s) :: post).findIdx (fun e => decide (e.1 = p)) = pre.length := by
  induction pre with
  | nil =>
    show ((p, s) :: post).findIdx _ = 0
    rw [List.findIdx_cons]
    simp
  | cons x xs ih =>
    show (x :: (xs ++ (p, s) :: post)).findIdx _ = xs.length + 1
    rw [List.findIdx_cons, ih (fun z hz => hpre z (List.mem_cons_of_mem _ hz))]
    have := hpre x (List.mem_cons_self _ _)
    simp [this]

/-- The entry behind the entries `pre`. -/
theorem getElem_at (pre : List (Nat × Nat)) (e : Nat × Nat) (rest : List (Nat × Nat)) :
    (pre ++ e :: rest)[pre.length]? = some e := by
  rw [List.getElem?_append_right (Nat.le_refl _), Nat.sub_self, List.getElem?_cons_zero]

/-- The second entry behind the entries `pre`. -/
theorem getElem_after (pre : List (Nat × Nat)) (e c : Nat × Nat) (rest : List (Nat × Nat)) :
    (pre ++ e :: c :: rest)[pre.length + 1]? = some c := by
  rw [List.getElem?_append_right (Nat.le_succ _), Nat.succ_sub (Nat.le_refl _), Nat.sub_self,
    List.getElem?_cons_succ, List.getElem?_cons_zero]

/-- The first loop of `final_coalesce` at an entry whose predecessor is not adjacent. -/
theorem cdi_stop (pre : List (Nat × Nat)) (q c : Nat × Nat) (rest : List (Nat × Nat))
    (hne : q.1 + q.2 ≠ c.1) :
    coalesce_down_index (pre ++ q :: c :: rest) (pre.length + 1) = pre.length + 1 := by
  unfold coalesce_down_index
  rw [getElem_at, getElem_after]
  simp only [if_neg hne]

/-- The first loop of `final_coalesce` at an entry whose predecessor is adjacent. -/
theorem cdi_step (pre : List (Nat × Nat)) (q c : Nat × Nat) (rest : List (Nat × Nat))
    (heq : q.1 + q.2 = c.1) :
    coalesce_down_index (pre ++ q :: c :: rest) (pre.length + 1)
      = coalesce_down_index (pre ++ q :: c :: rest) pre.length := by
  conv_lhs => unfold coalesce_down_index
  rw [getElem_at, getElem_after]
  simp only [if_pos heq]

/-- The first loop of `final_coalesce` at the first entry. -/
theorem cdi_zero (m : List (Nat × Nat)) : coalesce_down_index m 0 = 0 := by
  unfold coalesce_down_index
  rfl

/-- The block that the second loop of `final_coalesce` leaves at its place: it starts where
the block started, and a gap follows it. -/
theorem merge_up_shape (buf p : Nat) (post : List (Nat × Nat))
    (hg : post.Pairwise (fun x y => x.1 + x.2 < y.1)) (hok : ∀ y ∈ post, block_ok buf y) :
    ∀ s, block_ok buf (p, s) → (∀ y ∈ post, p + s ≤ y.1) →
      ∃ s2 rest, merge_up p s post = (p, s2) :: rest ∧ block_ok buf (p, s2) ∧
        (∀ y ∈ rest, y ∈ post) ∧ rest.Pairwise (fun x y => x.1 + x.2 < y.1) ∧
        ∀ y ∈ rest, p + s2 < y.1 := by
  induction post with
  | nil =>
    intro s hs _
    exact ⟨s, [], rfl, hs, fun _ h => h, List.Pairwise.nil,
      fun _ h => absurd h (List.not_mem_nil _)⟩
  | cons n rest ih =>
    intro s hs hle
    rw [List.pairwise_cons] at hg
    have hn := hok n (List.mem_cons_self _ _)
    unfold merge_up
    by_cases adj : p + s = n.1
    · rw [if_pos adj]
      have hs2 : block_ok buf (p, s + n.2) := by
        obtain ⟨h1, ⟨a, ha⟩, h3⟩ := hs
        obtain ⟨_, ⟨b, hb⟩, _⟩ := hn
        refine ⟨Nat.add_pos_left h1 _, ⟨a + b, ?_⟩, h3⟩
        show s + n.2 = max_align * (a + b)
        rw [Nat.mul_add, ← hb]
        exact congrArg (· + n.2) ha
      obtain ⟨s2, r2, h1, h2, h3, h4, h5⟩ :=
        ih hg.2 (fun y hy => hok y (List.mem_cons_of_mem _ hy)) (s + n.2) hs2
          (fun y hy => by have := hg.1 y hy; omega)
      exact ⟨s2, r2, h1, h2, fun y hy => List.mem_cons_of_mem _ (h3 y hy), h4, h5⟩
    · rw [if_neg adj]
      refine ⟨s, n :: rest, rfl, hs, fun _ h => h, List.pairwise_cons.mpr hg, ?_⟩
      intro y hy
      rcases List.mem_cons.mp hy with rfl | hy
      · have := hle y (List.mem_cons_self _ _)
        omega
      · have h1 := hle n (List.mem_cons_self _ _)
        have h2 := hg.1 y hy
        omega

/-- A list of free blocks with gaps, followed by a merged block and what is left behind it. -/
theorem gap_merge (buf : Nat) (X post : List (Nat × Nat)) (a sz : Nat)
    (hX : X.Pairwise (fun x y => x.1 + x.2 < y.1)) (hXok : ∀ x ∈ X, block_ok buf x)
    (hpost : post.Pairwise (fun x y => x.1 + x.2 < y.1)) (hpok : ∀ y ∈ post, block_ok buf y)
    (hXa : ∀ x ∈ X, x.1 + x.2 < a) (hXp : ∀ x ∈ X, ∀ y ∈ post, x.1 + x.2 < y.1)
    (hok : block_ok buf (a, sz)) (hle : ∀ y ∈ post, a + sz ≤ y.1) :
    (X ++ merge_up a sz post).Pairwise (fun x y => x.1 + x.2 < y.1) ∧
    ∀ y ∈ X ++ merge_up a sz post, block_ok buf y := by
  obtain ⟨s2, rest, h1, h2, h3, h4, h5⟩ := merge_up_shape buf a post hpost hpok sz hok hle
  rw [h1]
  constructor
  · rw [List.pairwise_append]
    refine ⟨hX, List.pairwise_cons.mpr ⟨fun y hy => h5 y hy, h4⟩, ?_⟩
    intro x hx y hy
    rcases List.mem_cons.mp hy with rfl | hy
    · exact hXa x hx
    · exact hXp x hx y (h3 y hy)
  · intro y hy
    rcases List.mem_append.mp hy with hy | hy
    · exact hXok y hy
    · rcases List.mem_cons.mp hy with rfl | hy
      · exact h2
      · exact hpok y (h3 y hy)

/-- `final_coalesce` on a free list with gaps and a block that overlaps none of its
entries: the result has gaps again, its blocks are well-formed, and every address has as
many holders as in the list and the block together. -/
theorem final_coalesce_spec (buf p s : Nat) (F : List (Nat × Nat))
    (hg : F.Pairwise (fun x y => x.1 + x.2 < y.1)) (hok : ∀ y ∈ F, block_ok buf y)
    (hp : block_ok buf (p, s)) (hdisj : ∀ b ∈ F, b.1 + b.2 ≤ p ∨ p + s ≤ b.1) :
    (final_coalesce p s F).Pairwise (fun x y => x.1 + x.2 < y.1) ∧
    (∀ y ∈ final_coalesce p s F, block_ok buf y) ∧
    ∀ a, holders a (final_coalesce p s F) = holders a F + holders a [(p, s)] := by
  have hs : 0 < s := hp.1
  have hkey : ∀ b ∈ F, b.1 ≠ p := by
    intro b hb heq
    have h1 := (hok b hb).1
    rcases hdisj b hb with h | h <;> omega
  have hsorted : F.Pairwise (fun x y => x.1 < y.1) :=
    hg.imp (fun {x y} h => by omega)
  obtain ⟨pre, post, hF, hpre, hpost⟩ := map_split p F hsorted hkey
  have hL : map_insert p s F = pre ++ (p, s) :: post := by
    rw [hF]; exact map_insert_at p s pre post hpre hpost
  have hcount : ∀ a, holders a (final_coalesce p s F) = holders a F + holders a [(p, s)] := by
    intro a
    unfold final_coalesce
    rw [holders_coalesce_up_at, hL, hF, holders_append, holders_append, holders_cons]
    omega
  refine ⟨?_, ?_, hcount⟩ <;>
  · rw [hF, List.pairwise_append] at hg
    obtain ⟨hgpre, hgpost, hcross⟩ := hg
    have hokpre : ∀ x ∈ pre, block_ok buf x :=
      fun x hx => hok x (by rw [hF]; exact List.mem_append_left _ hx)
    have hokpost : ∀ y ∈ post, block_ok buf y :=
      fun y hy => hok y (by rw [hF]; exact List.mem_append_right _ hy)
    have hpre_le : ∀ x ∈ pre, x.1 + x.2 ≤ p := by
      intro x hx
      have h1 := hpre x hx
      rcases hdisj x (by rw [hF]; exact List.mem_append_left _ hx) with h | h <;> omega
    have hpost_le : ∀ y ∈ post, p + s ≤ y.1 := by
      intro y hy
      have h1 := hpost y hy
      have h2 := (hokpost y hy).1
      rcases hdisj y (by rw [hF]; exact List.mem_append_right _ hy) with h | h <;> omega
    have hidx : (pre ++ (p, s) :: post).findIdx (fun e => decide (e.1 = p)) = pre.length :=
      findIdx_at pre p s post (fun x hx => Nat.ne_of_lt (hpre x hx))
    unfold final_coalesce
    rw [hL, hidx]
    rcases List.eq_nil_or_concat pre with hnil | ⟨pre1, q, hq⟩
    · subst hnil
      rw [List.length_nil, cdi_zero]
      have := gap_merge buf [] post p s List.Pairwise.nil hokpre hgpost hokpost
        (fun x hx => absurd hx (List.not_mem_nil _))
        (fun x hx => absurd hx (List.not_mem_nil _)) hp hpost_le
      first | exact this.1 | exact this.2
    · rw [List.concat_eq_append] at hq
      subst hq
      rw [List.pairwise_append] at hgpre
      obtain ⟨hgpre1, _, hcross1⟩ := hgpre
      have hq_mem : q ∈ pre1 ++ [q] := List.mem_append_right _ (List.mem_singleton_self q)
      have hLq : pre1 ++ [q] ++ (p, s) :: post = pre1 ++ q :: (p, s) :: post := by
        rw [List.append_assoc]; rfl
      rw [hLq, List.length_append, List.length_singleton]
      by_cases adj : q.1 + q.2 = p
      · have hq0 : coalesce_down_index (pre1 ++ q :: (p, s) :: post) (pre1.length + 1)
            = pre1.length := by
          rw [cdi_step pre1 q (p, s) post adj]
          rcases List.eq_nil_or_concat pre1 with hnil1 | ⟨pre2, r, hr⟩
          · subst hnil1
            exact cdi_zero _
          · rw [List.concat_eq_append] at hr
            subst hr
            have hrq : r.1 + r.2 < q.1 :=
              hcross1 r (List.mem_append_right _ (List.mem_singleton_self r)) q
                (List.mem_singleton_self q)
            have hLr : pre2 ++ [r] ++ q :: (p, s) :: post = pre2 ++ r :: q :: (p, s) :: post := by
              rw [List.append_assoc]; rfl
            rw [hLr, List.length_append, List.length_singleton]
            exact cdi_stop pre2 r q ((p, s) :: post) (Nat.ne_of_lt hrq)
        rw [hq0, coalesce_up_at_append]
        have hm : merge_up q.1 q.2 ((p, s) :: post) = merge_up q.1 (q.2 + s) post := by
          conv_lhs => unfold merge_up
          rw [if_pos adj]
        rw [hm]
        have hqok := hokpre q hq_mem
        have hqs : block_ok buf (q.1, q.2 + s) := by
          obtain ⟨h1, ⟨a, ha⟩, h3⟩ := hqok
          obtain ⟨_, ⟨b, hb⟩, _⟩ := hp
          refine ⟨Nat.add_pos_left h1 _, ⟨a + b, ?_⟩, h3⟩
          show q.2 + s = max_align * (a + b)
          rw [Nat.mul_add, ← ha]
          exact congrArg (q.2 + ·) hb
        have := gap_merge buf pre1 post q.1 (q.2 + s) hgpre1
          (fun x hx => hokpre x (List.mem_append_left _ hx)) hgpost hokpost
          (fun x hx => hcross1 x hx q (List.mem_singleton_self q))
          (fun x hx y hy => hcross x (List.mem_append_left _ hx) y hy) hqs
          (fun y hy => by have := hpost_le y hy; omega)
        first | exact this.1 | exact this.2
      · rw [cdi_stop pre1 q (p, s) post adj]
        have hlen : pre1.length + 1 = (pre1 ++ [q]).length := by
          rw [List.length_append, List.length_singleton]
        rw [hlen, ← hLq, coalesce_up_at_append]
        have := gap_merge buf (pre1 ++ [q]) post p s
          (List.pairwise_append.mpr ⟨hgpre1, List.pairwise_singleton _ _, hcross1⟩)
          hokpre hgpost hokpost
          (fun x hx => by
            rcases List.mem_append.mp hx with hx1 | hx1
            · have h1 := hcross1 x hx1 q (List.mem_singleton_self q)
              have h2 := hpre_le q hq_mem
              omega
            · rw [List.mem_singleton.mp hx1]
              have h2 := hpre_le q hq_mem
              omega)
          hcross hp hpost_le
        first | exact this.1 | exact this.2

/-- Taking the first `ts` bytes of the free block `it`, as `m61_find_free_space` does. -/
theorem take_spec (buf ts : Nat) (F : List (Nat × Nat)) (it : Nat × Nat)
    (hg : F.Pairwise (fun x y => x.1 + x.2 < y.1)) (hok : ∀ y ∈ F, block_ok buf y)
    (hit : it ∈ F) (hts : ts ≤ it.2) (hts0 : 0 < ts) (htsal : ∃ n, ts = max_align * n) :
    (if it.2 > ts then map_insert (it.1 + ts) (it.2 - ts) (map_erase it.1 F)
      else map_erase it.1 F).Pairwise (fun x y => x.1 + x.2 < y.1) ∧
    (∀ y ∈ (if it.2 > ts then map_insert (it.1 + ts) (it.2 - ts) (map_erase it.1 F)
      else map_erase it.1 F), block_ok buf y) ∧
    ∀ a, holders a F
      = holders a (if it.2 > ts then map_insert (it.1 + ts) (it.2 - ts) (map_erase it.1 F)
          else map_erase it.1 F) + holders a [(it.1, ts)] := by
  obtain ⟨pre, post, hF⟩ := List.append_of_mem hit
  have hitok := hok it hit
  rw [hF, List.pairwise_append, List.pairwise_cons] at hg
  obtain ⟨hgpre, ⟨hpost, hgpost⟩, hcross⟩ := hg
  have hpre : ∀ x ∈ pre, x.1 + x.2 < it.1 := fun x hx => hcross x hx it (List.mem_cons_self _ _)
  have hokpre : ∀ x ∈ pre, block_ok buf x :=
    fun x hx => hok x (by rw [hF]; exact List.mem_append_left _ hx)
  have hokpost : ∀ y ∈ post, block_ok buf y :=
    fun y hy => hok y (by rw [hF]; exact List.mem_append_right _ (List.mem_cons_of_mem _ hy))
  have herase : map_erase it.1 F = pre ++ post := by
    rw [hF]
    have : it = (it.1, it.2) := rfl
    conv_lhs => rw [this]
    exact map_erase_at it.1 it.2 pre post
      (fun x hx => by have := hpre x hx; omega) (fun y hy => by have := hpost y hy; omega)
  have hcrosspp : ∀ x ∈ pre, ∀ y ∈ post, x.1 + x.2 < y.1 :=
    fun x hx y hy => hcross x hx y (List.mem_cons_of_mem _ hy)
  have hhold : ∀ a, holders a F = holders a pre + holders a post + holders a [it] := by
    intro a
    rw [hF, holders_append, holders_cons]
    omega
  by_cases hgt : it.2 > ts
  · have hins : map_insert (it.1 + ts) (it.2 - ts) (map_erase it.1 F)
        = pre ++ (it.1 + ts, it.2 - ts) :: post := by
      rw [herase]
      exact map_insert_at _ _ pre post (fun x hx => by have := hpre x hx; omega)
        (fun y hy => by have := hpost y hy; omega)
    rw [if_pos hgt, hins]
    refine ⟨?_, ?_, ?_⟩
    · rw [List.pairwise_append, List.pairwise_cons]
      refine ⟨hgpre, ⟨fun y hy => ?_, hgpost⟩, fun x hx y hy => ?_⟩
      · have := hpost y hy
        show it.1 + ts + (it.2 - ts) < y.1
        omega
      · rcases List.mem_cons.mp hy with rfl | hy
        · have := hpre x hx
          show x.1 + x.2 < it.1 + ts
          omega
        · exact hcrosspp x hx y hy
    · intro y hy
      rcases List.mem_append.mp hy with hy | hy
      · exact hokpre y hy
      · rcases List.mem_cons.mp hy with rfl | hy
        · obtain ⟨_, ⟨n, hn⟩, ⟨k, hk⟩⟩ := hitok
          obtain ⟨m, hm⟩ := htsal
          refine ⟨Nat.sub_pos_of_lt hgt, ⟨n - m, ?_⟩, ⟨k + m, ?_⟩⟩
          · show it.2 - ts = max_align * (n - m)
            rw [Nat.mul_sub, ← hn, ← hm]
          · show it.1 + ts = buf + max_align * (k + m)
            rw [Nat.mul_add, ← hm, hk, Nat.add_assoc]
        · exact hokpost y hy
    · intro a
      have hsplit := holders_split a it.1 ts (it.2 - ts)
      rw [Nat.add_sub_cancel' hts, Prod.mk.eta] at hsplit
      rw [hhold a, holders_append, holders_cons a (it.1 + ts, it.2 - ts) post, hsplit]
      omega
  · have heq : it.2 = ts := Nat.le_antisymm (Nat.not_lt.mp hgt) hts
    rw [if_neg hgt, herase]
    refine ⟨List.pairwise_append.mpr ⟨hgpre, hgpost, hcrosspp⟩, ?_, ?_⟩
    · intro y hy
      rcases List.mem_append.mp hy with hy | hy
      · exact hokpre y hy
      · exact hokpost y hy
    · intro a
      rw [hhold a, holders_append, ← heq, Prod.mk.eta]

/-- The two ways out of `m61_find_free_space`: no block fits, and the maps are as before;
or the first bytes of a free block `it` are taken. -/
theorem find_free_space_cases (a : mem_track) (st : MState) :
    (m61_find_free_space a st).2.buffer = st.buffer ∧
    (m61_find_free_space a st).2.active_map = st.active_map ∧
    (((m61_find_free_space a st).1 = 0 ∧
        (m61_find_free_space a st).2.free_memory = st.free_memory) ∨
      ∃ it ∈ st.free_memory, a.total_size ≤ it.2 ∧ 0 < a.sz ∧
        (m61_find_free_space a st).1 = it.1 ∧
        (m61_find_free_space a st).2.free_memory
          = if it.2 > a.total_size then
              map_insert (it.1 + a.total_size) (it.2 - a.total_size)
                (map_erase it.1 st.free_memory)
            else map_erase it.1 st.free_memory) := by
  unfold m61_find_free_space
  cases hf : st.free_memory.find? (fun it => decide (it.2 ≥ a.total_size ∧ a.sz > 0)) with
  | none => exact ⟨rfl, rfl, Or.inl ⟨rfl, rfl⟩⟩
  | some it =>
    have h0 := List.find?_some hf
    have h1 := of_decide_eq_true h0
    exact ⟨rfl, rfl, Or.inr ⟨it, List.mem_of_find?_eq_some hf, h1.1, h1.2, rfl, rfl⟩⟩

/-- The total size that `m61_malloc` computes is a positive multiple of `max_align`. -/
theorem total_size_aligned (sz : Nat) :
    0 < sz + padding sz + sizeof_random_int ∧
    ∃ n, sz + padding sz + sizeof_random_int = max_align * n := by
  unfold padding sizeof_random_int max_align
  have h : sz + 8 % 16 ≠ 0 := by omega
  rw [if_pos h]
  refine ⟨by omega, ⟨(sz + 8) / 16 + 1, ?_⟩⟩
  omega

/-- The blocks of two parts of `active_map`. -/
theorem active_blocks_append (l1 l2 : List (Nat × mem_track)) :
    active_blocks (l1 ++ l2) = active_blocks l1 ++ active_blocks l2 :=
  List.map_append _ _ _

/-- A block of `active_map` comes from one of its entries. -/
theorem mem_active_blocks (b : Nat × Nat) (m : List (Nat × mem_track)) :
    b ∈ active_blocks m ↔ ∃ e ∈ m, (e.1, e.2.total_size) = b :=
  List.mem_map

/-- The invariant depends on the buffer address and the two maps only. -/
theorem heap_inv_congr (st st1 : MState) (hb : st1.buffer = st.buffer)
    (ha : st1.active_map = st.active_map) (hf : st1.free_memory = st.free_memory)
    (h : heap_inv st) : heap_inv st1 := by
  have hbl : blocks st1 = blocks st := by unfold blocks; rw [ha, hf]
  refine ⟨?_, ?_, ?_, ?_, ?_⟩
  · rw [hb]; exact h.buffer_pos
  · rw [hf]; exact h.free_gap
  · rw [ha]; exact h.active_sorted
  · rw [hbl, hb]; exact h.sizes
  · rw [hbl, hb]; exact h.tiling

/-- Under the invariant no address lies in two blocks. -/
theorem holders_le_one (st : MState) (h : heap_inv st) (a : Nat) :
    holders a (blocks st) ≤ 1 := by
  rw [h.tiling a]
  split_ifs <;> omega

/-- Under the invariant an active block and a free block do not overlap. -/
theorem active_free_disjoint (st : MState) (h : heap_inv st) (b : Nat × Nat)
    (hb : b ∈ active_blocks st.active_map) (f : Nat × Nat) (hf : f ∈ st.free_memory) :
    f.1 + f.2 ≤ b.1 ∨ b.1 + b.2 ≤ f.1 := by
  by_contra hcon
  have hb0 := (h.sizes b (List.mem_append_left _ hb)).1
  have hf0 := (h.sizes f (List.mem_append_right _ hf)).1
  have h1 : 0 < holders (max b.1 f.1) (active_blocks st.active_map) :=
    (holders_pos_iff _ _).mpr ⟨b, hb, by omega, by omega⟩
  have h2 : 0 < holders (max b.1 f.1) st.free_memory :=
    (holders_pos_iff _ _).mpr ⟨f, hf, by omega, by omega⟩
  have h3 := holders_le_one st h (max b.1 f.1)
  unfold blocks at h3
  rw [holders_append] at h3
  omega

/-- With both maps empty the invariant does not hold, so under the invariant
`m61_malloc` does not put the buffer into `free_memory` again. -/
theorem malloc_init_inv (st : MState) (h : heap_inv st) : malloc_init st = st := by
  unfold malloc_init
  rw [if_neg]
  rintro ⟨h1, h2⟩
  have ha : st.active_map = [] := List.isEmpty_iff.mp h1
  have hf : st.free_memory = [] := List.isEmpty_iff.mp h2
  have ht := h.tiling st.buffer
  rw [if_pos ⟨Nat.le_refl _, Nat.lt_add_of_pos_right (by decide)⟩] at ht
  unfold blocks at ht
  rw [ha, hf] at ht
  have h0 : holders st.buffer (active_blocks [] ++ []) = 0 := rfl
  omega

/-- The first call that gets past the size test starts from the buffer as one free block. -/
theorem malloc_init_fresh (st : MState) (hbuf : 0 < st.buffer)
    (h : st.active_map = [] ∧ st.free_memory = []) : heap_inv (malloc_init st) := by
  unfold malloc_init
  rw [if_pos ⟨by rw [h.1]; rfl, by rw [h.2]; rfl⟩, h.2]
  refine ⟨hbuf, List.pairwise_singleton _ _, by show st.active_map.Pairwise _; rw [h.1]; exact List.Pairwise.nil, ?_, ?_⟩
  · intro b hb
    have hbl : b ∈ active_blocks st.active_map ++ [(st.buffer, buffer_size)] := hb
    rw [h.1] at hbl
    rw [List.mem_singleton.mp hbl]
    refine ⟨?_, ⟨2 ^ 19, ?_⟩, ⟨0, rfl⟩⟩
    · show 0 < buffer_size
      decide
    · show buffer_size = max_align * 2 ^ 19
      decide
  · intro a
    show holders a (active_blocks st.active_map ++ [(st.buffer, buffer_size)]) = _
    rw [h.1]
    exact holders_single a (st.buffer, buffer_size)

/-- The invariant after the first `ts` bytes of the free block `it` have become the active
block `al`. -/
theorem heap_inv_take (st st1 : MState) (h : heap_inv st) (it : Nat × Nat) (al : mem_track)
    (hit : it ∈ st.free_memory) (hts : al.total_size ≤ it.2) (hts0 : 0 < al.total_size)
    (htsal : ∃ n, al.total_size = max_align * n)
    (hb : st1.buffer = st.buffer)
    (ha : st1.active_map = map_insert it.1 al st.active_map)
    (hf : st1.free_memory
      = if it.2 > al.total_size then
          map_insert (it.1 + al.total_size) (it.2 - al.total_size) (map_erase it.1 st.free_memory)
        else map_erase it.1 st.free_memory) :
    heap_inv st1 := by
  have hfok : ∀ y ∈ st.free_memory, block_ok st.buffer y :=
    fun y hy => h.sizes y (List.mem_append_right _ hy)
  obtain ⟨t1, t2, t3⟩ := take_spec st.buffer al.total_size st.free_memory it h.free_gap hfok hit
    hts hts0 htsal
  rw [← hf] at t1 t2 t3
  have hitok := hfok it hit
  have hkey : ∀ e ∈ st.active_map, e.1 ≠ it.1 := by
    intro e he heq
    have hbm : (e.1, e.2.total_size) ∈ active_blocks st.active_map :=
      (mem_active_blocks _ _).mpr ⟨e, he, rfl⟩
    have h0 := (h.sizes _ (List.mem_append_left _ hbm)).1
    have h1 := hitok.1
    rcases active_free_disjoint st h _ hbm it hit with hd | hd
    · have : it.1 + it.2 ≤ e.1 := hd
      omega
    · have : e.1 + e.2.total_size ≤ it.1 := hd
      have h0 : 0 < e.2.total_size := h0
      omega
  obtain ⟨pre, post, hA, hpre, hpost⟩ := map_split it.1 st.active_map h.active_sorted hkey
  have hA1 : st1.active_map = pre ++ (it.1, al) :: post := by
    rw [ha, hA]; exact map_insert_at _ _ pre post hpre hpost
  have hsorted := h.active_sorted
  rw [hA, List.pairwise_append] at hsorted
  obtain ⟨hspre, hspost, hscross⟩ := hsorted
  have hbl : ∀ b, b ∈ blocks st1 ↔
      b ∈ blocks st1 ∧ (b = (it.1, al.total_size) ∨ b ∈ active_blocks st.active_map ∨
        b ∈ st1.free_memory) := by
    intro b
    refine ⟨fun hbm => ⟨hbm, ?_⟩, fun hbm => hbm.1⟩
    rcases List.mem_append.mp hbm with hbm | hbm
    · rw [hA1, mem_active_blocks] at hbm
      obtain ⟨e, he, rfl⟩ := hbm
      rcases List.mem_append.mp he with he | he
      · exact Or.inr (Or.inl ((mem_active_blocks _ _).mpr
          ⟨e, by rw [hA]; exact List.mem_append_left _ he, rfl⟩))
      · rcases List.mem_cons.mp he with rfl | he
        · exact Or.inl rfl
        · exact Or.inr (Or.inl ((mem_active_blocks _ _).mpr
            ⟨e, by rw [hA]; exact List.mem_append_right _ he, rfl⟩))
    · exact Or.inr (Or.inr hbm)
  refine ⟨?_, t1, ?_, ?_, ?_⟩
  · rw [hb]; exact h.buffer_pos
  · rw [hA1, List.pairwise_append, List.pairwise_cons]
    refine ⟨hspre, ⟨hpost, hspost⟩, fun x hx y hy => ?_⟩
    rcases List.mem_cons.mp hy with rfl | hy
    · exact hpre x hx
    · exact hscross x hx y hy
  · intro b hbm
    rw [hb]
    rcases ((hbl b).mp hbm).2 with rfl | hm | hm
    · exact ⟨hts0, htsal, hitok.2.2⟩
    · exact h.sizes b (List.mem_append_left _ hm)
    · exact t2 b hm
  · intro a
    have hold := h.tiling a
    unfold blocks at hold ⊢
    rw [hb, ← hold, holders_append, holders_append, t3 a, hA1, hA, active_blocks_append,
      active_blocks_append, holders_append, holders_append]
    show holders a (active_blocks pre) + holders a ((it.1, al.total_size) :: active_blocks post)
      + holders a st1.free_memory = _
    rw [holders_cons a (it.1, al.total_size) (active_blocks post)]
    omega

/-- `m61_malloc` keeps the invariant. -/
theorem malloc_inv (sz file : Nat) (line : Int) (st : MState) (h : heap_inv st) :
    heap_inv (m61_malloc sz file line st).2 := by
  unfold m61_malloc
  by_cases h1 : sz > buffer_size ∨ sz = 0
  · rw [if_pos h1]
    exact heap_inv_congr st _ rfl rfl rfl h
  · rw [if_neg h1, malloc_init_inv st h]
    obtain ⟨c1, c2, c3⟩ := find_free_space_cases
      ⟨sz, padding sz, sz + padding sz + sizeof_random_int, file, line⟩ st
    by_cases h2 : (m61_find_free_space
        ⟨sz, padding sz, sz + padding sz + sizeof_random_int, file, line⟩ st).1 = 0
    · rw [if_pos h2]
      rcases c3 with ⟨_, c4⟩ | ⟨it, hit, _, _, c5, _⟩
      · exact heap_inv_congr st _ c1 c2 c4 h
      · obtain ⟨k, hk⟩ := (h.sizes it (List.mem_append_right _ hit)).2.2
        have := h.buffer_pos
        omega
    · rw [if_neg h2]
      rcases c3 with ⟨c4, _⟩ | ⟨it, hit, c4, _, c5, c6⟩
      · exact absurd c4 h2
      · obtain ⟨t0, tal⟩ := total_size_aligned sz
        refine heap_inv_take st _ h it
          ⟨sz, padding sz, sz + padding sz + sizeof_random_int, file, line⟩ hit c4 t0 tal ?_ ?_ ?_
        · exact c1
        · show map_insert _ _ (m61_find_free_space _ st).2.active_map = _
          rw [c2, c5]
        · exact c6

/-- `m61_free` keeps the invariant when it does not abort. -/
theorem free_inv (ptr : Nat) (st st1 : MState) (h : heap_inv st)
    (hfree : m61_free ptr st = some st1) : heap_inv st1 := by
  by_cases hptr : ptr = 0
  · unfold m61_free at hfree
    rw [if_pos hptr] at hfree
    rw [← Option.some.inj hfree]
    exact h
  · obtain ⟨al, hact, c1, c2, c3⟩ := free_checks ptr st hptr (by rw [hfree]; rfl)
    rw [free_eq ptr st al hptr c1 c2 hact c3] at hfree
    have hst1 := Option.some.inj hfree
    obtain ⟨pre, post, hA⟩ := map_find_split ptr al st.active_map hact
    have hsorted := h.active_sorted
    rw [hA, List.pairwise_append, List.pairwise_cons] at hsorted
    obtain ⟨hspre, ⟨hpost, hspost⟩, hscross⟩ := hsorted
    have hpre : ∀ x ∈ pre, x.1 < ptr := fun x hx => hscross x hx _ (List.mem_cons_self _ _)
    have hA1 : st1.active_map = pre ++ post := by
      rw [← hst1]
      show map_erase ptr st.active_map = _
      rw [hA]
      exact map_erase_at ptr al pre post (fun x hx => Nat.ne_of_lt (hpre x hx))
        (fun y hy => Nat.ne_of_gt (hpost y hy))
    have hF1 : st1.free_memory = final_coalesce ptr al.total_size st.free_memory := by
      rw [← hst1]
    have hb : st1.buffer = st.buffer := by rw [← hst1]
    have hbm : (ptr, al.total_size) ∈ active_blocks st.active_map :=
      (mem_active_blocks _ _).mpr
        ⟨(ptr, al), by rw [hA]; exact List.mem_append_right _ (List.mem_cons_self _ _), rfl⟩
    have hfok : ∀ y ∈ st.free_memory, block_ok st.buffer y :=
      fun y hy => h.sizes y (List.mem_append_right _ hy)
    obtain ⟨t1, t2, t3⟩ := final_coalesce_spec st.buffer ptr al.total_size st.free_memory
      h.free_gap hfok (h.sizes _ (List.mem_append_left _ hbm))
      (fun f hf => active_free_disjoint st h _ hbm f hf)
    rw [← hF1] at t1 t2 t3
    refine ⟨?_, t1, ?_, ?_, ?_⟩
    · rw [hb]; exact h.buffer_pos
    · rw [hA1]
      exact List.pairwise_append.mpr ⟨hspre, hspost,
        fun x hx y hy => hscross x hx y (List.mem_cons_of_mem _ hy)⟩
    · intro b hbm1
      rw [hb]
      rcases List.mem_append.mp hbm1 with hm | hm
      · rw [hA1, mem_active_blocks] at hm
        obtain ⟨e, he, rfl⟩ := hm
        refine h.sizes _ (List.mem_append_left _ ((mem_active_blocks _ _).mpr ⟨e, ?_, rfl⟩))
        rw [hA]
        rcases List.mem_append.mp he with he | he
        · exact List.mem_append_left _ he
        · exact List.mem_append_right _ (List.mem_cons_of_mem _ he)
      · exact t2 b hm
    · intro a
      have hold := h.tiling a
      unfold blocks at hold ⊢
      rw [hb, ← hold, holders_append, holders_append, t3 a, hA1, hA, active_blocks_append,
        active_blocks_append, holders_append, holders_append]
      show _ = holders a (active_blocks pre)
        + holders a ((ptr, al.total_size) :: active_blocks post) + holders a st.free_memory
      rw [holders_cons a (ptr, al.total_size) (active_blocks post)]
      omega

/-- Nothing is found in an empty map. -/
theorem map_find_nil {α : Type} (k : Nat) : map_find k ([] : List (Nat × α)) = none := rfl

/-- Before the first allocation that gets past the size test both maps are empty; from
then on the invariant holds. -/
theorem malloc_start (sz file : Nat) (line : Int) (st : MState)
    (h : (0 < st.buffer ∧ st.active_map = [] ∧ st.free_memory = []) ∨ heap_inv st) :
    ((0 < (m61_malloc sz file line st).2.buffer ∧ (m61_malloc sz file line st).2.active_map = [] ∧
        (m61_malloc sz file line st).2.free_memory = []) ∨
      heap_inv (m61_malloc sz file line st).2) ∧
    ((m61_malloc sz file line st).1 ≠ 0 → heap_inv (m61_malloc sz file line st).2) := by
  rcases h with ⟨hbuf, hfresh⟩ | h
  · by_cases h1 : sz > buffer_size ∨ sz = 0
    · have hm : m61_malloc sz file line st
          = (0, { st with gstats := { st.gstats with
              nfail := st.gstats.nfail + 1, fail_size := st.gstats.fail_size + sz } }) := by
        unfold m61_malloc
        rw [if_pos h1]
      rw [hm]
      exact ⟨Or.inl ⟨hbuf, hfresh⟩, fun hne => absurd rfl hne⟩
    · have hinv := malloc_init_fresh st hbuf hfresh
      have hm : m61_malloc sz file line st = m61_malloc sz file line (malloc_init st) := by
        unfold m61_malloc
        rw [if_neg h1, if_neg h1, malloc_init_inv (malloc_init st) hinv]
      rw [hm]
      exact ⟨Or.inr (malloc_inv sz file line _ hinv), fun _ => malloc_inv sz file line _ hinv⟩
  · exact ⟨Or.inr (malloc_inv sz file line st h), fun _ => malloc_inv sz file line st h⟩

/-- A call that does not abort leaves both maps empty or keeps the invariant. -/
theorem call_start (c : call) (st st1 : MState)
    (h : (0 < st.buffer ∧ st.active_map = [] ∧ st.free_memory = []) ∨ heap_inv st)
    (hrun : c.run st = some st1) :
    (0 < st1.buffer ∧ st1.active_map = [] ∧ st1.free_memory = []) ∨ heap_inv st1 := by
  cases c with
  | malloc sz file line =>
    have hst : (m61_malloc sz file line st).2 = st1 := Option.some.inj hrun
    rw [← hst]
    exact (malloc_start sz file line st h).1
  | free ptr =>
    have hfree : m61_free ptr st = some st1 := hrun
    rcases h with ⟨hbuf, hfresh⟩ | h
    · by_cases hptr : ptr = 0
      · unfold m61_free at hfree
        rw [if_pos hptr] at hfree
        rw [← Option.some.inj hfree]
        exact Or.inl ⟨hbuf, hfresh⟩
      · obtain ⟨al, hact, _⟩ := free_checks ptr st hptr (by rw [hfree]; rfl)
        rw [hfresh.1, map_find_nil] at hact
        cases hact
    · exact Or.inr (free_inv ptr st st1 h hfree)

/-- A call that does not abort keeps the invariant. -/
theorem call_inv (c : call) (st st1 : MState) (h : heap_inv st) (hrun : c.run st = some st1) :
    heap_inv st1 := by
  cases c with
  | malloc sz file line =>
    have hst : (m61_malloc sz file line st).2 = st1 := Option.some.inj hrun
    rw [← hst]
    exact malloc_inv sz file line st h
  | free ptr => exact free_inv ptr st st1 h hrun

/-- Calls that do not abort leave both maps empty or establish the invariant. -/
theorem run_calls_start (cs : List call) :
    ∀ st st1, ((0 < st.buffer ∧ st.active_map = [] ∧ st.free_memory = []) ∨ heap_inv st) →
      run_calls cs st = some st1 →
      (0 < st1.buffer ∧ st1.active_map = [] ∧ st1.free_memory = []) ∨ heap_inv st1 := by
  induction cs with
  | nil =>
    intro st st1 h hrun
    rw [← Option.some.inj hrun]
    exact h
  | cons c cs ih =>
    intro st st1 h hrun
    unfold run_calls at hrun
    cases hc : c.run st with
    | none => rw [hc] at hrun; cases hrun
    | some s2 =>
      rw [hc] at hrun
      exact ih s2 st1 (call_start c st s2 h hc) hrun

/-- Calls that do not abort keep the invariant. -/
theorem run_calls_inv (cs : List call) :
    ∀ st st1, heap_inv st → run_calls cs st = some st1 → heap_inv st1 := by
  induction cs with
  | nil =>
    intro st st1 h hrun
    rw [← Option.some.inj hrun]
    exact h
  | cons c cs ih =>
    intro st st1 h hrun
    unfold run_calls at hrun
    cases hc : c.run st with
    | none => rw [hc] at hrun; cases hrun
    | some s2 =>
      rw [hc] at hrun
      exact ih s2 st1 (call_inv c st s2 h hc) hrun

/-- Blocks of positive size of which no two hold a common address are pairwise disjoint. -/
theorem pairwise_disjoint_of_holders (l : List (Nat × Nat)) (hpos : ∀ b ∈ l, 0 < b.2)
    (hle : ∀ a, holders a l ≤ 1) :
    l.Pairwise (fun x y => x.1 + x.2 ≤ y.1 ∨ y.1 + y.2 ≤ x.1) := by
  induction l with
  | nil => exact List.Pairwise.nil
  | cons b t ih =>
    rw [List.pairwise_cons]
    constructor
    · intro y hy
      by_contra hcon
      have hb0 := hpos b (List.mem_cons_self _ _)
      have hy0 := hpos y (List.mem_cons_of_mem _ hy)
      have h1 : 0 < holders (max b.1 y.1) t :=
        (holders_pos_iff _ _).mpr ⟨y, hy, by omega, by omega⟩
      have h2 : 0 < holders (max b.1 y.1) [b] :=
        (holders_pos_iff _ _).mpr ⟨b, List.mem_singleton_self b, by omega, by omega⟩
      have h3 := hle (max b.1 y.1)
      rw [holders_cons] at h3
      omega
    · refine ih (fun y hy => hpos y (List.mem_cons_of_mem _ hy)) (fun a => ?_)
      have h3 := hle a
      rw [holders_cons] at h3
      omega

/-- In a list of blocks with gaps no block ends where a block starts. -/
theorem not_adjacent_of_gap (l : List (Nat × Nat))
    (hg : l.Pairwise (fun x y => x.1 + x.2 < y.1)) (hpos : ∀ b ∈ l, 0 < b.2) :
    ∀ x ∈ l, ∀ y ∈ l, x.1 + x.2 ≠ y.1 := by
  induction l with
  | nil => intro x hx; exact absurd hx (List.not_mem_nil _)
  | cons e t ih =>
    rw [List.pairwise_cons] at hg
    intro x hx y hy
    rcases List.mem_cons.mp hx with hxe | hxt
    · rcases List.mem_cons.mp hy with hye | hyt
      · rw [hxe, hye]
        have := hpos e (List.mem_cons_self _ _)
        omega
      · rw [hxe]
        have := hg.1 y hyt
        omega
    · rcases List.mem_cons.mp hy with hye | hyt
      · rw [hye]
        have := hg.1 x hxt
        omega
      · exact ih hg.2 (fun b hb => hpos b (List.mem_cons_of_mem _ hb)) x hxt y hyt

/-- The invariant gives heap well-formedness. -/
theorem well_formed_of_inv (st : MState) (h : heap_inv st) : well_formed st := by
  have hpos : ∀ b ∈ blocks st, 0 < b.2 := fun b hb => (h.sizes b hb).1
  refine ⟨?_, ?_, ?_, ?_, ?_⟩
  · intro b hb
    have hb0 := hpos b hb
    have h1 : 0 < holders b.1 (blocks st) := (holders_pos_iff _ _).mpr ⟨b, hb, by omega, by omega⟩
    have h2 : 0 < holders (b.1 + b.2 - 1) (blocks st) :=
      (holders_pos_iff _ _).mpr ⟨b, hb, by omega, by omega⟩
    rw [h.tiling] at h1 h2
    by_cases c1 : st.buffer ≤ b.1 ∧ b.1 < st.buffer + buffer_size
    · by_cases c2 : st.buffer ≤ b.1 + b.2 - 1 ∧ b.1 + b.2 - 1 < st.buffer + buffer_size
      · omega
      · rw [if_neg c2] at h2; cases h2
    · rw [if_neg c1] at h1; cases h1
  · exact pairwise_disjoint_of_holders _ hpos (holders_le_one st h)
  · intro a ha1 ha2
    have ht := h.tiling a
    rw [if_pos ⟨ha1, ha2⟩] at ht
    exact (holders_pos_iff _ _).mp (by omega)
  · exact not_adjacent_of_gap _ h.free_gap (fun b hb => hpos b (List.mem_append_right _ hb))
  · intro b hb
    obtain ⟨k, hk⟩ := (h.sizes b hb).2.2
    rw [hk, Nat.add_sub_cancel_left, Nat.mul_mod_right]

/-- The calls `m_calls` do not abort. -/
theorem m_heap_some : run_calls m_calls (m61_malloc 10 0 1 m_init).2 = some m_heap := by
  have h : (run_calls m_calls (m61_malloc 10 0 1 m_init).2).isSome = true := by decide!
  unfold m_heap
  cases hb : run_calls m_calls (m61_malloc 10 0 1 m_init).2 with
  | none => rw [hb] at h; cases h
  | some r => rfl

/-- C38. Heap well-formedness: start from an allocator with the buffer at a non-null
address and both maps empty; after any calls that do not abort, a call of `m61_malloc` that
returns a pointer, and any further calls of `m61_malloc` and `m61_free` that do not abort,
the blocks of `active_map` (each `total_size` bytes from its pointer) and of `free_memory`
lie in the buffer, are pairwise disjoint and cover every byte of the 8 MiB buffer, no free
block ends where a free block starts, and every block starts at a multiple of `max_align`
from the start of the buffer. -/
theorem heap_well_formed (st0 : MState) (pre : List call) (st1 : MState) (sz file : Nat)
    (line : Int) (cs : List call) (st : MState)
    (hbuf : 0 < st0.buffer) (hinit : st0.active_map = [] ∧ st0.free_memory = [])
    (hpre : run_calls pre st0 = some st1)
    (hfirst : (m61_malloc sz file line st1).1 ≠ 0)
    (hrun : run_calls cs (m61_malloc sz file line st1).2 = some st) :
    well_formed st :=
  well_formed_of_inv st
    (run_calls_inv cs _ st
      ((malloc_start sz file line st1
        (run_calls_start pre st0 st1 (Or.inl ⟨hbuf, hinit⟩) hpre)).2 hfirst) hrun)

/-- The heap after `m61_malloc(10)` and the calls `m_calls`: active blocks of 16 and 112
bytes at the offsets 0 and 64, free blocks at the offsets 16 (48 bytes, two freed pieces
merged) and 176 (the rest of the buffer). -/
theorem heap_well_formed_witness :
    (m_heap.active_map.map (fun e => (e.1 - m_init.buffer, e.2.total_size)),
      m_heap.free_memory.map (fun e => (e.1 - m_init.buffer, e.2)))
      = ([(0, 16), (64, 112)], [(16, 48), (176, buffer_size - 176)]) ∧
    well_formed m_heap :=
  ⟨by decide!, heap_well_formed m_init [] m_init 10 0 1 m_calls m_heap (by decide) ⟨rfl, rfl⟩ rfl
    (by decide!) m_heap_some⟩

end M61

namespace Pset4

/-! ## io61_read -/

/-- The loop of `io61_read` returns a count that is not below the count it starts with. -/
theorem read_loop_ge (sz_read : Int) :
    ∀ (fuel : Nat) (pos : Int) (f : io61_file) (w : fd_script)
      (r : Int × io61_file × fd_script), read_loop sz_read fuel pos f w = some r → pos ≤ r.1 := by
  intro fuel
  induction fuel with
  | zero => intro pos f w r h; cases h
  | succ fuel ih =>
    intro pos f w r h
    unfold read_loop at h
    by_cases h1 : pos < sz_read
    · rw [if_pos h1] at h
      split at h
      · cases h
      · rename_i f1 w1 _
        by_cases h2 : f.pos_tag = f.end_tag ∧ f1.pos_tag = f1.end_tag
        · rw [if_pos h2] at h
          rw [← Option.some.inj h]
        · rw [if_neg h2] at h
          by_cases h3 : f1.pos_tag < f1.end_tag
          · rw [if_pos h3] at h
            split_ifs at h
            have := ih _ _ _ _ h
            have hmin : 0 ≤ min (sz_read - pos) (f1.end_tag - f1.pos_tag) := by
              apply le_min <;> omega
            omega
          · rw [if_neg h3] at h
            exact ih _ _ _ _ h
    · rw [if_neg h1] at h
      rw [← Option.some.inj h]

/-- C32. `io61_read` does not report a read error.  For a file that passes the assertions
with nothing left in its cache, and a request for at least one byte: when the next `read`
fails, `io61_read` returns 0 with the cache empty at `end_tag`, the value it also returns
when the next `read` meets end of file; and no call of `io61_read`, on any file, size and
script, returns -1. -/
theorem read_error_returns_zero (f : io61_file) (w : fd_script) (rs : List read_result)
    (sz : Nat) (hinv : invariants f) (hempty : f.pos_tag = f.end_tag)
    (hsz : 0 < sz ∧ sz < 2 ^ 63) (herr : w.reads = read_result.error :: rs) :
    io61_read f sz w
      = some (0, { f with tag := f.end_tag, pos_tag := f.end_tag }, { w with reads := rs }) ∧
    io61_read f sz { w with reads := [] }
      = some (0, { f with tag := f.end_tag, pos_tag := f.end_tag, end_tag := f.end_tag + 0 },
          { w with reads := [] }) ∧
    ∀ (g : io61_file) (n : Nat) (v : fd_script) (r : Int × io61_file × fd_script),
      io61_read g n v = some r → r.1 ≠ -1 := by
  have hss : ssize_of sz = (sz : Int) := by
    unfold ssize_of
    have h1 : sz % 2 ^ 64 = sz := Nat.mod_eq_of_lt (by omega)
    rw [h1, if_pos hsz.2]
  have hpos : (0 : Int) < ssize_of sz := by rw [hss]; omega
  refine ⟨?_, ?_, ?_⟩
  · unfold io61_read
    rw [if_pos hinv]
    unfold read_loop
    rw [if_pos hpos, if_pos hempty]
    have hfill : io61_fill f w
        = some (-1, { f with tag := f.end_tag, pos_tag := f.end_tag }, { w with reads := rs }) := by
      unfold io61_fill
      rw [herr]
      have : invariants { f with tag := f.end_tag, pos_tag := f.end_tag } := by
        unfold invariants bufsize
        dsimp only
        omega
      simp only [if_pos this]
    rw [hfill]
    simp only [Option.map_some']
    rw [if_pos ⟨hempty, trivial⟩]
  · unfold io61_read
    rw [if_pos hinv]
    unfold read_loop
    rw [if_pos hpos, if_pos hempty]
    have hfill : io61_fill f { w with reads := [] }
        = some (0, { f with tag := f.end_tag, pos_tag := f.end_tag, end_tag := f.end_tag + 0 },
            { w with reads := [] }) := by
      unfold io61_fill
      rfl
    rw [hfill]
    simp only [Option.map_some']
    rw [if_pos ⟨hempty, (Int.add_zero _).symm⟩]
  · intro g n v r h
    unfold io61_read at h
    by_cases hg : invariants g
    · rw [if_pos hg] at h
      have := read_loop_ge _ _ _ _ _ _ h
      omega
    · rw [if_neg hg] at h
      cases h

/-- A read-only file with empty cache whose first `read` fails, asked for 100 bytes. -/
theorem read_error_returns_zero_witness :
    io61_read f_reader 100 w_read_error
      = some (0, { f_reader with tag := f_reader.end_tag, pos_tag := f_reader.end_tag },
          { w_read_error with reads := [] }) ∧
    io61_read f_reader 100 { w_read_error with reads := [] }
      = some (0,
          { f_reader with
            tag := f_reader.end_tag
            pos_tag := f_reader.end_tag
            end_tag := f_reader.end_tag + 0 },
          { w_read_error with reads := [] }) ∧
    ∀ (g : io61_file) (n : Nat) (v : fd_script) (r : Int × io61_file × fd_script),
      io61_read g n v = some r → r.1 ≠ -1 :=
  read_error_returns_zero f_reader w_read_error [] 100 (by decide) rfl (by decide) rfl

/-! ## io61_flush, io61_write and io61_writec -/

/-- Calls of `io61_writec` while the cache position is below `end_tag` and the index
`pos_tag - tag` is below `bufsize`: each stores one byte and moves `pos_tag` on. -/
theorem writec_times_spec :
    ∀ (n : Nat) (f : io61_file) (w : fd_script), f.tag ≤ f.pos_tag →
      f.pos_tag + n ≤ f.end_tag → f.pos_tag - f.tag + n ≤ bufsize →
      writec_times n f w = some ({ f with pos_tag := f.pos_tag + n }, w) := by
  intro n
  induction n with
  | zero =>
    intro f w _ _ _
    unfold writec_times
    rw [Nat.cast_zero, Int.add_zero]
  | succ n ih =>
    intro f w h1 h2 h3
    rw [Nat.cast_succ] at h2 h3
    have hne : ¬ f.pos_tag = f.end_tag := by omega
    have hw : io61_writec f w = some (0, { f with pos_tag := f.pos_tag + 1 }, w) := by
      unfold io61_writec
      rw [if_neg hne]
      simp only []
      rw [if_neg (by decide), if_pos ⟨by omega, by omega⟩]
    unfold writec_times
    rw [hw]
    simp only []
    rw [ih { f with pos_tag := f.pos_tag + 1 } w (by show f.tag ≤ f.pos_tag + 1; omega)
      (by show f.pos_tag + 1 + n ≤ f.end_tag; omega)
      (by show f.pos_tag + 1 - f.tag + n ≤ bufsize; omega), Nat.cast_succ]
    have : f.pos_tag + 1 + (n : Int) = f.pos_tag + ((n : Int) + 1) := by omega
    simp only [this]

/-- C37. The cache invariant does not survive `io61_flush`, which adds `bufsize` to
`end_tag` whatever `pos_tag` is.  On a write-only file with all tags 0 and a descriptor on
which every `write` succeeds: after two calls of `io61_flush` the tags are 0, 0, 16384, the
invariant `end_tag - pos_tag <= bufsize` is false, and the third `io61_flush` fails its
assertion.  After `io61_write` of 10 bytes (tags 0, 10, 8192) and one `io61_flush` the tags
are 10, 10, 16384 and the next `io61_write` fails its assertion.  After `io61_writec` and
`io61_flush` the tags are 1, 1, 16384; 8192 further calls of `io61_writec` succeed and
leave `pos_tag - tag = bufsize` with the assertions true, and the next `io61_writec`
stores at the index `bufsize`, outside `cbuf`. -/
theorem cache_invariant_breaks :
    f_fresh.mode = O_WRONLY ∧ tags f_fresh = (0, 0, 0) ∧ invariants f_fresh ∧
    ((io61_flush f_fresh w_ok).bind (fun r => io61_flush r.2.1 r.2.2)).map
        (fun r => (r.1, tags r.2.1, decide (invariants r.2.1)))
      = some (0, (0, 0, 16384), false) ∧
    (((io61_flush f_fresh w_ok).bind (fun r => io61_flush r.2.1 r.2.2)).bind
        (fun r => io61_flush r.2.1 r.2.2)) = none ∧
    (io61_write f_fresh 10 w_ok).map (fun r => (r.1, tags r.2.1)) = some (10, (0, 10, 8192)) ∧
    ((io61_write f_fresh 10 w_ok).bind (fun r => io61_flush r.2.1 r.2.2)).map
        (fun r => (r.1, tags r.2.1, decide (invariants r.2.1)))
      = some (0, (10, 10, 16384), false) ∧
    (((io61_write f_fresh 10 w_ok).bind (fun r => io61_flush r.2.1 r.2.2)).bind
        (fun r => io61_write r.2.1 1 r.2.2)) = none ∧
    ((io61_writec f_fresh w_ok).bind (fun r => io61_flush r.2.1 r.2.2))
      = some (0, f_written, w_ok) ∧
    writec_times 8192 f_written w_ok = some ({ f_written with pos_tag := 8193 }, w_ok) ∧
    invariants { f_written with pos_tag := 8193 } ∧
    ({ f_written with pos_tag := 8193 } : io61_file).pos_tag
      - ({ f_written with pos_tag := 8193 } : io61_file).tag = bufsize ∧
    io61_writec { f_written with pos_tag := 8193 } w_ok = none := by
  refine ⟨by decide!, by decide!, by decide!, by decide!, by decide!, by decide!, by decide!,
    by decide!, by decide!, ?_, by decide!, by decide!, by decide!⟩
  exact writec_times_spec 8192 f_written w_ok (by decide) (by decide) (by decide)

end Pset4

namespace Sh61

/-! ## run_conditional -/

/-- C40. `run_conditional` compares the flag `next_is_or` with the status itself, so behind
`||` a pipeline is run only after the status 1.  For the chain `a || b` with statuses `s`
and `t`: `run_conditional` runs `b` exactly when `s = 1` and returns `t` then and `s`
otherwise, while short-circuit evaluation runs `b` exactly when `s` is not 0.  With `s = 2`
and `t = 0` the code runs `a` alone and returns 2; the specification runs both and returns
0.  With `s = 1` the two agree. -/
theorem or_needs_status_one (s t : Int) :
    (run_conditional (or_chain s t)).1 = (if s = 1 then t else s) ∧
    (run_conditional (or_chain s t)).2.2 = [true, decide (s = 1)] ∧
    spec_conditional (or_chain s t) = (if s ≠ 0 then t else s, [true, decide (s ≠ 0)]) ∧
    run_conditional (or_chain 2 0) = (2, false, [true, false]) ∧
    spec_conditional (or_chain 2 0) = (0, [true, true]) ∧
    run_conditional (or_chain 1 0) = (0, true, [true, true]) := by
  refine ⟨?_, ?_, ?_, by decide, by decide, by decide⟩
  · show (if decide ((if true = true then (1 : Int) else 0) = if true = true then s else 0) = true
        then t else if true = true then s else 0) = _
    by_cases h : s = 1
    · subst h; rfl
    · have h2 : ¬ ((1 : Int) = s) := fun e => h e.symm
      simp [h, h2]
  · show [] ++ [true] ++ [decide ((if true = true then (1 : Int) else 0)
        = if true = true then s else 0)] = _
    by_cases h : s = 1
    · subst h; rfl
    · have h2 : ¬ ((1 : Int) = s) := fun e => h e.symm
      simp [h, h2]
  · show spec_loop [⟨false, t⟩] true s [true] = _
    unfold spec_loop
    by_cases h : s = 0
    · subst h; rfl
    · simp [h, spec_loop]

/-- With statuses 0 and 1 only, the loop of `run_conditional` decides as the specification
does. -/
theorem run_loop_agrees :
    ∀ (ps : List pipeline) (pip : pipeline) (last : Int) (is_or : Bool) (ran : List Bool),
      (last = 0 ∨ last = 1) → (pip.status = 0 ∨ pip.status = 1) →
      (∀ p ∈ ps, p.status = 0 ∨ p.status = 1) →
      ((run_loop ps pip last (decide ((if is_or = true then (1 : Int) else 0) = last)) ran).1,
        (run_loop ps pip last (decide ((if is_or = true then (1 : Int) else 0) = last)) ran).2.2)
        = spec_loop (pip :: ps) is_or last ran := by
  intro ps
  induction ps with
  | nil =>
    intro pip last is_or ran hl hp _
    unfold run_loop spec_loop spec_loop
    cases is_or <;> rcases hl with h | h <;> subst h <;> simp
  | cons p ps ih =>
    intro pip last is_or ran hl hp hps
    have hp1 := hps p (List.mem_cons_self _ _)
    have hps1 : ∀ q ∈ ps, q.status = 0 ∨ q.status = 1 :=
      fun q hq => hps q (List.mem_cons_of_mem _ hq)
    unfold run_loop
    conv_rhs => unfold spec_loop
    cases is_or <;> rcases hl with h | h <;> subst h <;> simp <;>
      first
      | simpa using ih p pip.status pip.next_is_or (ran ++ [true]) hp hp1 hps1
      | simpa using ih p 0 pip.next_is_or (ran ++ [false]) (Or.inl rfl) hp1 hps1
      | simpa using ih p 1 pip.next_is_or (ran ++ [false]) (Or.inr rfl) hp1 hps1

/-- With statuses 0 and 1 only, `run_conditional` on a chain as `parse_line` builds it
runs the pipelines and returns the value that the specification describes. -/
theorem run_conditional_agrees (con : conditional) (hnext : con.next = true)
    (h0 : con.pipeline_child.status = 0 ∨ con.pipeline_child.status = 1)
    (hrest : ∀ p ∈ con.rest, p.status = 0 ∨ p.status = 1) :
    ((run_conditional con).1, (run_conditional con).2.2) = spec_conditional con := by
  unfold run_conditional spec_conditional
  rw [hnext]
  cases hr : con.rest with
  | nil =>
    unfold run_loop spec_loop
    simp
  | cons p ps =>
    rw [hr] at hrest
    have := run_loop_agrees ps p con.pipeline_child.status con.pipeline_child.next_is_or [true]
      h0 (hrest p (List.mem_cons_self _ _)) (fun q hq => hrest q (List.mem_cons_of_mem _ hq))
    rw [← this]
    conv_lhs => unfold run_loop
    simp
end Sh61

namespace Pset6

/-! ## io61_try_lock -/

/-- What `find` returns: -1 when no region has the number, the index of one that has it
otherwise. -/
theorem find_from_spec (n : Int) :
    ∀ (map : List map_region) (i : Int), 0 ≤ i →
      (find_from n map i = -1 ∧ ∀ r ∈ map, r.reg_num ≠ n) ∨
      (i ≤ find_from n map i ∧ find_from n map i < i + map.length ∧
        ∃ r, map[(find_from n map i - i).toNat]? = some r ∧ r.reg_num = n) := by
  intro map
  induction map with
  | nil =>
    intro i _
    exact Or.inl ⟨rfl, fun r hr => absurd hr (List.not_mem_nil _)⟩
  | cons r rs ih =>
    intro i hi
    unfold find_from
    by_cases hr : r.reg_num = n
    · rw [if_pos hr]
      refine Or.inr ⟨Int.le_refl _, ?_, r, ?_, hr⟩
      · rw [List.length_cons]; push_cast; omega
      · rw [Int.sub_self]
        exact List.getElem?_cons_zero
    · rw [if_neg hr]
      rcases ih (i + 1) (by omega) with ⟨h1, h2⟩ | ⟨h1, h2, r2, h3, h4⟩
      · refine Or.inl ⟨h1, ?_⟩
        intro x hx
        rcases List.mem_cons.mp hx with hx | hx
        · rw [hx]; exact hr
        · exact h2 x hx
      · refine Or.inr ⟨by omega, ?_, r2, ?_, h4⟩
        · rw [List.length_cons]; push_cast; omega
        · have : (find_from n rs (i + 1) - i).toNat = (find_from n rs (i + 1) - (i + 1)).toNat + 1 := by
            omega
          rw [this, List.getElem?_cons_succ]
          exact h3

/-- A number that `find` finds is the number of a region at the index it returns. -/
theorem find_found (map : List map_region) (n : Int) (h : find map n ≠ -1) :
    ∃ r, at_index map (find map n) = some r ∧ r.reg_num = n := by
  unfold find at h ⊢
  rcases find_from_spec n map 0 (Int.le_refl _) with ⟨h1, _⟩ | ⟨h1, h2, r, h3, h4⟩
  · exact absurd h1 h
  · refine ⟨r, ?_, h4⟩
    unfold at_index
    rw [Int.sub_zero] at h3
    rw [if_neg (by omega), h3]

/-- The loop of `may_overlap_with_other_lock` ends, adds only unlocked regions, and when
it answers `false` every region it was asked about is in `rmap`. -/
theorem overlap_loop_spec (me : Nat) :
    ∀ (ris : List Int) (rmap : List map_region),
      ∃ b rmap1, overlap_loop me ris rmap = some (b, rmap1) ∧
        (∀ r ∈ rmap1, r ∈ rmap ∨ r.locked = 0) ∧ (∀ r ∈ rmap, r ∈ rmap1) ∧
        (b = false → ∀ ri ∈ ris, ∃ r ∈ rmap1, r.reg_num = ri) := by
  intro ris
  induction ris with
  | nil =>
    intro rmap
    exact ⟨false, rmap, rfl, fun r hr => Or.inl hr, fun r hr => hr,
      fun _ ri hri => absurd hri (List.not_mem_nil _)⟩
  | cons ri ris ih =>
    intro rmap
    unfold overlap_loop
    by_cases hf : find rmap ri = -1
    · rw [if_pos hf]
      obtain ⟨b, rmap1, h1, h2, h3, h4⟩ := ih (rmap ++ [⟨ri, me, 0⟩])
      refine ⟨b, rmap1, h1, ?_, fun r hr => h3 r (List.mem_append_left _ hr), ?_⟩
      · intro r hr
        rcases h2 r hr with h | h
        · rcases List.mem_append.mp h with h | h
          · exact Or.inl h
          · rw [List.mem_singleton.mp h]; exact Or.inr rfl
        · exact Or.inr h
      · intro hb x hx
        rcases List.mem_cons.mp hx with hx | hx
        · exact ⟨⟨ri, me, 0⟩, h3 _ (List.mem_append_right _ (List.mem_singleton_self _)), hx.symm⟩
        · exact h4 hb x hx
    · rw [if_neg hf]
      obtain ⟨region, hreg, hnum⟩ := find_found rmap ri hf
      rw [hreg]
      simp only []
      by_cases hl : region.locked > 0 ∧ region.owner ≠ me
      · rw [if_pos hl]
        exact ⟨true, rmap, rfl, fun r hr => Or.inl hr, fun r hr => hr,
          fun hb => Bool.noConfusion hb⟩
      · rw [if_neg hl]
        obtain ⟨b, rmap1, h1, h2, h3, h4⟩ := ih rmap
        refine ⟨b, rmap1, h1, h2, h3, ?_⟩
        intro hb x hx
        rcases List.mem_cons.mp hx with hx | hx
        · have hmem : region ∈ rmap := by
            unfold at_index at hreg
            split_ifs at hreg
            exact List.getElem?_mem hreg
          exact ⟨region, h3 _ hmem, by rw [hx]; exact hnum⟩
        · exact h4 hb x hx

/-- A region number that is in `rmap` is found. -/
theorem find_of_mem (map : List map_region) (n : Int) (h : ∃ r ∈ map, r.reg_num = n) :
    find map n ≠ -1 := by
  unfold find
  rcases find_from_spec n map 0 (Int.le_refl _) with ⟨_, h2⟩ | ⟨h1, _⟩
  · obtain ⟨r, hr, hn⟩ := h
    exact absurd hn (h2 r hr)
  · omega

/-- The region numbers of a range that does not leave the `int` values. -/
theorem regions_ne_nil (start len : Int) (hstart : 0 ≤ start) (hlen : 0 < len)
    (hrange : start + len ≤ 2 ^ 35) :
    ∃ ri ris, regions (file_region start) (file_region (start + len - 1)) = ri :: ris := by
  have h1 : file_region start = start / 16 := by
    unfold file_region to_int FINELOCKSIZE
    rw [Int.tdiv_eq_ediv hstart (by decide)]
    omega
  have h2 : file_region (start + len - 1) = (start + len - 1) / 16 := by
    unfold file_region to_int FINELOCKSIZE
    rw [Int.tdiv_eq_ediv (by omega) (by decide)]
    omega
  rw [h1, h2]
  unfold regions
  have h3 : ((start + len - 1) / 16 - start / 16 + 1).toNat
      = ((start + len - 1) / 16 - start / 16).toNat + 1 := by omega
  rw [h3, List.range_succ_eq_map]
  exact ⟨_, _, rfl⟩

/-- C33. `io61_try_lock` never acquires a lock.  For every file, thread and lock type,
every `start >= 0` and every `len > 0` whose region numbers fit in an `int`, the call
returns -1, whether or not a region of the range is locked by another thread: after
`may_overlap_with_other_lock` has answered `false` every region of the range is in `rmap`,
and the loop returns -1 at the first region that `find` finds.  The regions that were in
`rmap` stay as they were, and only regions with lock count 0 are added. -/
theorem try_lock_never_acquires (f : io61_file) (me : Nat) (start len locktype : Int)
    (hstart : 0 ≤ start) (hlen : 0 < len) (hrange : start + len ≤ 2 ^ 35)
    (htype : locktype = LOCK_EX ∨ locktype = LOCK_SH) :
    ∃ f1, io61_try_lock f me start len locktype = some (-1, f1) ∧
      (∀ r ∈ f1.rmap, r ∈ f.rmap ∨ r.locked = 0) ∧ ∀ r ∈ f.rmap, r ∈ f1.rmap := by
  unfold io61_try_lock
  rw [if_neg (by rw [not_not]; exact ⟨hstart, Int.le_of_lt hlen⟩), if_neg (by rw [not_not]; exact htype),
    if_neg (by omega)]
  unfold may_overlap_with_other_lock
  obtain ⟨b, rmap1, h1, h2, h3, h4⟩ :=
    overlap_loop_spec me (regions (file_region start) (file_region (start + len - 1))) f.rmap
  rw [h1]
  cases b with
  | true => exact ⟨_, rfl, h2, h3⟩
  | false =>
    obtain ⟨ri, ris, hr⟩ := regions_ne_nil start len hstart hlen hrange
    have hfound : find rmap1 ri ≠ -1 :=
      find_of_mem rmap1 ri (h4 rfl ri (by rw [hr]; exact List.mem_cons_self _ _))
    simp only [Option.map_some']
    rw [hr]
    unfold lock_loop
    rw [if_pos hfound]
    exact ⟨_, rfl, h2, h3⟩

/-- Thread 7 asks for an exclusive lock on the bytes 0 to 15 of a file without locks. -/
theorem try_lock_never_acquires_witness :
    io61_try_lock f_unlocked 7 0 16 LOCK_EX = some (-1, ⟨[⟨0, 7, 0⟩]⟩) ∧
    ∃ f1, io61_try_lock f_unlocked 7 0 16 LOCK_EX = some (-1, f1) ∧
      (∀ r ∈ f1.rmap, r ∈ f_unlocked.rmap ∨ r.locked = 0) ∧ ∀ r ∈ f_unlocked.rmap, r ∈ f1.rmap :=
  ⟨by decide!,
    try_lock_never_acquires f_unlocked 7 0 16 LOCK_EX (by decide) (by decide) (by decide)
      (Or.inl rfl)⟩

end Pset6
